import Mathlib

/-! Shallow embedding of the 256-bit unsigned arithmetic of `u256.go`.

A `uint64` is a natural number below `2^64`; wrapping machine operations carry an explicit
`% 2^64`.  A Go panic is the `none` of an `Option`.  A slice is a `List Nat`, least significant
limb first; a function that writes through a slice returns the updated slice.
-/

namespace U256

/-! ## 64-bit primitives (`bits.go`) -/

/-- Modelled from the spec: `Add64` lives in `bits.go`, which is not among the sources; it is the
64-bit add-with-carry of the carry chain of §4.1: `sum = x + y + carry mod 2^64`, and `carryOut`
is the bit that left the limb. -/
def Add64 (x y carry : Nat) : Nat × Nat :=
  ((x + y + carry) % 2 ^ 64, (x + y + carry) / 2 ^ 64)

/-- Modelled from the spec: `Sub64` lives in `bits.go`, which is not among the sources; it is the
64-bit subtract-with-borrow of the borrow chain of §4.1: `diff = x - y - borrow mod 2^64`, and
`borrowOut` is 1 exactly when `x < y + borrow`. -/
def Sub64 (x y borrow : Nat) : Nat × Nat :=
  ((x + 2 * 2 ^ 64 - y - borrow) % 2 ^ 64, if x < y + borrow then 1 else 0)

/-- Modelled from the spec: `Mul64` lives in `bits.go`, which is not among the sources; it is the
full 64×64→128 multiply, returned as `(hi, lo)`. -/
def Mul64 (x y : Nat) : Nat × Nat :=
  (x * y / 2 ^ 64, x * y % 2 ^ 64)

/-- Modelled from the spec: `Div64` lives in `bits.go`, which is not among the sources; it is the
native 2-limb-by-1-limb divide of `hi*2^64 + lo` by `y`, which panics for `y = 0` (`errDivide`)
and for `y <= hi` (`errOverflow`, the quotient would not fit a limb). -/
def Div64 (hi lo y : Nat) : Option (Nat × Nat) :=
  if y = 0 then none
  else if y ≤ hi then none
  else some ((hi * 2 ^ 64 + lo) / y, (hi * 2 ^ 64 + lo) % y)

/-- Bit length of `x`, for `x < 2^fuel`. -/
def lenBits : Nat → Nat → Nat
  | 0, _ => 0
  | fuel + 1, x => if x = 0 then 0 else lenBits fuel (x / 2) + 1

/-- Modelled from the spec: `LeadingZeros64` lives in `bits.go`, which is not among the sources;
it is the count of leading zero bits of a limb (§4.2 step 4), 64 for the limb 0. -/
def LeadingZeros64 (x : Nat) : Nat :=
  64 - lenBits 64 x

/-- Go `x << s` on a `uint64`. -/
def shl64 (x s : Nat) : Nat := (x * 2 ^ s) % 2 ^ 64

/-- Go `x >> s` on a `uint64`. -/
def shr64 (x s : Nat) : Nat := x / 2 ^ s

/-- Go `^x` on a `uint64`. -/
def not64 (x : Nat) : Nat := 2 ^ 64 - 1 - x

/-- Go `x + y` on `uint64` (wrapping). -/
def wadd (x y : Nat) : Nat := (x + y) % 2 ^ 64

/-- Go `x - y` on `uint64` (wrapping). -/
def wsub (x y : Nat) : Nat := (x + 2 ^ 64 - y % 2 ^ 64) % 2 ^ 64

/-- Go `x * y` on `uint64` (wrapping). -/
def wmul (x y : Nat) : Nat := (x * y) % 2 ^ 64

/-! ## The `Uint` type -/

/-- `type Uint struct { arr [4]uint64 }`, little-endian: `arr3` is the most significant limb. -/
structure Uint where
  arr0 : Nat
  arr1 : Nat
  arr2 : Nat
  arr3 : Nat
deriving DecidableEq, Repr

/-- Every limb is a `uint64`. -/
def Uint.WF (z : Uint) : Prop :=
  z.arr0 < 2 ^ 64 ∧ z.arr1 < 2 ^ 64 ∧ z.arr2 < 2 ^ 64 ∧ z.arr3 < 2 ^ 64

instance (z : Uint) : Decidable z.WF := by
  unfold Uint.WF; infer_instance

/-- The value of a `Uint`: the sum of `limb[i] * 2^(64 i)`. -/
def Uint.toNat (z : Uint) : Nat :=
  z.arr0 + z.arr1 * 2 ^ 64 + z.arr2 * 2 ^ 128 + z.arr3 * 2 ^ 192

/-- The slice `z.arr[:]`. -/
def Uint.arr (z : Uint) : List Nat := [z.arr0, z.arr1, z.arr2, z.arr3]

/-- The `Uint` whose array holds the first four limbs of a slice (missing limbs are 0). -/
def Uint.ofLimbs (l : List Nat) : Uint :=
  ⟨l.getD 0 0, l.getD 1 0, l.getD 2 0, l.getD 3 0⟩

/-- The value of a slice of limbs, least significant first. -/
def limbsVal : List Nat → Nat
  | [] => 0
  | x :: xs => x + 2 ^ 64 * limbsVal xs

/-- Every limb of the slice is a `uint64`. -/
def limbsOK (l : List Nat) : Prop := ∀ x ∈ l, x < 2 ^ 64

/-- The 256-bit value `v mod 2^256` as a `Uint`. -/
def Uint.ofNat (v : Nat) : Uint :=
  ⟨v % 2 ^ 64, v / 2 ^ 64 % 2 ^ 64, v / 2 ^ 128 % 2 ^ 64, v / 2 ^ 192 % 2 ^ 64⟩

def Uint.Uint64 (z : Uint) : Nat := z.arr0

def Uint.SetUint64 (x : Nat) : Uint := ⟨x, 0, 0, 0⟩

def Uint.IsUint64 (z : Uint) : Bool := (z.arr1 ||| z.arr2 ||| z.arr3) == 0

def Uint.IsZero (z : Uint) : Bool := (z.arr0 ||| z.arr1 ||| z.arr2 ||| z.arr3) == 0

def Uint.Clear : Uint := ⟨0, 0, 0, 0⟩

def Uint.SetOne : Uint := ⟨1, 0, 0, 0⟩

/-- `Lt`: the borrow out of the four-limb subtraction `z - x`. -/
def Uint.Lt (z x : Uint) : Bool :=
  let c := (Sub64 z.arr0 x.arr0 0).2
  let c := (Sub64 z.arr1 x.arr1 c).2
  let c := (Sub64 z.arr2 x.arr2 c).2
  let c := (Sub64 z.arr3 x.arr3 c).2
  c != 0

def Uint.Gt (z x : Uint) : Bool := x.Lt z

def Uint.Eq (z x : Uint) : Bool :=
  (z.arr0 == x.arr0) && (z.arr1 == x.arr1) && (z.arr2 == x.arr2) && (z.arr3 == x.arr3)

/-- `Cmp`: -1, 0 or +1. -/
def Uint.Cmp (z x : Uint) : Int :=
  let s0 := Sub64 z.arr0 x.arr0 0
  let s1 := Sub64 z.arr1 x.arr1 s0.2
  let s2 := Sub64 z.arr2 x.arr2 s1.2
  let s3 := Sub64 z.arr3 x.arr3 s2.2
  if s3.2 = 1 then -1
  else if (s0.1 ||| s1.1 ||| s2.1 ||| s3.1) = 0 then 0
  else 1

/-! ## Addition and subtraction -/

/-- `Add`: the checked sum; `none` is the panic "U256 Add overflow".  The panic tests the carry
out of limb 2, since the carry out of limb 3 is discarded (`z.arr[3], _ = ...`). -/
def Uint.Add (x y : Uint) : Option Uint :=
  let s0 := Add64 x.arr0 y.arr0 0
  let s1 := Add64 x.arr1 y.arr1 s0.2
  let s2 := Add64 x.arr2 y.arr2 s1.2
  let s3 := Add64 x.arr3 y.arr3 s2.2
  if s2.2 ≠ 0 then none else some ⟨s0.1, s1.1, s2.1, s3.1⟩

def Uint.AddOverflow (x y : Uint) : Uint × Bool :=
  let s0 := Add64 x.arr0 y.arr0 0
  let s1 := Add64 x.arr1 y.arr1 s0.2
  let s2 := Add64 x.arr2 y.arr2 s1.2
  let s3 := Add64 x.arr3 y.arr3 s2.2
  (⟨s0.1, s1.1, s2.1, s3.1⟩, s3.2 != 0)

def Uint.SubOverflow (x y : Uint) : Uint × Bool :=
  let s0 := Sub64 x.arr0 y.arr0 0
  let s1 := Sub64 x.arr1 y.arr1 s0.2
  let s2 := Sub64 x.arr2 y.arr2 s1.2
  let s3 := Sub64 x.arr3 y.arr3 s2.2
  (⟨s0.1, s1.1, s2.1, s3.1⟩, s3.2 != 0)

/-- `Sub`: the checked difference; `none` is the panic "U256 Sub underflow".  The panic tests the
borrow out of limb 2, since the borrow out of limb 3 is discarded (`z.arr[3], _ = ...`). -/
def Uint.Sub (x y : Uint) : Option Uint :=
  let s0 := Sub64 x.arr0 y.arr0 0
  let s1 := Sub64 x.arr1 y.arr1 s0.2
  let s2 := Sub64 x.arr2 y.arr2 s1.2
  let s3 := Sub64 x.arr3 y.arr3 s2.2
  if s2.2 ≠ 0 then none else some ⟨s0.1, s1.1, s2.1, s3.1⟩

def Uint.UnsafeSub (x y : Uint) : Uint :=
  let s0 := Sub64 x.arr0 y.arr0 0
  let s1 := Sub64 x.arr1 y.arr1 s0.2
  let s2 := Sub64 x.arr2 y.arr2 s1.2
  let s3 := Sub64 x.arr3 y.arr3 s2.2
  ⟨s0.1, s1.1, s2.1, s3.1⟩

/-! ## Multiplication -/

/-- `umulStep` computes `(hi * 2^64 + lo) = z + (x * y) + carry`. -/
def umulStep (z x y carry : Nat) : Nat × Nat :=
  let hi := (Mul64 x y).1
  let lo := (Mul64 x y).2
  let a := Add64 lo carry 0
  let hi := (Add64 hi 0 a.2).1
  let b := Add64 a.1 z 0
  let hi := (Add64 hi 0 b.2).1
  (hi, b.1)

/-- `umulHop` computes `(hi * 2^64 + lo) = z + (x * y)`. -/
def umulHop (z x y : Nat) : Nat × Nat :=
  let hi := (Mul64 x y).1
  let lo := (Mul64 x y).2
  let a := Add64 lo z 0
  let hi := (Add64 hi 0 a.2).1
  (hi, a.1)

/-- `Mul`: the (unchecked) product, computed limb by limb; there is no panic in the source. -/
def Uint.Mul (x y : Uint) : Option Uint :=
  let m0 := Mul64 x.arr0 y.arr0
  let carry := m0.1
  let r0 := m0.2
  let h := umulHop carry x.arr1 y.arr0
  let carry := h.1
  let res1 := h.2
  let h := umulHop carry x.arr2 y.arr0
  let carry := h.1
  let res2 := h.2
  let res3 := wadd (wmul x.arr3 y.arr0) carry
  let h := umulHop res1 x.arr0 y.arr1
  let carry := h.1
  let r1 := h.2
  let h := umulStep res2 x.arr1 y.arr1 carry
  let carry := h.1
  let res2 := h.2
  let res3 := wadd (wadd res3 (wmul x.arr2 y.arr1)) carry
  let h := umulHop res2 x.arr0 y.arr2
  let carry := h.1
  let r2 := h.2
  let res3 := wadd (wadd res3 (wmul x.arr1 y.arr2)) carry
  let r3 := wadd res3 (wmul x.arr0 y.arr3)
  some ⟨r0, r1, r2, r3⟩

/-- `umul` computes the full 256 x 256 -> 512 multiplication, as eight limbs. -/
def umul (x y : Uint) : List Nat :=
  let m0 := Mul64 x.arr0 y.arr0
  let carry := m0.1
  let r0 := m0.2
  let h := umulHop carry x.arr1 y.arr0
  let carry := h.1
  let res1 := h.2
  let h := umulHop carry x.arr2 y.arr0
  let carry := h.1
  let res2 := h.2
  let h := umulHop carry x.arr3 y.arr0
  let carry4 := h.1
  let res3 := h.2
  let h := umulHop res1 x.arr0 y.arr1
  let carry := h.1
  let r1 := h.2
  let h := umulStep res2 x.arr1 y.arr1 carry
  let carry := h.1
  let res2 := h.2
  let h := umulStep res3 x.arr2 y.arr1 carry
  let carry := h.1
  let res3 := h.2
  let h := umulStep carry4 x.arr3 y.arr1 carry
  let carry5 := h.1
  let res4 := h.2
  let h := umulHop res2 x.arr0 y.arr2
  let carry := h.1
  let r2 := h.2
  let h := umulStep res3 x.arr1 y.arr2 carry
  let carry := h.1
  let res3 := h.2
  let h := umulStep res4 x.arr2 y.arr2 carry
  let carry := h.1
  let res4 := h.2
  let h := umulStep carry5 x.arr3 y.arr2 carry
  let carry6 := h.1
  let res5 := h.2
  let h := umulHop res3 x.arr0 y.arr3
  let carry := h.1
  let r3 := h.2
  let h := umulStep res4 x.arr1 y.arr3 carry
  let carry := h.1
  let r4 := h.2
  let h := umulStep res5 x.arr2 y.arr3 carry
  let carry := h.1
  let r5 := h.2
  let h := umulStep carry6 x.arr3 y.arr3 carry
  [r0, r1, r2, r3, r4, r5, h.2, h.1]

/-- `MulOverflow`: the low four limbs of `umul`, and whether a high limb is nonzero. -/
def Uint.MulOverflow (x y : Uint) : Uint × Bool :=
  let p := umul x y
  (Uint.ofLimbs (p.take 4),
   (p.getD 4 0 ||| p.getD 5 0 ||| p.getD 6 0 ||| p.getD 7 0) != 0)

/-! ## Division -/

/-- The loop `for i := len(u) - 1; i >= 0; i-- { if u[i] != 0 { n = i + 1; break } }`, entered
with `i + 1 = k`: the number of limbs up to the most significant nonzero one (0 if there is
none). -/
def sigLen (u : List Nat) : Nat → Nat
  | 0 => 0
  | i + 1 => if u.getD i 0 ≠ 0 then i + 1 else sigLen u i

/-- `reciprocal2by1` computes `<^d, ^0> / d`; it panics where `Div64` does. -/
def reciprocal2by1 (d : Nat) : Option Nat :=
  match Div64 (not64 d) (not64 0) d with
  | some (reciprocal, _) => some reciprocal
  | none => none

/-- `udivrem2by1` divides `<uh, ul> / d` and produces both quotient and remainder, using the
provided reciprocal of `d`. -/
def udivrem2by1 (uh ul d reciprocal : Nat) : Nat × Nat :=
  let qh := (Mul64 reciprocal uh).1
  let ql := (Mul64 reciprocal uh).2
  let a := Add64 ql ul 0
  let ql := a.1
  let qh := (Add64 qh uh a.2).1
  let qh := wadd qh 1
  let r := wsub ul (wmul qh d)
  let qh1 := if r > ql then wsub qh 1 else qh
  let r1 := if r > ql then wadd r d else r
  let qh2 := if r1 ≥ d then wadd qh1 1 else qh1
  let r2 := if r1 ≥ d then wsub r1 d else r1
  (qh2, r2)

/-- The loop of `udivremBy1`, `for j := len(u) - 2; j >= 0; j--`, entered with `j + 1 = k`. -/
def udivremBy1Loop (u : List Nat) (d reciprocal : Nat) : Nat → List Nat → Nat → List Nat × Nat
  | 0, quot, rem => (quot, rem)
  | j + 1, quot, rem =>
    let qr := udivrem2by1 rem (u.getD j 0) d reciprocal
    udivremBy1Loop u d reciprocal j (quot.set j qr.1) qr.2

/-- `udivremBy1` divides `u` by the single normalized word `d`; returns the updated `quot` and
the remainder. -/
def udivremBy1 (quot u : List Nat) (d : Nat) : Option (List Nat × Nat) :=
  match reciprocal2by1 d with
  | none => none
  | some reciprocal =>
    some (udivremBy1Loop u d reciprocal (u.length - 1) quot (u.getD (u.length - 1) 0))

/-- `addTo` computes `x += y` over the first `len(y)` limbs of `x`; returns the updated `x` and
the carry.  The third argument is the running carry of the loop. -/
def addTo : List Nat → List Nat → Nat → List Nat × Nat
  | x, [], carry => (x, carry)
  | [], _ :: _, carry => ([], carry)
  | xi :: xs, yi :: ys, carry =>
    let a := Add64 xi yi carry
    let rest := addTo xs ys a.2
    (a.1 :: rest.1, rest.2)

/-- `subMulTo` computes `x -= y * multiplier` over the first `len(y)` limbs of `x`; returns the
updated `x` and the borrow.  The last argument is the running borrow of the loop. -/
def subMulTo : List Nat → List Nat → Nat → Nat → List Nat × Nat
  | x, [], _, borrow => (x, borrow)
  | [], _ :: _, _, borrow => ([], borrow)
  | xi :: xs, yi :: ys, multiplier, borrow =>
    let s := Sub64 xi borrow 0
    let p := Mul64 yi multiplier
    let t := Sub64 s.1 p.2 0
    let rest := subMulTo xs ys multiplier (wadd (wadd p.1 s.2) t.2)
    (t.1 :: rest.1, rest.2)

/-- One iteration of the loop of `udivremKnuth`, at index `j`; returns the updated `quot` and
`u`. -/
def udivremKnuthStep (d : List Nat) (dh dl reciprocal : Nat) (j : Nat) (quot u : List Nat) :
    List Nat × List Nat :=
  let u2 := u.getD (j + d.length) 0
  let u1 := u.getD (j + d.length - 1) 0
  let u0 := u.getD (j + d.length - 2) 0
  let qhat :=
    if u2 ≥ dh then not64 0
    else
      let qr := udivrem2by1 u2 u1 dh reciprocal
      let p := Mul64 qr.1 dl
      if p.1 > qr.2 ∨ (p.1 = qr.2 ∧ p.2 > u0) then wsub qr.1 1 else qr.1
  let sm := subMulTo (u.drop j) d qhat 0
  let borrow := sm.2
  let u := (u.take j ++ sm.1).set (j + d.length) (wsub u2 borrow)
  if u2 < borrow then
    let ad := addTo (u.drop j) d 0
    let u := (u.take j ++ ad.1).set (j + d.length) (wadd (u.getD (j + d.length) 0) ad.2)
    (quot.set j (wsub qhat 1), u)
  else
    (quot.set j qhat, u)

/-- The loop of `udivremKnuth`, `for j := len(u) - len(d) - 1; j >= 0; j--`, entered with
`j + 1 = k`. -/
def udivremKnuthLoop (d : List Nat) (dh dl reciprocal : Nat) :
    Nat → List Nat → List Nat → List Nat × List Nat
  | 0, quot, u => (quot, u)
  | j + 1, quot, u =>
    let s := udivremKnuthStep d dh dl reciprocal j quot u
    udivremKnuthLoop d dh dl reciprocal j s.1 s.2

/-- `udivremKnuth` divides `u` by the normalized multiple-word `d`; returns the updated `quot`
and `u`, which then holds the remainder in its low `len(d)` limbs. -/
def udivremKnuth (quot u d : List Nat) : Option (List Nat × List Nat) :=
  let dh := d.getD (d.length - 1) 0
  let dl := d.getD (d.length - 2) 0
  match reciprocal2by1 dh with
  | none => none
  | some reciprocal => some (udivremKnuthLoop d dh dl reciprocal (u.length - d.length) quot u)

/-- `udivrem` divides `u` by `d`; returns the updated `quot` and the remainder.  `none` is a
panic: the index `d.arr[dLen-1]` for `d = 0`, or a panic of `Div64`. -/
def udivrem (quot u : List Nat) (d : Uint) : Option (List Nat × Uint) :=
  let dLen := sigLen d.arr 4
  if dLen = 0 then none
  else
    let shift := LeadingZeros64 (d.arr.getD (dLen - 1) 0)
    let dn := (List.range dLen).map fun i =>
      if i = 0 then shl64 (d.arr.getD 0 0) shift
      else shl64 (d.arr.getD i 0) shift ||| shr64 (d.arr.getD (i - 1) 0) (64 - shift)
    let uLen := sigLen u u.length
    if uLen < dLen then some (quot, Uint.ofLimbs u)
    else
      let un := (List.range (uLen + 1)).map fun i =>
        if i = uLen then shr64 (u.getD (uLen - 1) 0) (64 - shift)
        else if i = 0 then shl64 (u.getD 0 0) shift
        else shl64 (u.getD i 0) shift ||| shr64 (u.getD (i - 1) 0) (64 - shift)
      if dLen = 1 then
        match udivremBy1 quot un (dn.getD 0 0) with
        | none => none
        | some qr => some (qr.1, Uint.SetUint64 (shr64 qr.2 shift))
      else
        match udivremKnuth quot un dn with
        | none => none
        | some qu =>
          let un := qu.2
          let rem := (List.range 4).map fun i =>
            if i < dLen - 1 then shr64 (un.getD i 0) shift ||| shl64 (un.getD (i + 1) 0) (64 - shift)
            else if i = dLen - 1 then shr64 (un.getD (dLen - 1) 0) shift
            else 0
          some (qu.1, Uint.ofLimbs rem)

/-- `Div` sets `z` to the quotient `x/y`; if `y == 0`, `z` is set to 0.  `none` is a panic. -/
def Uint.Div (x y : Uint) : Option Uint :=
  if y.IsZero || y.Gt x then some Uint.Clear
  else if x.Eq y then some Uint.SetOne
  else if x.IsUint64 then
    if y.Uint64 = 0 then none else some (Uint.SetUint64 (x.Uint64 / y.Uint64))
  else
    match udivrem [0, 0, 0, 0] x.arr y with
    | none => none
    | some qr => some (Uint.ofLimbs qr.1)

/-- `Mod` sets `z` to the modulus `x%y`; if `y == 0`, `z` is set to 0.  `none` is a panic. -/
def Uint.Mod (x y : Uint) : Option Uint :=
  if x.IsZero || y.IsZero then some Uint.Clear
  else if x.Cmp y = -1 then some x
  else if x.Cmp y = 0 then some Uint.Clear
  else if x.IsUint64 then
    if y.Uint64 = 0 then none else some (Uint.SetUint64 (x.Uint64 % y.Uint64))
  else
    match udivrem [0, 0, 0, 0] x.arr y with
    | none => none
    | some qr => some qr.2

/-! ## Shifts -/

def NewUint (val : Nat) : Uint := ⟨val, 0, 0, 0⟩

def Uint.lsh64 (x : Uint) : Uint := ⟨0, x.arr0, x.arr1, x.arr2⟩

def Uint.lsh128 (x : Uint) : Uint := ⟨0, 0, x.arr0, x.arr1⟩

def Uint.lsh192 (x : Uint) : Uint := ⟨0, 0, 0, x.arr0⟩

def Uint.rsh64 (x : Uint) : Uint := ⟨x.arr1, x.arr2, x.arr3, 0⟩

def Uint.rsh128 (x : Uint) : Uint := ⟨x.arr2, x.arr3, 0, 0⟩

def Uint.rsh192 (x : Uint) : Uint := ⟨x.arr3, 0, 0, 0⟩

/-- The code of `Lsh` from the label `sh192` to the end. -/
def Uint.lshFrom192 (z : Uint) (n a : Nat) : Uint :=
  ⟨z.arr0, z.arr1, z.arr2, shl64 z.arr3 n ||| a⟩

/-- The code of `Lsh` from the label `sh128` to the end. -/
def Uint.lshFrom128 (z : Uint) (n b : Nat) : Uint :=
  let a := shr64 z.arr2 (64 - n)
  Uint.lshFrom192 ⟨z.arr0, z.arr1, shl64 z.arr2 n ||| b, z.arr3⟩ n a

/-- The code of `Lsh` from the label `sh64` to the end. -/
def Uint.lshFrom64 (z : Uint) (n a : Nat) : Uint :=
  let b := shr64 z.arr1 (64 - n)
  Uint.lshFrom128 ⟨z.arr0, shl64 z.arr1 n ||| a, z.arr2, z.arr3⟩ n b

/-- `Lsh` sets `z = x << n`.  The variables `a` and `b` are 0 until they are assigned. -/
def Uint.Lsh (x : Uint) (n : Nat) : Uint :=
  if n &&& 0x3f = 0 then
    if n = 0 then x
    else if n = 64 then x.lsh64
    else if n = 128 then x.lsh128
    else if n = 192 then x.lsh192
    else Uint.Clear
  else if n > 192 then
    if n > 256 then Uint.Clear
    else x.lsh192.lshFrom192 (n - 192) 0
  else if n > 128 then x.lsh128.lshFrom128 (n - 128) 0
  else if n > 64 then x.lsh64.lshFrom64 (n - 64) 0
  else
    let a := shr64 x.arr0 (64 - n)
    Uint.lshFrom64 ⟨shl64 x.arr0 n, x.arr1, x.arr2, x.arr3⟩ n a

/-- The code of `Rsh` from the label `sh192` to the end. -/
def Uint.rshFrom192 (z : Uint) (n a : Nat) : Uint :=
  ⟨shr64 z.arr0 n ||| a, z.arr1, z.arr2, z.arr3⟩

/-- The code of `Rsh` from the label `sh128` to the end. -/
def Uint.rshFrom128 (z : Uint) (n b : Nat) : Uint :=
  let a := shl64 z.arr1 (64 - n)
  Uint.rshFrom192 ⟨z.arr0, shr64 z.arr1 n ||| b, z.arr2, z.arr3⟩ n a

/-- The code of `Rsh` from the label `sh64` to the end. -/
def Uint.rshFrom64 (z : Uint) (n a : Nat) : Uint :=
  let b := shl64 z.arr2 (64 - n)
  Uint.rshFrom128 ⟨z.arr0, z.arr1, shr64 z.arr2 n ||| a, z.arr3⟩ n b

/-- `Rsh` sets `z = x >> n`.  The variables `a` and `b` are 0 until they are assigned. -/
def Uint.Rsh (x : Uint) (n : Nat) : Uint :=
  if n &&& 0x3f = 0 then
    if n = 0 then x
    else if n = 64 then x.rsh64
    else if n = 128 then x.rsh128
    else if n = 192 then x.rsh192
    else Uint.Clear
  else if n > 192 then
    if n > 256 then Uint.Clear
    else x.rsh192.rshFrom192 (n - 192) 0
  else if n > 128 then x.rsh128.rshFrom128 (n - 128) 0
  else if n > 64 then x.rsh64.rshFrom64 (n - 64) 0
  else
    let a := shl64 x.arr3 (64 - n)
    Uint.rshFrom64 ⟨x.arr0, x.arr1, x.arr2, shr64 x.arr3 n⟩ n a

/-! ## Text conversion

A Go `string` is the list of its bytes.  `'+'` is 43, `'0'`..`'9'` are 48..57, `'A'`..`'F'` are
65..70, `'X'` is 88, `'a'`..`'f'` are 97..102, `'x'` is 120, `'z'` is 122. -/

/-- The bytes of an ASCII literal. -/
def ascii (s : String) : List Nat := s.data.map Char.toNat

/-- The error values of the parsers: the six named errors that hex and decimal parsing return,
`errors.New("EOF")` of `fromDecimal`, and the three `errors.New` values of `parseUint`
("syntax error: ParseUint empty string", "syntax error", "range error"). -/
inductive Err where
  | ErrEmptyString
  | ErrSyntax
  | ErrMissingPrefix
  | ErrEmptyNumber
  | ErrLeadingZero
  | ErrBig256Range
  | EOF
  | parseUintEmpty
  | parseUintSyntaxError
  | parseUintRangeError
deriving DecidableEq, Repr

/-- The table `bintable`: the nibble of every byte, `0xff` for a byte that is no hex digit. -/
def bintable : List Nat :=
  List.replicate 48 0xff ++ [0, 1, 2, 3, 4, 5, 6, 7, 8, 9] ++ List.replicate 7 0xff ++
  [10, 11, 12, 13, 14, 15] ++ List.replicate 26 0xff ++ [10, 11, 12, 13, 14, 15] ++
  List.replicate 153 0xff

def badNibble : Nat := 0xff

/-- The value of a hex digit, upper or lower case; 255 for every other byte. -/
def nibble (c : Nat) : Nat :=
  if 48 ≤ c ∧ c ≤ 57 then c - 48
  else if 65 ≤ c ∧ c ≤ 70 then c - 55
  else if 97 ≤ c ∧ c ≤ 102 then c - 87
  else 255

def checkNumberS (input : List Nat) : Option Err :=
  let l := input.length
  if l = 0 then some Err.ErrEmptyString
  else if l < 2 ∨ input.getD 0 0 ≠ 48 ∨ (input.getD 1 0 ≠ 120 ∧ input.getD 1 0 ≠ 88) then
    some Err.ErrMissingPrefix
  else if l = 2 then some Err.ErrEmptyNumber
  else if input.length > 3 ∧ input.getD 2 0 = 48 then some Err.ErrLeadingZero
  else none

/-- The inner loop of `fromHex`, `for ri := start; ri < end; ri++`, over the bytes
`hex[start:end]`: returns the limb `z.arr[i]` as the loop leaves it, and whether the loop ran to
its end (`false`: it met a bad nibble and returned `ErrSyntax`). -/
def fromHexWindow : List Nat → Nat → Nat × Bool
  | [], limb => (limb, true)
  | c :: cs, limb =>
    let nib := bintable.getD c badNibble
    if nib = badNibble then (limb, false)
    else fromHexWindow cs (wadd (shl64 limb 4) nib)

/-- The outer loop of `fromHex`, `for i := 0; i < 4; i++`, with `k = 4 - i` rounds to go; `stop`
is the variable `end`.  Returns the limbs of `z` and the error.  (`start := end - 16` is an
`int`, set to 2 when below 2; so is the truncated difference.) -/
def fromHexLoop (hex : List Nat) : Nat → Nat → Nat → List Nat → List Nat × Option Err
  | 0, _, _, arr => (arr, none)
  | k + 1, i, stop, arr =>
    let start := if stop - 16 < 2 then 2 else stop - 16
    let w := fromHexWindow ((hex.take stop).drop start) (arr.getD i 0)
    if w.2 then fromHexLoop hex k (i + 1) start (arr.set i w.1)
    else (arr.set i w.1, some Err.ErrSyntax)

/-- `fromHex` parses a hex string into the receiver `z`; returns the receiver after the call
and the error (`none` is `nil`). -/
def Uint.fromHex (z : Uint) (hex : List Nat) : Uint × Option Err :=
  match checkNumberS hex with
  | some err => (z, some err)
  | none =>
    if hex.length > 66 then (z, some Err.ErrBig256Range)
    else
      let r := fromHexLoop hex 4 0 hex.length Uint.Clear.arr
      (Uint.ofLimbs r.1, r.2)

def twoPow256Sub1 : List Nat :=
  ascii "115792089237316195423570985008687907853269984665640564039457584007913129639935"

/-- Go `a < b` on strings: the lexicographic order of the bytes. -/
def strLess : List Nat → List Nat → Bool
  | _, [] => false
  | [], _ :: _ => true
  | a :: as, b :: bs => if a < b then true else if b < a then false else strLess as bs

/-- The value of `i` after `for i, c = range s { if c != '0' { break } }` on a non-empty `s`:
the index of the first byte that is not `'0'`, the last index if there is none.  (A rune that is
not `'0'` starts at a byte that is not `'0'`.) -/
def rangeBreak : List Nat → Nat
  | [] => 0
  | [_] => 0
  | c :: c2 :: cs => if c ≠ 48 then 0 else rangeBreak (c2 :: cs) + 1

/-- `lower(c) = c | ('x' - 'X')`. -/
def lower (c : Nat) : Nat := c ||| (120 - 88)

/-- The loop of `parseUint(s, 10, 64)` over the bytes of `s`, with the running value `n`:
`base0` is false, `cutoff` is `MaxUint64/10 + 1` and `maxVal` is `uint64(1)<<64 - 1`, which is
`MaxUint64`. -/
def parseUintLoop : List Nat → Nat → Except Err Nat
  | [], n => .ok n
  | c :: cs, n =>
    let d : Option Nat :=
      if 48 ≤ c ∧ c ≤ 57 then some (c - 48)
      else if 97 ≤ lower c ∧ lower c ≤ 122 then some (lower c - 97 + 10)
      else none
    match d with
    | none => .error Err.parseUintSyntaxError
    | some d =>
      if d ≥ 10 then .error Err.parseUintSyntaxError
      else if n ≥ (2 ^ 64 - 1) / 10 + 1 then .error Err.parseUintRangeError
      else
        let n := wmul n 10
        let n1 := wadd n d
        if n1 < n ∨ n1 > wsub (shl64 1 64) 1 then .error Err.parseUintRangeError
        else parseUintLoop cs n1

/-- `parseUint(s, 10, 64)`, the only way `parseUint` is called: with `base = 10` the search for
a base marker and the underscore check are not run. -/
def parseUint (s : List Nat) : Except Err Nat :=
  if s = [] then .error Err.parseUintEmpty else parseUintLoop s 0

/-- The table `multipliers`; `none` is the `nil` of the first round. -/
def multipliers : List (Option Uint) :=
  [none,
   some ⟨10000000000000000000, 0, 0, 0⟩,
   some ⟨687399551400673280, 5421010862427522170, 0, 0⟩,
   some ⟨5332261958806667264, 17004971331911604867, 2938735877055718769, 0⟩,
   some ⟨0, 8607968719199866880, 532749306367912313, 1593091911132452277⟩]

/-- The loop of `fromDecimal`, `for i, mult := range multipliers`, over the rounds still to
run.  `none` is a panic (of `Add`); otherwise the receiver and the error.  `remaining` is only
compared with 0 and 19, so it is kept as a natural number (`remaining -= 19` stops at 0). -/
def fromDecimalLoop :
    List (Option Uint) → Nat → Uint → List Nat → Nat → Option (Uint × Option Err)
  | [], _, z, _, _ => some (z, none)
  | mult :: rest, i, z, bs, remaining =>
    if remaining = 0 then some (z, none)
    else
      let r :=
        if remaining > 19 then parseUint ((bs.take remaining).drop (remaining - 19))
        else parseUint bs
      match r with
      | .error err => some (z, some err)
      | .ok num =>
        let z1 : Option Uint :=
          if i = 0 then some (Uint.SetUint64 num)
          else
            match mult with
            | none => none
            | some m =>
              match (NewUint num).Mul m with
              | none => none
              | some p => z.Add p
        match z1 with
        | none => none
        | some z1 =>
          let bs := if remaining > 19 then bs.take (remaining - 19) else bs
          fromDecimalLoop rest (i + 1) z1 bs (remaining - 19)

/-- `fromDecimal` parses a decimal string into the receiver, which it clears first.  `none` is
a panic; otherwise the receiver after the call and the error. -/
def Uint.fromDecimal (_z : Uint) (bs : List Nat) : Option (Uint × Option Err) :=
  let z := Uint.Clear
  let remaining := bs.length
  if remaining = 0 then some (z, some Err.EOF)
  else fromDecimalLoop multipliers 0 z bs remaining

/-- `SetFromDecimal` sets `z` from the string `s`, read as a decimal number.  `none` is a panic;
otherwise the receiver after the call and the error (`none` is `nil`). -/
def Uint.SetFromDecimal (z : Uint) (s : List Nat) : Option (Uint × Option Err) :=
  let s := if s.length > 0 ∧ s.getD 0 0 = 43 then s.drop 1 else s
  let s := if s.length > 0 ∧ s.getD 0 0 = 48 then s.drop (rangeBreak s) else s
  if s.length < twoPow256Sub1.length then z.fromDecimal s
  else if s.length = twoPow256Sub1.length then
    if strLess twoPow256Sub1 s then some (z, some Err.ErrBig256Range)
    else z.fromDecimal s
  else some (z, some Err.ErrBig256Range)

/-- The decimal digits of `n`, most significant first, for `n < 10^fuel`. -/
def decDigits : Nat → Nat → List Nat
  | 0, _ => []
  | fuel + 1, n => if n < 10 then [48 + n] else decDigits fuel (n / 10) ++ [48 + n % 10]

/-- Modelled from the spec: `FormatUint` lives in the `strconv` port, which is not among the
sources; `FormatUint(n, 10)` is the decimal numeral of the `uint64` `n` without leading zeros
(§6, canonical decimal text), at most 20 digits. -/
def FormatUint (n : Nat) : List Nat := decDigits 20 n

/-- Modelled from the spec: `AppendUint` lives in the `strconv` port, which is not among the
sources; `AppendUint(buf, n, 10)` appends the decimal numeral of `n` to `buf`. -/
def AppendUint (buf : List Nat) (n : Nat) : List Nat := buf ++ FormatUint n

/-- Go `copy(dst[k:], src)`: overwrites `dst` from index `k` on, as far as `dst` reaches. -/
def copyAt (dst : List Nat) (k : Nat) (src : List Nat) : List Nat :=
  dst.take k ++ src.take (dst.length - k) ++ dst.drop (k + src.length)

/-- The loop `for { ... }` of `Dec`; `fuel` bounds the number of rounds (`none` when it runs
out).  `none` is also a panic: of `udivrem`, or of the slice `out[pos-len(buf):]` with a
negative bound. -/
def DecLoop : Nat → Uint → List Nat → Nat → Option (List Nat)
  | 0, _, _, _ => none
  | fuel + 1, y, out, pos =>
    match udivrem [0, 0, 0, 0] y.arr (NewUint 10000000000000000000) with
    | none => none
    | some qr =>
      let y := Uint.ofLimbs qr.1
      let buf := AppendUint [] qr.2.Uint64
      if pos < buf.length then none
      else
        let out := copyAt out (pos - buf.length) buf
        if y.IsZero then some (out.drop (pos - buf.length))
        else DecLoop fuel y out (pos - 19)

/-- `Dec` returns the decimal representation of `z`; `fuel` bounds the rounds of its loop. -/
def Uint.Dec (fuel : Nat) (z : Uint) : Option (List Nat) :=
  if z.IsZero then some (ascii "0")
  else if z.IsUint64 then some (FormatUint z.Uint64)
  else DecLoop fuel z (List.replicate 98 48) 98

/-- The number a string of decimal digits denotes. -/
def decVal (s : List Nat) : Nat := s.foldl (fun a c => 10 * a + (c - 48)) 0

/-- The number a string of hex digits denotes. -/
def hexVal (s : List Nat) : Nat := s.foldl (fun a c => 16 * a + nibble c) 0

/-- The group of 16 hex digits number `i` from the right (shorter, or empty, at the left end of
the string). -/
def hexWindow (d : List Nat) (i : Nat) : List Nat :=
  (d.take (d.length - 16 * i)).drop (d.length - 16 * (i + 1))

/-- Every byte is a decimal digit. -/
def isDigits (s : List Nat) : Prop := ∀ c ∈ s, 48 ≤ c ∧ c ≤ 57

instance (s : List Nat) : Decidable (isDigits s) := by
  unfold isDigits; infer_instance

/-- Every byte is a hex digit, upper or lower case. -/
def isHexDigits (s : List Nat) : Prop :=
  ∀ c ∈ s, (48 ≤ c ∧ c ≤ 57) ∨ (65 ≤ c ∧ c ≤ 70) ∨ (97 ≤ c ∧ c ≤ 102)

instance (s : List Nat) : Decidable (isHexDigits s) := by
  unfold isHexDigits; infer_instance

/-! ## Arithmetic right shift -/

/-- `Not` sets `z = ^x`. -/
def Uint.Not (x : Uint) : Uint := ⟨not64 x.arr0, not64 x.arr1, not64 x.arr2, not64 x.arr3⟩

/-- `SetAllOne` sets all the bits of `z` to 1 (`MaxUint64` is `1<<64 - 1`). -/
def Uint.SetAllOne : Uint := ⟨2 ^ 64 - 1, 2 ^ 64 - 1, 2 ^ 64 - 1, 2 ^ 64 - 1⟩

/-- `isBitSet` returns true if bit `n` is set, where `n = 0` is the least significant bit. -/
def Uint.isBitSet (z : Uint) (n : Nat) : Bool :=
  (z.arr.getD (n / 64) 0 &&& shl64 1 (n % 64)) != 0

def Uint.srsh64 (x : Uint) : Uint := ⟨x.arr1, x.arr2, x.arr3, 2 ^ 64 - 1⟩

def Uint.srsh128 (x : Uint) : Uint := ⟨x.arr2, x.arr3, 2 ^ 64 - 1, 2 ^ 64 - 1⟩

def Uint.srsh192 (x : Uint) : Uint := ⟨x.arr3, 2 ^ 64 - 1, 2 ^ 64 - 1, 2 ^ 64 - 1⟩

/-- The code of `SRsh` from the label `sh192` to the end. -/
def Uint.srshFrom192 (z : Uint) (n a : Nat) : Uint :=
  ⟨shr64 z.arr0 n ||| a, z.arr1, z.arr2, z.arr3⟩

/-- The code of `SRsh` from the label `sh128` to the end. -/
def Uint.srshFrom128 (z : Uint) (n a : Nat) : Uint :=
  Uint.srshFrom192 ⟨z.arr0, shr64 z.arr1 n ||| a, z.arr2, z.arr3⟩ n (shl64 z.arr1 (64 - n))

/-- The code of `SRsh` from the label `sh64` to the end. -/
def Uint.srshFrom64 (z : Uint) (n a : Nat) : Uint :=
  Uint.srshFrom128 ⟨z.arr0, z.arr1, shr64 z.arr2 n ||| a, z.arr3⟩ n (shl64 z.arr2 (64 - n))

/-- `SRsh` (signed/arithmetic right shift) considers `x` to be a signed integer and sets
`z = x >> n`. -/
def Uint.SRsh (x : Uint) (n : Nat) : Uint :=
  if !x.isBitSet 255 then x.Rsh n
  else if n % 64 = 0 then
    if n = 0 then x
    else if n = 64 then x.srsh64
    else if n = 128 then x.srsh128
    else if n = 192 then x.srsh192
    else Uint.SetAllOne
  else
    let a := shl64 (2 ^ 64 - 1) (64 - n % 64)
    if n > 192 then
      if n > 256 then Uint.SetAllOne
      else x.srsh192.srshFrom192 (n - 192) a
    else if n > 128 then x.srsh128.srshFrom128 (n - 128) a
    else if n > 64 then x.srsh64.srshFrom64 (n - 64) a
    else
      Uint.srshFrom64 ⟨x.arr0, x.arr1, x.arr2, shr64 x.arr3 n ||| a⟩ n (shl64 x.arr3 (64 - n))

/-! ## The signed type (`int256/arithmetic.go`)

The package `int256` works on the `Uint` of the package `uint256` that it imports.  That
package is not among the sources: the file `u256.go` declares the package `u256`, which has
neither the `Neg` nor the `DivMod` that the signed operations call.  The operations of
`uint256` that the signed operations call are modelled from the spec on the four-limb `Uint`
above: its `Add` and `Sub` wrap, and its division and its overflow-reporting forms are the
unsigned division engine and the `AddOverflow` and `SubOverflow` above.  The receiver and the
operands of a call are taken to be distinct variables. -/

/-- Modelled from the spec: the declaration of the signed type is not among the sources; it is
"a single embedded Unsigned256 interpreted as two's-complement" (§3), the field `value`. -/
structure Int256 where
  value : Uint
deriving DecidableEq, Repr

/-- The panics of the signed operations: `panic(divisionByZeroError)`, and a run-time panic
inside the unsigned division. -/
inductive Failure where
  | divisionByZero
  | runtime
deriving DecidableEq, Repr

/-- The outcome of a call that may panic: its result, or the panic together with what the
receiver holds when the panic is raised. -/
inductive Outcome (σ α : Type) where
  | ok (a : α)
  | panic (f : Failure) (receiver : σ)
deriving DecidableEq, Repr

/-- The signed value of a two's-complement bit pattern. -/
def Int256.toInt (z : Int256) : Int :=
  if z.value.toNat < 2 ^ 255 then (z.value.toNat : Int) else (z.value.toNat : Int) - 2 ^ 256

/-- Modelled from the spec: `Sign` is not among the sources; it is "0 if the value is exactly
zero; otherwise the sign bit of the two's-complement representation" (§4.5), as -1 or +1. -/
def Int256.Sign (z : Int256) : Int :=
  if z.value.IsZero then 0 else if z.value.isBitSet 255 then -1 else 1

/-- Modelled from the spec: `IsZero` of the signed type is not among the sources; the value is
zero when its bit pattern is (§3). -/
def Int256.IsZero (z : Int256) : Bool := z.value.IsZero

/-- Modelled from the spec: `Add` of the package `uint256` is not among the sources.  The
signed operations apply it to two's-complement patterns to shift a remainder or a quotient
"by one divisor-unit" (§4.5): it is the "limb-wise add with carry chain across 4 limbs"
(§4.1) that leaves the sum modulo `2^256`. -/
def uint256.Add (x y : Uint) : Uint := (x.AddOverflow y).1

/-- Modelled from the spec: `Sub` of the package `uint256` is not among the sources.  `Abs`
forms with it "the unsigned magnitude via `0 − value`" (§4.5), and the source comments its
call `absY.Sub(uint0, &y.value)` with `absY = -y.value`: it is the "limb-wise borrow chain"
(§4.1) that leaves the difference modulo `2^256`. -/
def uint256.Sub (x y : Uint) : Uint := (x.SubOverflow y).1

/-- Modelled from the spec: `Neg` of the package `uint256` is not among the sources; "`Negate`
is bitwise-NOT plus 1, computed via unsigned subtraction from zero" (§3), without a failure. -/
def Uint.Neg (x : Uint) : Uint := Uint.UnsafeSub ⟨0, 0, 0, 0⟩ x

/-- Modelled from the spec: `DivMod` is not among the sources; it gives the "unsigned
quotient/remainder" (§4.5) of the unsigned division engine. -/
def Uint.DivMod (x y : Uint) : Option (Uint × Uint) :=
  match x.Div y, x.Mod y with
  | some q, some r => some (q, r)
  | _, _ => none

/-- Modelled from the spec: the constant `uint0` is not among the sources; it is the unsigned
zero from which `Abs` subtracts ("`0 − value`", §4.5). -/
def uint0 : Uint := ⟨0, 0, 0, 0⟩

/-- Modelled from the spec: the constant `uint1` is not among the sources; it is the unsigned
one by which `Quo` increments the quotient magnitude (§4.5). -/
def uint1 : Uint := ⟨1, 0, 0, 0⟩

/-- Modelled from the spec: the constant `int1` is not among the sources; it is the signed one,
the "one divisor-unit" by which `DivE` shifts the quotient (§4.5). -/
def int1 : Int256 := ⟨⟨1, 0, 0, 0⟩⟩

/-- `Add` of the signed type: `z.value.Add(&x.value, &y.value)`. -/
def Int256.Add (x y : Int256) : Int256 := ⟨uint256.Add x.value y.value⟩

/-- `Sub` of the signed type: `z.value.Sub(&x.value, &y.value)`. -/
def Int256.Sub (x y : Int256) : Int256 := ⟨uint256.Sub x.value y.value⟩

/-- `Abs`: the value itself if `z` is not negative, else the local variable `absValue` after
`absValue.Sub(uint0, &z.value).Neg(&z.value)`: `Sub` sets it to `0 - value`, and `Neg`, called
on the same variable, sets it to the negation of `z.value`. -/
def Int256.Abs (z : Int256) : Uint :=
  if z.Sign ≥ 0 then z.value
  else
    let _absValue := uint256.Sub uint0 z.value
    Uint.Neg z.value

/-- `Div` performs the integer division `z = x / y`; `z` is the receiver before the call. -/
def Int256.Div (z x y : Int256) : Outcome Int256 Int256 :=
  if y.IsZero then .panic Failure.divisionByZero z
  else
    let xAbs := x.Abs
    let xSign := x.Sign
    let yAbs := y.Abs
    let ySign := y.Sign
    match xAbs.Div yAbs with
    | none => .panic Failure.runtime z
    | some q => if xSign ≠ ySign then .ok ⟨Uint.Neg q⟩ else .ok ⟨q⟩

/-- `Quo` sets `z` to the quotient `x/y` for `y != 0`; `z` is the receiver before the call. -/
def Int256.Quo (z x y : Int256) : Outcome Int256 Int256 :=
  if y.IsZero then .panic Failure.divisionByZero z
  else
    let xAbs := x.Abs
    let xSign := x.Sign
    let yAbs := y.Abs
    let ySign := y.Sign
    match xAbs.DivMod yAbs with
    | none => .panic Failure.runtime z
    | some (q, r) =>
      let q : Uint :=
        if (decide (xSign < 0) != decide (ySign < 0)) && !r.IsZero then uint256.Add q uint1
        else q
      if xSign ≠ ySign then .ok ⟨Uint.Neg q⟩ else .ok ⟨q⟩

/-- `Rem` sets `z` to the remainder `x%y` for `y != 0`; `z` is the receiver before the call. -/
def Int256.Rem (z x y : Int256) : Outcome Int256 Int256 :=
  if y.IsZero then .panic Failure.divisionByZero z
  else
    let xAbs := x.Abs
    let xSign := x.Sign
    let yAbs := y.Abs
    match xAbs.DivMod yAbs with
    | none => .panic Failure.runtime z
    | some (_, r) => if xSign < 0 then .ok ⟨Uint.Neg r⟩ else .ok ⟨r⟩

/-- `ModE` computes the Euclidean modulus of `x` by `y`; `z` is the receiver before the call. -/
def Int256.ModE (z x y : Int256) : Outcome Int256 Int256 :=
  if y.IsZero then .panic Failure.divisionByZero z
  else
    match Int256.Rem z x y with
    | .panic f r => .panic f r
    | .ok z =>
      if z.Sign ≥ 0 then .ok z
      else if y.Sign > 0 then .ok (Int256.Add z y)
      else .ok (Int256.Sub z y)

/-- `Mod` sets `z` to the modulus `x%y`: it is `ModE`. -/
def Int256.Mod (z x y : Int256) : Outcome Int256 Int256 := Int256.ModE z x y

/-- `DivE` performs the Euclidean division of `x` by `y`; `z` is the receiver before the
call.  The remainder is computed on a new variable, `new(Int)`. -/
def Int256.DivE (z x y : Int256) : Outcome Int256 Int256 :=
  if y.IsZero then .panic Failure.divisionByZero z
  else
    match Int256.Div z x y with
    | .panic f r => .panic f r
    | .ok z =>
      match Int256.Rem ⟨⟨0, 0, 0, 0⟩⟩ x y with
      | .panic f _ => .panic f z
      | .ok r =>
        if r.Sign ≥ 0 then .ok z
        else if y.Sign > 0 then .ok (Int256.Sub z int1)
        else .ok (Int256.Add z int1)

/-- `AddDelta` sets `z` to the sum `x + y`, where `z` and `x` are unsigned and `y` is signed:
`z.Add(x, &y.value)` or `z.Sub(x, y.Abs())`, with the `Add` and `Sub` of `uint256`. -/
def AddDelta (x : Uint) (y : Int256) : Uint :=
  if y.Sign ≥ 0 then uint256.Add x y.value
  else uint256.Sub x y.Abs

/-- `AddDeltaOverflow` sets `z` to the sum `x + y` and returns whether it overflowed.  The
result is the receiver after the call and the flag. -/
def AddDeltaOverflow (x : Uint) (y : Int256) : Uint × Bool :=
  if y.Sign ≥ 0 then x.AddOverflow y.value
  else
    let absY := uint256.Sub uint0 y.value
    x.SubOverflow absY

/-! ## Comparisons and narrowing conversions -/

def Uint.Gte (z x : Uint) : Bool := !z.Lt x

/-- `Lte`: `return !x.Gt(z)`. -/
def Uint.Lte (z x : Uint) : Bool := !x.Gt z

/-- `Int32`: the lowest limb as an `int32`; `none` is the panic "U256 Int32 overflow". -/
def Uint.Int32 (z : Uint) : Option Nat :=
  let x := z.arr0
  if x > 0x7fffffff then none else some x

/-! ## Calls with a receiver that is one of the operands

The signed variables of a call are cells of a memory, named by their addresses; a receiver and
an operand at one address are the same object.  `Div`, `Rem`, `Add` and `Sub` read their
operands before they write the receiver, so their results are those of the functions above for
every placement of the receiver. -/

/-- The signed variables of a call, by address. -/
def Mem : Type := Nat → Int256

/-- The memory after the variable at `a` is set to `v`. -/
def Mem.write (m : Mem) (a : Nat) (v : Int256) : Mem := fun b => if b = a then v else m b

/-- The outcome of a call on the receiver at `z`, as an outcome on the memory. -/
def Mem.commit (m : Mem) (z : Nat) (o : Outcome Int256 Int256) : Outcome Mem Mem :=
  match o with
  | .ok v => .ok (m.write z v)
  | .panic f r => .panic f (m.write z r)

/-- What the variable at `z` holds in an outcome on the memory. -/
def Mem.receiver (o : Outcome Mem Mem) (z : Nat) : Outcome Int256 Int256 :=
  match o with
  | .ok m => .ok (m z)
  | .panic f m => .panic f (m z)

/-- `DivE` on the variables at the addresses `z` (receiver), `x` and `y`: `z.Div(x, y)` writes
the receiver, and `Rem(x, y)` and `y.Sign()` read `x` and `y` after that. -/
def DivEAt (m : Mem) (z x y : Nat) : Outcome Mem Mem :=
  if (m y).IsZero then .panic Failure.divisionByZero m
  else
    match m.commit z (Int256.Div (m z) (m x) (m y)) with
    | .panic f m1 => .panic f m1
    | .ok m1 =>
      match Int256.Rem ⟨⟨0, 0, 0, 0⟩⟩ (m1 x) (m1 y) with
      | .panic f _ => .panic f m1
      | .ok r =>
        if r.Sign ≥ 0 then .ok m1
        else if (m1 y).Sign > 0 then .ok (m1.write z (Int256.Sub (m1 z) int1))
        else .ok (m1.write z (Int256.Add (m1 z) int1))

/-- `ModE` on the variables at the addresses `z` (receiver), `x` and `y`: `z.Rem(x, y)` writes
the receiver, and `y.Sign()` and `z.Add(z, y)` or `z.Sub(z, y)` read `y` after that. -/
def ModEAt (m : Mem) (z x y : Nat) : Outcome Mem Mem :=
  if (m y).IsZero then .panic Failure.divisionByZero m
  else
    match m.commit z (Int256.Rem (m z) (m x) (m y)) with
    | .panic f m1 => .panic f m1
    | .ok m1 =>
      if (m1 z).Sign ≥ 0 then .ok m1
      else if (m1 y).Sign > 0 then .ok (m1.write z (Int256.Add (m1 z) (m1 y)))
      else .ok (m1.write z (Int256.Sub (m1 z) (m1 y)))

/-- The memory with `r` at address 0, `x` at address 1 and `y` at every other address. -/
def mem3 (r x y : Int256) : Mem := fun a => if a = 0 then r else if a = 1 then x else y

/-! ## Limb-level facts -/

theorem mul_lt_limb (x y : Nat) (hx : x < 2 ^ 64) (hy : y < 2 ^ 64) :
    x * y ≤ (2 ^ 64 - 1) * (2 ^ 64 - 1) :=
  Nat.mul_le_mul (by omega) (by omega)

theorem umulHop_spec (z x y : Nat) (hz : z < 2 ^ 64) (hx : x < 2 ^ 64) (hy : y < 2 ^ 64) :
    (umulHop z x y).1 * 2 ^ 64 + (umulHop z x y).2 = z + x * y ∧
    (umulHop z x y).1 < 2 ^ 64 ∧ (umulHop z x y).2 < 2 ^ 64 := by
  have h := mul_lt_limb x y hx hy
  simp only [umulHop, Mul64, Add64]
  generalize x * y = p at h ⊢
  omega

theorem umulStep_spec (z x y c : Nat) (hz : z < 2 ^ 64) (hx : x < 2 ^ 64) (hy : y < 2 ^ 64)
    (hc : c < 2 ^ 64) :
    (umulStep z x y c).1 * 2 ^ 64 + (umulStep z x y c).2 = z + x * y + c ∧
    (umulStep z x y c).1 < 2 ^ 64 ∧ (umulStep z x y c).2 < 2 ^ 64 := by
  have h := mul_lt_limb x y hx hy
  simp only [umulStep, Mul64, Add64]
  generalize x * y = p at h ⊢
  omega

theorem Mul64_spec (x y : Nat) (hx : x < 2 ^ 64) (hy : y < 2 ^ 64) :
    (Mul64 x y).1 * 2 ^ 64 + (Mul64 x y).2 = x * y ∧
    (Mul64 x y).1 < 2 ^ 64 ∧ (Mul64 x y).2 < 2 ^ 64 := by
  have h := mul_lt_limb x y hx hy
  simp only [Mul64]
  generalize x * y = p at h ⊢
  omega

theorem umul_val (x y : Uint) (hx : x.WF) (hy : y.WF) :
    limbsVal (umul x y) = x.toNat * y.toNat ∧ limbsOK (umul x y) := by
  obtain ⟨x0, x1, x2, x3⟩ := x
  obtain ⟨y0, y1, y2, y3⟩ := y
  obtain ⟨hx0, hx1, hx2, hx3⟩ := hx
  obtain ⟨hy0, hy1, hy2, hy3⟩ := hy
  simp only at hx0 hx1 hx2 hx3 hy0 hy1 hy2 hy3
  simp only [umul, limbsVal, limbsOK, Uint.toNat, List.mem_cons, List.mem_singleton, forall_eq_or_imp, forall_eq, List.not_mem_nil, false_implies, implies_true, and_true]
  obtain ⟨e0, a0, b0⟩ := Mul64_spec x0 y0 hx0 hy0
  generalize Mul64 x0 y0 = m0 at *
  obtain ⟨e1, a1, b1⟩ := umulHop_spec m0.1 x1 y0 a0 hx1 hy0
  generalize umulHop m0.1 x1 y0 = m1 at *
  obtain ⟨e2, a2, b2⟩ := umulHop_spec m1.1 x2 y0 a1 hx2 hy0
  generalize umulHop m1.1 x2 y0 = m2 at *
  obtain ⟨e3, a3, b3⟩ := umulHop_spec m2.1 x3 y0 a2 hx3 hy0
  generalize umulHop m2.1 x3 y0 = m3 at *
  obtain ⟨e4, a4, b4⟩ := umulHop_spec m1.2 x0 y1 b1 hx0 hy1
  generalize umulHop m1.2 x0 y1 = m4 at *
  obtain ⟨e5, a5, b5⟩ := umulStep_spec m2.2 x1 y1 m4.1 b2 hx1 hy1 a4
  generalize umulStep m2.2 x1 y1 m4.1 = m5 at *
  obtain ⟨e6, a6, b6⟩ := umulStep_spec m3.2 x2 y1 m5.1 b3 hx2 hy1 a5
  generalize umulStep m3.2 x2 y1 m5.1 = m6 at *
  obtain ⟨e7, a7, b7⟩ := umulStep_spec m3.1 x3 y1 m6.1 a3 hx3 hy1 a6
  generalize umulStep m3.1 x3 y1 m6.1 = m7 at *
  obtain ⟨e8, a8, b8⟩ := umulHop_spec m5.2 x0 y2 b5 hx0 hy2
  generalize umulHop m5.2 x0 y2 = m8 at *
  obtain ⟨e9, a9, b9⟩ := umulStep_spec m6.2 x1 y2 m8.1 b6 hx1 hy2 a8
  generalize umulStep m6.2 x1 y2 m8.1 = m9 at *
  obtain ⟨e10, a10, b10⟩ := umulStep_spec m7.2 x2 y2 m9.1 b7 hx2 hy2 a9
  generalize umulStep m7.2 x2 y2 m9.1 = m10 at *
  obtain ⟨e11, a11, b11⟩ := umulStep_spec m7.1 x3 y2 m10.1 a7 hx3 hy2 a10
  generalize umulStep m7.1 x3 y2 m10.1 = m11 at *
  obtain ⟨e12, a12, b12⟩ := umulHop_spec m9.2 x0 y3 b9 hx0 hy3
  generalize umulHop m9.2 x0 y3 = m12 at *
  obtain ⟨e13, a13, b13⟩ := umulStep_spec m10.2 x1 y3 m12.1 b10 hx1 hy3 a12
  generalize umulStep m10.2 x1 y3 m12.1 = m13 at *
  obtain ⟨e14, a14, b14⟩ := umulStep_spec m11.2 x2 y3 m13.1 b11 hx2 hy3 a13
  generalize umulStep m11.2 x2 y3 m13.1 = m14 at *
  obtain ⟨e15, a15, b15⟩ := umulStep_spec m11.1 x3 y3 m14.1 a11 hx3 hy3 a14
  generalize umulStep m11.1 x3 y3 m14.1 = m15 at *
  refine ⟨?_, b0, b4, b8, b12, b13, b14, b15, a15⟩
  have expand : (x0 + x1 * 2 ^ 64 + x2 * 2 ^ 128 + x3 * 2 ^ 192) * (y0 + y1 * 2 ^ 64 + y2 * 2 ^ 128 + y3 * 2 ^ 192)
    = x0 * y0 + (x1 * y0 + x0 * y1) * 2^64 + (x2 * y0 + x1 * y1 + x0 * y2) * 2^128
      + (x3 * y0 + x2 * y1 + x1 * y2 + x0 * y3) * 2^192 + (x3 * y1 + x2 * y2 + x1 * y3) * 2^256
      + (x3 * y2 + x2 * y3) * 2^320 + (x3 * y3) * 2^384 := by ring
  rw [expand]
  linarith


theorem lor_eq_zero (a b : Nat) : a ||| b = 0 ↔ a = 0 ∧ b = 0 := by
  constructor
  · intro h
    have h1 : ∀ i, (a.testBit i || b.testBit i) = false := by
      intro i
      rw [← Nat.testBit_or, h, Nat.zero_testBit]
    constructor <;> apply Nat.eq_of_testBit_eq <;> intro i <;> have := h1 i <;>
      simp_all
  · rintro ⟨rfl, rfl⟩
    rfl

theorem Mul_val (x y : Uint) (hx : x.WF) (hy : y.WF) :
    ∃ z, x.Mul y = some z ∧ z.WF ∧ z.toNat = (x.toNat * y.toNat) % 2 ^ 256 := by
  obtain ⟨x0, x1, x2, x3⟩ := x
  obtain ⟨y0, y1, y2, y3⟩ := y
  obtain ⟨hx0, hx1, hx2, hx3⟩ := hx
  obtain ⟨hy0, hy1, hy2, hy3⟩ := hy
  simp only at hx0 hx1 hx2 hx3 hy0 hy1 hy2 hy3
  refine ⟨_, rfl, ?_⟩
  simp only [Uint.WF, Uint.toNat]
  obtain ⟨e0, a0, b0⟩ := Mul64_spec x0 y0 hx0 hy0
  generalize Mul64 x0 y0 = m0 at *
  obtain ⟨e1, a1, b1⟩ := umulHop_spec m0.1 x1 y0 a0 hx1 hy0
  generalize umulHop m0.1 x1 y0 = m1 at *
  obtain ⟨e2, a2, b2⟩ := umulHop_spec m1.1 x2 y0 a1 hx2 hy0
  generalize umulHop m1.1 x2 y0 = m2 at *
  obtain ⟨e4, a4, b4⟩ := umulHop_spec m1.2 x0 y1 b1 hx0 hy1
  generalize umulHop m1.2 x0 y1 = m4 at *
  obtain ⟨e5, a5, b5⟩ := umulStep_spec m2.2 x1 y1 m4.1 b2 hx1 hy1 a4
  generalize umulStep m2.2 x1 y1 m4.1 = m5 at *
  obtain ⟨e8, a8, b8⟩ := umulHop_spec m5.2 x0 y2 b5 hx0 hy2
  generalize umulHop m5.2 x0 y2 = m8 at *
  have hr3 : wadd (wadd (wadd (wadd (wadd (wadd (wmul x3 y0) m2.1) (wmul x2 y1)) m5.1)
      (wmul x1 y2)) m8.1) (wmul x0 y3)
      = (x3 * y0 + m2.1 + x2 * y1 + m5.1 + x1 * y2 + m8.1 + x0 * y3) % 2 ^ 64 := by
    simp only [wadd, wmul]
    omega
  rw [hr3]
  generalize hS : x3 * y0 + m2.1 + x2 * y1 + m5.1 + x1 * y2 + m8.1 + x0 * y3 = S
  have hSd := Nat.div_add_mod S (2 ^ 64)
  have hSlt : S % 2 ^ 64 < 2 ^ 64 := Nat.mod_lt _ (by norm_num)
  refine ⟨⟨b0, b4, b8, hSlt⟩, ?_⟩
  have expand : (x0 + x1 * 2 ^ 64 + x2 * 2 ^ 128 + x3 * 2 ^ 192) * (y0 + y1 * 2 ^ 64 + y2 * 2 ^ 128 + y3 * 2 ^ 192)
    = x0 * y0 + (x1 * y0 + x0 * y1) * 2^64 + (x2 * y0 + x1 * y1 + x0 * y2) * 2^128
      + (x3 * y0 + x2 * y1 + x1 * y2 + x0 * y3) * 2^192 + ((x3 * y1 + x2 * y2 + x1 * y3)
      + (x3 * y2 + x2 * y3) * 2^64 + (x3 * y3) * 2^128) * 2 ^ 256 := by ring
  rw [expand]
  generalize (x3 * y1 + x2 * y2 + x1 * y3) + (x3 * y2 + x2 * y3) * 2^64 + (x3 * y3) * 2^128 = K
  have key : x0 * y0 + (x1 * y0 + x0 * y1) * 2^64 + (x2 * y0 + x1 * y1 + x0 * y2) * 2^128
      + (x3 * y0 + x2 * y1 + x1 * y2 + x0 * y3) * 2^192 + K * 2 ^ 256
      = (m0.2 + m4.2 * 2 ^ 64 + m8.2 * 2 ^ 128 + S % 2 ^ 64 * 2 ^ 192) + (S / 2 ^ 64 + K) * 2 ^ 256 := by
    linarith
  have hV : m0.2 + m4.2 * 2 ^ 64 + m8.2 * 2 ^ 128 + S % 2 ^ 64 * 2 ^ 192 < 2 ^ 256 := by
    clear key expand hSd hS hr3 e0 e1 e2 e4 e5 e8
    omega
  rw [key, Nat.add_mul_mod_self_right, Nat.mod_eq_of_lt hV]

theorem MulOverflow_val (x y : Uint) (hx : x.WF) (hy : y.WF) :
    (x.MulOverflow y).1.WF ∧ (x.MulOverflow y).1.toNat = (x.toNat * y.toNat) % 2 ^ 256 ∧
    ((x.MulOverflow y).2 = true ↔ 2 ^ 256 ≤ x.toNat * y.toNat) := by
  obtain ⟨hv, hok⟩ := umul_val x y hx hy
  have hlen : ∃ r0 r1 r2 r3 r4 r5 r6 r7, umul x y = [r0, r1, r2, r3, r4, r5, r6, r7] :=
    ⟨_, _, _, _, _, _, _, _, rfl⟩
  obtain ⟨r0, r1, r2, r3, r4, r5, r6, r7, hr⟩ := hlen
  simp only [Uint.MulOverflow]
  rw [hr] at hv hok ⊢
  simp only [limbsOK, List.mem_cons, List.mem_singleton, forall_eq_or_imp, forall_eq,
    List.not_mem_nil, false_implies, implies_true, and_true] at hok
  obtain ⟨h0, h1, h2, h3, h4, h5, h6, h7⟩ := hok
  simp only [limbsVal] at hv
  generalize x.toNat * y.toNat = P at hv ⊢
  simp only [List.take, Uint.ofLimbs, List.getD_cons_zero, List.getD_cons_succ, Uint.WF, Uint.toNat,
    bne_iff_ne, ne_eq]
  refine ⟨⟨h0, h1, h2, h3⟩, by omega, ?_⟩
  have hor : (r4 ||| r5 ||| r6 ||| r7 = 0) ↔ (r4 = 0 ∧ r5 = 0 ∧ r6 = 0 ∧ r7 = 0) := by
    simp only [lor_eq_zero, and_assoc]
  rw [hor]
  omega

theorem Sub64_spec (x y b : Nat) (hx : x < 2 ^ 64) (hy : y < 2 ^ 64) (hb : b ≤ 1) :
    (Sub64 x y b).1 + y + b = x + (Sub64 x y b).2 * 2 ^ 64 ∧
    (Sub64 x y b).1 < 2 ^ 64 ∧ (Sub64 x y b).2 ≤ 1 := by
  simp only [Sub64]
  by_cases h : x < y + b
  · rw [if_pos h]
    omega
  · rw [if_neg h]
    omega

theorem Add64_spec (x y c : Nat) (hx : x < 2 ^ 64) (hy : y < 2 ^ 64) (hc : c ≤ 1) :
    (Add64 x y c).1 + (Add64 x y c).2 * 2 ^ 64 = x + y + c ∧
    (Add64 x y c).1 < 2 ^ 64 ∧ (Add64 x y c).2 ≤ 1 := by
  simp only [Add64]
  omega

theorem toNat_lt (x : Uint) (hx : x.WF) : x.toNat < 2 ^ 256 := by
  obtain ⟨x0, x1, x2, x3⟩ := x
  simp only [Uint.WF, Uint.toNat] at hx ⊢
  omega

theorem toNat_inj (x y : Uint) (hx : x.WF) (hy : y.WF) (h : x.toNat = y.toNat) : x = y := by
  obtain ⟨x0, x1, x2, x3⟩ := x
  obtain ⟨y0, y1, y2, y3⟩ := y
  simp only [Uint.WF, Uint.toNat] at hx hy h
  simp only [Uint.mk.injEq]
  omega

theorem subChain (x y : Uint) (hx : x.WF) (hy : y.WF) :
    ∃ d0 d1 d2 d3 b0 b1 b2 b3 : Nat,
      Sub64 x.arr0 y.arr0 0 = (d0, b0) ∧ Sub64 x.arr1 y.arr1 b0 = (d1, b1) ∧
      Sub64 x.arr2 y.arr2 b1 = (d2, b2) ∧ Sub64 x.arr3 y.arr3 b2 = (d3, b3) ∧
      d0 < 2 ^ 64 ∧ d1 < 2 ^ 64 ∧ d2 < 2 ^ 64 ∧ d3 < 2 ^ 64 ∧ b2 ≤ 1 ∧ b3 ≤ 1 ∧
      d0 + d1 * 2 ^ 64 + d2 * 2 ^ 128 + y.toNat % 2 ^ 192 = x.toNat % 2 ^ 192 + b2 * 2 ^ 192 ∧
      d0 + d1 * 2 ^ 64 + d2 * 2 ^ 128 + d3 * 2 ^ 192 + y.toNat = x.toNat + b3 * 2 ^ 256 := by
  obtain ⟨x0, x1, x2, x3⟩ := x
  obtain ⟨y0, y1, y2, y3⟩ := y
  obtain ⟨hx0, hx1, hx2, hx3⟩ := hx
  obtain ⟨hy0, hy1, hy2, hy3⟩ := hy
  simp only at hx0 hx1 hx2 hx3 hy0 hy1 hy2 hy3
  simp only [Uint.toNat]
  obtain ⟨e0, l0, c0⟩ := Sub64_spec x0 y0 0 hx0 hy0 (by omega)
  generalize hs0 : Sub64 x0 y0 0 = s0 at *
  obtain ⟨e1, l1, c1⟩ := Sub64_spec x1 y1 s0.2 hx1 hy1 c0
  generalize hs1 : Sub64 x1 y1 s0.2 = s1 at *
  obtain ⟨e2, l2, c2⟩ := Sub64_spec x2 y2 s1.2 hx2 hy2 c1
  generalize hs2 : Sub64 x2 y2 s1.2 = s2 at *
  obtain ⟨e3, l3, c3⟩ := Sub64_spec x3 y3 s2.2 hx3 hy3 c2
  generalize hs3 : Sub64 x3 y3 s2.2 = s3 at *
  refine ⟨s0.1, s1.1, s2.1, s3.1, s0.2, s1.2, s2.2, s3.2, rfl, hs1, hs2, hs3, l0, l1, l2, l3,
    c2, c3, ?_, ?_⟩
  · omega
  · omega

theorem addChain (x y : Uint) (hx : x.WF) (hy : y.WF) :
    ∃ d0 d1 d2 d3 b0 b1 b2 b3 : Nat,
      Add64 x.arr0 y.arr0 0 = (d0, b0) ∧ Add64 x.arr1 y.arr1 b0 = (d1, b1) ∧
      Add64 x.arr2 y.arr2 b1 = (d2, b2) ∧ Add64 x.arr3 y.arr3 b2 = (d3, b3) ∧
      d0 < 2 ^ 64 ∧ d1 < 2 ^ 64 ∧ d2 < 2 ^ 64 ∧ d3 < 2 ^ 64 ∧ b2 ≤ 1 ∧ b3 ≤ 1 ∧
      d0 + d1 * 2 ^ 64 + d2 * 2 ^ 128 + b2 * 2 ^ 192 = x.toNat % 2 ^ 192 + y.toNat % 2 ^ 192 ∧
      d0 + d1 * 2 ^ 64 + d2 * 2 ^ 128 + d3 * 2 ^ 192 + b3 * 2 ^ 256 = x.toNat + y.toNat := by
  obtain ⟨x0, x1, x2, x3⟩ := x
  obtain ⟨y0, y1, y2, y3⟩ := y
  obtain ⟨hx0, hx1, hx2, hx3⟩ := hx
  obtain ⟨hy0, hy1, hy2, hy3⟩ := hy
  simp only at hx0 hx1 hx2 hx3 hy0 hy1 hy2 hy3
  simp only [Uint.toNat]
  obtain ⟨e0, l0, c0⟩ := Add64_spec x0 y0 0 hx0 hy0 (by omega)
  generalize hs0 : Add64 x0 y0 0 = s0 at *
  obtain ⟨e1, l1, c1⟩ := Add64_spec x1 y1 s0.2 hx1 hy1 c0
  generalize hs1 : Add64 x1 y1 s0.2 = s1 at *
  obtain ⟨e2, l2, c2⟩ := Add64_spec x2 y2 s1.2 hx2 hy2 c1
  generalize hs2 : Add64 x2 y2 s1.2 = s2 at *
  obtain ⟨e3, l3, c3⟩ := Add64_spec x3 y3 s2.2 hx3 hy3 c2
  generalize hs3 : Add64 x3 y3 s2.2 = s3 at *
  refine ⟨s0.1, s1.1, s2.1, s3.1, s0.2, s1.2, s2.2, s3.2, rfl, hs1, hs2, hs3, l0, l1, l2, l3,
    c2, c3, ?_, ?_⟩
  · omega
  · omega

theorem Lt_iff (z x : Uint) (hz : z.WF) (hx : x.WF) : z.Lt x = true ↔ z.toNat < x.toNat := by
  obtain ⟨d0, d1, d2, d3, b0, b1, b2, b3, h0, h1, h2, h3, l0, l1, l2, l3, c2, c3, e2, e3⟩ :=
    subChain z x hz hx
  simp only [Uint.Lt, h0, h1, h2, h3, bne_iff_ne, ne_eq]
  omega

theorem Gt_iff (z x : Uint) (hz : z.WF) (hx : x.WF) : z.Gt x = true ↔ x.toNat < z.toNat :=
  Lt_iff x z hx hz

theorem Eq_iff (z x : Uint) : z.Eq x = true ↔ z = x := by
  obtain ⟨z0, z1, z2, z3⟩ := z
  obtain ⟨x0, x1, x2, x3⟩ := x
  simp [Uint.Eq, and_assoc]

theorem IsZero_iff (z : Uint) : z.IsZero = true ↔ z = ⟨0, 0, 0, 0⟩ := by
  obtain ⟨z0, z1, z2, z3⟩ := z
  simp [Uint.IsZero, lor_eq_zero, and_assoc]

theorem IsZero_iff_toNat (z : Uint) : z.IsZero = true ↔ z.toNat = 0 := by
  rw [IsZero_iff]
  obtain ⟨z0, z1, z2, z3⟩ := z
  simp only [Uint.toNat, Uint.mk.injEq]
  omega

theorem IsUint64_iff (z : Uint) : z.IsUint64 = true ↔ z.arr1 = 0 ∧ z.arr2 = 0 ∧ z.arr3 = 0 := by
  simp [Uint.IsUint64, lor_eq_zero, and_assoc]

theorem Cmp_spec (z x : Uint) (hz : z.WF) (hx : x.WF) :
    (z.Cmp x = -1 ↔ z.toNat < x.toNat) ∧ (z.Cmp x = 0 ↔ z.toNat = x.toNat) ∧
    (z.Cmp x = 1 ↔ x.toNat < z.toNat) := by
  obtain ⟨d0, d1, d2, d3, b0, b1, b2, b3, h0, h1, h2, h3, l0, l1, l2, l3, c2, c3, e2, e3⟩ :=
    subChain z x hz hx
  simp only [Uint.Cmp, h0, h1, h2, h3, lor_eq_zero]
  by_cases hb : b3 = 1
  · rw [if_pos hb]
    norm_num
    omega
  · rw [if_neg hb]
    by_cases hd : ((d0 = 0 ∧ d1 = 0) ∧ d2 = 0) ∧ d3 = 0
    · rw [if_pos hd]
      norm_num
      omega
    · rw [if_neg hd]
      norm_num
      omega

theorem AddOverflow_val (x y : Uint) (hx : x.WF) (hy : y.WF) :
    (x.AddOverflow y).1.WF ∧ (x.AddOverflow y).1.toNat = (x.toNat + y.toNat) % 2 ^ 256 ∧
    ((x.AddOverflow y).2 = true ↔ 2 ^ 256 ≤ x.toNat + y.toNat) := by
  obtain ⟨d0, d1, d2, d3, b0, b1, b2, b3, h0, h1, h2, h3, l0, l1, l2, l3, c2, c3, e2, e3⟩ :=
    addChain x y hx hy
  simp only [Uint.AddOverflow, h0, h1, h2, h3, Uint.WF, bne_iff_ne, ne_eq]
  refine ⟨⟨l0, l1, l2, l3⟩, ?_, ?_⟩
  · simp only [Uint.toNat] at *
    omega
  · omega

theorem SubOverflow_val (x y : Uint) (hx : x.WF) (hy : y.WF) :
    (x.SubOverflow y).1.WF ∧
    (x.SubOverflow y).1.toNat = (x.toNat + 2 ^ 256 - y.toNat) % 2 ^ 256 ∧
    ((x.SubOverflow y).2 = true ↔ x.toNat < y.toNat) := by
  obtain ⟨d0, d1, d2, d3, b0, b1, b2, b3, h0, h1, h2, h3, l0, l1, l2, l3, c2, c3, e2, e3⟩ :=
    subChain x y hx hy
  have hy' := toNat_lt y hy
  simp only [Uint.SubOverflow, h0, h1, h2, h3, Uint.WF, bne_iff_ne, ne_eq]
  refine ⟨⟨l0, l1, l2, l3⟩, ?_, ?_⟩
  · simp only [Uint.toNat] at *
    omega
  · omega

theorem UnsafeSub_eq (x y : Uint) : x.UnsafeSub y = (x.SubOverflow y).1 := rfl

theorem Add_spec (x y : Uint) (hx : x.WF) (hy : y.WF) :
    (x.Add y = none ↔ 2 ^ 192 ≤ x.toNat % 2 ^ 192 + y.toNat % 2 ^ 192) ∧
    ∀ z, x.Add y = some z → z.WF ∧ z.toNat = (x.toNat + y.toNat) % 2 ^ 256 := by
  obtain ⟨d0, d1, d2, d3, b0, b1, b2, b3, h0, h1, h2, h3, l0, l1, l2, l3, c2, c3, e2, e3⟩ :=
    addChain x y hx hy
  simp only [Uint.Add, h0, h1, h2, h3]
  by_cases hb : b2 = 0
  · simp only [hb, ne_eq, not_true_eq_false, if_false, reduceCtorEq, false_iff,
      Option.some.injEq, forall_eq', Uint.WF]
    simp only [Uint.toNat] at *
    refine ⟨by omega, ⟨l0, l1, l2, l3⟩, by omega⟩
  · simp only [hb, ne_eq, not_false_eq_true, if_true, true_iff, reduceCtorEq, false_implies,
      implies_true, and_true]
    omega

theorem Sub_spec (x y : Uint) (hx : x.WF) (hy : y.WF) :
    (x.Sub y = none ↔ x.toNat % 2 ^ 192 < y.toNat % 2 ^ 192) ∧
    ∀ z, x.Sub y = some z → z.WF ∧ z.toNat = (x.toNat + 2 ^ 256 - y.toNat) % 2 ^ 256 := by
  obtain ⟨d0, d1, d2, d3, b0, b1, b2, b3, h0, h1, h2, h3, l0, l1, l2, l3, c2, c3, e2, e3⟩ :=
    subChain x y hx hy
  have hy' := toNat_lt y hy
  simp only [Uint.Sub, h0, h1, h2, h3]
  by_cases hb : b2 = 0
  · simp only [hb, ne_eq, not_true_eq_false, if_false, reduceCtorEq, false_iff,
      Option.some.injEq, forall_eq', Uint.WF]
    simp only [Uint.toNat] at *
    refine ⟨by omega, ⟨l0, l1, l2, l3⟩, by omega⟩
  · simp only [hb, ne_eq, not_false_eq_true, if_true, true_iff, reduceCtorEq, false_implies,
      implies_true, and_true]
    omega

/-- The candidate remainder of the reciprocal division (Möller–Granlund, Theorem 2), over `ℤ`. -/
theorem mg_bounds_int (b d Q uh ul q1 q0 : ℤ) (hd2 : d < b) (hd0 : 0 < d)
    (hQ1 : Q * d < b * b) (hQ2 : b * b ≤ Q * d + d) (huh0 : 0 ≤ uh) (huh : uh < d)
    (hul0 : 0 ≤ ul) (hul : ul < b) (hq : q1 * b + q0 = uh * Q + ul) (hq00 : 0 ≤ q0)
    (hq0 : q0 < b) :
    -d ≤ uh * b + ul - (q1 + 1) * d ∧ q0 + 1 - b ≤ uh * b + ul - (q1 + 1) * d ∧
    (uh * b + ul - (q1 + 1) * d < b - d ∨ uh * b + ul - (q1 + 1) * d < q0) := by
  have hb0 : 0 < b := by linarith
  set r := uh * b + ul - (q1 + 1) * d with hr
  set k := b * b - Q * d with hk
  have hk1 : 0 < k := by linarith
  have hk2 : k ≤ d := by linarith
  have key : b * r = uh * k + ul * (b - d) + q0 * d - d * b := by
    have : q1 * b = uh * Q + ul - q0 := by linarith
    calc b * r = uh * (b * b) + b * ul - (q1 * b) * d - b * d := by rw [hr]; ring
      _ = uh * (b * b) + b * ul - (uh * Q + ul - q0) * d - b * d := by rw [this]
      _ = uh * k + ul * (b - d) + q0 * d - d * b := by rw [hk]; ring
  have h1 : 0 ≤ uh * k := mul_nonneg huh0 hk1.le
  have h2 : 0 ≤ ul * (b - d) := mul_nonneg hul0 (by linarith)
  have h3 : 0 ≤ q0 * d := mul_nonneg hq00 hd0.le
  have h4 : uh * k ≤ (d - 1) * d := by
    calc uh * k ≤ (d - 1) * k := mul_le_mul_of_nonneg_right (by linarith) hk1.le
      _ ≤ (d - 1) * d := mul_le_mul_of_nonneg_left hk2 (by linarith)
  have h5 : ul * (b - d) ≤ (b - 1) * (b - d) :=
    mul_le_mul_of_nonneg_right (by linarith) (by linarith)
  refine ⟨?_, ?_, ?_⟩
  · have : b * (-d) ≤ b * r := by rw [key]; nlinarith
    exact le_of_mul_le_mul_left this hb0
  · have h6 : 0 < (b - d) * (b - q0) := mul_pos (by linarith) (by linarith)
    have : b * (q0 - b) < b * r := by rw [key]; nlinarith
    have := lt_of_mul_lt_mul_left this hb0.le
    linarith
  · rcases le_or_lt q0 (b - d) with hc | hc
    · left
      have h7 : q0 * d ≤ (b - d) * d := mul_le_mul_of_nonneg_right hc hd0.le
      have : b * r < b * (b - d) := by rw [key]; nlinarith
      exact lt_of_mul_lt_mul_left this hb0.le
    · right
      have h7 : (b - d) * (b - d) ≤ (b - d) * q0 :=
        mul_le_mul_of_nonneg_left hc.le (by linarith)
      have : b * r < b * q0 := by rw [key]; nlinarith
      exact lt_of_mul_lt_mul_left this hb0.le

/-- Quotient and remainder from a decomposition `n = q * d + r` with `r < d`. -/
theorem divmod_of_eq (n d q r : Nat) (h : q * d + r = n) (hr : r < d) :
    n / d = q ∧ n % d = r := by
  subst h
  have hd : 0 < d := by omega
  constructor
  · rw [Nat.add_comm, Nat.mul_comm, Nat.add_mul_div_left _ _ hd, Nat.div_eq_of_lt hr,
      Nat.zero_add]
  · rw [Nat.add_comm, Nat.mul_comm, Nat.add_mul_mod_self_left, Nat.mod_eq_of_lt hr]

theorem reciprocal2by1_spec (d : Nat) (hd1 : 2 ^ 63 ≤ d) (hd2 : d < 2 ^ 64) :
    ∃ v, reciprocal2by1 d = some v ∧ v < 2 ^ 64 ∧ v + 2 ^ 64 = (2 ^ 128 - 1) / d ∧
      (v + 2 ^ 64) * d < 2 ^ 64 * 2 ^ 64 ∧ 2 ^ 64 * 2 ^ 64 ≤ (v + 2 ^ 64) * d + d := by
  have hd0 : 0 < d := by omega
  have hne : ¬ d = 0 := by omega
  have hhi : ¬ d ≤ not64 d := by
    simp only [not64]
    omega
  have hnum : not64 d * 2 ^ 64 + not64 0 = (2 ^ 128 - 1) - d * 2 ^ 64 := by
    simp only [not64]
    omega
  have hle : d * 2 ^ 64 ≤ 2 ^ 128 - 1 := by omega
  have hquo : (not64 d * 2 ^ 64 + not64 0) / d = (2 ^ 128 - 1) / d - 2 ^ 64 := by
    rw [hnum, Nat.sub_mul_div _ _ _ hle]
  have h1 : (2 ^ 128 - 1) / d * d ≤ 2 ^ 128 - 1 := Nat.div_mul_le_self _ _
  have h2 : 2 ^ 128 - 1 < ((2 ^ 128 - 1) / d + 1) * d := by
    have := Nat.div_add_mod (2 ^ 128 - 1) d
    have := Nat.mod_lt (2 ^ 128 - 1) hd0
    rw [Nat.add_mul, Nat.mul_comm]
    omega
  have h3 : 2 ^ 64 ≤ (2 ^ 128 - 1) / d := by
    rw [Nat.le_div_iff_mul_le hd0]
    have : 2 ^ 64 * d ≤ 2 ^ 64 * (2 ^ 64 - 1) := Nat.mul_le_mul_left _ (by omega)
    omega
  have h4 : (2 ^ 128 - 1) / d < 2 ^ 64 + 2 ^ 64 := by
    rw [Nat.div_lt_iff_lt_mul hd0]
    have : (2 ^ 64 + 2 ^ 64) * 2 ^ 63 ≤ (2 ^ 64 + 2 ^ 64) * d := Nat.mul_le_mul_left _ hd1
    omega
  refine ⟨(2 ^ 128 - 1) / d - 2 ^ 64, ?_, by omega, by omega, ?_, ?_⟩
  · simp only [reciprocal2by1, Div64, if_neg hne, if_neg hhi, hquo]
  · have e : (2 ^ 128 - 1) / d - 2 ^ 64 + 2 ^ 64 = (2 ^ 128 - 1) / d := by omega
    rw [e]
    omega
  · have e : (2 ^ 128 - 1) / d - 2 ^ 64 + 2 ^ 64 = (2 ^ 128 - 1) / d := by omega
    rw [e]
    rw [Nat.add_mul, Nat.one_mul] at h2
    omega

theorem udivrem2by1_decomp (uh ul d v : Nat) (hd1 : 2 ^ 63 ≤ d) (hd2 : d < 2 ^ 64)
    (hv : v < 2 ^ 64) (hQ1 : (v + 2 ^ 64) * d < 2 ^ 64 * 2 ^ 64)
    (hQ2 : 2 ^ 64 * 2 ^ 64 ≤ (v + 2 ^ 64) * d + d) (huh : uh < d) (hul : ul < 2 ^ 64) :
    (udivrem2by1 uh ul d v).1 * d + (udivrem2by1 uh ul d v).2 = uh * 2 ^ 64 + ul ∧
    (udivrem2by1 uh ul d v).2 < d := by
  have huh' : uh < 2 ^ 64 := by omega
  obtain ⟨ep, hph, hpl⟩ := Mul64_spec v uh hv huh'
  -- the two-word sum q = v * uh + <uh, ul> does not overflow
  have hQuh : uh * (v + 2 ^ 64) + (v + 2 ^ 64) ≤ (v + 2 ^ 64) * d := by
    have : (uh + 1) * (v + 2 ^ 64) ≤ d * (v + 2 ^ 64) := Nat.mul_le_mul_right _ (by omega)
    rw [Nat.add_mul, Nat.one_mul] at this
    rw [Nat.mul_comm (v + 2 ^ 64) d]
    exact this
  have hvu : uh * (v + 2 ^ 64) = v * uh + uh * 2 ^ 64 := by ring
  simp only [udivrem2by1]
  generalize Mul64 v uh = m at ep hph hpl ⊢
  simp only [Add64]
  generalize hq0 : (m.2 + ul + 0) % 2 ^ 64 = q0
  generalize hc : (m.2 + ul + 0) / 2 ^ 64 = c
  have hq1lt : m.1 + uh + c < 2 ^ 64 := by omega
  rw [Nat.mod_eq_of_lt hq1lt]
  generalize hq1 : m.1 + uh + c = q1 at hq1lt
  have hq0lt : q0 < 2 ^ 64 := by omega
  have hq : q1 * 2 ^ 64 + q0 = uh * (v + 2 ^ 64) + ul := by omega
  -- the bounds on the candidate remainder
  have hb := mg_bounds_int (2 ^ 64) d (v + 2 ^ 64) uh ul q1 q0 (by exact_mod_cast hd2)
    (by exact_mod_cast (show 0 < d by omega)) (by exact_mod_cast hQ1) (by exact_mod_cast hQ2)
    (by positivity) (by exact_mod_cast huh) (by positivity) (by exact_mod_cast hul)
    (by exact_mod_cast hq) (by positivity) (by exact_mod_cast hq0lt)
  generalize hT : q1 * d = T
  have hA : (q1 + 1) * d = T + d := by rw [Nat.add_mul, Nat.one_mul, hT]
  have hAi : ((q1 : ℤ) + 1) * (d : ℤ) = (T : ℤ) + d := by exact_mod_cast hA
  rw [hAi] at hb
  obtain ⟨b1, b2, b3⟩ := hb
  have hw : wmul (wadd q1 1) d = (T + d) % 2 ^ 64 := by
    simp only [wmul, wadd]
    rw [Nat.mod_mul_mod, hA]
  rw [hw]
  have hq1T : (q1 + 1 + 1) * d = T + d + d := by rw [Nat.add_mul, Nat.one_mul, hA]
  generalize hr : wsub ul ((T + d) % 2 ^ 64) = r
  simp only [wsub] at hr
  clear hq hq1 hq0 hc hvu hQuh ep hQ1 hQ2 hAi hw hph hpl hv
  have hub : uh * 2 ^ 64 + 2 ^ 64 ≤ d * 2 ^ 64 := by
    have := Nat.mul_le_mul_right (2 ^ 64) (show uh + 1 ≤ d by omega)
    rw [Nat.add_mul, Nat.one_mul] at this
    exact this
  have hq1b : T + d ≤ uh * 2 ^ 64 + ul → q1 + 1 < 2 ^ 64 := by
    intro hle
    by_contra hcon
    have : 2 ^ 64 * d ≤ (q1 + 1) * d := Nat.mul_le_mul_right _ (by omega)
    omega
  have hq2b : T + d + d ≤ uh * 2 ^ 64 + ul → q1 + 1 + 1 < 2 ^ 64 := by
    intro hle
    by_contra hcon
    have : 2 ^ 64 * d ≤ (q1 + 1 + 1) * d := Nat.mul_le_mul_right _ (by omega)
    omega
  by_cases h1 : r > q0
  · simp only [if_pos h1]
    have hr1 : wadd r d = uh * 2 ^ 64 + ul - T := by
      simp only [wadd]
      omega
    rw [hr1]
    by_cases h2 : uh * 2 ^ 64 + ul - T ≥ d
    · simp only [if_pos h2]
      have hq1b' := hq1b (by omega)
      have e1 : wadd (wsub (wadd q1 1) 1) 1 = q1 + 1 := by
        simp only [wadd, wsub]
        omega
      have e2 : wsub (uh * 2 ^ 64 + ul - T) d = uh * 2 ^ 64 + ul - T - d := by
        simp only [wsub]
        omega
      rw [e1, e2, hA]
      omega
    · simp only [if_neg h2]
      have e1 : wsub (wadd q1 1) 1 = q1 := by
        simp only [wadd, wsub]
        omega
      rw [e1, hT]
      omega
  · simp only [if_neg h1]
    have hr1 : r = uh * 2 ^ 64 + ul - T - d := by omega
    have hle : T + d ≤ uh * 2 ^ 64 + ul := by omega
    have hq1b' := hq1b hle
    by_cases h2 : r ≥ d
    · simp only [if_pos h2]
      have hq2b' := hq2b (by omega)
      have e1 : wadd (wadd q1 1) 1 = q1 + 1 + 1 := by
        simp only [wadd]
        omega
      have e2 : wsub r d = r - d := by
        simp only [wsub]
        omega
      rw [e1, e2, hq1T]
      omega
    · simp only [if_neg h2]
      have e1 : wadd q1 1 = q1 + 1 := by
        simp only [wadd]
        omega
      rw [e1, hA]
      omega

theorem udivrem2by1_spec (uh ul d v : Nat) (hd1 : 2 ^ 63 ≤ d) (hd2 : d < 2 ^ 64)
    (hr : reciprocal2by1 d = some v) (huh : uh < d) (hul : ul < 2 ^ 64) :
    udivrem2by1 uh ul d v = ((uh * 2 ^ 64 + ul) / d, (uh * 2 ^ 64 + ul) % d) := by
  obtain ⟨v', hv', hvlt, -, hQ1, hQ2⟩ := reciprocal2by1_spec d hd1 hd2
  rw [hr] at hv'
  cases hv'
  obtain ⟨h1, h2⟩ := udivrem2by1_decomp uh ul d v hd1 hd2 hvlt hQ1 hQ2 huh hul
  obtain ⟨e1, e2⟩ := divmod_of_eq _ _ _ _ h1 h2
  rw [e1, e2]

theorem limbsVal_append (l1 l2 : List Nat) :
    limbsVal (l1 ++ l2) = limbsVal l1 + (2 ^ 64) ^ l1.length * limbsVal l2 := by
  induction l1 with
  | nil => simp [limbsVal]
  | cons x xs ih =>
    show limbsVal (x :: (xs ++ l2)) = limbsVal (x :: xs) + (2 ^ 64) ^ (xs.length + 1) * limbsVal l2
    simp only [limbsVal, ih]
    rw [pow_succ (2 ^ 64) xs.length]
    ring

theorem limbsVal_lt (l : List Nat) (h : limbsOK l) : limbsVal l < (2 ^ 64) ^ l.length := by
  induction l with
  | nil => simp [limbsVal]
  | cons x xs ih =>
    have hx : x < 2 ^ 64 := h x (List.mem_cons_self _ _)
    have hxs := ih (fun y hy => h y (List.mem_cons_of_mem _ hy))
    simp only [limbsVal, List.length_cons]
    rw [pow_succ (2 ^ 64) xs.length]
    have : 2 ^ 64 * (limbsVal xs + 1) ≤ 2 ^ 64 * (2 ^ 64) ^ xs.length :=
      Nat.mul_le_mul_left _ hxs
    rw [Nat.mul_comm ((2 ^ 64) ^ xs.length)]
    omega

theorem limbsOK_cons (x : Nat) (xs : List Nat) :
    limbsOK (x :: xs) ↔ x < 2 ^ 64 ∧ limbsOK xs := by
  simp [limbsOK]

theorem limbsOK_append (l1 l2 : List Nat) :
    limbsOK (l1 ++ l2) ↔ limbsOK l1 ∧ limbsOK l2 := by
  simp only [limbsOK, List.mem_append]
  constructor
  · intro h
    exact ⟨fun x hx => h x (Or.inl hx), fun x hx => h x (Or.inr hx)⟩
  · rintro ⟨h1, h2⟩ x (hx | hx)
    · exact h1 x hx
    · exact h2 x hx

theorem limbsOK_take (l : List Nat) (k : Nat) (h : limbsOK l) : limbsOK (l.take k) :=
  fun x hx => h x (List.mem_of_mem_take hx)

theorem limbsOK_drop (l : List Nat) (k : Nat) (h : limbsOK l) : limbsOK (l.drop k) :=
  fun x hx => h x (List.mem_of_mem_drop hx)

theorem limbsVal_take_drop (l : List Nat) (k : Nat) (hk : k ≤ l.length) :
    limbsVal l = limbsVal (l.take k) + (2 ^ 64) ^ k * limbsVal (l.drop k) := by
  conv_lhs => rw [← List.take_append_drop k l]
  rw [limbsVal_append, List.length_take, Nat.min_eq_left hk]

/-- A well-formed limb read by `getD`. -/
theorem limbsOK_getD (l : List Nat) (i : Nat) (h : limbsOK l) : l.getD i 0 < 2 ^ 64 := by
  by_cases hi : i < l.length
  · rw [List.getD_eq_getElem _ _ hi]
    exact h _ (List.getElem_mem hi)
  · rw [List.getD_eq_default _ _ (by omega)]
    norm_num

theorem subMulTo_spec (y : List Nat) : ∀ (x : List Nat) (m borrow : Nat),
    y.length ≤ x.length → limbsOK x → limbsOK y → m < 2 ^ 64 → borrow < 2 ^ 64 →
    (subMulTo x y m borrow).1.length = x.length ∧ limbsOK (subMulTo x y m borrow).1 ∧
    (subMulTo x y m borrow).1.drop y.length = x.drop y.length ∧
    (subMulTo x y m borrow).2 < 2 ^ 64 ∧
    limbsVal ((subMulTo x y m borrow).1.take y.length) + limbsVal y * m + borrow
      = limbsVal (x.take y.length) + (subMulTo x y m borrow).2 * (2 ^ 64) ^ y.length := by
  induction y with
  | nil =>
    intro x m borrow _ hx _ _ hb
    simp only [subMulTo, List.length_nil, List.drop_zero, List.take_zero, limbsVal, pow_zero]
    exact ⟨trivial, hx, trivial, hb, by omega⟩
  | cons yi ys ih =>
    intro x m borrow hlen hx hy hm hb
    cases x with
    | nil => simp at hlen
    | cons xi xs =>
      rw [limbsOK_cons] at hx hy
      obtain ⟨hxi, hxs⟩ := hx
      obtain ⟨hyi, hys⟩ := hy
      simp only [List.length_cons, Nat.add_le_add_iff_right] at hlen
      obtain ⟨ep, hph, hpl⟩ := Mul64_spec yi m hyi hm
      have hpb := mul_lt_limb yi m hyi hm
      simp only [subMulTo]
      generalize Mul64 yi m = p at ep hph hpl ⊢
      have hnb : wadd (wadd p.1 (Sub64 xi borrow 0).2) (Sub64 (Sub64 xi borrow 0).1 p.2 0).2
          = p.1 + (Sub64 xi borrow 0).2 + (Sub64 (Sub64 xi borrow 0).1 p.2 0).2 ∧
          p.1 + (Sub64 xi borrow 0).2 + (Sub64 (Sub64 xi borrow 0).1 p.2 0).2 < 2 ^ 64 ∧
          (Sub64 (Sub64 xi borrow 0).1 p.2 0).1 < 2 ^ 64 ∧
          (Sub64 (Sub64 xi borrow 0).1 p.2 0).1 + yi * m + borrow
            = xi + (p.1 + (Sub64 xi borrow 0).2 + (Sub64 (Sub64 xi borrow 0).1 p.2 0).2) * 2 ^ 64
          := by
        obtain ⟨e1, l1, c1⟩ := Sub64_spec xi borrow 0 hxi hb (by omega)
        generalize Sub64 xi borrow 0 = s at e1 l1 c1 ⊢
        obtain ⟨e2, l2, c2⟩ := Sub64_spec s.1 p.2 0 l1 hpl (by omega)
        generalize Sub64 s.1 p.2 0 = t at e2 l2 c2 ⊢
        simp only [wadd]
        generalize yi * m = P at ep hpb ⊢
        omega
      obtain ⟨e1, e2, e3, e4⟩ := hnb
      rw [e1]
      generalize p.1 + (Sub64 xi borrow 0).2 + (Sub64 (Sub64 xi borrow 0).1 p.2 0).2 = nb
        at e2 e4 ⊢
      generalize (Sub64 (Sub64 xi borrow 0).1 p.2 0).1 = t at e3 e4 ⊢
      obtain ⟨i1, i2, i3, i4, i5⟩ := ih xs m nb hlen hxs hys hm e2
      refine ⟨by simp [i1], ?_, ?_, i4, ?_⟩
      · rw [limbsOK_cons]
        exact ⟨e3, i2⟩
      · simp only [List.length_cons, List.drop_succ_cons]
        exact i3
      · simp only [List.length_cons, List.take_succ_cons, limbsVal]
        rw [pow_succ (2 ^ 64) ys.length]
        generalize limbsVal (List.take ys.length (subMulTo xs ys m nb).1) = A at i5 ⊢
        generalize limbsVal (List.take ys.length xs) = X at i5 ⊢
        generalize (subMulTo xs ys m nb).2 = bo at i5 ⊢
        generalize (2 ^ 64) ^ ys.length = Pw at i5 ⊢
        generalize limbsVal ys = Y at i5 ⊢
        linear_combination e4 + 2 ^ 64 * i5

theorem addTo_spec (y : List Nat) : ∀ (x : List Nat) (carry : Nat),
    y.length ≤ x.length → limbsOK x → limbsOK y → carry ≤ 1 →
    (addTo x y carry).1.length = x.length ∧ limbsOK (addTo x y carry).1 ∧
    (addTo x y carry).1.drop y.length = x.drop y.length ∧
    (addTo x y carry).2 ≤ 1 ∧
    limbsVal ((addTo x y carry).1.take y.length) + (addTo x y carry).2 * (2 ^ 64) ^ y.length
      = limbsVal (x.take y.length) + limbsVal y + carry := by
  induction y with
  | nil =>
    intro x carry _ hx _ hc
    simp only [addTo, List.length_nil, List.drop_zero, List.take_zero, limbsVal, pow_zero]
    exact ⟨trivial, hx, trivial, hc, by omega⟩
  | cons yi ys ih =>
    intro x carry hlen hx hy hc
    cases x with
    | nil => simp at hlen
    | cons xi xs =>
      rw [limbsOK_cons] at hx hy
      obtain ⟨hxi, hxs⟩ := hx
      obtain ⟨hyi, hys⟩ := hy
      simp only [List.length_cons, Nat.add_le_add_iff_right] at hlen
      obtain ⟨e1, l1, c1⟩ := Add64_spec xi yi carry hxi hyi hc
      simp only [addTo]
      generalize Add64 xi yi carry = a at e1 l1 c1 ⊢
      obtain ⟨i1, i2, i3, i4, i5⟩ := ih xs a.2 hlen hxs hys c1
      refine ⟨by simp [i1], ?_, ?_, i4, ?_⟩
      · rw [limbsOK_cons]
        exact ⟨l1, i2⟩
      · simp only [List.length_cons, List.drop_succ_cons]
        exact i3
      · simp only [List.length_cons, List.take_succ_cons, limbsVal]
        rw [pow_succ (2 ^ 64) ys.length]
        generalize limbsVal (List.take ys.length (addTo xs ys a.2).1) = A at i5 ⊢
        generalize limbsVal (List.take ys.length xs) = X at i5 ⊢
        generalize (addTo xs ys a.2).2 = co at i5 ⊢
        generalize (2 ^ 64) ^ ys.length = Pw at i5 ⊢
        generalize limbsVal ys = Y at i5 ⊢
        linear_combination e1 + 2 ^ 64 * i5

/-- Knuth's quotient-digit estimate, overflow case (`u2 ≥ dh`): the digit `b - 1` is at most one
too large. -/
theorem qhat_overflow_int (b P dlow dl dh wlow u0 u1 u2 : ℤ) (hP : 0 < P) (hdlow : dlow < P)
    (hdl : dl < b) (hn : b ≤ 2 * dh)
    (hw : 0 ≤ wlow) (hu0 : 0 ≤ u0) (hu1 : 0 ≤ u1) (hu2 : dh ≤ u2) (hb : 2 ≤ b) :
    (b - 2) * (dlow + P * (dl + b * dh)) ≤ wlow + P * (u0 + b * u1 + b * b * u2) := by
  have h1 : dlow + P * (dl + b * dh) ≤ P * (b * (dh + 1)) := by
    have : P * dl ≤ P * (b - 1) := mul_le_mul_of_nonneg_left (by linarith) hP.le
    nlinarith
  have h2 : (b - 2) * (dlow + P * (dl + b * dh)) ≤ (b - 2) * (P * (b * (dh + 1))) :=
    mul_le_mul_of_nonneg_left h1 (by linarith)
  have h3 : (b - 2) * (dh + 1) ≤ b * dh := by nlinarith
  have h4 : (b - 2) * (P * (b * (dh + 1))) ≤ P * (b * (b * dh)) := by
    have : P * b * ((b - 2) * (dh + 1)) ≤ P * b * (b * dh) :=
      mul_le_mul_of_nonneg_left h3 (by positivity)
    nlinarith
  have h5 : P * (b * (b * dh)) ≤ P * (b * b * u2) := by
    have : P * (b * b) * dh ≤ P * (b * b) * u2 := mul_le_mul_of_nonneg_left hu2 (by positivity)
    nlinarith
  have h6 : 0 ≤ P * u0 := by positivity
  have h7 : 0 ≤ P * (b * u1) := by positivity
  nlinarith

/-- Knuth's quotient-digit estimate, after a successful correction test
(`qh * dl > rh * b + u0`): `qh - 1` is at least the true digit and at most one too large. -/
theorem qhat_test_true_int (b P dlow dl dh wlow u0 u1 u2 qh rh : ℤ) (hP : 0 < P)
    (hdlow0 : 0 ≤ dlow) (hdlow : dlow < P) (hdl0 : 0 ≤ dl) (hdl : dl < b) (hn : b ≤ 2 * dh)
    (hw0 : 0 ≤ wlow) (hw : wlow < P) (hu0 : 0 ≤ u0) (hqh : qh < b) (hqh0 : 0 ≤ qh)
    (hdiv : qh * dh + rh = u2 * b + u1) (hrh0 : 0 ≤ rh)
    (htest : rh * b + u0 < qh * dl) :
    wlow + P * (u0 + b * u1 + b * b * u2) < qh * (dlow + P * (dl + b * dh)) ∧
    (qh - 2) * (dlow + P * (dl + b * dh)) ≤ wlow + P * (u0 + b * u1 + b * b * u2) := by
  have hb : 0 < b := by linarith
  have hdh : 0 < dh := by linarith
  have e1 : qh * (P * (dl + b * dh)) = P * (qh * dl) + P * b * (u2 * b + u1 - rh) := by
    have : qh * dh = u2 * b + u1 - rh := by linarith
    calc qh * (P * (dl + b * dh)) = P * (qh * dl) + P * b * (qh * dh) := by ring
      _ = P * (qh * dl) + P * b * (u2 * b + u1 - rh) := by rw [this]
  constructor
  · have h1 : P * (rh * b + u0 + 1) ≤ P * (qh * dl) :=
      mul_le_mul_of_nonneg_left (by linarith) hP.le
    have h2 : 0 ≤ qh * dlow := mul_nonneg hqh0 hdlow0
    have e2 : qh * (dlow + P * (dl + b * dh)) = qh * dlow + qh * (P * (dl + b * dh)) := by ring
    rw [e2, e1]
    nlinarith
  · rcases le_or_lt qh 2 with hq2 | hq2
    · have h1 : (qh - 2) * (dlow + P * (dl + b * dh)) ≤ 0 :=
        mul_nonpos_of_nonpos_of_nonneg (by linarith) (by positivity)
      have h2 : 0 ≤ P * (u0 + b * u1 + b * b * u2) := by
        have e3 : u0 + b * u1 + b * b * u2 = u0 + b * (qh * dh + rh) := by rw [hdiv]; ring
        have h3 : 0 ≤ b * (qh * dh + rh) :=
          mul_nonneg hb.le (add_nonneg (mul_nonneg hqh0 hdh.le) hrh0)
        have : 0 ≤ u0 + b * u1 + b * b * u2 := by rw [e3]; linarith
        positivity
      linarith
    · have h1 : dlow + P * (dl + b * dh) ≤ P * (b * (dh + 1)) := by
        have : P * dl ≤ P * (b - 1) := mul_le_mul_of_nonneg_left (by linarith) hP.le
        nlinarith
      have h2 : (qh - 2) * (dlow + P * (dl + b * dh)) ≤ (qh - 2) * (P * (b * (dh + 1))) :=
        mul_le_mul_of_nonneg_left h1 (by linarith)
      have h3 : (qh - 2) * (dh + 1) ≤ u2 * b + u1 := by nlinarith
      have h4 : P * b * ((qh - 2) * (dh + 1)) ≤ P * b * (u2 * b + u1) :=
        mul_le_mul_of_nonneg_left h3 (by positivity)
      have h5 : 0 ≤ P * u0 := by positivity
      nlinarith

/-- Knuth's quotient-digit estimate, after a failed correction test
(`qh * dl ≤ rh * b + u0`): `qh` is at least the true digit and at most one too large. -/
theorem qhat_test_false_int (b P dlow dl dh wlow u0 u1 u2 qh rh : ℤ) (hP : 0 < P)
    (hdlow0 : 0 ≤ dlow) (hdlow : dlow < P) (hdl0 : 0 ≤ dl) (hn : b ≤ 2 * dh)
    (hw0 : 0 ≤ wlow) (hw : wlow < P) (hu0 : u0 < b) (hqh : qh < b) (hqh0 : 0 ≤ qh)
    (hdiv : qh * dh + rh = u2 * b + u1) (hrh : rh < dh) (hb : 0 < b)
    (htest : qh * dl ≤ rh * b + u0) :
    wlow + P * (u0 + b * u1 + b * b * u2) < (qh + 1) * (dlow + P * (dl + b * dh)) ∧
    (qh - 1) * (dlow + P * (dl + b * dh)) ≤ wlow + P * (u0 + b * u1 + b * b * u2) := by
  have hdh : 0 < dh := by linarith
  have e1 : qh * (P * (dl + b * dh)) = P * (qh * dl) + P * b * (u2 * b + u1 - rh) := by
    have : qh * dh = u2 * b + u1 - rh := by linarith
    calc qh * (P * (dl + b * dh)) = P * (qh * dl) + P * b * (qh * dh) := by ring
      _ = P * (qh * dl) + P * b * (u2 * b + u1 - rh) := by rw [this]
  constructor
  · have h1 : P * b * (u2 * b + u1 + 1) ≤ P * b * ((qh + 1) * dh) :=
      mul_le_mul_of_nonneg_left (by nlinarith) (by positivity)
    have h2 : 0 ≤ (qh + 1) * dlow := by positivity
    have h3 : 0 ≤ (qh + 1) * (P * dl) := by positivity
    have h4 : P * u0 ≤ P * (b - 1) := mul_le_mul_of_nonneg_left (by linarith) hP.le
    nlinarith
  · have h1 : P * (qh * dl) ≤ P * (rh * b + u0) := mul_le_mul_of_nonneg_left htest hP.le
    have h2 : qh * dlow ≤ b * P := by
      have : qh * dlow ≤ b * dlow := mul_le_mul_of_nonneg_right hqh.le hdlow0
      have : b * dlow ≤ b * P := mul_le_mul_of_nonneg_left hdlow.le hb.le
      linarith
    have h3 : b * P ≤ P * (dl + b * dh) := by
      have : P * b * 1 ≤ P * b * dh := mul_le_mul_of_nonneg_left (by linarith) (by positivity)
      have : 0 ≤ P * dl := by positivity
      nlinarith
    have e2 : (qh - 1) * (dlow + P * (dl + b * dh))
        = qh * dlow + qh * (P * (dl + b * dh)) - (dlow + P * (dl + b * dh)) := by ring
    rw [e2, e1]
    nlinarith

/-- The quotient digit chosen by `udivremKnuth` (before the add-back) is the true digit or one
more. -/
theorem qhat_spec (dl dh recip u0 u1 u2 P wlow dlow : ℕ) (hP : 0 < P) (hwlow : wlow < P)
    (hdlow : dlow < P) (hu0 : u0 < 2 ^ 64) (hu1 : u1 < 2 ^ 64)
    (hdl : dl < 2 ^ 64) (hdh1 : 2 ^ 63 ≤ dh) (hdh2 : dh < 2 ^ 64)
    (hr : reciprocal2by1 dh = some recip)
    (hW : wlow + P * (u0 + 2 ^ 64 * u1 + 2 ^ 64 * 2 ^ 64 * u2)
      < 2 ^ 64 * (dlow + P * (dl + 2 ^ 64 * dh))) :
    ∃ qhat, (if u2 ≥ dh then not64 0
        else if (Mul64 (udivrem2by1 u2 u1 dh recip).1 dl).1 > (udivrem2by1 u2 u1 dh recip).2 ∨
            ((Mul64 (udivrem2by1 u2 u1 dh recip).1 dl).1 = (udivrem2by1 u2 u1 dh recip).2 ∧
              (Mul64 (udivrem2by1 u2 u1 dh recip).1 dl).2 > u0)
          then wsub (udivrem2by1 u2 u1 dh recip).1 1
          else (udivrem2by1 u2 u1 dh recip).1) = qhat ∧
      qhat < 2 ^ 64 ∧
      wlow + P * (u0 + 2 ^ 64 * u1 + 2 ^ 64 * 2 ^ 64 * u2)
        < (qhat + 1) * (dlow + P * (dl + 2 ^ 64 * dh)) ∧
      qhat * (dlow + P * (dl + 2 ^ 64 * dh))
        ≤ wlow + P * (u0 + 2 ^ 64 * u1 + 2 ^ 64 * 2 ^ 64 * u2)
          + (dlow + P * (dl + 2 ^ 64 * dh)) := by
  by_cases hov : u2 ≥ dh
  · refine ⟨not64 0, by rw [if_pos hov], by simp only [not64]; omega, ?_, ?_⟩
    · have e : not64 0 + 1 = 2 ^ 64 := by simp only [not64]; norm_num
      rw [e]
      exact hW
    · have h := qhat_overflow_int ((2 : ℤ) ^ 64) (P : ℤ) (dlow : ℤ) (dl : ℤ) (dh : ℤ) (wlow : ℤ) (u0 : ℤ)
        (u1 : ℤ) (u2 : ℤ) (by exact_mod_cast hP)
        (by exact_mod_cast hdlow) (by exact_mod_cast hdl) (by exact_mod_cast (show 2 ^ 64 ≤ 2 * dh by omega))
        (Nat.cast_nonneg _) (Nat.cast_nonneg _) (Nat.cast_nonneg _) (by exact_mod_cast hov) (by norm_num)
      have e : ((not64 0 : ℕ) : ℤ) = 2 ^ 64 - 1 := by simp only [not64]; norm_num
      zify
      rw [e]
      push_cast
      linarith
  · rw [if_neg hov]
    have hu2 : u2 < dh := by omega
    rw [udivrem2by1_spec u2 u1 dh recip hdh1 hdh2 hr hu2 hu1]
    have hdh0 : 0 < dh := by omega
    have hdm := Nat.div_add_mod (u2 * 2 ^ 64 + u1) dh
    have hrl := Nat.mod_lt (u2 * 2 ^ 64 + u1) hdh0
    have hql : (u2 * 2 ^ 64 + u1) / dh < 2 ^ 64 := by
      rw [Nat.div_lt_iff_lt_mul hdh0]
      have := Nat.mul_le_mul_right (2 ^ 64) (show u2 + 1 ≤ dh by omega)
      rw [Nat.add_mul, Nat.one_mul] at this
      rw [Nat.mul_comm (2 ^ 64) dh]
      omega
    generalize (u2 * 2 ^ 64 + u1) / dh = qh at hdm hql ⊢
    generalize (u2 * 2 ^ 64 + u1) % dh = rh at hdm hrl ⊢
    obtain ⟨ep, hph, hpl⟩ := Mul64_spec qh dl hql hdl
    simp only
    generalize Mul64 qh dl = p at ep hph hpl ⊢
    have hdiv : (qh : ℤ) * dh + rh = u2 * 2 ^ 64 + u1 := by
      rw [Nat.mul_comm] at hdm
      exact_mod_cast hdm
    by_cases ht : p.1 > rh ∨ (p.1 = rh ∧ p.2 > u0)
    · rw [if_pos ht]
      have htest : rh * 2 ^ 64 + u0 < qh * dl := by
        rw [← ep]
        rcases ht with h | ⟨h1, h2⟩
        · have := Nat.mul_le_mul_right (2 ^ 64) (show rh + 1 ≤ p.1 by omega)
          rw [Nat.add_mul, Nat.one_mul] at this
          omega
        · omega
      have hq1 : 1 ≤ qh := by
        rcases Nat.eq_zero_or_pos qh with h | h
        · rw [h, Nat.zero_mul] at htest
          omega
        · exact h
      have e : wsub qh 1 = qh - 1 := by
        simp only [wsub]
        omega
      obtain ⟨h1, h2⟩ := qhat_test_true_int ((2 : ℤ) ^ 64) (P : ℤ) (dlow : ℤ) (dl : ℤ) (dh : ℤ)
        (wlow : ℤ) (u0 : ℤ) (u1 : ℤ) (u2 : ℤ) (qh : ℤ) (rh : ℤ)
        (by exact_mod_cast hP) (Nat.cast_nonneg _) (by exact_mod_cast hdlow) (Nat.cast_nonneg _)
        (by exact_mod_cast hdl) (by exact_mod_cast (show 2 ^ 64 ≤ 2 * dh by omega))
        (Nat.cast_nonneg _) (by exact_mod_cast hwlow) (Nat.cast_nonneg _) (by exact_mod_cast hql)
        (Nat.cast_nonneg _) hdiv (Nat.cast_nonneg _) (by exact_mod_cast htest)
      refine ⟨qh - 1, by rw [e], by omega, ?_, ?_⟩
      · have e2 : qh - 1 + 1 = qh := by omega
        rw [e2]
        exact_mod_cast h1
      · zify [hq1]
        linarith
    · rw [if_neg ht]
      have htest : qh * dl ≤ rh * 2 ^ 64 + u0 := by
        rw [← ep]
        rcases Nat.lt_trichotomy p.1 rh with h | h | h
        · have := Nat.mul_le_mul_right (2 ^ 64) (show p.1 + 1 ≤ rh by omega)
          rw [Nat.add_mul, Nat.one_mul] at this
          omega
        · have : ¬ p.2 > u0 := fun hc => ht (Or.inr ⟨h, hc⟩)
          rw [h]
          omega
        · exact absurd (Or.inl h) ht
      obtain ⟨h1, h2⟩ := qhat_test_false_int ((2 : ℤ) ^ 64) (P : ℤ) (dlow : ℤ) (dl : ℤ) (dh : ℤ)
        (wlow : ℤ) (u0 : ℤ) (u1 : ℤ) (u2 : ℤ) (qh : ℤ) (rh : ℤ)
        (by exact_mod_cast hP) (Nat.cast_nonneg _) (by exact_mod_cast hdlow) (Nat.cast_nonneg _)
        (by exact_mod_cast (show 2 ^ 64 ≤ 2 * dh by omega))
        (Nat.cast_nonneg _) (by exact_mod_cast hwlow) (by exact_mod_cast hu0)
        (by exact_mod_cast hql) (Nat.cast_nonneg _) hdiv (by exact_mod_cast hrl) (by norm_num)
        (by exact_mod_cast htest)
      refine ⟨qh, rfl, hql, ?_, ?_⟩
      · exact_mod_cast h1
      · zify
        linarith

theorem getD_append_mid (lo xs rest : List Nat) (a i : Nat) (hi : i = lo.length + xs.length) :
    (lo ++ (xs ++ a :: rest)).getD i 0 = a := by
  subst hi
  rw [List.getD_eq_getElem?_getD, List.getElem?_append_right (by omega),
    Nat.add_sub_cancel_left, List.getElem?_append_right (Nat.le_refl _), Nat.sub_self]
  simp

theorem set_append_mid (lo xs rest : List Nat) (a v i : Nat) (hi : i = lo.length + xs.length) :
    (lo ++ (xs ++ a :: rest)).set i v = lo ++ (xs ++ v :: rest) := by
  subst hi
  rw [List.set_append_right _ _ (by omega)]
  simp

theorem limbsVal_three (wl : List Nat) (u0 u1 u2 : Nat) :
    limbsVal (wl ++ [u0, u1, u2])
      = limbsVal wl + (2 ^ 64) ^ wl.length * (u0 + 2 ^ 64 * u1 + 2 ^ 64 * 2 ^ 64 * u2) := by
  rw [limbsVal_append]
  simp only [limbsVal]
  ring

theorem limbsVal_two (wl : List Nat) (u0 u1 : Nat) :
    limbsVal (wl ++ [u0, u1])
      = limbsVal wl + (2 ^ 64) ^ wl.length * (u0 + 2 ^ 64 * u1) := by
  rw [limbsVal_append]
  simp only [limbsVal]
  ring

theorem limbsVal_snoc (xs : List Nat) (a : Nat) :
    limbsVal (xs ++ [a]) = limbsVal xs + (2 ^ 64) ^ xs.length * a := by
  rw [limbsVal_append]
  simp only [limbsVal]
  ring

/-- The arithmetic of one Knuth step, once the digit `qhat` is known to be the true digit or one
more: multiply-and-subtract, then at most one add-back, leaves the remainder and a zero top
limb. -/
theorem knuth_fix (X X1 X2 D Bn W E qhat u2 borrow carry : Nat) (hW : W = X + Bn * u2)
    (hE : E = D * qhat) (hX1 : X1 < Bn) (hX2 : X2 < Bn) (hD : D < Bn)
    (hsub : X1 + E + 0 = X + borrow * Bn)
    (hadd : u2 < borrow → X2 + carry * Bn = X1 + D + 0) (hc : carry ≤ 1)
    (hb : borrow < 2 ^ 64) (hu2 : u2 < 2 ^ 64)
    (h1 : W < E + D) (h2 : E ≤ W + D) (hq : qhat < 2 ^ 64) :
    (¬ u2 < borrow → qhat * D + X1 = W ∧ X1 < D ∧ wsub u2 borrow = 0) ∧
    (u2 < borrow → wsub qhat 1 * D + X2 = W ∧ X2 < D ∧ wadd (wsub u2 borrow) carry = 0) := by
  have hEq : qhat * D = E := by rw [hE, Nat.mul_comm]
  constructor
  · intro hlt
    have hle : borrow ≤ u2 := by omega
    have hm : borrow * Bn ≤ u2 * Bn := Nat.mul_le_mul_right _ hle
    have hcomm : Bn * u2 = u2 * Bn := Nat.mul_comm _ _
    have heq : borrow = u2 := by
      by_contra hne
      have : (borrow + 1) * Bn ≤ u2 * Bn := Nat.mul_le_mul_right _ (by omega)
      rw [Nat.add_mul, Nat.one_mul] at this
      omega
    subst heq
    refine ⟨by omega, by omega, ?_⟩
    simp only [wsub]
    omega
  · intro hlt
    have hadd' := hadd hlt
    have hm : (u2 + 1) * Bn ≤ borrow * Bn := Nat.mul_le_mul_right _ (by omega)
    rw [Nat.add_mul, Nat.one_mul] at hm
    have hcomm : Bn * u2 = u2 * Bn := Nat.mul_comm _ _
    have heq : borrow = u2 + 1 := by
      by_contra hne
      have : (u2 + 2) * Bn ≤ borrow * Bn := Nat.mul_le_mul_right _ (by omega)
      rw [Nat.add_mul] at this
      have hcb : carry * Bn ≤ 1 * Bn := Nat.mul_le_mul_right _ hc
      omega
    subst heq
    have hexp : (u2 + 1) * Bn = u2 * Bn + Bn := by rw [Nat.add_mul, Nat.one_mul]
    have hc1 : carry = 1 := by
      by_contra hne
      have hc0 : carry = 0 := by omega
      rw [hc0, Nat.zero_mul] at hadd'
      omega
    subst hc1
    have hq1 : 1 ≤ qhat := by
      rcases Nat.eq_zero_or_pos qhat with h | h
      · rw [h, Nat.mul_zero] at hE
        omega
      · exact h
    have hws : wsub qhat 1 = qhat - 1 := by
      simp only [wsub]
      omega
    have hmul : (qhat - 1) * D + D = E := by
      rw [← hEq]
      have : qhat = (qhat - 1) + 1 := by omega
      conv_rhs => rw [this, Nat.add_mul, Nat.one_mul]
    rw [hws]
    refine ⟨by omega, by omega, ?_⟩
    simp only [wsub, wadd]
    omega

/-- One iteration of the loop of `udivremKnuth`: on the window `wl ++ [u0, u1, u2]` whose top
`len(d)` limbs are below `d`, it stores the quotient digit and leaves the remainder with a zero
top limb. -/
theorem udivremKnuthStep_spec (lo wl rest dlo quot : List Nat) (u0 u1 u2 dl dh recip : Nat)
    (hlen : wl.length = dlo.length) (hwl : limbsOK wl) (hdlo : limbsOK dlo)
    (hu0 : u0 < 2 ^ 64) (hu1 : u1 < 2 ^ 64) (hu2 : u2 < 2 ^ 64) (hrest : limbsOK rest)
    (hdl : dl < 2 ^ 64) (hdh1 : 2 ^ 63 ≤ dh) (hdh2 : dh < 2 ^ 64)
    (hr : reciprocal2by1 dh = some recip)
    (hW : limbsVal (wl ++ [u0, u1, u2]) < 2 ^ 64 * limbsVal (dlo ++ [dl, dh])) :
    ∃ R, R.length = dlo.length + 2 ∧ limbsOK R ∧
      limbsVal R = limbsVal (wl ++ [u0, u1, u2]) % limbsVal (dlo ++ [dl, dh]) ∧
      limbsVal (wl ++ [u0, u1, u2]) / limbsVal (dlo ++ [dl, dh]) < 2 ^ 64 ∧
      udivremKnuthStep (dlo ++ [dl, dh]) dh dl recip lo.length quot
          (lo ++ ((wl ++ [u0, u1]) ++ u2 :: rest))
        = (quot.set lo.length (limbsVal (wl ++ [u0, u1, u2]) / limbsVal (dlo ++ [dl, dh])),
           lo ++ (R ++ 0 :: rest)) := by
  have hdlen : (dlo ++ [dl, dh]).length = (wl ++ [u0, u1]).length := by simp [hlen]
  have hxlen : (wl ++ [u0, u1]).length = dlo.length + 2 := by simp [hlen]
  have hd : limbsOK (dlo ++ [dl, dh]) := by
    rw [limbsOK_append]
    refine ⟨hdlo, ?_⟩
    intro x hx
    simp only [List.mem_cons, List.mem_singleton, List.not_mem_nil, or_false] at hx
    rcases hx with rfl | rfl
    · exact hdl
    · exact hdh2
  have hxs : limbsOK (wl ++ [u0, u1]) := by
    rw [limbsOK_append]
    refine ⟨hwl, ?_⟩
    intro x hx
    simp only [List.mem_cons, List.mem_singleton, List.not_mem_nil, or_false] at hx
    rcases hx with rfl | rfl
    · exact hu0
    · exact hu1
  have hxr : limbsOK ((wl ++ [u0, u1]) ++ u2 :: rest) := by
    rw [limbsOK_append, limbsOK_cons]
    exact ⟨hxs, hu2, hrest⟩
  -- the digit estimate
  have hWv := limbsVal_three wl u0 u1 u2
  have hDv := limbsVal_two dlo dl dh
  have hXv := limbsVal_two wl u0 u1
  rw [← hlen] at hDv
  have hP : 0 < (2 ^ 64) ^ wl.length := by positivity
  have hwlow := limbsVal_lt wl hwl
  have hdlow := limbsVal_lt dlo hdlo
  rw [← hlen] at hdlow
  have hDlt := limbsVal_lt _ hd
  have hXlt := limbsVal_lt _ hxs
  rw [hdlen] at hDlt
  have hBn : (2 ^ 64) ^ (wl ++ [u0, u1]).length = (2 ^ 64) ^ wl.length * (2 ^ 64 * 2 ^ 64) := by
    rw [List.length_append, pow_add]
    rfl
  obtain ⟨qhat, hqe, hqlt, hq1, hq2⟩ := qhat_spec dl dh recip u0 u1 u2 ((2 ^ 64) ^ wl.length)
    (limbsVal wl) (limbsVal dlo) hP hwlow hdlow hu0 hu1 hdl hdh1 hdh2 hr
    (by rw [← hWv, ← hDv]; exact hW)
  rw [← hWv, ← hDv] at hq1 hq2
  -- reading the window
  have hg2 : (lo ++ ((wl ++ [u0, u1]) ++ u2 :: rest)).getD
      (lo.length + (dlo ++ [dl, dh]).length) 0 = u2 :=
    getD_append_mid lo _ rest u2 _ (by rw [hdlen])
  have hg1 : (lo ++ ((wl ++ [u0, u1]) ++ u2 :: rest)).getD
      (lo.length + (dlo ++ [dl, dh]).length - 1) 0 = u1 := by
    have e : lo ++ ((wl ++ [u0, u1]) ++ u2 :: rest) = lo ++ ((wl ++ [u0]) ++ u1 :: (u2 :: rest)) := by
      simp
    rw [e]
    exact getD_append_mid lo _ _ u1 _
      (by simp only [List.length_append, List.length_cons, List.length_nil, hlen]; omega)
  have hg0 : (lo ++ ((wl ++ [u0, u1]) ++ u2 :: rest)).getD
      (lo.length + (dlo ++ [dl, dh]).length - 2) 0 = u0 := by
    have e : lo ++ ((wl ++ [u0, u1]) ++ u2 :: rest) = lo ++ (wl ++ u0 :: (u1 :: u2 :: rest)) := by
      simp
    rw [e]
    exact getD_append_mid lo _ _ u0 _
      (by simp only [List.length_append, List.length_cons, List.length_nil, hlen]; omega)
  have hdrop : (lo ++ ((wl ++ [u0, u1]) ++ u2 :: rest)).drop lo.length
      = (wl ++ [u0, u1]) ++ u2 :: rest := List.drop_left _ _
  have htake : (lo ++ ((wl ++ [u0, u1]) ++ u2 :: rest)).take lo.length = lo :=
    List.take_left _ _
  -- multiply and subtract
  obtain ⟨s1, s2, s3, s4, s5⟩ := subMulTo_spec (dlo ++ [dl, dh]) ((wl ++ [u0, u1]) ++ u2 :: rest)
    qhat 0 (by simp [hlen]) hxr hd hqlt (by norm_num)
  have hsm : (subMulTo ((wl ++ [u0, u1]) ++ u2 :: rest) (dlo ++ [dl, dh]) qhat 0).1
      = (subMulTo ((wl ++ [u0, u1]) ++ u2 :: rest) (dlo ++ [dl, dh]) qhat 0).1.take
          (dlo ++ [dl, dh]).length ++ u2 :: rest := by
    conv_lhs => rw [← List.take_append_drop (dlo ++ [dl, dh]).length
      (subMulTo ((wl ++ [u0, u1]) ++ u2 :: rest) (dlo ++ [dl, dh]) qhat 0).1]
    rw [s3, hdlen, List.drop_left]
  rw [hdlen, List.take_left] at s5
  have hX1len : ((subMulTo ((wl ++ [u0, u1]) ++ u2 :: rest) (dlo ++ [dl, dh]) qhat 0).1.take
      (dlo ++ [dl, dh]).length).length = (dlo ++ [dl, dh]).length := by
    rw [List.length_take, s1]
    simp [hlen]
  have hX1ok := limbsOK_take _ (dlo ++ [dl, dh]).length s2
  rw [← hdlen] at s5
  generalize hX1 : (subMulTo ((wl ++ [u0, u1]) ++ u2 :: rest) (dlo ++ [dl, dh]) qhat 0).1.take
      (dlo ++ [dl, dh]).length = X1 at hsm s5 hX1len hX1ok
  have hX1lt := limbsVal_lt _ hX1ok
  rw [hX1len, hdlen] at hX1lt
  generalize hbo : (subMulTo ((wl ++ [u0, u1]) ++ u2 :: rest) (dlo ++ [dl, dh]) qhat 0).2
      = borrow at s4 s5
  -- add back
  have hx1r : limbsOK (X1 ++ wsub u2 borrow :: rest) := by
    rw [limbsOK_append, limbsOK_cons]
    refine ⟨hX1ok, ?_, hrest⟩
    simp only [wsub]
    omega
  obtain ⟨a1, a2, a3, a4, a5⟩ := addTo_spec (dlo ++ [dl, dh]) (X1 ++ wsub u2 borrow :: rest) 0
    (by
      have := hX1len
      simp only [List.length_append, List.length_cons, List.length_nil] at this ⊢
      omega) hx1r hd (by omega)
  have had : (addTo (X1 ++ wsub u2 borrow :: rest) (dlo ++ [dl, dh]) 0).1
      = (addTo (X1 ++ wsub u2 borrow :: rest) (dlo ++ [dl, dh]) 0).1.take
          (dlo ++ [dl, dh]).length ++ wsub u2 borrow :: rest := by
    conv_lhs => rw [← List.take_append_drop (dlo ++ [dl, dh]).length
      (addTo (X1 ++ wsub u2 borrow :: rest) (dlo ++ [dl, dh]) 0).1]
    rw [a3, ← hX1len, List.drop_left]
  have hX2len : ((addTo (X1 ++ wsub u2 borrow :: rest) (dlo ++ [dl, dh]) 0).1.take
      (dlo ++ [dl, dh]).length).length = (dlo ++ [dl, dh]).length := by
    rw [List.length_take, a1]
    have := hX1len
    simp only [List.length_append, List.length_cons, List.length_nil] at this ⊢
    omega
  have hX2ok := limbsOK_take _ (dlo ++ [dl, dh]).length a2
  have a5' := a5
  rw [show List.take (dlo ++ [dl, dh]).length (X1 ++ wsub u2 borrow :: rest) = X1 from by
    rw [← hX1len, List.take_left]] at a5'
  generalize hX2 : (addTo (X1 ++ wsub u2 borrow :: rest) (dlo ++ [dl, dh]) 0).1.take
      (dlo ++ [dl, dh]).length = X2 at had a5' hX2len hX2ok
  have hX2lt := limbsVal_lt _ hX2ok
  rw [hX2len, hdlen] at hX2lt
  generalize hco : (addTo (X1 ++ wsub u2 borrow :: rest) (dlo ++ [dl, dh]) 0).2 = carry
    at a4 a5'
  -- the arithmetic
  have hWX : limbsVal (wl ++ [u0, u1, u2])
      = limbsVal (wl ++ [u0, u1]) + (2 ^ 64) ^ (wl ++ [u0, u1]).length * u2 := by
    rw [hWv, hXv, hBn]
    ring
  obtain ⟨f1, f2⟩ := knuth_fix (limbsVal (wl ++ [u0, u1])) (limbsVal X1) (limbsVal X2)
    (limbsVal (dlo ++ [dl, dh])) ((2 ^ 64) ^ (wl ++ [u0, u1]).length)
    (limbsVal (wl ++ [u0, u1, u2])) (limbsVal (dlo ++ [dl, dh]) * qhat) qhat u2 borrow carry
    hWX rfl hX1lt hX2lt hDlt (by rw [← hdlen]; exact s5) (fun _ => by rw [← hdlen]; exact a5')
    a4 s4 hu2 (by rw [Nat.mul_comm] ; rw [Nat.add_mul, Nat.one_mul] at hq1; exact hq1)
    (by rw [Nat.mul_comm]; exact hq2) hqlt
  -- running the code
  have hidx : lo.length + (dlo ++ [dl, dh]).length = lo.length + X1.length := by rw [hX1len]
  have hidx2 : lo.length + (dlo ++ [dl, dh]).length = lo.length + X2.length := by rw [hX2len]
  have hset1 : (lo ++ (X1 ++ u2 :: rest)).set (lo.length + (dlo ++ [dl, dh]).length)
      (wsub u2 borrow) = lo ++ (X1 ++ wsub u2 borrow :: rest) :=
    set_append_mid lo X1 rest u2 _ _ hidx
  unfold udivremKnuthStep
  simp only [hg2, hg1, hg0, hdrop, htake]
  rw [hqe, hbo, hsm, hset1]
  by_cases hlt : u2 < borrow
  · obtain ⟨g1, g2, g3⟩ := f2 hlt
    obtain ⟨e1, e2⟩ := divmod_of_eq _ _ _ _ g1 g2
    rw [if_pos hlt, List.drop_left, List.take_left, hco, had,
      getD_append_mid lo X1 rest _ _ hidx, set_append_mid lo X2 rest _ _ _ hidx2, g3, e1]
    exact ⟨X2, by rw [hX2len]; simp, hX2ok, e2.symm, by simp only [wsub]; omega, rfl⟩
  · obtain ⟨g1, g2, g3⟩ := f1 hlt
    obtain ⟨e1, e2⟩ := divmod_of_eq _ _ _ _ g1 g2
    rw [if_neg hlt, g3, e1]
    exact ⟨X1, by rw [hX1len]; simp, hX1ok, e2.symm, hqlt, rfl⟩

theorem window_decomp (u : List Nat) (k m : Nat) (h : k + m + 3 ≤ u.length) :
    ∃ lo wl rest u0 u1 u2, u = lo ++ ((wl ++ [u0, u1]) ++ u2 :: rest) ∧ lo.length = k ∧
      wl.length = m := by
  have h1 : (u.take k).length = k := by rw [List.length_take]; omega
  have h2 : ((u.drop k).take m).length = m := by
    rw [List.length_take, List.length_drop]; omega
  have h3 : ((u.drop k).drop m).length = u.length - k - m := by
    rw [List.length_drop, List.length_drop]
  match hm : (u.drop k).drop m, h3 with
  | [], h3 => simp at h3; omega
  | [_], h3 => simp at h3; omega
  | [_, _], h3 => simp at h3; omega
  | u0 :: u1 :: u2 :: rest, _ =>
    refine ⟨u.take k, (u.drop k).take m, rest, u0, u1, u2, ?_, h1, h2⟩
    have e : (u.drop k).take m ++ [u0, u1] ++ u2 :: rest
        = (u.drop k).take m ++ (u.drop k).drop m := by
      rw [hm]
      simp
    rw [e, List.take_append_drop, List.take_append_drop]

theorem window_head_bound (l : List Nat) (hl : limbsOK l) (m : Nat) :
    limbsVal (l.take (m + 1)) < 2 ^ 64 * (limbsVal ((l.drop 1).take m) + 1) := by
  cases l with
  | nil => simp [limbsVal]
  | cons x xs =>
    rw [limbsOK_cons] at hl
    simp only [List.take_succ_cons, limbsVal, List.drop_succ_cons, List.drop_zero]
    omega

theorem take_succ_of_drop (r t : List Nat) (q k : Nat) (h : r.drop k = q :: t) :
    r.take (k + 1) = r.take k ++ [q] ∧ r.drop (k + 1) = t ∧ k < r.length := by
  have hlen : k < r.length := by
    by_contra hc
    rw [List.drop_eq_nil_of_le (by omega)] at h
    cases h
  have e : r = r.take k ++ q :: t := by
    conv_lhs => rw [← List.take_append_drop k r, h]
  have hk : (r.take k).length = k := by rw [List.length_take]; omega
  refine ⟨?_, ?_, hlen⟩
  · conv_lhs => rw [e]
    rw [List.take_append_eq_append_take, hk, List.take_of_length_le (by omega)]
    simp
  · rw [← List.drop_drop, h]
    rfl

/-- Division of a number whose high part `W` is replaced by `W % D`. -/
theorem divmod_window (L Bk W D : Nat) (hD : 0 < D) :
    (L + Bk * W) % D = (L + Bk * (W % D)) % D ∧
    (L + Bk * W) / D = (L + Bk * (W % D)) / D + Bk * (W / D) := by
  have e : L + Bk * W = (L + Bk * (W % D)) + (Bk * (W / D)) * D := by
    conv_lhs => rw [← Nat.div_add_mod W D]
    ring
  rw [e]
  exact ⟨Nat.add_mul_mod_self_right _ _ _, Nat.add_mul_div_right _ _ hD⟩

theorem drop_set_self (l : List Nat) : ∀ (k q : Nat), k < l.length →
    (l.set k q).drop k = q :: l.drop (k + 1) := by
  induction l with
  | nil => intro k q h; simp at h
  | cons x xs ih =>
    intro k q h
    cases k with
    | zero => rfl
    | succ k =>
      simp only [List.set_cons_succ, List.drop_succ_cons]
      exact ih k q (by simpa using h)

/-- The loop of `udivremKnuth`: after `k` iterations the low `len(d)` limbs of `u` hold the
remainder of its low `k + len(d)` limbs by `d`, and the low `k` limbs of `quot` hold the
quotient. -/
theorem udivremKnuthLoop_spec (dlo : List Nat) (dl dh recip : Nat) (hdlo : limbsOK dlo)
    (hdl : dl < 2 ^ 64) (hdh1 : 2 ^ 63 ≤ dh) (hdh2 : dh < 2 ^ 64)
    (hr : reciprocal2by1 dh = some recip) :
    ∀ (k : Nat) (quot u : List Nat), k + (dlo.length + 2) ≤ u.length → k ≤ quot.length →
      limbsOK u → limbsVal ((u.drop k).take (dlo.length + 2)) < limbsVal (dlo ++ [dl, dh]) →
      (udivremKnuthLoop (dlo ++ [dl, dh]) dh dl recip k quot u).2.length = u.length ∧
      limbsOK (udivremKnuthLoop (dlo ++ [dl, dh]) dh dl recip k quot u).2 ∧
      (udivremKnuthLoop (dlo ++ [dl, dh]) dh dl recip k quot u).1.length = quot.length ∧
      limbsOK ((udivremKnuthLoop (dlo ++ [dl, dh]) dh dl recip k quot u).1.take k) ∧
      (udivremKnuthLoop (dlo ++ [dl, dh]) dh dl recip k quot u).1.drop k = quot.drop k ∧
      limbsVal ((udivremKnuthLoop (dlo ++ [dl, dh]) dh dl recip k quot u).2.take
          (dlo.length + 2))
        = limbsVal (u.take (k + (dlo.length + 2))) % limbsVal (dlo ++ [dl, dh]) ∧
      limbsVal ((udivremKnuthLoop (dlo ++ [dl, dh]) dh dl recip k quot u).1.take k)
        = limbsVal (u.take (k + (dlo.length + 2))) / limbsVal (dlo ++ [dl, dh]) := by
  intro k
  induction k with
  | zero =>
    intro quot u hlen _ hu hlt
    simp only [udivremKnuthLoop, List.drop_zero, List.take_zero, Nat.zero_add, limbsVal] at hlt ⊢
    refine ⟨trivial, hu, trivial, ?_, trivial, (Nat.mod_eq_of_lt hlt).symm,
      (Nat.div_eq_of_lt hlt).symm⟩
    intro x hx
    cases hx
  | succ k ih =>
    intro quot u hlen hq hu hlt
    obtain ⟨lo, wl, rest, u0, u1, u2, rfl, hlo, hwl⟩ :=
      window_decomp u k dlo.length (by omega)
    have hD0 : 0 < limbsVal (dlo ++ [dl, dh]) := by omega
    -- the pieces are well-formed
    rw [limbsOK_append, limbsOK_append, limbsOK_cons, limbsOK_append] at hu
    obtain ⟨hlo_ok, ⟨hwl_ok, h01⟩, hu2, hrest⟩ := hu
    have hu0 : u0 < 2 ^ 64 := h01 u0 (by simp)
    have hu1 : u1 < 2 ^ 64 := h01 u1 (by simp)
    -- the window
    have hwin : ((lo ++ ((wl ++ [u0, u1]) ++ u2 :: rest)).drop k).take (dlo.length + 2 + 1)
        = wl ++ [u0, u1, u2] := by
      rw [← hlo, List.drop_left]
      have e : wl ++ [u0, u1] ++ u2 :: rest = (wl ++ [u0, u1, u2]) ++ rest := by simp
      rw [e, List.take_left' (by simp [hwl])]
    have hW : limbsVal (wl ++ [u0, u1, u2]) < 2 ^ 64 * limbsVal (dlo ++ [dl, dh]) := by
      have hb := window_head_bound ((lo ++ ((wl ++ [u0, u1]) ++ u2 :: rest)).drop k)
        (limbsOK_drop _ _ (by
          rw [limbsOK_append, limbsOK_append, limbsOK_cons, limbsOK_append]
          exact ⟨hlo_ok, ⟨hwl_ok, h01⟩, hu2, hrest⟩)) (dlo.length + 2)
      rw [hwin, List.drop_drop] at hb
      have : 2 ^ 64 * (limbsVal (List.take (dlo.length + 2)
          (List.drop (k + 1) (lo ++ (wl ++ [u0, u1] ++ u2 :: rest)))) + 1)
          ≤ 2 ^ 64 * limbsVal (dlo ++ [dl, dh]) := Nat.mul_le_mul_left _ hlt
      omega
    obtain ⟨R, hRlen, hRok, hRv, hqlt, hstep⟩ := udivremKnuthStep_spec lo wl rest dlo quot
      u0 u1 u2 dl dh recip hwl hwl_ok hdlo hu0 hu1 hu2 hrest hdl hdh1 hdh2 hr hW
    rw [hlo] at hstep
    -- the remaining iterations
    have hu1ok : limbsOK (lo ++ (R ++ 0 :: rest)) := by
      rw [limbsOK_append, limbsOK_append, limbsOK_cons]
      exact ⟨hlo_ok, hRok, by norm_num, hrest⟩
    have hRtake : ((lo ++ (R ++ 0 :: rest)).drop k).take (dlo.length + 2) = R := by
      rw [← hlo, List.drop_left, List.take_left' hRlen]
    have hlen1 : (lo ++ (R ++ 0 :: rest)).length
        = (lo ++ ((wl ++ [u0, u1]) ++ u2 :: rest)).length := by
      simp only [List.length_append, List.length_cons, List.length_nil, hRlen, hwl]
    obtain ⟨i1, i2, i3, i4, i5, i6, i7⟩ := ih
      (quot.set k (limbsVal (wl ++ [u0, u1, u2]) / limbsVal (dlo ++ [dl, dh])))
      (lo ++ (R ++ 0 :: rest)) (by rw [hlen1]; omega) (by rw [List.length_set]; omega) hu1ok
      (by rw [hRtake, hRv]; exact Nat.mod_lt _ hD0)
    have hloop : udivremKnuthLoop (dlo ++ [dl, dh]) dh dl recip (k + 1) quot
        (lo ++ ((wl ++ [u0, u1]) ++ u2 :: rest))
        = udivremKnuthLoop (dlo ++ [dl, dh]) dh dl recip k
          (quot.set k (limbsVal (wl ++ [u0, u1, u2]) / limbsVal (dlo ++ [dl, dh])))
          (lo ++ (R ++ 0 :: rest)) := by
      rw [udivremKnuthLoop, hstep]
    rw [hloop]
    generalize udivremKnuthLoop (dlo ++ [dl, dh]) dh dl recip k
      (quot.set k (limbsVal (wl ++ [u0, u1, u2]) / limbsVal (dlo ++ [dl, dh])))
      (lo ++ (R ++ 0 :: rest)) = res at i1 i2 i3 i4 i5 i6 i7 ⊢
    -- the quotient digits
    rw [drop_set_self quot k _ (by omega)] at i5
    obtain ⟨t1, t2, -⟩ := take_succ_of_drop _ _ _ _ i5
    have htk1 : (lo ++ (R ++ 0 :: rest)).take (k + (dlo.length + 2)) = lo ++ R := by
      have e : lo ++ (R ++ 0 :: rest) = (lo ++ R) ++ 0 :: rest := by simp
      rw [e, List.take_left' (by simp [hlo, hRlen])]
    have htk : (lo ++ ((wl ++ [u0, u1]) ++ u2 :: rest)).take (k + 1 + (dlo.length + 2))
        = lo ++ (wl ++ [u0, u1, u2]) := by
      have e : lo ++ ((wl ++ [u0, u1]) ++ u2 :: rest) = (lo ++ (wl ++ [u0, u1, u2])) ++ rest := by
        simp
      rw [e, List.take_left' (by simp [hlo, hwl]; omega)]
    rw [htk1, limbsVal_append, hRv, hlo] at i6 i7
    rw [htk, limbsVal_append, hlo]
    obtain ⟨m1, m2⟩ := divmod_window (limbsVal lo) ((2 ^ 64) ^ k)
      (limbsVal (wl ++ [u0, u1, u2])) (limbsVal (dlo ++ [dl, dh])) hD0
    refine ⟨i1.trans hlen1, i2, by rw [i3, List.length_set], ?_, t2, by rw [i6, m1], ?_⟩
    · rw [t1, limbsOK_append]
      refine ⟨i4, ?_⟩
      intro x hx
      simp only [List.mem_singleton] at hx
      rw [hx]
      exact hqlt
    · rw [t1, limbsVal_snoc, i7, m2, List.length_take, i3, List.length_set,
        Nat.min_eq_left (by omega)]

theorem take_succ_getD (l : List Nat) (k : Nat) (h : k < l.length) :
    l.take (k + 1) = l.take k ++ [l.getD k 0] := by
  rw [List.take_succ, List.getD_eq_getElem _ _ h, List.getElem?_eq_getElem h]
  rfl

/-- The loop of `udivremBy1`: schoolbook division by one normalized limb. -/
theorem udivremBy1Loop_spec (u : List Nat) (d recip : Nat) (hu : limbsOK u)
    (hd1 : 2 ^ 63 ≤ d) (hd2 : d < 2 ^ 64) (hr : reciprocal2by1 d = some recip) :
    ∀ (k : Nat) (quot : List Nat) (rem : Nat), k ≤ u.length → k ≤ quot.length → rem < d →
      (udivremBy1Loop u d recip k quot rem).1.length = quot.length ∧
      limbsOK ((udivremBy1Loop u d recip k quot rem).1.take k) ∧
      (udivremBy1Loop u d recip k quot rem).1.drop k = quot.drop k ∧
      (udivremBy1Loop u d recip k quot rem).2
        = (limbsVal (u.take k) + (2 ^ 64) ^ k * rem) % d ∧
      limbsVal ((udivremBy1Loop u d recip k quot rem).1.take k)
        = (limbsVal (u.take k) + (2 ^ 64) ^ k * rem) / d := by
  intro k
  have hd0 : 0 < d := by omega
  induction k with
  | zero =>
    intro quot rem _ _ hrem
    simp only [udivremBy1Loop, List.take_zero, List.drop_zero, limbsVal, pow_zero, Nat.zero_add,
      Nat.one_mul]
    refine ⟨trivial, ?_, trivial, (Nat.mod_eq_of_lt hrem).symm, (Nat.div_eq_of_lt hrem).symm⟩
    intro x hx
    cases hx
  | succ k ih =>
    intro quot rem hk hq hrem
    have huk := limbsOK_getD u k hu
    have h2 := udivrem2by1_spec rem (u.getD k 0) d recip hd1 hd2 hr hrem huk
    have hrl := Nat.mod_lt (rem * 2 ^ 64 + u.getD k 0) hd0
    have hql : (rem * 2 ^ 64 + u.getD k 0) / d < 2 ^ 64 := by
      rw [Nat.div_lt_iff_lt_mul hd0]
      have := Nat.mul_le_mul_right (2 ^ 64) (show rem + 1 ≤ d by omega)
      rw [Nat.add_mul, Nat.one_mul] at this
      rw [Nat.mul_comm (2 ^ 64) d]
      omega
    obtain ⟨i1, i2, i3, i4, i5⟩ := ih (quot.set k ((rem * 2 ^ 64 + u.getD k 0) / d))
      ((rem * 2 ^ 64 + u.getD k 0) % d) (by omega) (by rw [List.length_set]; omega) hrl
    have hloop : udivremBy1Loop u d recip (k + 1) quot rem
        = udivremBy1Loop u d recip k (quot.set k ((rem * 2 ^ 64 + u.getD k 0) / d))
          ((rem * 2 ^ 64 + u.getD k 0) % d) := by
      rw [udivremBy1Loop, h2]
    rw [hloop]
    generalize udivremBy1Loop u d recip k (quot.set k ((rem * 2 ^ 64 + u.getD k 0) / d))
      ((rem * 2 ^ 64 + u.getD k 0) % d) = res at i1 i2 i3 i4 i5 ⊢
    rw [drop_set_self quot k _ (by omega)] at i3
    obtain ⟨t1, t2, -⟩ := take_succ_of_drop _ _ _ _ i3
    obtain ⟨m1, m2⟩ := divmod_window (limbsVal (u.take k)) ((2 ^ 64) ^ k)
      (rem * 2 ^ 64 + u.getD k 0) d hd0
    have hN : limbsVal (u.take (k + 1)) + (2 ^ 64) ^ (k + 1) * rem
        = limbsVal (u.take k) + (2 ^ 64) ^ k * (rem * 2 ^ 64 + u.getD k 0) := by
      rw [take_succ_getD u k (by omega), limbsVal_snoc, List.length_take,
        Nat.min_eq_left (by omega), pow_succ (2 ^ 64) k]
      ring
    rw [hN]
    refine ⟨by rw [i1, List.length_set], ?_, t2, by rw [i4, m1], ?_⟩
    · rw [t1, limbsOK_append]
      refine ⟨i2, ?_⟩
      intro x hx
      simp only [List.mem_singleton] at hx
      rw [hx]
      exact hql
    · rw [t1, limbsVal_snoc, i5, m2, List.length_take, i1, List.length_set,
        Nat.min_eq_left (by omega)]

theorem sigLen_spec (u : List Nat) : ∀ k, sigLen u k ≤ k ∧
    (0 < sigLen u k → u.getD (sigLen u k - 1) 0 ≠ 0) ∧
    (∀ i, sigLen u k ≤ i → i < k → u.getD i 0 = 0) := by
  intro k
  induction k with
  | zero =>
    simp only [sigLen]
    refine ⟨Nat.le_refl _, fun h => absurd h (Nat.lt_irrefl _), fun i _ h => absurd h (Nat.not_lt_zero _)⟩
  | succ k ih =>
    simp only [sigLen]
    by_cases h : u.getD k 0 ≠ 0
    · rw [if_pos h]
      refine ⟨Nat.le_refl _, fun _ => by simpa using h, fun i h1 h2 => by omega⟩
    · rw [if_neg h]
      obtain ⟨i1, i2, i3⟩ := ih
      refine ⟨by omega, i2, fun i h1 h2 => ?_⟩
      by_cases hik : i = k
      · rw [hik]
        simpa using h
      · exact i3 i h1 (by omega)

/-- Limbs above the significant length contribute nothing. -/
theorem limbsVal_take_sigLen (u : List Nat) : ∀ k, k ≤ u.length →
    limbsVal (u.take k) = limbsVal (u.take (sigLen u k)) := by
  intro k
  induction k with
  | zero => intro _; rfl
  | succ k ih =>
    intro hk
    simp only [sigLen]
    by_cases h : u.getD k 0 ≠ 0
    · rw [if_pos h]
    · rw [if_neg h, ← ih (by omega), take_succ_getD u k (by omega), limbsVal_snoc]
      have : u.getD k 0 = 0 := by simpa using h
      rw [this, Nat.mul_zero, Nat.add_zero]

theorem lenBits_spec : ∀ (fuel x : Nat), x < 2 ^ fuel →
    x < 2 ^ lenBits fuel x ∧ (0 < x → 2 ^ (lenBits fuel x - 1) ≤ x) ∧ lenBits fuel x ≤ fuel := by
  intro fuel
  induction fuel with
  | zero =>
    intro x hx
    simp only [lenBits]
    have : x = 0 := by simpa using hx
    subst this
    simp
  | succ f ih =>
    intro x hx
    simp only [lenBits]
    by_cases h0 : x = 0
    · rw [if_pos h0, h0]
      simp
    · rw [if_neg h0]
      have hx2 : x / 2 < 2 ^ f := by
        rw [pow_succ] at hx
        omega
      obtain ⟨i1, i2, i3⟩ := ih (x / 2) hx2
      refine ⟨?_, fun _ => ?_, by omega⟩
      · rw [pow_succ]
        omega
      · rw [Nat.add_sub_cancel]
        by_cases h1 : 0 < x / 2
        · have := i2 h1
          have e : lenBits f (x / 2) = (lenBits f (x / 2) - 1) + 1 := by
            have : 0 < lenBits f (x / 2) := by
              by_contra hc
              have hz : lenBits f (x / 2) = 0 := by omega
              rw [hz] at i1
              omega
            omega
          rw [e, pow_succ]
          omega
        · have hz : x / 2 = 0 := by omega
          have hl : lenBits f (x / 2) = 0 := by
            rw [hz]
            cases f <;> simp [lenBits]
          rw [hl]
          omega

theorem LeadingZeros64_spec (x : Nat) (h0 : 0 < x) (hx : x < 2 ^ 64) :
    LeadingZeros64 x ≤ 63 ∧ 2 ^ 63 ≤ x * 2 ^ LeadingZeros64 x ∧
    x * 2 ^ LeadingZeros64 x < 2 ^ 64 := by
  obtain ⟨i1, i2, i3⟩ := lenBits_spec 64 x hx
  have i2 := i2 h0
  simp only [LeadingZeros64]
  generalize lenBits 64 x = n at i1 i2 i3
  have hn : 0 < n := by
    by_contra hc
    have hz : n = 0 := by omega
    rw [hz] at i1
    omega
  refine ⟨by omega, ?_, ?_⟩
  · have e : 63 = (n - 1) + (64 - n) := by omega
    rw [e, pow_add]
    exact Nat.mul_le_mul_right _ i2
  · have e : 64 = n + (64 - n) := by omega
    conv_rhs => rw [e, pow_add]
    exact Nat.mul_lt_mul_of_pos_right i1 (by positivity)

theorem two_pow_split (s : Nat) (hs : s ≤ 64) : 2 ^ 64 = 2 ^ s * 2 ^ (64 - s) := by
  rw [← pow_add]
  congr 1
  omega

/-- A limb shifted left by `s` splits into the part that stays and the part that moves up. -/
theorem shl_split (x s : Nat) (hs : s ≤ 64) :
    x * 2 ^ s = shr64 x (64 - s) * 2 ^ 64 + shl64 x s := by
  simp only [shr64, shl64]
  have h := Nat.div_add_mod (x * 2 ^ s) (2 ^ 64)
  have e : x * 2 ^ s / 2 ^ 64 = x / 2 ^ (64 - s) := by
    conv_lhs => rw [two_pow_split s hs, Nat.mul_comm (2 ^ s) (2 ^ (64 - s))]
    exact Nat.mul_div_mul_right _ _ (by positivity)
  rw [e] at h
  omega

theorem shl64_eq (x s : Nat) (hs : s ≤ 64) : shl64 x s = 2 ^ s * (x % 2 ^ (64 - s)) := by
  simp only [shl64]
  conv_lhs => rw [two_pow_split s hs, Nat.mul_comm x (2 ^ s)]
  exact Nat.mul_mod_mul_left _ _ _

theorem shr64_lt (y s : Nat) (hy : y < 2 ^ 64) (hs : s ≤ 64) : shr64 y (64 - s) < 2 ^ s := by
  simp only [shr64]
  rw [Nat.div_lt_iff_lt_mul (by positivity), ← two_pow_split s hs]
  exact hy

theorem shl_or_shr (x y s : Nat) (hy : y < 2 ^ 64) (hs : s ≤ 64) :
    shl64 x s ||| shr64 y (64 - s) = shl64 x s + shr64 y (64 - s) := by
  rw [shl64_eq x s hs]
  exact (Nat.mul_add_lt_is_or (shr64_lt y s hy hs) _).symm

theorem shr_or_shl (x y s : Nat) (hx : x < 2 ^ 64) (hs : s ≤ 64) :
    shr64 x s ||| shl64 y (64 - s) = shr64 x s + shl64 y (64 - s) := by
  have h := shl_or_shr y x (64 - s) hx (by omega)
  have e : 64 - (64 - s) = s := by omega
  rw [e] at h
  rw [Nat.lor_comm, h, Nat.add_comm]

theorem range_map_succ (f : Nat → Nat) (m : Nat) :
    limbsVal ((List.range (m + 1)).map f)
      = limbsVal ((List.range m).map f) + (2 ^ 64) ^ m * f m := by
  rw [List.range_succ, List.map_append, List.map_singleton, limbsVal_snoc, List.length_map,
    List.length_range]

/-- Normalization: shifting the limbs left by `s`, the limb `shr64 (a m) (64 - s)` catching the
bits that leave the top. -/
theorem shiftLeft_limbs (a : Nat → Nat) (s : Nat) (hs : s ≤ 64) (ha : ∀ i, a i < 2 ^ 64) :
    ∀ m, limbsVal ((List.range (m + 1)).map (fun i =>
        if i = 0 then shl64 (a 0) s else shl64 (a i) s ||| shr64 (a (i - 1)) (64 - s)))
      + (2 ^ 64) ^ (m + 1) * shr64 (a m) (64 - s)
      = limbsVal ((List.range (m + 1)).map a) * 2 ^ s := by
  intro m
  induction m with
  | zero =>
    have hr : List.range (0 + 1) = [0] := rfl
    have := shl_split (a 0) s hs
    rw [hr]
    simp only [List.map, limbsVal, if_true, Nat.zero_add, pow_one, Nat.mul_zero, Nat.add_zero]
    rw [this]
    ring
  | succ m ih =>
    rw [range_map_succ, range_map_succ a (m + 1), Nat.add_mul, ← ih]
    simp only [Nat.add_sub_cancel, if_neg (Nat.succ_ne_zero m)]
    rw [shl_or_shr _ _ s (ha m) hs, pow_succ (2 ^ 64) (m + 1)]
    have := shl_split (a (m + 1)) s hs
    generalize shr64 (a (m + 1)) (64 - s) = hi at this ⊢
    generalize shl64 (a (m + 1)) s = low at this ⊢
    rw [Nat.mul_assoc ((2 ^ 64) ^ (m + 1)) (a (m + 1)) (2 ^ s), this]
    ring

/-- Denormalization: shifting the limbs right by `s`. -/
theorem shiftRight_limbs (a : Nat → Nat) (s : Nat) (hs : s ≤ 64) (ha : ∀ i, a i < 2 ^ 64) :
    ∀ m, limbsVal ((List.range m).map (fun i => shr64 (a i) s ||| shl64 (a (i + 1)) (64 - s)))
      + (2 ^ 64) ^ m * shr64 (a m) s
      = limbsVal ((List.range (m + 1)).map a) / 2 ^ s := by
  intro m
  induction m with
  | zero =>
    simp [limbsVal, shr64]
  | succ m ih =>
    rw [range_map_succ, range_map_succ a (m + 1)]
    rw [shr_or_shl _ _ s (ha m) hs]
    have hsp := shl_split (a (m + 1)) (64 - s) (by omega)
    have e : 64 - (64 - s) = s := by omega
    rw [e] at hsp
    have hdiv : (limbsVal ((List.range (m + 1)).map a) + (2 ^ 64) ^ (m + 1) * a (m + 1)) / 2 ^ s
        = limbsVal ((List.range (m + 1)).map a) / 2 ^ s
          + (2 ^ 64) ^ m * (a (m + 1) * 2 ^ (64 - s)) := by
      have e2 : (2 ^ 64) ^ (m + 1) * a (m + 1)
          = 2 ^ s * ((2 ^ 64) ^ m * (a (m + 1) * 2 ^ (64 - s))) := by
        rw [pow_succ (2 ^ 64) m]
        have h64 := two_pow_split s hs
        generalize (2 ^ 64) ^ m = Bm
        rw [h64]
        ring
      rw [e2, Nat.add_mul_div_left _ _ (by positivity)]
    rw [hdiv, ← ih, hsp, pow_succ (2 ^ 64) m]
    ring

theorem map_getD_range (l : List Nat) : ∀ m, m ≤ l.length →
    (List.range m).map (fun i => l.getD i 0) = l.take m := by
  intro m
  induction m with
  | zero => intro _; rfl
  | succ m ih =>
    intro h
    rw [List.range_succ, List.map_append, ih (by omega), take_succ_getD l m (by omega)]
    rfl

theorem getD_map_range (g : Nat → Nat) (n i : Nat) (h : i < n) :
    ((List.range n).map g).getD i 0 = g i := by
  rw [List.getD_eq_getElem _ _ (by simpa using h)]
  simp

theorem limbsOK_map_range (g : Nat → Nat) (n : Nat) (h : ∀ i, i < n → g i < 2 ^ 64) :
    limbsOK ((List.range n).map g) := by
  intro x hx
  simp only [List.mem_map, List.mem_range] at hx
  obtain ⟨i, hi, rfl⟩ := hx
  exact h i hi

theorem shl64_lt (x s : Nat) : shl64 x s < 2 ^ 64 := Nat.mod_lt _ (by positivity)

theorem shr64_le (x s : Nat) : shr64 x s ≤ x := Nat.div_le_self _ _

/-- The normalized divisor `dn` of `udivrem`. -/
theorem normalize_dn (l : List Nat) (n s : Nat) (hl : limbsOK l) (hn : 0 < n)
    (hnl : n ≤ l.length) (hs : s ≤ 63) (htop : l.getD (n - 1) 0 * 2 ^ s < 2 ^ 64) :
    ((List.range n).map fun i => if i = 0 then shl64 (l.getD 0 0) s
        else shl64 (l.getD i 0) s ||| shr64 (l.getD (i - 1) 0) (64 - s)).length = n ∧
    limbsOK ((List.range n).map fun i => if i = 0 then shl64 (l.getD 0 0) s
        else shl64 (l.getD i 0) s ||| shr64 (l.getD (i - 1) 0) (64 - s)) ∧
    limbsVal ((List.range n).map fun i => if i = 0 then shl64 (l.getD 0 0) s
        else shl64 (l.getD i 0) s ||| shr64 (l.getD (i - 1) 0) (64 - s))
      = limbsVal (l.take n) * 2 ^ s ∧
    l.getD (n - 1) 0 * 2 ^ s ≤ ((List.range n).map fun i => if i = 0 then shl64 (l.getD 0 0) s
        else shl64 (l.getD i 0) s ||| shr64 (l.getD (i - 1) 0) (64 - s)).getD (n - 1) 0 := by
  have ha : ∀ i, (fun i => l.getD i 0) i < 2 ^ 64 := fun i => limbsOK_getD l i hl
  refine ⟨by simp, ?_, ?_, ?_⟩
  · apply limbsOK_map_range
    intro i _
    by_cases hi : i = 0
    · rw [if_pos hi]
      exact shl64_lt _ _
    · rw [if_neg hi]
      exact Nat.or_lt_two_pow (shl64_lt _ _)
        (Nat.lt_of_le_of_lt (shr64_le _ _) (limbsOK_getD l _ hl))
  · obtain ⟨m, rfl⟩ : ∃ m, n = m + 1 := ⟨n - 1, by omega⟩
    have h := shiftLeft_limbs (fun i => l.getD i 0) s (by omega) ha m
    simp only [Nat.add_sub_cancel] at htop
    have hz : shr64 (l.getD m 0) (64 - s) = 0 := by
      simp only [shr64]
      rw [Nat.div_eq_of_lt]
      have h64 := two_pow_split s (by omega)
      rw [h64, Nat.mul_comm (2 ^ s)] at htop
      exact Nat.lt_of_mul_lt_mul_right htop
    rw [hz, Nat.mul_zero, Nat.add_zero, map_getD_range l (m + 1) hnl] at h
    exact h
  · rw [getD_map_range _ _ _ (by omega)]
    have e : shl64 (l.getD (n - 1) 0) s = l.getD (n - 1) 0 * 2 ^ s := by
      simp only [shl64]
      exact Nat.mod_eq_of_lt htop
    by_cases hi : n - 1 = 0
    · rw [if_pos hi]
      rw [hi] at e ⊢
      rw [e]
    · rw [if_neg hi, shl_or_shr _ _ s (limbsOK_getD l _ hl) (by omega), e]
      omega

/-- The normalized dividend `un` of `udivrem`, one limb longer than the dividend. -/
theorem normalize_un (l : List Nat) (n s : Nat) (hl : limbsOK l) (hn : 0 < n)
    (hnl : n ≤ l.length) (hs : s ≤ 63) :
    ((List.range (n + 1)).map fun i => if i = n then shr64 (l.getD (n - 1) 0) (64 - s)
        else if i = 0 then shl64 (l.getD 0 0) s
        else shl64 (l.getD i 0) s ||| shr64 (l.getD (i - 1) 0) (64 - s)).length = n + 1 ∧
    limbsOK ((List.range (n + 1)).map fun i => if i = n then shr64 (l.getD (n - 1) 0) (64 - s)
        else if i = 0 then shl64 (l.getD 0 0) s
        else shl64 (l.getD i 0) s ||| shr64 (l.getD (i - 1) 0) (64 - s)) ∧
    limbsVal ((List.range (n + 1)).map fun i => if i = n then shr64 (l.getD (n - 1) 0) (64 - s)
        else if i = 0 then shl64 (l.getD 0 0) s
        else shl64 (l.getD i 0) s ||| shr64 (l.getD (i - 1) 0) (64 - s))
      = limbsVal (l.take n) * 2 ^ s ∧
    ((List.range (n + 1)).map fun i => if i = n then shr64 (l.getD (n - 1) 0) (64 - s)
        else if i = 0 then shl64 (l.getD 0 0) s
        else shl64 (l.getD i 0) s ||| shr64 (l.getD (i - 1) 0) (64 - s)).getD n 0 < 2 ^ s := by
  have ha : ∀ i, (fun i => l.getD i 0) i < 2 ^ 64 := fun i => limbsOK_getD l i hl
  refine ⟨by simp, ?_, ?_, ?_⟩
  · apply limbsOK_map_range
    intro i _
    by_cases hin : i = n
    · rw [if_pos hin]
      exact Nat.lt_of_le_of_lt (shr64_le _ _) (limbsOK_getD l _ hl)
    · rw [if_neg hin]
      by_cases hi : i = 0
      · rw [if_pos hi]
        exact shl64_lt _ _
      · rw [if_neg hi]
        exact Nat.or_lt_two_pow (shl64_lt _ _)
          (Nat.lt_of_le_of_lt (shr64_le _ _) (limbsOK_getD l _ hl))
  · obtain ⟨m, rfl⟩ : ∃ m, n = m + 1 := ⟨n - 1, by omega⟩
    have h := shiftLeft_limbs (fun i => l.getD i 0) s (by omega) ha m
    rw [map_getD_range l (m + 1) hnl] at h
    rw [range_map_succ, if_pos rfl, ← h, Nat.add_sub_cancel]
    congr 2
    apply List.map_congr_left
    intro i hi
    rw [List.mem_range] at hi
    rw [if_neg (by omega)]
  · rw [getD_map_range _ _ _ (by omega), if_pos rfl]
    exact shr64_lt _ s (limbsOK_getD l _ hl) (by omega)

theorem limbsVal_zeros (l : List Nat) (h : ∀ x ∈ l, x = 0) : limbsVal l = 0 := by
  induction l with
  | nil => rfl
  | cons x xs ih =>
    simp only [limbsVal]
    rw [h x (List.mem_cons_self _ _), ih (fun y hy => h y (List.mem_cons_of_mem _ hy))]
    rfl

theorem norm_divmod (U D s : Nat) :
    (U * 2 ^ s) / (D * 2 ^ s) = U / D ∧ (U * 2 ^ s) % (D * 2 ^ s) / 2 ^ s = U % D := by
  have hp : 0 < 2 ^ s := by positivity
  refine ⟨Nat.mul_div_mul_right _ _ hp, ?_⟩
  rw [Nat.mul_mod_mul_right, Nat.mul_div_cancel _ hp]

theorem ofLimbs_spec (l : List Nat) (h : l.length = 4) (hl : limbsOK l) :
    (Uint.ofLimbs l).WF ∧ (Uint.ofLimbs l).toNat = limbsVal l := by
  match l, h with
  | [a, b, c, e], _ =>
    have ha : a < 2 ^ 64 := hl a (by simp)
    have hb : b < 2 ^ 64 := hl b (by simp)
    have hc : c < 2 ^ 64 := hl c (by simp)
    have he : e < 2 ^ 64 := hl e (by simp)
    simp only [Uint.ofLimbs, Uint.WF, Uint.toNat, limbsVal, List.getD_cons_zero,
      List.getD_cons_succ]
    exact ⟨⟨ha, hb, hc, he⟩, by omega⟩

theorem arr_spec (d : Uint) (hd : d.WF) :
    d.arr.length = 4 ∧ limbsOK d.arr ∧ limbsVal d.arr = d.toNat := by
  obtain ⟨h0, h1, h2, h3⟩ := hd
  refine ⟨rfl, ?_, ?_⟩
  · intro x hx
    simp only [Uint.arr, List.mem_cons, List.mem_singleton, List.not_mem_nil, or_false] at hx
    rcases hx with rfl | rfl | rfl | rfl <;> assumption
  · simp only [Uint.arr, limbsVal, Uint.toNat]
    omega

theorem list_snoc2 (l : List Nat) (m : Nat) (h : l.length = m + 2) :
    l = l.take m ++ [l.getD m 0, l.getD (m + 1) 0] := by
  have e1 := take_succ_getD l m (by omega)
  have e2 := take_succ_getD l (m + 1) (by omega)
  have e3 : l.take (m + 1 + 1) = l := List.take_of_length_le (by omega)
  rw [e3, e1] at e2
  conv_lhs => rw [e2]
  simp

/-- The remainder of `udivrem`, shifted back right by `shift`. -/
theorem denorm_rem (l : List Nat) (n s : Nat) (hl : limbsOK l) (hn1 : 1 ≤ n) (hn4 : n ≤ 4)
    (hnl : n ≤ l.length) (hs : s ≤ 63) :
    ((List.range 4).map fun i =>
        if i < n - 1 then shr64 (l.getD i 0) s ||| shl64 (l.getD (i + 1) 0) (64 - s)
        else if i = n - 1 then shr64 (l.getD (n - 1) 0) s
        else 0).length = 4 ∧
    limbsOK ((List.range 4).map fun i =>
        if i < n - 1 then shr64 (l.getD i 0) s ||| shl64 (l.getD (i + 1) 0) (64 - s)
        else if i = n - 1 then shr64 (l.getD (n - 1) 0) s
        else 0) ∧
    limbsVal ((List.range 4).map fun i =>
        if i < n - 1 then shr64 (l.getD i 0) s ||| shl64 (l.getD (i + 1) 0) (64 - s)
        else if i = n - 1 then shr64 (l.getD (n - 1) 0) s
        else 0) = limbsVal (l.take n) / 2 ^ s := by
  have ha : ∀ i, (fun i => l.getD i 0) i < 2 ^ 64 := fun i => limbsOK_getD l i hl
  refine ⟨by simp, ?_, ?_⟩
  · apply limbsOK_map_range
    intro i _
    by_cases h1 : i < n - 1
    · rw [if_pos h1]
      exact Nat.or_lt_two_pow (Nat.lt_of_le_of_lt (shr64_le _ _) (limbsOK_getD l _ hl))
        (shl64_lt _ _)
    · rw [if_neg h1]
      by_cases h2 : i = n - 1
      · rw [if_pos h2]
        exact Nat.lt_of_le_of_lt (shr64_le _ _) (limbsOK_getD l _ hl)
      · rw [if_neg h2]
        norm_num
  · have h := shiftRight_limbs (fun i => l.getD i 0) s (by omega) ha (n - 1)
    have e : n - 1 + 1 = n := by omega
    rw [e, map_getD_range l n hnl] at h
    rw [← h]
    have hr4 : List.range 4 = [0, 1, 2, 3] := rfl
    rw [hr4]
    interval_cases n
    · simp [List.range, List.range.loop, limbsVal]
    · simp [List.range, List.range.loop, limbsVal]
    · simp [List.range, List.range.loop, limbsVal]
      ring
    · simp [List.range, List.range.loop, limbsVal]
      ring

theorem limbsOK_zeros_drop (k : Nat) : limbsOK (List.drop k [0, 0, 0, 0]) ∧
    limbsVal (List.drop k [0, 0, 0, 0]) = 0 := by
  have hz : ∀ x ∈ List.drop k [0, 0, 0, 0], x = 0 := by
    intro x hx
    have := List.mem_of_mem_drop hx
    simp only [List.mem_cons, List.mem_singleton, List.not_mem_nil, or_false, or_self] at this
    exact this
  refine ⟨fun x hx => ?_, limbsVal_zeros _ hz⟩
  rw [hz x hx]
  norm_num

/-- A quotient written into the low `k` limbs of a zeroed `quot`. -/
theorem quot_assemble (q : List Nat) (k V : Nat) (hk : k ≤ 4) (hlen : q.length = 4)
    (hok : limbsOK (q.take k)) (hdrop : q.drop k = List.drop k [0, 0, 0, 0])
    (hv : limbsVal (q.take k) = V) : limbsOK q ∧ limbsVal q = V := by
  obtain ⟨z1, z2⟩ := limbsOK_zeros_drop k
  constructor
  · rw [← List.take_append_drop k q, limbsOK_append, hdrop]
    exact ⟨hok, z1⟩
  · rw [limbsVal_take_drop q k (by omega), hdrop, z2, hv, Nat.mul_zero, Nat.add_zero]

theorem pow_le_limbsVal_top (l : List Nat) (n : Nat) (hn : 0 < n) (hnl : n ≤ l.length) :
    (2 ^ 64) ^ (n - 1) * l.getD (n - 1) 0 ≤ limbsVal (l.take n) := by
  obtain ⟨m, rfl⟩ : ∃ m, n = m + 1 := ⟨n - 1, by omega⟩
  rw [take_succ_getD l m (by omega), limbsVal_snoc, List.length_take,
    Nat.min_eq_left (by omega), Nat.add_sub_cancel]
  omega

theorem limbsVal_top_lt (l : List Nat) (n : Nat) (hl : limbsOK l) (hn : 0 < n)
    (hnl : n ≤ l.length) :
    limbsVal (l.take n) < (2 ^ 64) ^ (n - 1) * (l.getD (n - 1) 0 + 1) := by
  obtain ⟨m, rfl⟩ : ∃ m, n = m + 1 := ⟨n - 1, by omega⟩
  have h := limbsVal_lt _ (limbsOK_take l m hl)
  rw [List.length_take, Nat.min_eq_left (by omega)] at h
  rw [take_succ_getD l m (by omega), limbsVal_snoc, List.length_take,
    Nat.min_eq_left (by omega), Nat.add_sub_cancel, Nat.mul_add, Nat.mul_one]
  omega

theorem udivrem_spec (u : List Nat) (d : Uint) (hu : limbsOK u) (hul : u.length = 4)
    (hd : d.WF) (hd0 : d.toNat ≠ 0) :
    ∃ q r, udivrem [0, 0, 0, 0] u d = some (q, r) ∧ q.length = 4 ∧ limbsOK q ∧
      limbsVal q = limbsVal u / d.toNat ∧ r.WF ∧ r.toNat = limbsVal u % d.toNat := by
  obtain ⟨hal, haok, hav⟩ := arr_spec d hd
  obtain ⟨n1, n2, n3⟩ := sigLen_spec d.arr 4
  have hDv := limbsVal_take_sigLen d.arr 4 (by omega)
  rw [List.take_of_length_le (by omega), hav] at hDv
  have hn0 : sigLen d.arr 4 ≠ 0 := by
    intro h
    rw [h] at hDv
    exact hd0 hDv
  have htop0 := n2 (by omega)
  have htoplt := limbsOK_getD d.arr (sigLen d.arr 4 - 1) haok
  obtain ⟨s1, s2, s3⟩ := LeadingZeros64_spec _ (by omega) htoplt
  obtain ⟨m1, m2, m3⟩ := sigLen_spec u 4
  have hUv := limbsVal_take_sigLen u 4 (by omega)
  rw [List.take_of_length_le (by omega)] at hUv
  have hDge := pow_le_limbsVal_top d.arr (sigLen d.arr 4) (by omega) (by omega)
  rw [← hDv] at hDge
  unfold udivrem
  simp only [hul]
  rw [if_neg hn0]
  generalize hn : sigLen d.arr 4 = n at *
  generalize hs : LeadingZeros64 (d.arr.getD (n - 1) 0) = s at *
  generalize hm : sigLen u 4 = uLen at *
  by_cases hlt : uLen < n
  · rw [if_pos hlt]
    obtain ⟨o1, o2⟩ := ofLimbs_spec u hul hu
    have hUlt := limbsVal_lt _ (limbsOK_take u uLen hu)
    rw [List.length_take, Nat.min_eq_left (by omega), ← hUv] at hUlt
    have hpow : (2 ^ 64) ^ uLen ≤ (2 ^ 64) ^ (n - 1) :=
      Nat.pow_le_pow_right (by norm_num) (by omega)
    have hpt : (2 ^ 64) ^ (n - 1) * 1 ≤ (2 ^ 64) ^ (n - 1) * d.arr.getD (n - 1) 0 :=
      Nat.mul_le_mul_left _ (by omega)
    have hUD : limbsVal u < d.toNat := by omega
    refine ⟨[0, 0, 0, 0], Uint.ofLimbs u, rfl, rfl, ?_, ?_, o1, ?_⟩
    · intro x hx
      simp only [List.mem_cons, List.mem_singleton, List.not_mem_nil, or_false, or_self] at hx
      rw [hx]
      norm_num
    · rw [Nat.div_eq_of_lt hUD]
      rfl
    · rw [o2, Nat.mod_eq_of_lt hUD]
  · rw [if_neg hlt]
    obtain ⟨dn1, dn2, dn3, dn4⟩ := normalize_dn d.arr n s haok (by omega) (by omega) s1 s3
    obtain ⟨un1, un2, un3, un4⟩ := normalize_un u uLen s hu (by omega) (by omega) s1
    rw [← hDv] at dn3
    rw [← hUv] at un3
    generalize hdn : (List.range n).map (fun i => if i = 0 then shl64 (d.arr.getD 0 0) s
        else shl64 (d.arr.getD i 0) s ||| shr64 (d.arr.getD (i - 1) 0) (64 - s)) = dn
      at dn1 dn2 dn3 dn4 ⊢
    generalize hun : (List.range (uLen + 1)).map (fun i =>
        if i = uLen then shr64 (u.getD (uLen - 1) 0) (64 - s)
        else if i = 0 then shl64 (u.getD 0 0) s
        else shl64 (u.getD i 0) s ||| shr64 (u.getD (i - 1) 0) (64 - s)) = un
      at un1 un2 un3 un4 ⊢
    have hdh1 : 2 ^ 63 ≤ dn.getD (n - 1) 0 := by omega
    have hdh2 : dn.getD (n - 1) 0 < 2 ^ 64 := limbsOK_getD dn _ dn2
    obtain ⟨v, hv, -⟩ := reciprocal2by1_spec _ hdh1 hdh2
    obtain ⟨nd1, nd2⟩ := norm_divmod (limbsVal u) d.toNat s
    rw [← dn3, ← un3] at nd1 nd2
    have hs63 : 2 ^ s ≤ 2 ^ 63 := Nat.pow_le_pow_right (by norm_num) s1
    by_cases h1 : n = 1
    · rw [if_pos h1]
      subst h1
      have e10 : (1 : ℕ) - 1 = 0 := rfl
      rw [e10] at hv hdh1 hdh2
      have hdnv : limbsVal dn = dn.getD 0 0 := by
        have e := take_succ_getD dn 0 (by omega)
        rw [List.take_of_length_le (by omega)] at e
        rw [e]
        simp [limbsVal]
      have hunv : limbsVal (un.take uLen) + (2 ^ 64) ^ uLen * un.getD uLen 0 = limbsVal un := by
        have e := take_succ_getD un uLen (by omega)
        rw [List.take_of_length_le (by omega)] at e
        conv_rhs => rw [e, limbsVal_snoc, List.length_take, Nat.min_eq_left (by omega)]
      obtain ⟨l1, l2, l3, l4, l5⟩ := udivremBy1Loop_spec un (dn.getD 0 0) v un2 hdh1 hdh2 hv
        uLen [0, 0, 0, 0] (un.getD uLen 0) (by omega) (by show uLen ≤ 4; omega) (by omega)
      rw [hunv] at l4 l5
      rw [hdnv] at nd1 nd2
      rw [nd1] at l5
      obtain ⟨q1, q2⟩ := quot_assemble _ uLen _ (by omega) l1 l2 l3 l5
      unfold udivremBy1
      rw [hv, un1, Nat.add_sub_cancel]
      refine ⟨_, _, rfl, l1, q1, q2, ?_, ?_⟩
      · have hr := Nat.mod_lt (limbsVal un) (show 0 < dn.getD 0 0 by omega)
        rw [← l4] at hr
        have hle := shr64_le (udivremBy1Loop un (dn.getD 0 0) v uLen [0, 0, 0, 0]
          (un.getD uLen 0)).2 s
        simp only [Uint.SetUint64, Uint.WF]
        refine ⟨by omega, by norm_num, by norm_num, by norm_num⟩
      · simp only [Uint.SetUint64, Uint.toNat, shr64, l4, nd2]
        omega
    · rw [if_neg h1]
      have hn2 : n - 2 + 2 = n := by omega
      have hn21 : n - 2 + 1 = n - 1 := by omega
      have esn := list_snoc2 dn (n - 2) (by omega)
      rw [hn21] at esn
      have hdlo : limbsOK (dn.take (n - 2)) := limbsOK_take _ _ dn2
      have hk : un.length - dn.length = uLen + 1 - n := by rw [un1, dn1]
      have hspec := udivremKnuthLoop_spec (dn.take (n - 2)) (dn.getD (n - 2) 0)
        (dn.getD (n - 1) 0) v hdlo (limbsOK_getD dn _ dn2) hdh1 hdh2 hv (uLen + 1 - n)
        [0, 0, 0, 0] un
      rw [← esn, List.length_take, Nat.min_eq_left (by omega), hn2] at hspec
      have hdropn : (un.drop (uLen + 1 - n)).length = n := by
        rw [List.length_drop, un1]
        omega
      have htopd : (un.drop (uLen + 1 - n)).getD (n - 1) 0 = un.getD uLen 0 := by
        rw [List.getD_eq_getElem?_getD, List.getD_eq_getElem?_getD, List.getElem?_drop]
        congr 2
        omega
      have hwin : limbsVal ((un.drop (uLen + 1 - n)).take n) < limbsVal dn := by
        have t1 := limbsVal_top_lt (un.drop (uLen + 1 - n)) n (limbsOK_drop _ _ un2)
          (by omega) (by omega)
        rw [htopd] at t1
        have t2 := pow_le_limbsVal_top dn n (by omega) (by omega)
        rw [List.take_of_length_le (show dn.length ≤ n by omega)] at t2
        have t3 : (2 ^ 64) ^ (n - 1) * (un.getD uLen 0 + 1)
            ≤ (2 ^ 64) ^ (n - 1) * dn.getD (n - 1) 0 := Nat.mul_le_mul_left _ (by omega)
        omega
      obtain ⟨l1, l2, l3, l4, l5, l6, l7⟩ := hspec (by omega) (by show uLen + 1 - n ≤ 4; omega)
        un2 hwin
      have hkn : uLen + 1 - n + n = uLen + 1 := by omega
      rw [hkn, List.take_of_length_le (show un.length ≤ uLen + 1 by omega)] at l6 l7
      rw [nd1] at l7
      obtain ⟨q1, q2⟩ := quot_assemble _ (uLen + 1 - n) _ (by omega) l3 l4 l5 l7
      obtain ⟨r1, r2, r3⟩ := denorm_rem
        (udivremKnuthLoop dn (dn.getD (n - 1) 0) (dn.getD (n - 2) 0) v (uLen + 1 - n)
          [0, 0, 0, 0] un).2 n s l2 (by omega) (by omega) (by omega) s1
      obtain ⟨o1, o2⟩ := ofLimbs_spec _ r1 r2
      unfold udivremKnuth
      simp only [dn1, un1, hv]
      refine ⟨_, _, rfl, l3, q1, q2, o1, ?_⟩
      rw [o2, r3, l6, nd2]

theorem isUint64_toNat (x : Uint) (h : x.IsUint64 = true) : x.toNat = x.arr0 := by
  rw [IsUint64_iff] at h
  obtain ⟨h1, h2, h3⟩ := h
  simp only [Uint.toNat, h1, h2, h3]
  omega

theorem Div_val (x y : Uint) (hx : x.WF) (hy : y.WF) (hy0 : y.toNat ≠ 0) :
    ∃ z, x.Div y = some z ∧ z.WF ∧ z.toNat = x.toNat / y.toNat := by
  have hz : ¬ y.IsZero = true := by
    rw [IsZero_iff_toNat]
    exact hy0
  have hypos : 0 < y.toNat := Nat.pos_of_ne_zero hy0
  unfold Uint.Div
  by_cases hgt : y.Gt x = true
  · have hlt := (Gt_iff y x hy hx).1 hgt
    rw [if_pos (by simp [hgt])]
    refine ⟨_, rfl, by simp [Uint.Clear, Uint.WF], ?_⟩
    rw [Nat.div_eq_of_lt hlt]
    rfl
  · have hle : y.toNat ≤ x.toNat := by
      rw [Gt_iff y x hy hx] at hgt
      omega
    rw [if_neg (by simp [hz, hgt])]
    by_cases heq : x.Eq y = true
    · rw [if_pos heq]
      rw [Eq_iff] at heq
      subst heq
      refine ⟨_, rfl, by simp [Uint.SetOne, Uint.WF], ?_⟩
      rw [Nat.div_self hypos]
      rfl
    · rw [if_neg heq]
      by_cases h64 : x.IsUint64 = true
      · rw [if_pos h64]
        have hxv := isUint64_toNat x h64
        have hx0 : x.arr0 < 2 ^ 64 := hx.1
        have hy64 : y.IsUint64 = true := by
          rw [IsUint64_iff]
          rw [hxv] at hle
          obtain ⟨y0, y1, y2, y3⟩ := y
          simp only [Uint.toNat] at hle
          simp only
          omega
        have hyv := isUint64_toNat y hy64
        simp only [Uint.Uint64]
        rw [if_neg (by omega)]
        refine ⟨_, rfl, ?_, ?_⟩
        · have := Nat.div_le_self x.arr0 y.arr0
          simp only [Uint.SetUint64, Uint.WF]
          refine ⟨by omega, by norm_num, by norm_num, by norm_num⟩
        · rw [hxv, hyv]
          simp only [Uint.SetUint64, Uint.toNat]
          omega
      · rw [if_neg h64]
        obtain ⟨a1, a2, a3⟩ := arr_spec x hx
        obtain ⟨q, r, hqr, q1, q2, q3, -, -⟩ := udivrem_spec x.arr y a2 a1 hy hy0
        rw [hqr]
        obtain ⟨o1, o2⟩ := ofLimbs_spec q q1 q2
        exact ⟨_, rfl, o1, by rw [o2, q3, a3]⟩

theorem Mod_val (x y : Uint) (hx : x.WF) (hy : y.WF) (hy0 : y.toNat ≠ 0) :
    ∃ z, x.Mod y = some z ∧ z.WF ∧ z.toNat = x.toNat % y.toNat := by
  have hz : ¬ y.IsZero = true := by
    rw [IsZero_iff_toNat]
    exact hy0
  have hypos : 0 < y.toNat := Nat.pos_of_ne_zero hy0
  obtain ⟨c1, c2, c3⟩ := Cmp_spec x y hx hy
  unfold Uint.Mod
  by_cases hxz : x.IsZero = true
  · rw [if_pos (by simp [hxz])]
    rw [IsZero_iff_toNat] at hxz
    refine ⟨_, rfl, by simp [Uint.Clear, Uint.WF], ?_⟩
    rw [hxz, Nat.zero_mod]
    rfl
  · rw [if_neg (by simp [hz, hxz])]
    by_cases hlt : x.Cmp y = -1
    · rw [if_pos hlt]
      rw [c1] at hlt
      exact ⟨_, rfl, hx, (Nat.mod_eq_of_lt hlt).symm⟩
    · rw [if_neg hlt]
      by_cases heq : x.Cmp y = 0
      · rw [if_pos heq]
        rw [c2] at heq
        refine ⟨_, rfl, by simp [Uint.Clear, Uint.WF], ?_⟩
        rw [heq, Nat.mod_self]
        rfl
      · rw [if_neg heq]
        have hle : y.toNat ≤ x.toNat := by
          rw [c1] at hlt
          omega
        by_cases h64 : x.IsUint64 = true
        · rw [if_pos h64]
          have hxv := isUint64_toNat x h64
          have hx0 : x.arr0 < 2 ^ 64 := hx.1
          have hy64 : y.IsUint64 = true := by
            rw [IsUint64_iff]
            rw [hxv] at hle
            obtain ⟨y0, y1, y2, y3⟩ := y
            simp only [Uint.toNat] at hle
            simp only
            omega
          have hyv := isUint64_toNat y hy64
          simp only [Uint.Uint64]
          rw [if_neg (by omega)]
          refine ⟨_, rfl, ?_, ?_⟩
          · have := Nat.mod_le x.arr0 y.arr0
            simp only [Uint.SetUint64, Uint.WF]
            refine ⟨by omega, by norm_num, by norm_num, by norm_num⟩
          · rw [hxv, hyv]
            simp only [Uint.SetUint64, Uint.toNat]
            omega
        · rw [if_neg h64]
          obtain ⟨a1, a2, a3⟩ := arr_spec x hx
          obtain ⟨q, r, hqr, -, -, -, r1, r2⟩ := udivrem_spec x.arr y a2 a1 hy hy0
          rw [hqr]
          exact ⟨_, rfl, r1, by rw [r2, a3]⟩

/-! ## Shifts: proofs -/

theorem and_63 (n : Nat) : n &&& 0x3f = n % 64 :=
  Nat.and_pow_two_sub_one_eq_mod n 6

theorem shl_add_shr_lt (x y s : Nat) (hy : y < 2 ^ 64) (hs : s ≤ 64) :
    shl64 x s + shr64 y (64 - s) < 2 ^ 64 := by
  have h1 := shl64_eq x s hs
  have h2 := shr64_lt y s hy hs
  have h3 : x % 2 ^ (64 - s) < 2 ^ (64 - s) := Nat.mod_lt _ (by positivity)
  have h4 := two_pow_split s hs
  rw [h1, h4]
  generalize x % 2 ^ (64 - s) = m at *
  generalize shr64 y (64 - s) = h at *
  generalize 2 ^ (64 - s) = Q at *
  generalize 2 ^ s = P at *
  have : P * (m + 1) ≤ P * Q := Nat.mul_le_mul_left _ h3
  rw [Nat.mul_add, Nat.mul_one] at this
  omega

/-- The limbs a left shift by `s` bits (`s ≤ 64`) makes of one limb: the part that stays, the
part that moves up, and the bound on their combination with a neighbour. -/
theorem lsh_limb (a b s : Nat) (hb : b < 2 ^ 64) (hs : s ≤ 64) :
    a * 2 ^ s = shr64 a (64 - s) * 2 ^ 64 + shl64 a s ∧
    shl64 a s ||| shr64 b (64 - s) = shl64 a s + shr64 b (64 - s) ∧
    shl64 a s + shr64 b (64 - s) < 2 ^ 64 :=
  ⟨shl_split a s hs, shl_or_shr a b s hb hs, shl_add_shr_lt a b s hb hs⟩

theorem pow_mul_mod_256 (v n : Nat) (h : 256 ≤ n) : (v * 2 ^ n) % 2 ^ 256 = 0 := by
  obtain ⟨k, rfl⟩ := Nat.exists_eq_add_of_le h
  rw [pow_add, Nat.mul_left_comm]
  exact Nat.mul_mod_right _ _

theorem pow_split_at (n s q : Nat) (h : n = s + q) : 2 ^ n = 2 ^ s * 2 ^ q := by
  subst h
  exact pow_add 2 s q

/-- `Lsh` with a residual shift `0 < s < 64` after a move by `q` whole limbs. -/
theorem lsh_resid (x : Uint) (hx : x.WF) (s : Nat) (hs : s ≤ 64) :
    ((Uint.lshFrom64 ⟨shl64 x.arr0 s, x.arr1, x.arr2, x.arr3⟩ s (shr64 x.arr0 (64 - s))).WF ∧
     (Uint.lshFrom64 ⟨shl64 x.arr0 s, x.arr1, x.arr2, x.arr3⟩ s (shr64 x.arr0 (64 - s))).toNat
       = (x.toNat * 2 ^ s) % 2 ^ 256) ∧
    ((x.lsh64.lshFrom64 s 0).WF ∧
     (x.lsh64.lshFrom64 s 0).toNat = (x.toNat * (2 ^ s * 2 ^ 64)) % 2 ^ 256) ∧
    ((x.lsh128.lshFrom128 s 0).WF ∧
     (x.lsh128.lshFrom128 s 0).toNat = (x.toNat * (2 ^ s * 2 ^ 128)) % 2 ^ 256) ∧
    ((x.lsh192.lshFrom192 s 0).WF ∧
     (x.lsh192.lshFrom192 s 0).toNat = (x.toNat * (2 ^ s * 2 ^ 192)) % 2 ^ 256) := by
  obtain ⟨a0, a1, a2, a3⟩ := x
  obtain ⟨h0, h1, h2, h3⟩ := hx
  simp only at h0 h1 h2 h3
  simp only [Uint.lshFrom64, Uint.lshFrom128, Uint.lshFrom192, Uint.lsh64, Uint.lsh128,
    Uint.lsh192, Uint.WF, Uint.toNat, Nat.or_zero]
  obtain ⟨e0, -, -⟩ := lsh_limb a0 0 s (by norm_num) hs
  obtain ⟨e1, o1, l1⟩ := lsh_limb a1 a0 s h0 hs
  obtain ⟨e2, o2, l2⟩ := lsh_limb a2 a1 s h1 hs
  obtain ⟨e3, o3, l3⟩ := lsh_limb a3 a2 s h2 hs
  have b0 := shl64_lt a0 s
  have b1 := shl64_lt a1 s
  have b2 := shl64_lt a2 s
  have b3 := shl64_lt a3 s
  rw [o1, o2, o3]
  generalize shl64 a0 s = lo0 at *
  generalize shl64 a1 s = lo1 at *
  generalize shl64 a2 s = lo2 at *
  generalize shl64 a3 s = lo3 at *
  generalize shr64 a0 (64 - s) = hi0 at *
  generalize shr64 a1 (64 - s) = hi1 at *
  generalize shr64 a2 (64 - s) = hi2 at *
  generalize shr64 a3 (64 - s) = hi3 at *
  generalize 2 ^ s = P at *
  refine ⟨⟨⟨b0, l1, l2, l3⟩, ?_⟩, ⟨⟨by norm_num, b0, l1, l2⟩, ?_⟩,
    ⟨⟨by norm_num, by norm_num, b0, l1⟩, ?_⟩, ⟨⟨by norm_num, by norm_num, by norm_num, b0⟩, ?_⟩⟩
  · refine (divmod_of_eq _ _ hi3 _ ?_ (by omega)).2.symm
    linear_combination e0.symm + 2 ^ 64 * e1.symm + 2 ^ 128 * e2.symm + 2 ^ 192 * e3.symm
  · refine (divmod_of_eq _ _ (hi2 + lo3 + hi3 * 2 ^ 64) _ ?_ (by omega)).2.symm
    linear_combination 2 ^ 64 * e0.symm + 2 ^ 128 * e1.symm + 2 ^ 192 * e2.symm +
      2 ^ 256 * e3.symm
  · refine (divmod_of_eq _ _ (hi1 + lo2 + (hi2 + lo3) * 2 ^ 64 + hi3 * 2 ^ 128) _ ?_
      (by omega)).2.symm
    linear_combination 2 ^ 128 * e0.symm + 2 ^ 192 * e1.symm + 2 ^ 256 * e2.symm +
      2 ^ 320 * e3.symm
  · refine (divmod_of_eq _ _ (hi0 + lo1 + (hi1 + lo2) * 2 ^ 64 + (hi2 + lo3) * 2 ^ 128 +
      hi3 * 2 ^ 192) _ ?_ (by omega)).2.symm
    linear_combination 2 ^ 192 * e0.symm + 2 ^ 256 * e1.symm + 2 ^ 320 * e2.symm +
      2 ^ 384 * e3.symm

theorem Lsh_spec (x : Uint) (hx : x.WF) (n : Nat) :
    (x.Lsh n).WF ∧ (x.Lsh n).toNat = (x.toNat * 2 ^ n) % 2 ^ 256 := by
  have hxl := toNat_lt x hx
  have hz : Uint.Clear.WF ∧ Uint.Clear.toNat = 0 := by
    simp [Uint.Clear, Uint.WF, Uint.toNat]
  unfold Uint.Lsh
  rw [and_63]
  by_cases h64 : n % 64 = 0
  · rw [if_pos h64]
    by_cases c0 : n = 0
    · subst c0
      rw [if_pos rfl, pow_zero, Nat.mul_one, Nat.mod_eq_of_lt hxl]
      exact ⟨hx, rfl⟩
    rw [if_neg c0]
    obtain ⟨a0, a1, a2, a3⟩ := x
    obtain ⟨h0, h1, h2, h3⟩ := hx
    simp only at h0 h1 h2 h3
    by_cases c1 : n = 64
    · subst c1
      rw [if_pos rfl]
      simp only [Uint.lsh64, Uint.WF, Uint.toNat]
      refine ⟨⟨by norm_num, h0, h1, h2⟩, ?_⟩
      omega
    rw [if_neg c1]
    by_cases c2 : n = 128
    · subst c2
      rw [if_pos rfl]
      simp only [Uint.lsh128, Uint.WF, Uint.toNat]
      refine ⟨⟨by norm_num, by norm_num, h0, h1⟩, ?_⟩
      omega
    rw [if_neg c2]
    by_cases c3 : n = 192
    · subst c3
      rw [if_pos rfl]
      simp only [Uint.lsh192, Uint.WF, Uint.toNat]
      refine ⟨⟨by norm_num, by norm_num, by norm_num, h0⟩, ?_⟩
      omega
    rw [if_neg c3, pow_mul_mod_256 _ n (by omega)]
    exact hz
  · rw [if_neg h64]
    obtain ⟨r0, r1, r2, r3⟩ := lsh_resid x hx (n % 64) (by omega)
    by_cases c3 : n > 192
    · rw [if_pos c3]
      by_cases c4 : n > 256
      · rw [if_pos c4, pow_mul_mod_256 _ n (by omega)]
        exact hz
      · rw [if_neg c4]
        have e : n - 192 = n % 64 := by omega
        have e2 : 2 ^ n = 2 ^ (n % 64) * 2 ^ 192 := pow_split_at n _ _ (by omega)
        rw [e, e2]
        exact r3
    rw [if_neg c3]
    by_cases c2 : n > 128
    · rw [if_pos c2]
      have e : n - 128 = n % 64 := by omega
      have e2 : 2 ^ n = 2 ^ (n % 64) * 2 ^ 128 := pow_split_at n _ _ (by omega)
      rw [e, e2]
      exact r2
    rw [if_neg c2]
    by_cases c1 : n > 64
    · rw [if_pos c1]
      have e : n - 64 = n % 64 := by omega
      have e2 : 2 ^ n = 2 ^ (n % 64) * 2 ^ 64 := pow_split_at n _ _ (by omega)
      rw [e, e2]
      exact r1
    rw [if_neg c1]
    have e : n % 64 = n := by omega
    rw [e] at r0
    exact r0

/-- The limbs a right shift by `s` bits (`s ≤ 64`) makes of a limb `b` and its lower neighbour
`a`: `b` splits into the part that stays and the part `r` that moves down. -/
theorem rsh_limb (a b s : Nat) (ha : a < 2 ^ 64) (hs : s ≤ 64) :
    ∃ r, r < 2 ^ s ∧ b = shr64 b s * 2 ^ s + r ∧ shl64 b (64 - s) = 2 ^ (64 - s) * r ∧
      shr64 a s ||| shl64 b (64 - s) = shr64 a s + 2 ^ (64 - s) * r ∧
      shr64 a s + 2 ^ (64 - s) * r < 2 ^ 64 := by
  have e : 64 - (64 - s) = s := by omega
  have h1 := shl64_eq b (64 - s) (by omega)
  rw [e] at h1
  have h2 := shr_or_shl a b s ha hs
  have h3 := shl_add_shr_lt b a (64 - s) ha (by omega)
  rw [e] at h3
  refine ⟨b % 2 ^ s, Nat.mod_lt _ (by positivity), ?_, h1, ?_, ?_⟩
  · simp only [shr64]
    exact (Nat.div_add_mod' b (2 ^ s)).symm
  · rw [h2, h1]
  · rw [← h1]
    omega

/-- `Rsh` with a residual shift `s ≤ 64`, after each of the moves by whole limbs. -/
theorem rsh_resid (x : Uint) (hx : x.WF) (s : Nat) (hs : s ≤ 64) :
    ((Uint.rshFrom64 ⟨x.arr0, x.arr1, x.arr2, shr64 x.arr3 s⟩ s (shl64 x.arr3 (64 - s))).WF ∧
     (Uint.rshFrom64 ⟨x.arr0, x.arr1, x.arr2, shr64 x.arr3 s⟩ s (shl64 x.arr3 (64 - s))).toNat
       = x.toNat / 2 ^ s) ∧
    ((x.rsh64.rshFrom64 s 0).WF ∧
     (x.rsh64.rshFrom64 s 0).toNat = x.toNat / (2 ^ s * 2 ^ 64)) ∧
    ((x.rsh128.rshFrom128 s 0).WF ∧
     (x.rsh128.rshFrom128 s 0).toNat = x.toNat / (2 ^ s * 2 ^ 128)) ∧
    ((x.rsh192.rshFrom192 s 0).WF ∧
     (x.rsh192.rshFrom192 s 0).toNat = x.toNat / (2 ^ s * 2 ^ 192)) := by
  obtain ⟨a0, a1, a2, a3⟩ := x
  obtain ⟨h0, h1, h2, h3⟩ := hx
  simp only at h0 h1 h2 h3
  simp only [Uint.rshFrom64, Uint.rshFrom128, Uint.rshFrom192, Uint.rsh64, Uint.rsh128,
    Uint.rsh192, Uint.WF, Uint.toNat, Nat.or_zero]
  obtain ⟨r0, q0, e0, -, -, -⟩ := rsh_limb 0 a0 s (by norm_num) hs
  obtain ⟨r1, q1, e1, s1, o1, l1⟩ := rsh_limb a0 a1 s h0 hs
  obtain ⟨r2, q2, e2, s2, o2, l2⟩ := rsh_limb a1 a2 s h1 hs
  obtain ⟨r3, q3, e3, s3, o3, l3⟩ := rsh_limb a2 a3 s h2 hs
  have b3 : shr64 a3 s < 2 ^ 64 := lt_of_le_of_lt (shr64_le a3 s) h3
  have hPQ : 2 ^ s * 2 ^ (64 - s) = 2 ^ 64 := (two_pow_split s hs).symm
  have hP : 0 < 2 ^ s := by positivity
  rw [o1, o2, o3]
  clear s1 s2 s3 o1 o2 o3
  generalize shr64 a0 s = g0 at *
  generalize shr64 a1 s = g1 at *
  generalize shr64 a2 s = g2 at *
  generalize shr64 a3 s = g3 at *
  generalize 2 ^ (64 - s) = Q at *
  generalize 2 ^ s = P at *
  subst e0 e1 e2 e3
  refine ⟨⟨⟨l1, l2, l3, b3⟩, ?_⟩, ⟨⟨l2, l3, b3, by norm_num⟩, ?_⟩,
    ⟨⟨l3, b3, by norm_num, by norm_num⟩, ?_⟩, ⟨⟨b3, by norm_num, by norm_num, by norm_num⟩, ?_⟩⟩
  · refine (divmod_of_eq _ _ _ r0 ?_ q0).1.symm
    linear_combination (r1 + r2 * 2 ^ 64 + r3 * 2 ^ 128) * hPQ
  · refine (divmod_of_eq _ _ _ (g0 * P + r0 + 2 ^ 64 * r1) ?_ ?_).1.symm
    · linear_combination (r2 * 2 ^ 64 + r3 * 2 ^ 128) * hPQ
    · clear l1 l2 l3 b3 hPQ
      omega
  · refine (divmod_of_eq _ _ _ (g0 * P + r0 + 2 ^ 64 * (g1 * P + r1) + 2 ^ 128 * r2) ?_
      ?_).1.symm
    · linear_combination (r3 * 2 ^ 128) * hPQ
    · clear l1 l2 l3 b3 hPQ
      omega
  · refine (divmod_of_eq _ _ _ (g0 * P + r0 + 2 ^ 64 * (g1 * P + r1) +
      2 ^ 128 * (g2 * P + r2) + 2 ^ 192 * r3) ?_ ?_).1.symm
    · ring
    · clear l1 l2 l3 b3 hPQ
      omega

theorem Rsh_spec (x : Uint) (hx : x.WF) (n : Nat) :
    (x.Rsh n).WF ∧ (x.Rsh n).toNat = x.toNat / 2 ^ n := by
  have hxl := toNat_lt x hx
  have hz : Uint.Clear.WF ∧ Uint.Clear.toNat = 0 := by
    simp [Uint.Clear, Uint.WF, Uint.toNat]
  have hbig : 256 ≤ n → x.toNat / 2 ^ n = 0 := fun h =>
    Nat.div_eq_of_lt (lt_of_lt_of_le hxl (Nat.pow_le_pow_right (by norm_num) h))
  unfold Uint.Rsh
  rw [and_63]
  by_cases h64 : n % 64 = 0
  · rw [if_pos h64]
    by_cases c0 : n = 0
    · subst c0
      rw [if_pos rfl, pow_zero, Nat.div_one]
      exact ⟨hx, rfl⟩
    rw [if_neg c0]
    by_cases c1 : n = 64
    · subst c1
      rw [if_pos rfl]
      obtain ⟨a0, a1, a2, a3⟩ := x
      obtain ⟨h0, h1, h2, h3⟩ := hx
      simp only at h0 h1 h2 h3
      simp only [Uint.rsh64, Uint.WF, Uint.toNat]
      refine ⟨⟨h1, h2, h3, by norm_num⟩, ?_⟩
      omega
    rw [if_neg c1]
    by_cases c2 : n = 128
    · subst c2
      rw [if_pos rfl]
      obtain ⟨a0, a1, a2, a3⟩ := x
      obtain ⟨h0, h1, h2, h3⟩ := hx
      simp only at h0 h1 h2 h3
      simp only [Uint.rsh128, Uint.WF, Uint.toNat]
      refine ⟨⟨h2, h3, by norm_num, by norm_num⟩, ?_⟩
      omega
    rw [if_neg c2]
    by_cases c3 : n = 192
    · subst c3
      rw [if_pos rfl]
      obtain ⟨a0, a1, a2, a3⟩ := x
      obtain ⟨h0, h1, h2, h3⟩ := hx
      simp only at h0 h1 h2 h3
      simp only [Uint.rsh192, Uint.WF, Uint.toNat]
      refine ⟨⟨h3, by norm_num, by norm_num, by norm_num⟩, ?_⟩
      omega
    rw [if_neg c3, hbig (by omega)]
    exact hz
  · rw [if_neg h64]
    obtain ⟨r0, r1, r2, r3⟩ := rsh_resid x hx (n % 64) (by omega)
    by_cases c3 : n > 192
    · rw [if_pos c3]
      by_cases c4 : n > 256
      · rw [if_pos c4, hbig (by omega)]
        exact hz
      · rw [if_neg c4]
        have e : n - 192 = n % 64 := by omega
        have e2 : 2 ^ n = 2 ^ (n % 64) * 2 ^ 192 := pow_split_at n _ _ (by omega)
        rw [e, e2]
        exact r3
    rw [if_neg c3]
    by_cases c2 : n > 128
    · rw [if_pos c2]
      have e : n - 128 = n % 64 := by omega
      have e2 : 2 ^ n = 2 ^ (n % 64) * 2 ^ 128 := pow_split_at n _ _ (by omega)
      rw [e, e2]
      exact r2
    rw [if_neg c2]
    by_cases c1 : n > 64
    · rw [if_pos c1]
      have e : n - 64 = n % 64 := by omega
      have e2 : 2 ^ n = 2 ^ (n % 64) * 2 ^ 64 := pow_split_at n _ _ (by omega)
      rw [e, e2]
      exact r1
    rw [if_neg c1]
    have e : n % 64 = n := by omega
    rw [e] at r0
    exact r0

/-! ## Hex parsing: proofs -/

set_option maxRecDepth 100000 in
theorem bintable_small : ∀ c < 256, bintable.getD c badNibble = nibble c := by
  decide

theorem bintable_spec (c : Nat) : bintable.getD c badNibble = nibble c := by
  by_cases h : c < 256
  · exact bintable_small c h
  · have hl : bintable.length = 256 := by
      simp only [bintable, List.length_append, List.length_replicate, List.length_cons,
        List.length_nil]
    rw [List.getD_eq_default _ _ (by omega)]
    simp only [nibble, badNibble]
    rw [if_neg (by omega), if_neg (by omega), if_neg (by omega)]

theorem nibble_hex (c : Nat)
    (h : (48 ≤ c ∧ c ≤ 57) ∨ (65 ≤ c ∧ c ≤ 70) ∨ (97 ≤ c ∧ c ≤ 102)) : nibble c < 16 := by
  unfold nibble
  split_ifs <;> omega

theorem nibble_bad (c : Nat) :
    nibble c = badNibble ↔ ¬((48 ≤ c ∧ c ≤ 57) ∨ (65 ≤ c ∧ c ≤ 70) ∨ (97 ≤ c ∧ c ≤ 102)) := by
  unfold nibble badNibble
  split_ifs <;> omega

theorem hexVal_foldl (l : List Nat) (acc : Nat) :
    l.foldl (fun a c => 16 * a + nibble c) acc = acc * 16 ^ l.length + hexVal l := by
  induction l generalizing acc with
  | nil => simp [hexVal]
  | cons c cs ih =>
    simp only [hexVal, List.foldl_cons, List.length_cons] at ih ⊢
    rw [ih (16 * acc + _), ih (16 * 0 + _)]
    ring

theorem hexVal_nil : hexVal [] = 0 := rfl

theorem hexVal_cons (c : Nat) (cs : List Nat) :
    hexVal (c :: cs) = nibble c * 16 ^ cs.length + hexVal cs := by
  have h := hexVal_foldl cs (16 * 0 + nibble c)
  simp only [hexVal, List.foldl_cons] at h ⊢
  rw [h]
  ring

theorem hexVal_append (a b : List Nat) :
    hexVal (a ++ b) = hexVal a * 16 ^ b.length + hexVal b := by
  induction a with
  | nil => simp [hexVal_nil]
  | cons c cs ih =>
    rw [List.cons_append, hexVal_cons, hexVal_cons, ih, List.length_append]
    ring

theorem isHexDigits_cons (c : Nat) (cs : List Nat) :
    isHexDigits (c :: cs) ↔
      ((48 ≤ c ∧ c ≤ 57) ∨ (65 ≤ c ∧ c ≤ 70) ∨ (97 ≤ c ∧ c ≤ 102)) ∧ isHexDigits cs := by
  simp [isHexDigits]

theorem isHexDigits_append (a b : List Nat) :
    isHexDigits (a ++ b) ↔ isHexDigits a ∧ isHexDigits b := by
  simp only [isHexDigits, List.mem_append]
  constructor
  · intro h
    exact ⟨fun c hc => h c (Or.inl hc), fun c hc => h c (Or.inr hc)⟩
  · rintro ⟨h1, h2⟩ c (hc | hc)
    · exact h1 c hc
    · exact h2 c hc

theorem hexVal_lt (l : List Nat) (h : isHexDigits l) : hexVal l < 16 ^ l.length := by
  induction l with
  | nil => simp [hexVal_nil]
  | cons c cs ih =>
    rw [isHexDigits_cons] at h
    have h1 := nibble_hex c h.1
    have h2 := ih h.2
    rw [hexVal_cons, List.length_cons, pow_succ]
    generalize 16 ^ cs.length = P at *
    generalize nibble c = v at *
    generalize hexVal cs = w at *
    have : v * P ≤ 15 * P := Nat.mul_le_mul_right _ (by omega)
    omega

/-- The inner loop runs to its end exactly on hex digits. -/
theorem fromHexWindow_ok (l : List Nat) (limb : Nat) :
    (fromHexWindow l limb).2 = true ↔ isHexDigits l := by
  induction l generalizing limb with
  | nil => simp [fromHexWindow, isHexDigits]
  | cons c cs ih =>
    rw [isHexDigits_cons]
    simp only [fromHexWindow]
    rw [bintable_spec]
    by_cases hb : nibble c = badNibble
    · rw [if_pos hb]
      have := (nibble_bad c).1 hb
      simp [this]
    · rw [if_neg hb, ih]
      have := (not_iff_not.2 (nibble_bad c)).1 hb
      simp only [not_not] at this
      simp [this]

/-- The inner loop on at most 16 hex digits computes their value. -/
theorem fromHexWindow_val (l : List Nat) (limb a : Nat) (h : isHexDigits l)
    (hl : limb < 16 ^ a) (ha : a + l.length ≤ 16) :
    (fromHexWindow l limb).1 = limb * 16 ^ l.length + hexVal l := by
  induction l generalizing limb a with
  | nil => simp [fromHexWindow, hexVal_nil]
  | cons c cs ih =>
    rw [isHexDigits_cons] at h
    have hn := nibble_hex c h.1
    have hb : nibble c ≠ badNibble := by
      intro e
      exact (nibble_bad c).1 e h.1
    simp only [fromHexWindow]
    rw [bintable_spec, if_neg hb]
    simp only [List.length_cons] at ha
    have h16 : (16 : Nat) ^ (a + 1) ≤ 16 ^ 16 := Nat.pow_le_pow_right (by norm_num) (by omega)
    have hlt : limb * 16 + nibble c < 16 ^ (a + 1) := by
      rw [pow_succ]
      generalize 16 ^ a = P at *
      omega
    have e : wadd (shl64 limb 4) (nibble c) = limb * 16 + nibble c := by
      have e16 : (16 : Nat) ^ 16 = 2 ^ 64 := by norm_num
      have l1 : limb * 16 < 2 ^ 64 := by omega
      have e4 : (2 : Nat) ^ 4 = 16 := by norm_num
      simp only [wadd, shl64, e4]
      rw [Nat.mod_eq_of_lt l1, Nat.mod_eq_of_lt (by omega)]
    rw [e, ih (limb * 16 + nibble c) (a + 1) h.2 hlt (by omega), hexVal_cons, List.length_cons,
      pow_succ]
    ring

/-- The window of a round of `fromHex`, in terms of the digits `d` after the two-byte
marker `p`. -/
theorem fromHex_window (p d : List Nat) (hp : p.length = 2) (m : Nat) :
    (if 2 + m - 16 < 2 then 2 else 2 + m - 16) = 2 + (m - 16) ∧
    ((p ++ d).take (2 + m)).drop (2 + (m - 16)) = (d.take m).drop (m - 16) := by
  constructor
  · split_ifs <;> omega
  · rw [← hp, List.take_append, List.drop_append]

/-- One round of the outer loop of `fromHex`. -/
theorem fromHexLoop_succ (p d : List Nat) (hp : p.length = 2) (k i m : Nat) (arr : List Nat) :
    fromHexLoop (p ++ d) (k + 1) i (2 + m) arr =
      if (fromHexWindow ((d.take m).drop (m - 16)) (arr.getD i 0)).2 then
        fromHexLoop (p ++ d) k (i + 1) (2 + (m - 16))
          (arr.set i (fromHexWindow ((d.take m).drop (m - 16)) (arr.getD i 0)).1)
      else (arr.set i (fromHexWindow ((d.take m).drop (m - 16)) (arr.getD i 0)).1,
        some Err.ErrSyntax) := by
  obtain ⟨e1, e2⟩ := fromHex_window p d hp m
  simp only [fromHexLoop]
  rw [e1, e2]

theorem hexVal_split (l : List Nat) :
    hexVal l = hexVal (l.take (l.length - 16)) * 2 ^ 64 + hexVal (l.drop (l.length - 16)) := by
  conv_lhs => rw [← List.take_append_drop (l.length - 16) l]
  rw [hexVal_append, List.length_drop]
  by_cases h : 16 ≤ l.length
  · have e : l.length - (l.length - 16) = 16 := by omega
    rw [e]
    norm_num
  · have e : l.length - 16 = 0 := by omega
    rw [e]
    simp [hexVal_nil]

theorem hexVal_take_split (d : List Nat) (m : Nat) (h : m ≤ d.length) :
    hexVal (d.take m) = hexVal (d.take (m - 16)) * 2 ^ 64 + hexVal ((d.take m).drop (m - 16)) ∧
    (isHexDigits (d.take m) ↔
      isHexDigits (d.take (m - 16)) ∧ isHexDigits ((d.take m).drop (m - 16))) ∧
    ((d.take m).drop (m - 16)).length ≤ 16 := by
  have hl : (d.take m).length = m := by
    rw [List.length_take, Nat.min_eq_left h]
  have e : (d.take m).take (m - 16) = d.take (m - 16) := by
    rw [List.take_take, Nat.min_eq_left (by omega)]
  refine ⟨?_, ?_, ?_⟩
  · have := hexVal_split (d.take m)
    rw [hl, e] at this
    exact this
  · have := isHexDigits_append ((d.take m).take (m - 16)) ((d.take m).drop (m - 16))
    rw [List.take_append_drop, e] at this
    exact this
  · rw [List.length_drop, hl]
    omega

/-- The outer loop of `fromHex` ends without an error exactly when every byte among the (at
most `16 k`) digits still to read is a hex digit; its only error is `ErrSyntax`. -/
theorem fromHexLoop_err (p d : List Nat) (hp : p.length = 2) (k i m : Nat) (arr : List Nat)
    (h : m ≤ d.length) (hk : m ≤ 16 * k) :
    ((fromHexLoop (p ++ d) k i (2 + m) arr).2 = none ↔ isHexDigits (d.take m)) ∧
    ((fromHexLoop (p ++ d) k i (2 + m) arr).2 = none ∨
     (fromHexLoop (p ++ d) k i (2 + m) arr).2 = some Err.ErrSyntax) := by
  induction k generalizing i m arr with
  | zero =>
    have e : m = 0 := by omega
    subst e
    simp [fromHexLoop, isHexDigits]
  | succ k ih =>
    obtain ⟨-, s2, -⟩ := hexVal_take_split d m h
    rw [fromHexLoop_succ p d hp, s2]
    by_cases hw : (fromHexWindow ((d.take m).drop (m - 16)) (arr.getD i 0)).2 = true
    · rw [if_pos hw]
      have hw2 := (fromHexWindow_ok _ _).1 hw
      obtain ⟨i1, i2⟩ := ih (i + 1) (m - 16)
        (arr.set i (fromHexWindow ((d.take m).drop (m - 16)) (arr.getD i 0)).1) (by omega)
        (by omega)
      refine ⟨?_, i2⟩
      rw [i1]
      simp [hw2]
    · rw [if_neg hw]
      have hw2 : ¬ isHexDigits ((d.take m).drop (m - 16)) := fun hh =>
        hw ((fromHexWindow_ok _ _).2 hh)
      simp [hw2]

/-- A window of at most 16 hex digits, read from limb 0. -/
theorem fromHexWindow_zero (w : List Nat) (h : isHexDigits w) (hl : w.length ≤ 16) :
    fromHexWindow w 0 = (hexVal w, true) ∧ hexVal w < 2 ^ 64 := by
  have h1 := fromHexWindow_val w 0 0 h (by norm_num) (by omega)
  have h2 := (fromHexWindow_ok w 0).2 h
  have h3 := hexVal_lt w h
  have h4 : (16 : Nat) ^ w.length ≤ 16 ^ 16 := Nat.pow_le_pow_right (by norm_num) hl
  have e16 : (16 : Nat) ^ 16 = 2 ^ 64 := by norm_num
  rw [Nat.zero_mul, Nat.zero_add] at h1
  refine ⟨Prod.ext h1 h2, ?_⟩
  omega

/-- The outer loop of `fromHex` on at most 64 hex digits. -/
theorem fromHexLoop_val (p d : List Nat) (hp : p.length = 2) (hn : d.length ≤ 64)
    (hd : isHexDigits d) :
    fromHexLoop (p ++ d) 4 0 (2 + d.length) [0, 0, 0, 0]
        = ([hexVal (hexWindow d 0), hexVal (hexWindow d 1), hexVal (hexWindow d 2),
            hexVal (hexWindow d 3)], none) ∧
      hexVal (hexWindow d 0) < 2 ^ 64 ∧ hexVal (hexWindow d 1) < 2 ^ 64 ∧
      hexVal (hexWindow d 2) < 2 ^ 64 ∧ hexVal (hexWindow d 3) < 2 ^ 64 ∧
      hexVal (hexWindow d 0) + hexVal (hexWindow d 1) * 2 ^ 64 +
        hexVal (hexWindow d 2) * 2 ^ 128 + hexVal (hexWindow d 3) * 2 ^ 192 = hexVal d := by
  have w0 : hexWindow d 0 = (d.take d.length).drop (d.length - 16) := rfl
  have w1 : hexWindow d 1 = (d.take (d.length - 16)).drop (d.length - 16 - 16) := by
    unfold hexWindow
    rw [show d.length - 16 * 1 = d.length - 16 by omega,
      show d.length - 16 * (1 + 1) = d.length - 16 - 16 by omega]
  have w2 : hexWindow d 2 = (d.take (d.length - 16 - 16)).drop (d.length - 16 - 16 - 16) := by
    unfold hexWindow
    rw [show d.length - 16 * 2 = d.length - 16 - 16 by omega,
      show d.length - 16 * (2 + 1) = d.length - 16 - 16 - 16 by omega]
  have w3 : hexWindow d 3
      = (d.take (d.length - 16 - 16 - 16)).drop (d.length - 16 - 16 - 16 - 16) := by
    unfold hexWindow
    rw [show d.length - 16 * 3 = d.length - 16 - 16 - 16 by omega,
      show d.length - 16 * (3 + 1) = d.length - 16 - 16 - 16 - 16 by omega]
  rw [w0, w1, w2, w3]
  obtain ⟨v0, x0, l0⟩ := hexVal_take_split d d.length (le_refl _)
  obtain ⟨v1, x1, l1⟩ := hexVal_take_split d (d.length - 16) (by omega)
  obtain ⟨v2, x2, l2⟩ := hexVal_take_split d (d.length - 16 - 16) (by omega)
  obtain ⟨v3, x3, l3⟩ := hexVal_take_split d (d.length - 16 - 16 - 16) (by omega)
  have e4 : d.length - 16 - 16 - 16 - 16 = 0 := by omega
  have t0 : hexVal (d.take (d.length - 16 - 16 - 16 - 16)) = 0 := by
    rw [e4, List.take_zero, hexVal_nil]
  rw [t0] at v3
  have ed : d.take d.length = d := List.take_length d
  have hv0 := Eq.trans (congrArg hexVal ed.symm) v0
  obtain ⟨y0, z0⟩ := x0.1 (by rw [ed]; exact hd)
  obtain ⟨y1, z1⟩ := x1.1 y0
  obtain ⟨y2, z2⟩ := x2.1 y1
  obtain ⟨y3, z3⟩ := x3.1 y2
  obtain ⟨f0, b0⟩ := fromHexWindow_zero _ z0 l0
  obtain ⟨f1, b1⟩ := fromHexWindow_zero _ z1 l1
  obtain ⟨f2, b2⟩ := fromHexWindow_zero _ z2 l2
  obtain ⟨f3, b3⟩ := fromHexWindow_zero _ z3 l3
  refine ⟨?_, b0, b1, b2, b3, ?_⟩
  · rw [fromHexLoop_succ p d hp]
    simp only [List.getD_cons_zero, f0, if_true, List.set_cons_zero]
    rw [fromHexLoop_succ p d hp]
    simp only [List.getD_cons_succ, List.getD_cons_zero, f1, if_true, List.set_cons_succ,
      List.set_cons_zero]
    rw [fromHexLoop_succ p d hp]
    simp only [List.getD_cons_succ, List.getD_cons_zero, f2, if_true, List.set_cons_succ,
      List.set_cons_zero]
    rw [fromHexLoop_succ p d hp]
    simp only [List.getD_cons_succ, List.getD_cons_zero, f3, if_true, List.set_cons_succ,
      List.set_cons_zero]
    rfl
  · rw [hv0, v1, v2, v3]
    ring

/-- The form check passes a marker `0x` or `0X` followed by digits that do not start with a
redundant `0`. -/
theorem checkNumberS_ok (x : Nat) (d : List Nat) (hx : x = 120 ∨ x = 88) (hd : d ≠ [])
    (hz : d.length = 1 ∨ d.head? ≠ some 48) : checkNumberS (48 :: x :: d) = none := by
  match d, hd with
  | c :: cs, _ =>
    simp only [checkNumberS, List.length_cons, List.getD_cons_zero, List.getD_cons_succ]
    rw [if_neg (by omega), if_neg, if_neg (by omega), if_neg]
    · rintro ⟨h1, h2⟩
      rcases hz with hz | hz
      · simp only [List.length_cons] at hz
        omega
      · simp [h2] at hz
    · rcases hx with rfl | rfl <;> simp

/-- `fromHex` on a well-formed hex numeral of at most 64 digits. -/
theorem fromHex_val (z : Uint) (x : Nat) (d : List Nat) (hx : x = 120 ∨ x = 88) (hd : d ≠ [])
    (hz : d.length = 1 ∨ d.head? ≠ some 48) (hn : d.length ≤ 64) (hh : isHexDigits d) :
    z.fromHex (48 :: x :: d)
      = (⟨hexVal (hexWindow d 0), hexVal (hexWindow d 1), hexVal (hexWindow d 2),
          hexVal (hexWindow d 3)⟩, none) ∧
    ∃ v, z.fromHex (48 :: x :: d) = (v, none) ∧ v.WF ∧ v.toNat = hexVal d := by
  obtain ⟨e, b0, b1, b2, b3, hv⟩ := fromHexLoop_val [48, x] d rfl hn hh
  have hlen : (48 :: x :: d).length = 2 + d.length := by
    simp only [List.length_cons]
    omega
  have hr : z.fromHex (48 :: x :: d)
      = (⟨hexVal (hexWindow d 0), hexVal (hexWindow d 1), hexVal (hexWindow d 2),
          hexVal (hexWindow d 3)⟩, none) := by
    unfold Uint.fromHex
    rw [checkNumberS_ok x d hx hd hz]
    simp only
    rw [if_neg (by omega), hlen]
    have e2 : Uint.Clear.arr = [0, 0, 0, 0] := rfl
    have e3 : (48 :: x :: d) = [48, x] ++ d := rfl
    rw [e2, e3, e]
    rfl
  refine ⟨hr, _, hr, ⟨b0, b1, b2, b3⟩, ?_⟩
  simp only [Uint.toNat]
  exact hv

theorem fromHex_empty (z : Uint) : z.fromHex [] = (z, some Err.ErrEmptyString) := rfl

/-- An input that is not empty and does not start with `0x` or `0X`. -/
theorem fromHex_missing (z : Uint) (hex : List Nat) (h0 : hex ≠ [])
    (h : ¬ ∃ x d, (x = 120 ∨ x = 88) ∧ hex = 48 :: x :: d) :
    z.fromHex hex = (z, some Err.ErrMissingPrefix) := by
  have hc : checkNumberS hex = some Err.ErrMissingPrefix := by
    match hex, h0 with
    | [c], _ => simp [checkNumberS]
    | c :: x :: d, _ =>
      simp only [checkNumberS, List.length_cons, List.getD_cons_zero, List.getD_cons_succ]
      rw [if_neg (by omega), if_pos]
      by_contra hn
      simp only [not_or, not_and_or, not_not, not_lt] at hn
      obtain ⟨-, rfl, hx⟩ := hn
      exact h ⟨x, d, hx, rfl⟩
  unfold Uint.fromHex
  rw [hc]

theorem fromHex_bare (z : Uint) (x : Nat) (hx : x = 120 ∨ x = 88) :
    z.fromHex [48, x] = (z, some Err.ErrEmptyNumber) := by
  rcases hx with rfl | rfl <;> rfl

theorem fromHex_leading_zero (z : Uint) (x : Nat) (hx : x = 120 ∨ x = 88) (c : Nat)
    (cs : List Nat) : z.fromHex (48 :: x :: 48 :: c :: cs) = (z, some Err.ErrLeadingZero) := by
  have hc : checkNumberS (48 :: x :: 48 :: c :: cs) = some Err.ErrLeadingZero := by
    simp only [checkNumberS, List.length_cons, List.getD_cons_zero, List.getD_cons_succ]
    rw [if_neg (by omega), if_neg, if_neg (by omega), if_pos]
    · refine ⟨by omega, ?_⟩
      trivial
    · rcases hx with rfl | rfl <;> simp
  unfold Uint.fromHex
  rw [hc]

theorem fromHex_too_long (z : Uint) (x : Nat) (d : List Nat) (hx : x = 120 ∨ x = 88)
    (hz : d.head? ≠ some 48) (hn : 64 < d.length) :
    z.fromHex (48 :: x :: d) = (z, some Err.ErrBig256Range) := by
  unfold Uint.fromHex
  rw [checkNumberS_ok x d hx (by intro e; rw [e] at hn; simp at hn) (Or.inr hz)]
  simp only
  rw [if_pos (by simp only [List.length_cons]; omega)]

theorem fromHex_bad_digit (z : Uint) (x : Nat) (d : List Nat) (hx : x = 120 ∨ x = 88)
    (hd : d ≠ []) (hz : d.length = 1 ∨ d.head? ≠ some 48) (hn : d.length ≤ 64)
    (hh : ¬ isHexDigits d) : (z.fromHex (48 :: x :: d)).2 = some Err.ErrSyntax := by
  have hlen : (48 :: x :: d).length = 2 + d.length := by
    simp only [List.length_cons]
    omega
  have e3 : (48 :: x :: d) = [48, x] ++ d := rfl
  obtain ⟨h1, h2⟩ := fromHexLoop_err [48, x] d rfl 4 0 d.length [0, 0, 0, 0] (le_refl _)
    (by omega)
  rw [List.take_length] at h1
  unfold Uint.fromHex
  rw [checkNumberS_ok x d hx hd hz]
  simp only
  rw [if_neg (by omega), hlen]
  have e2 : Uint.Clear.arr = [0, 0, 0, 0] := rfl
  rw [e2, e3]
  rcases h2 with h2 | h2
  · exact absurd (h1.1 h2) hh
  · exact h2

theorem checkNumberS_ne (hex : List Nat) : checkNumberS hex ≠ some Err.ErrSyntax := by
  unfold checkNumberS
  simp only
  split_ifs <;> simp

theorem fromHexLoop_err_any (hex : List Nat) (k i stop : Nat) (arr : List Nat) :
    (fromHexLoop hex k i stop arr).2 = none ∨
    (fromHexLoop hex k i stop arr).2 = some Err.ErrSyntax := by
  induction k generalizing i stop arr with
  | zero => exact Or.inl rfl
  | succ k ih =>
    simp only [fromHexLoop]
    split_ifs <;> first | exact ih _ _ _ | exact Or.inr rfl

/-- Either `fromHex` returns an error other than `ErrSyntax` and leaves every receiver as it
is, or its result does not depend on the receiver and its error is `nil` or `ErrSyntax`. -/
theorem fromHex_cases (hex : List Nat) :
    (∃ e, e ≠ Err.ErrSyntax ∧ ∀ z : Uint, z.fromHex hex = (z, some e)) ∨
    (∃ r : Uint × Option Err, (r.2 = none ∨ r.2 = some Err.ErrSyntax) ∧
      ∀ z : Uint, z.fromHex hex = r) := by
  cases hc : checkNumberS hex with
  | some err =>
    refine Or.inl ⟨err, ?_, ?_⟩
    · intro e
      rw [e] at hc
      exact checkNumberS_ne hex hc
    · intro z
      unfold Uint.fromHex
      rw [hc]
  | none =>
    by_cases hl : hex.length > 66
    · refine Or.inl ⟨Err.ErrBig256Range, by decide, ?_⟩
      intro z
      unfold Uint.fromHex
      rw [hc]
      simp only
      rw [if_pos hl]
    · refine Or.inr ⟨(Uint.ofLimbs (fromHexLoop hex 4 0 hex.length Uint.Clear.arr).1,
        (fromHexLoop hex 4 0 hex.length Uint.Clear.arr).2), fromHexLoop_err_any _ _ _ _ _, ?_⟩
      intro z
      unfold Uint.fromHex
      rw [hc]
      simp only
      rw [if_neg hl]

/-- The receiver after `fromHex`: untouched unless the error is `ErrSyntax` or there is none;
in those two cases it does not depend on the receiver before the call. -/
theorem fromHex_receiver (z : Uint) (hex : List Nat) :
    (∀ e, (z.fromHex hex).2 = some e → e ≠ Err.ErrSyntax → (z.fromHex hex).1 = z) ∧
    (∀ z1 : Uint, ((z.fromHex hex).2 = none ∨ (z.fromHex hex).2 = some Err.ErrSyntax) →
      z1.fromHex hex = z.fromHex hex) := by
  rcases fromHex_cases hex with ⟨e, he, h⟩ | ⟨r, hr, h⟩
  · rw [h z]
    refine ⟨fun _ _ _ => rfl, ?_⟩
    intro z1 h1
    simp only at h1
    rcases h1 with h1 | h1
    · exact absurd h1 (by simp)
    · exact absurd (Option.some.inj h1) he
  · rw [h z]
    refine ⟨?_, fun z1 _ => h z1⟩
    intro e he hne
    rcases hr with hr | hr
    · rw [hr] at he
      exact absurd he (by simp)
    · rw [hr] at he
      exact absurd (Option.some.inj he).symm hne

/-! ## Decimal text: proofs -/

theorem decVal_foldl (l : List Nat) (acc : Nat) :
    l.foldl (fun a c => 10 * a + (c - 48)) acc = acc * 10 ^ l.length + decVal l := by
  induction l generalizing acc with
  | nil => simp [decVal]
  | cons c cs ih =>
    simp only [decVal, List.foldl_cons, List.length_cons] at ih ⊢
    rw [ih (10 * acc + _), ih (10 * 0 + _)]
    ring

theorem decVal_nil : decVal [] = 0 := rfl

theorem decVal_cons (c : Nat) (cs : List Nat) :
    decVal (c :: cs) = (c - 48) * 10 ^ cs.length + decVal cs := by
  have h := decVal_foldl cs (10 * 0 + (c - 48))
  simp only [decVal, List.foldl_cons] at h ⊢
  rw [h]
  ring

theorem decVal_append (a b : List Nat) :
    decVal (a ++ b) = decVal a * 10 ^ b.length + decVal b := by
  induction a with
  | nil => simp [decVal_nil]
  | cons c cs ih =>
    rw [List.cons_append, decVal_cons, decVal_cons, ih, List.length_append]
    ring

theorem isDigits_cons (c : Nat) (cs : List Nat) :
    isDigits (c :: cs) ↔ (48 ≤ c ∧ c ≤ 57) ∧ isDigits cs := by
  simp [isDigits]

theorem isDigits_append (a b : List Nat) : isDigits (a ++ b) ↔ isDigits a ∧ isDigits b := by
  simp only [isDigits, List.mem_append]
  constructor
  · intro h
    exact ⟨fun c hc => h c (Or.inl hc), fun c hc => h c (Or.inr hc)⟩
  · rintro ⟨h1, h2⟩ c (hc | hc)
    · exact h1 c hc
    · exact h2 c hc

theorem isDigits_replicate (k : Nat) : isDigits (List.replicate k 48) := by
  intro c hc
  rw [List.eq_of_mem_replicate hc]
  omega

theorem decVal_replicate (k : Nat) : decVal (List.replicate k 48) = 0 := by
  induction k with
  | zero => rfl
  | succ k ih => rw [List.replicate_succ, decVal_cons, ih]; simp

theorem decVal_lt (l : List Nat) (h : isDigits l) : decVal l < 10 ^ l.length := by
  induction l with
  | nil => simp [decVal_nil]
  | cons c cs ih =>
    rw [isDigits_cons] at h
    have h2 := ih h.2
    rw [decVal_cons, List.length_cons, pow_succ]
    generalize 10 ^ cs.length = P at *
    generalize decVal cs = w at *
    have : (c - 48) * P ≤ 9 * P := Nat.mul_le_mul_right _ (by omega)
    omega

/-- A numeral without a leading zero is at least the power of ten of its length. -/
theorem decVal_ge (l : List Nat) (h : isDigits l) (hz : l.head? ≠ some 48) (hl : l ≠ []) :
    10 ^ (l.length - 1) ≤ decVal l := by
  match l, hl with
  | c :: cs, _ =>
    rw [isDigits_cons] at h
    simp only [List.head?_cons, ne_eq, Option.some.injEq] at hz
    rw [decVal_cons, List.length_cons, Nat.add_sub_cancel]
    have : 1 * 10 ^ cs.length ≤ (c - 48) * 10 ^ cs.length :=
      Nat.mul_le_mul_right _ (by omega)
    omega

/-- On digit strings of one length the order of the strings is the order of the numbers. -/
theorem strLess_iff (a b : List Nat) (ha : isDigits a) (hb : isDigits b)
    (hl : a.length = b.length) : strLess a b = true ↔ decVal a < decVal b := by
  induction a generalizing b with
  | nil =>
    match b, hl with
    | [], _ => simp [strLess, decVal_nil]
  | cons c cs ih =>
    match b, hl with
    | e :: es, hl =>
      rw [isDigits_cons] at ha hb
      simp only [List.length_cons, Nat.add_right_cancel_iff] at hl
      have i1 := ih es ha.2 hb.2 hl
      have l1 := decVal_lt cs ha.2
      have l2 := decVal_lt es hb.2
      rw [decVal_cons, decVal_cons, ← hl]
      rw [← hl] at l2
      simp only [strLess]
      generalize 10 ^ cs.length = P at *
      generalize decVal cs = u at *
      generalize decVal es = v at *
      by_cases h1 : c < e
      · rw [if_pos h1]
        have : (c - 48 + 1) * P ≤ (e - 48) * P := Nat.mul_le_mul_right _ (by omega)
        rw [Nat.add_mul, Nat.one_mul] at this
        simp only [true_iff]
        omega
      · rw [if_neg h1]
        by_cases h2 : e < c
        · rw [if_pos h2]
          have : (e - 48 + 1) * P ≤ (c - 48) * P := Nat.mul_le_mul_right _ (by omega)
          rw [Nat.add_mul, Nat.one_mul] at this
          simp only [Bool.false_eq_true, false_iff]
          omega
        · rw [if_neg h2, i1]
          have e : c = e := by omega
          subst e
          omega

theorem rangeBreak_replicate (k : Nat) (d : List Nat) (hd : d ≠ []) (hz : d.head? ≠ some 48) :
    rangeBreak (List.replicate k 48 ++ d) = k := by
  match d, hd with
  | c :: cs, _ =>
    simp only [List.head?_cons, ne_eq, Option.some.injEq] at hz
    induction k with
    | zero =>
      simp only [List.replicate_zero, List.nil_append]
      match cs with
      | [] => rfl
      | c2 :: cs2 => simp [rangeBreak, hz]
    | succ k ih =>
      rw [List.replicate_succ, List.cons_append]
      match hk : List.replicate k 48 ++ c :: cs with
      | [] => simp at hk
      | x :: xs =>
        rw [hk] at ih
        simp only [rangeBreak]
        rw [if_neg (by simp), ih]

set_option maxRecDepth 100000 in
theorem twoPow256Sub1_spec :
    twoPow256Sub1.length = 78 ∧ isDigits twoPow256Sub1 ∧ decVal twoPow256Sub1 = 2 ^ 256 - 1 := by
  refine ⟨by decide, ?_, by decide⟩
  unfold isDigits
  decide

/-- The two stripping steps of `SetFromDecimal` on an optional `+`, then `k` zeros, then a
numeral `d` without a leading zero. -/
theorem strip_spec (plus d : List Nat) (k : Nat) (hp : plus = [] ∨ plus = [43])
    (hd : isDigits d) (hne : d ≠ []) (hz : d.head? ≠ some 48) :
    (let s := plus ++ List.replicate k 48 ++ d
     let s := if s.length > 0 ∧ s.getD 0 0 = 43 then s.drop 1 else s
     if s.length > 0 ∧ s.getD 0 0 = 48 then s.drop (rangeBreak s) else s) = d := by
  have h1 : (let s := plus ++ List.replicate k 48 ++ d
      if s.length > 0 ∧ s.getD 0 0 = 43 then s.drop 1 else s) = List.replicate k 48 ++ d := by
    rcases hp with rfl | rfl
    · simp only [List.nil_append]
      rw [if_neg]
      rintro ⟨-, h⟩
      match k with
      | 0 =>
        match d, hne with
        | c :: cs, _ =>
          have := (hd c (List.mem_cons_self _ _))
          simp at h
          omega
      | k + 1 => simp [List.replicate_succ] at h
    · simp
  simp only at h1 ⊢
  rw [h1]
  match k with
  | 0 =>
    simp only [List.replicate_zero, List.nil_append]
    rw [if_neg]
    rintro ⟨-, h⟩
    match d, hne with
    | c :: cs, _ =>
      simp at h hz
      exact hz h
  | k + 1 =>
    rw [if_pos (by simp [List.replicate_succ]), rangeBreak_replicate (k + 1) d hne hz]
    rw [List.drop_append_eq_append_drop]
    simp

theorem parseUintLoop_err (s : List Nat) (n : Nat) (e : Err)
    (h : parseUintLoop s n = .error e) :
    e = Err.parseUintSyntaxError ∨ e = Err.parseUintRangeError := by
  induction s generalizing n with
  | nil => simp [parseUintLoop] at h
  | cons c cs ih =>
    simp only [parseUintLoop] at h
    split at h
    · simp only [Except.error.injEq] at h
      exact Or.inl h.symm
    · split_ifs at h
      · simp only [Except.error.injEq] at h
        exact Or.inl h.symm
      · simp only [Except.error.injEq] at h
        exact Or.inr h.symm
      · simp only [Except.error.injEq] at h
        exact Or.inr h.symm
      · exact ih _ h

theorem parseUint_err (s : List Nat) (e : Err) (h : parseUint s = .error e) :
    e ≠ Err.ErrBig256Range := by
  unfold parseUint at h
  split_ifs at h
  · simp only [Except.error.injEq] at h
    rw [← h]
    decide
  · rcases parseUintLoop_err s 0 e h with rfl | rfl <;> decide

theorem fromDecimalLoop_err (ms : List (Option Uint)) (i : Nat) (z : Uint) (bs : List Nat)
    (remaining : Nat) (z1 : Uint) (e : Err)
    (h : fromDecimalLoop ms i z bs remaining = some (z1, some e)) :
    e ≠ Err.ErrBig256Range := by
  induction ms generalizing i z bs remaining with
  | nil => simp [fromDecimalLoop] at h
  | cons m rest ih =>
    simp only [fromDecimalLoop] at h
    by_cases h0 : remaining = 0
    · rw [if_pos h0] at h
      simp at h
    · rw [if_neg h0] at h
      generalize hr : (if remaining > 19 then
        parseUint (List.drop (remaining - 19) (List.take remaining bs)) else parseUint bs) = r
        at h
      cases r with
      | error err =>
        simp only [Option.some.injEq, Prod.mk.injEq] at h
        rw [← h.2]
        split_ifs at hr
        · exact parseUint_err _ _ hr
        · exact parseUint_err _ _ hr
      | ok num =>
        simp only at h
        split at h
        · simp at h
        · exact ih _ _ _ _ h

theorem fromDecimal_err (z : Uint) (bs : List Nat) (z1 : Uint) (e : Err)
    (h : z.fromDecimal bs = some (z1, some e)) : e ≠ Err.ErrBig256Range := by
  unfold Uint.fromDecimal at h
  simp only at h
  split_ifs at h
  · simp only [Option.some.injEq, Prod.mk.injEq] at h
    rw [← h.2]
    decide
  · exact fromDecimalLoop_err _ _ _ _ _ _ _ h

/-- `SetFromDecimal` after its two stripping steps, on an optional `+`, then `k` zeros, then a
numeral `d` without a leading zero. -/
theorem SetFromDecimal_stripped (z : Uint) (plus d : List Nat) (k : Nat)
    (hp : plus = [] ∨ plus = [43]) (hd : isDigits d) (hne : d ≠ [])
    (hz : d.head? ≠ some 48) :
    z.SetFromDecimal (plus ++ List.replicate k 48 ++ d) =
      if d.length < 78 then z.fromDecimal d
      else if d.length = 78 then
        if strLess twoPow256Sub1 d then some (z, some Err.ErrBig256Range) else z.fromDecimal d
      else some (z, some Err.ErrBig256Range) := by
  have h := strip_spec plus d k hp hd hne hz
  unfold Uint.SetFromDecimal
  simp only at h ⊢
  rw [h, twoPow256Sub1_spec.1]

theorem SetFromDecimal_range (z : Uint) (plus d : List Nat) (k : Nat)
    (hp : plus = [] ∨ plus = [43]) (hd : isDigits d) (hne : d ≠ [])
    (hz : d.head? ≠ some 48) :
    (2 ^ 256 - 1 < decVal d →
      z.SetFromDecimal (plus ++ List.replicate k 48 ++ d) = some (z, some Err.ErrBig256Range)) ∧
    (78 < d.length →
      z.SetFromDecimal (plus ++ List.replicate k 48 ++ d) = some (z, some Err.ErrBig256Range)) ∧
    (d.length = 78 →
      ((∃ z1, z.SetFromDecimal (plus ++ List.replicate k 48 ++ d)
          = some (z1, some Err.ErrBig256Range)) ↔ strLess twoPow256Sub1 d = true) ∧
      (strLess twoPow256Sub1 d = true ↔ 2 ^ 256 - 1 < decVal d)) := by
  obtain ⟨t1, t2, t3⟩ := twoPow256Sub1_spec
  rw [SetFromDecimal_stripped z plus d k hp hd hne hz]
  have hlex : d.length = 78 → (strLess twoPow256Sub1 d = true ↔ 2 ^ 256 - 1 < decVal d) := by
    intro h78
    rw [strLess_iff _ _ t2 hd (by rw [t1, h78]), t3]
  refine ⟨?_, ?_, ?_⟩
  · intro hv
    have hlt := decVal_lt d hd
    have h78 : 78 ≤ d.length := by
      by_contra hc
      have h1 : (10 : Nat) ^ d.length ≤ 10 ^ 77 := Nat.pow_le_pow_right (by norm_num) (by omega)
      have h2 : (10 : Nat) ^ 77 < 2 ^ 256 - 1 := by norm_num
      omega
    rw [if_neg (by omega)]
    by_cases h : d.length = 78
    · rw [if_pos h, if_pos ((hlex h).2 hv)]
    · rw [if_neg h]
  · intro h
    rw [if_neg (by omega), if_neg (by omega)]
  · intro h
    refine ⟨?_, hlex h⟩
    rw [if_neg (by omega), if_pos h]
    by_cases hs : strLess twoPow256Sub1 d = true
    · rw [if_pos hs]
      simp [hs]
    · rw [if_neg hs]
      constructor
      · rintro ⟨z1, he⟩
        exact absurd rfl (fromDecimal_err _ _ _ _ he)
      · intro hh
        exact absurd hh hs

/-- The receiver after `SetFromDecimal`: untouched when the error is `ErrBig256Range`; in every
other case the result does not depend on the receiver before the call. -/
theorem SetFromDecimal_receiver (z : Uint) (s : List Nat) :
    (∀ z1, z.SetFromDecimal s = some (z1, some Err.ErrBig256Range) → z1 = z) ∧
    ((∀ z1, z.SetFromDecimal s ≠ some (z1, some Err.ErrBig256Range)) →
      ∀ z2 : Uint, z2.SetFromDecimal s = z.SetFromDecimal s) := by
  unfold Uint.SetFromDecimal
  simp only
  generalize (if (if s.length > 0 ∧ s.getD 0 0 = 43 then s.drop 1 else s).length > 0 ∧
      (if s.length > 0 ∧ s.getD 0 0 = 43 then s.drop 1 else s).getD 0 0 = 48 then
      (if s.length > 0 ∧ s.getD 0 0 = 43 then s.drop 1 else s).drop
        (rangeBreak (if s.length > 0 ∧ s.getD 0 0 = 43 then s.drop 1 else s))
    else (if s.length > 0 ∧ s.getD 0 0 = 43 then s.drop 1 else s)) = t
  have hf : ∀ z2 : Uint, z2.fromDecimal t = z.fromDecimal t := fun _ => rfl
  by_cases h1 : t.length < twoPow256Sub1.length
  · simp only [if_pos h1]
    exact ⟨fun z1 h => absurd rfl (fromDecimal_err _ _ _ _ h), fun _ z2 => hf z2⟩
  · simp only [if_neg h1]
    by_cases h2 : t.length = twoPow256Sub1.length
    · simp only [if_pos h2]
      by_cases h3 : strLess twoPow256Sub1 t = true
      · simp only [if_pos h3]
        refine ⟨fun z1 h => ?_, fun h => absurd rfl (h z)⟩
        simp only [Option.some.injEq, Prod.mk.injEq] at h
        exact h.1.symm
      · simp only [if_neg h3]
        exact ⟨fun z1 h => absurd rfl (fromDecimal_err _ _ _ _ h), fun _ z2 => hf z2⟩
    · simp only [if_neg h2]
      refine ⟨fun z1 h => ?_, fun h => absurd rfl (h z)⟩
      simp only [Option.some.injEq, Prod.mk.injEq] at h
      exact h.1.symm

/-- The digits `decDigits` makes of a number below `10^k`, with `1 ≤ k ≤ fuel`. -/
theorem decDigits_spec (fuel n k : Nat) (hn : n < 10 ^ k) (hk : 1 ≤ k) (hf : k ≤ fuel) :
    isDigits (decDigits fuel n) ∧ decVal (decDigits fuel n) = n ∧
    (decDigits fuel n).length ≤ k ∧ 1 ≤ (decDigits fuel n).length ∧
    (n ≠ 0 → (decDigits fuel n).head? ≠ some 48) ∧ (n = 0 → decDigits fuel n = [48]) := by
  induction fuel generalizing n k with
  | zero => omega
  | succ fuel ih =>
    simp only [decDigits]
    by_cases h10 : n < 10
    · rw [if_pos h10]
      refine ⟨?_, ?_, by simpa using hk, by simp, ?_, ?_⟩
      · intro c hc
        simp only [List.mem_singleton] at hc
        omega
      · rw [decVal_cons, decVal_nil]
        simp
      · intro h0
        simp only [List.head?_cons, ne_eq, Option.some.injEq]
        omega
      · intro h0
        rw [h0]
    · rw [if_neg h10]
      have hk2 : 2 ≤ k := by
        by_contra hc
        have : k = 1 := by omega
        rw [this] at hn
        omega
      have hn2 : n / 10 < 10 ^ (k - 1) := by
        rw [Nat.div_lt_iff_lt_mul (by norm_num), ← pow_succ]
        have : k - 1 + 1 = k := by omega
        rw [this]
        exact hn
      obtain ⟨i1, i2, i3, i4, i5, -⟩ := ih (n / 10) (k - 1) hn2 (by omega) (by omega)
      have hne : decDigits fuel (n / 10) ≠ [] := by
        intro e
        rw [e] at i4
        simp at i4
      refine ⟨?_, ?_, ?_, ?_, ?_, ?_⟩
      · rw [isDigits_append]
        refine ⟨i1, ?_⟩
        intro c hc
        simp only [List.mem_singleton] at hc
        omega
      · rw [decVal_append, i2, decVal_cons, decVal_nil]
        simp only [List.length_cons, List.length_nil]
        omega
      · rw [List.length_append]
        simp only [List.length_cons, List.length_nil]
        omega
      · rw [List.length_append]
        omega
      · intro _
        rw [List.head?_append_of_ne_nil _ hne]
        exact i5 (by omega)
      · intro h0
        omega

/-- Go `copy` of `buf` into the zeros in front of the digits already written. -/
theorem copyAt_zeros (pos : Nat) (tail buf : List Nat) (h : buf.length ≤ pos) :
    copyAt (List.replicate pos 48 ++ tail) (pos - buf.length) buf
      = List.replicate (pos - buf.length) 48 ++ buf ++ tail := by
  unfold copyAt
  have e1 : (List.replicate pos 48 ++ tail).take (pos - buf.length)
      = List.replicate (pos - buf.length) 48 := by
    rw [List.take_append_of_le_length (by simp), List.take_replicate, Nat.min_eq_left (by omega)]
  have e2 : buf.take ((List.replicate pos 48 ++ tail).length - (pos - buf.length)) = buf := by
    apply List.take_of_length_le
    simp only [List.length_append, List.length_replicate]
    omega
  have e3 : (List.replicate pos 48 ++ tail).drop (pos - buf.length + buf.length) = tail := by
    have : pos - buf.length + buf.length = pos := by omega
    rw [this, List.drop_append_eq_append_drop]
    simp
  rw [e1, e2, e3]

theorem NewUint_spec (v : Nat) (h : v < 2 ^ 64) : (NewUint v).WF ∧ (NewUint v).toNat = v := by
  simp only [NewUint, Uint.WF, Uint.toNat]
  refine ⟨⟨h, by norm_num, by norm_num, by norm_num⟩, by omega⟩

/-- A remainder below `2^64` is its lowest limb. -/
theorem Uint64_of_lt (r : Uint) (hr : r.WF) (h : r.toNat < 2 ^ 64) : r.Uint64 = r.toNat := by
  obtain ⟨r0, r1, r2, r3⟩ := r
  simp only [Uint.WF, Uint.toNat, Uint.Uint64] at hr h ⊢
  omega

/-- The loop of `Dec`: with `out` holding zeros up to `pos` and then the digits `tail` written
so far, and with enough rounds and room left for `y`, it returns the numeral of `y` followed by
`tail`. -/
theorem DecLoop_spec (fuel k : Nat) (y : Uint) (pos : Nat) (tail : List Nat) (hy : y.WF)
    (hy0 : y.toNat ≠ 0) (hk : y.toNat < (10 ^ 19) ^ k) (hf : k ≤ fuel) (hp : 19 * k ≤ pos)
    (ht : isDigits tail) :
    ∃ s, DecLoop fuel y (List.replicate pos 48 ++ tail) pos = some s ∧ isDigits s ∧
      s.head? ≠ some 48 ∧ s ≠ [] ∧ decVal s = y.toNat * 10 ^ tail.length + decVal tail := by
  induction fuel generalizing k y pos tail with
  | zero =>
    have : k = 0 := by omega
    subst this
    simp at hk
    omega
  | succ fuel ih =>
    have hk1 : 1 ≤ k := by
      by_contra hc
      have : k = 0 := by omega
      subst this
      simp at hk
      omega
    obtain ⟨dwf, dval⟩ := NewUint_spec 10000000000000000000 (by norm_num)
    obtain ⟨al, aok, av⟩ := arr_spec y hy
    obtain ⟨q, r, hqr, ql, qok, qv, rwf, rv⟩ :=
      udivrem_spec y.arr (NewUint 10000000000000000000) aok al dwf (by rw [dval]; norm_num)
    rw [av, dval] at qv rv
    obtain ⟨qwf, qval⟩ := ofLimbs_spec q ql qok
    rw [qv] at qval
    have hrlt : r.toNat < 10000000000000000000 := by
      rw [rv]
      exact Nat.mod_lt _ (by norm_num)
    have hr64 : r.Uint64 = r.toNat := Uint64_of_lt r rwf (by omega)
    obtain ⟨b1, b2, b3, b4, b5, -⟩ :=
      decDigits_spec 20 r.toNat 19 (by norm_num; exact hrlt) (by norm_num) (by norm_num)
    have hbuf : AppendUint [] r.Uint64 = decDigits 20 r.toNat := by
      simp only [AppendUint, FormatUint, List.nil_append, hr64]
    simp only [DecLoop, hqr]
    rw [hbuf]
    generalize decDigits 20 r.toNat = buf at *
    rw [if_neg (by omega), copyAt_zeros pos tail buf (by omega)]
    have hdm := Nat.div_add_mod y.toNat 10000000000000000000
    by_cases hz : (Uint.ofLimbs q).IsZero = true
    · rw [if_pos hz]
      rw [IsZero_iff_toNat, qval] at hz
      refine ⟨buf ++ tail, ?_, ?_, ?_, ?_, ?_⟩
      · rw [List.append_assoc, List.drop_append_eq_append_drop]
        simp
      · rw [isDigits_append]
        exact ⟨b1, ht⟩
      · have hne : buf ≠ [] := by
          intro e
          rw [e] at b4
          simp at b4
        rw [List.head?_append_of_ne_nil _ hne]
        apply b5
        omega
      · intro e
        rw [List.append_eq_nil] at e
        rw [e.1] at b4
        simp at b4
      · rw [decVal_append, b2]
        congr 2
        omega
    · rw [if_neg hz]
      rw [IsZero_iff_toNat, qval] at hz
      have hq : y.toNat / 10000000000000000000 < (10 ^ 19) ^ (k - 1) := by
        rw [Nat.div_lt_iff_lt_mul (by norm_num)]
        have e : (10 ^ 19) ^ k = (10 ^ 19) ^ (k - 1) * 10 ^ 19 := by
          rw [← pow_succ]
          congr 1
          omega
        rw [e] at hk
        norm_num at hk ⊢
        exact hk
      have hk2 : 2 ≤ k := by
        by_contra hc
        have : k = 1 := by omega
        subst this
        simp at hq
        exact hz hq
      have hout : List.replicate (pos - buf.length) 48 ++ buf ++ tail
          = List.replicate (pos - 19) 48 ++ (List.replicate (19 - buf.length) 48 ++ buf ++ tail)
          := by
        have e : pos - buf.length = (pos - 19) + (19 - buf.length) := by omega
        rw [e, List.replicate_add]
        simp only [List.append_assoc]
      rw [hout]
      have ht2 : isDigits (List.replicate (19 - buf.length) 48 ++ buf ++ tail) := by
        rw [isDigits_append, isDigits_append]
        exact ⟨⟨isDigits_replicate _, b1⟩, ht⟩
      obtain ⟨s, hs, s1, s2, s3, s4⟩ := ih (k - 1) (Uint.ofLimbs q) (pos - 19)
        (List.replicate (19 - buf.length) 48 ++ buf ++ tail) qwf (by rw [qval]; exact hz)
        (by rw [qval]; exact hq) (by omega) (by omega) ht2
      refine ⟨s, hs, s1, s2, s3, ?_⟩
      rw [s4, qval, decVal_append, decVal_append, decVal_replicate, b2]
      have el : (List.replicate (19 - buf.length) 48 ++ buf ++ tail).length
          = 19 + tail.length := by
        simp only [List.length_append, List.length_replicate]
        omega
      rw [el, pow_add, rv]
      generalize 10 ^ tail.length = T
      generalize decVal tail = V
      generalize y.toNat / 10000000000000000000 = Q at *
      generalize y.toNat % 10000000000000000000 = R at *
      rw [← hdm]
      norm_num
      ring

/-- A numeral without a leading zero whose value is below `2^256` has at most 78 digits. -/
theorem digits_le_78 (s : List Nat) (h : isDigits s) (hz : s.head? ≠ some 48) (hne : s ≠ [])
    (hv : decVal s < 2 ^ 256) : s.length ≤ 78 := by
  by_contra hc
  have h1 := decVal_ge s h hz hne
  have h2 : (10 : Nat) ^ 78 ≤ 10 ^ (s.length - 1) :=
    Nat.pow_le_pow_right (by norm_num) (by omega)
  have h3 : (2 : Nat) ^ 256 < 10 ^ 78 := by norm_num
  omega

/-- `Dec` returns, with five rounds or more, the canonical decimal numeral of its argument. -/
theorem Dec_spec (fuel : Nat) (x : Uint) (hx : x.WF) (hf : 5 ≤ fuel) :
    ∃ s, x.Dec fuel = some s ∧ isDigits s ∧ s ≠ [] ∧ (x.toNat = 0 → s = [48]) ∧
      (x.toNat ≠ 0 → s.head? ≠ some 48) ∧ s.length ≤ 78 ∧ decVal s = x.toNat := by
  have hxl := toNat_lt x hx
  unfold Uint.Dec
  by_cases h0 : x.IsZero = true
  · rw [if_pos h0]
    rw [IsZero_iff_toNat] at h0
    refine ⟨[48], rfl, ?_, by simp, fun _ => rfl, fun h => absurd h0 h, by simp, ?_⟩
    · intro c hc
      simp only [List.mem_singleton] at hc
      omega
    · rw [h0]
      rfl
  · rw [if_neg h0]
    rw [IsZero_iff_toNat] at h0
    by_cases h1 : x.IsUint64 = true
    · rw [if_pos h1]
      have hv := isUint64_toNat x h1
      have hlt : x.arr0 < 2 ^ 64 := hx.1
      obtain ⟨b1, b2, b3, b4, b5, -⟩ :=
        decDigits_spec 20 x.arr0 20 (by norm_num; omega) (by norm_num) (by norm_num)
      have hne : decDigits 20 x.arr0 ≠ [] := by
        intro e
        rw [e] at b4
        simp at b4
      refine ⟨decDigits 20 x.arr0, rfl, b1, hne, fun h => absurd h h0,
        fun _ => b5 (by omega), by omega, by rw [b2, hv]⟩
    · rw [if_neg h1]
      obtain ⟨s, hs, s1, s2, s3, s4⟩ := DecLoop_spec fuel 5 x 98 [] hx h0
        (by norm_num; omega) hf (by norm_num) (by intro c hc; simp at hc)
      rw [List.append_nil] at hs
      rw [decVal_nil, List.length_nil, pow_zero, Nat.mul_one, Nat.add_zero] at s4
      exact ⟨s, hs, s1, s3, fun h => absurd h h0, fun _ => s2,
        digits_le_78 s s1 s2 s3 (by rw [s4]; exact hxl), s4⟩

/-! ## Arithmetic right shift: proofs -/

/-- Bit 255 is the top bit of limb 3. -/
theorem isBitSet_255 (x : Uint) (hx : x.WF) :
    x.isBitSet 255 = true ↔ 2 ^ 255 ≤ x.toNat := by
  obtain ⟨x0, x1, x2, x3⟩ := x
  obtain ⟨h0, h1, h2, h3⟩ := hx
  simp only at h0 h1 h2 h3
  have e1 : (255 : Nat) / 64 = 3 := by norm_num
  have e2 : (255 : Nat) % 64 = 63 := by norm_num
  have e3 : shl64 1 63 = 2 ^ 63 := by
    simp only [shl64]
    norm_num
  simp only [Uint.isBitSet, Uint.arr, Uint.toNat, e1, e2, e3, List.getD_cons_succ,
    List.getD_cons_zero, bne_iff_ne, ne_eq]
  have hb : x3 &&& 2 ^ 63 = 0 ↔ x3.testBit 63 = false := by
    constructor
    · intro h
      have := congrArg (fun v => v.testBit 63) h
      simp only [Nat.testBit_and, Nat.testBit_two_pow_self, Bool.and_true,
        Nat.zero_testBit] at this
      exact this
    · intro h
      apply Nat.eq_of_testBit_eq
      intro i
      rw [Nat.testBit_and, Nat.testBit_two_pow, Nat.zero_testBit]
      by_cases hi : 63 = i
      · subst hi
        simp [h]
      · simp [hi]
  rw [hb, Nat.testBit_to_div_mod]
  simp only [decide_eq_false_iff_not]
  omega

/-- The mask `MaxUint64 << (64 - s)` of `SRsh`, and its combination with a limb shifted right
by `s`. -/
theorem srsh_mask (a s : Nat) (ha : a < 2 ^ 64) (hs : s ≤ 64) :
    shr64 a s ||| shl64 (2 ^ 64 - 1) (64 - s)
      = shr64 a s + (2 ^ 64 - 2 ^ (64 - s)) ∧
    shr64 a s + (2 ^ 64 - 2 ^ (64 - s)) < 2 ^ 64 := by
  have e : 64 - (64 - s) = s := by omega
  have h1 := shl64_eq (2 ^ 64 - 1) (64 - s) (by omega)
  rw [e] at h1
  have hPQ := two_pow_split s hs
  have hm : (2 ^ 64 - 1) % 2 ^ s = 2 ^ s - 1 := by
    have hP : 0 < 2 ^ s := by positivity
    have hQ : 0 < 2 ^ (64 - s) := by positivity
    have : 2 ^ 64 - 1 = (2 ^ (64 - s) - 1) * 2 ^ s + (2 ^ s - 1) := by
      rw [hPQ, Nat.sub_mul, Nat.one_mul, Nat.mul_comm (2 ^ (64 - s))]
      have : 2 ^ s ≤ 2 ^ s * 2 ^ (64 - s) := Nat.le_mul_of_pos_right _ hQ
      omega
    exact (divmod_of_eq _ _ _ _ this.symm (by omega)).2
  have hlt : shr64 a s < 2 ^ (64 - s) := by
    have := shr64_lt a (64 - s) ha (by omega)
    rw [e] at this
    exact this
  rw [hm] at h1
  have hM : shl64 (2 ^ 64 - 1) (64 - s) = 2 ^ 64 - 2 ^ (64 - s) := by
    rw [h1, Nat.mul_sub, Nat.mul_one, Nat.mul_comm, ← hPQ]
  have hor := Nat.mul_add_lt_is_or hlt (2 ^ s - 1)
  rw [hM, Nat.lor_comm]
  rw [← h1, hM] at hor
  constructor
  · rw [← hor, Nat.add_comm]
  · have hQ : 0 < 2 ^ (64 - s) := by positivity
    have : 2 ^ (64 - s) ≤ 2 ^ 64 := Nat.pow_le_pow_right (by norm_num) (by omega)
    omega

/-- `SRsh` with a residual shift `s ≤ 64`, after each of the moves by whole limbs: the limbs
of `Rsh`, with ones in the bits that `Rsh` leaves zero. -/
theorem srsh_resid (x : Uint) (hx : x.WF) (s : Nat) (hs : s ≤ 64) :
    ((Uint.srshFrom64 ⟨x.arr0, x.arr1, x.arr2,
        shr64 x.arr3 s ||| shl64 (2 ^ 64 - 1) (64 - s)⟩ s (shl64 x.arr3 (64 - s))).WF ∧
     (Uint.srshFrom64 ⟨x.arr0, x.arr1, x.arr2,
        shr64 x.arr3 s ||| shl64 (2 ^ 64 - 1) (64 - s)⟩ s (shl64 x.arr3 (64 - s))).toNat
       = x.toNat / 2 ^ s + (2 ^ 64 - 2 ^ (64 - s)) * 2 ^ 192) ∧
    ((x.srsh64.srshFrom64 s (shl64 (2 ^ 64 - 1) (64 - s))).WF ∧
     (x.srsh64.srshFrom64 s (shl64 (2 ^ 64 - 1) (64 - s))).toNat
       = x.toNat / (2 ^ s * 2 ^ 64) + (2 ^ 64 - 2 ^ (64 - s)) * 2 ^ 128
         + (2 ^ 64 - 1) * 2 ^ 192) ∧
    ((x.srsh128.srshFrom128 s (shl64 (2 ^ 64 - 1) (64 - s))).WF ∧
     (x.srsh128.srshFrom128 s (shl64 (2 ^ 64 - 1) (64 - s))).toNat
       = x.toNat / (2 ^ s * 2 ^ 128) + (2 ^ 64 - 2 ^ (64 - s)) * 2 ^ 64
         + (2 ^ 64 - 1) * 2 ^ 128 + (2 ^ 64 - 1) * 2 ^ 192) ∧
    ((x.srsh192.srshFrom192 s (shl64 (2 ^ 64 - 1) (64 - s))).WF ∧
     (x.srsh192.srshFrom192 s (shl64 (2 ^ 64 - 1) (64 - s))).toNat
       = x.toNat / (2 ^ s * 2 ^ 192) + (2 ^ 64 - 2 ^ (64 - s))
         + (2 ^ 64 - 1) * 2 ^ 64 + (2 ^ 64 - 1) * 2 ^ 128 + (2 ^ 64 - 1) * 2 ^ 192) := by
  obtain ⟨⟨w0, v0⟩, ⟨w1, v1⟩, ⟨w2, v2⟩, ⟨w3, v3⟩⟩ := rsh_resid x hx s hs
  rw [← v0, ← v1, ← v2, ← v3]
  obtain ⟨a0, a1, a2, a3⟩ := x
  obtain ⟨h0, h1, h2, h3⟩ := hx
  simp only at h0 h1 h2 h3
  obtain ⟨m3, l3⟩ := srsh_mask a3 s h3 hs
  simp only [Uint.rshFrom64, Uint.rshFrom128, Uint.rshFrom192, Uint.rsh64, Uint.rsh128,
    Uint.rsh192, Uint.srshFrom64, Uint.srshFrom128, Uint.srshFrom192, Uint.srsh64,
    Uint.srsh128, Uint.srsh192, Uint.WF, Uint.toNat, Nat.or_zero] at w0 w1 w2 w3 ⊢
  rw [m3]
  generalize shr64 a3 s = g3 at *
  generalize shr64 a2 s ||| shl64 a3 (64 - s) = c2 at *
  generalize shr64 a1 s ||| shl64 a2 (64 - s) = c1 at *
  generalize shr64 a0 s ||| shl64 a1 (64 - s) = c0 at *
  generalize 2 ^ (64 - s) = Q at *
  clear m3
  refine ⟨⟨⟨w0.1, w0.2.1, w0.2.2.1, l3⟩, ?_⟩, ⟨⟨w1.1, w1.2.1, l3, by norm_num⟩, ?_⟩,
    ⟨⟨w2.1, l3, by norm_num, by norm_num⟩, ?_⟩, ⟨⟨l3, by norm_num, by norm_num, by norm_num⟩, ?_⟩⟩
  · ring
  · ring
  · ring
  · ring

/-- `SRsh` on a value with bit 255 clear is `Rsh`; with bit 255 set it is the quotient by
`2^n` with ones in the top `min n 256` bits. -/
theorem SRsh_spec (x : Uint) (hx : x.WF) (n : Nat) :
    (x.isBitSet 255 = false → x.SRsh n = x.Rsh n) ∧
    (x.isBitSet 255 = true → (x.SRsh n).WF ∧
      (x.SRsh n).toNat = x.toNat / 2 ^ n + (2 ^ 256 - 2 ^ (256 - min n 256))) := by
  constructor
  · intro h
    unfold Uint.SRsh
    rw [h]
    rfl
  intro h
  have hxl := toNat_lt x hx
  have hall : Uint.SetAllOne.WF ∧ Uint.SetAllOne.toNat = 2 ^ 256 - 1 := by
    simp only [Uint.SetAllOne, Uint.WF, Uint.toNat]
    omega
  have hbig : 256 ≤ n → x.toNat / 2 ^ n + (2 ^ 256 - 2 ^ (256 - min n 256)) = 2 ^ 256 - 1 := by
    intro hn
    rw [Nat.div_eq_of_lt (lt_of_lt_of_le hxl (Nat.pow_le_pow_right (by norm_num) hn)),
      Nat.min_eq_right hn, Nat.sub_self, pow_zero, Nat.zero_add]
  unfold Uint.SRsh
  rw [h]
  simp only [Bool.not_true, Bool.false_eq_true, if_false]
  by_cases h64 : n % 64 = 0
  · rw [if_pos h64]
    by_cases c0 : n = 0
    · subst c0
      rw [if_pos rfl, pow_zero, Nat.div_one, Nat.min_eq_left (Nat.zero_le _), Nat.sub_zero,
        Nat.sub_self, Nat.add_zero]
      exact ⟨hx, rfl⟩
    rw [if_neg c0]
    by_cases c1 : n = 64
    · subst c1
      rw [if_pos rfl]
      obtain ⟨a0, a1, a2, a3⟩ := x
      obtain ⟨h0, h1, h2, h3⟩ := hx
      simp only at h0 h1 h2 h3
      have em : 256 - min 64 256 = 192 := by decide
      rw [em]
      simp only [Uint.srsh64, Uint.WF, Uint.toNat]
      refine ⟨⟨h1, h2, h3, by norm_num⟩, ?_⟩
      omega
    rw [if_neg c1]
    by_cases c2 : n = 128
    · subst c2
      rw [if_pos rfl]
      obtain ⟨a0, a1, a2, a3⟩ := x
      obtain ⟨h0, h1, h2, h3⟩ := hx
      simp only at h0 h1 h2 h3
      have em : 256 - min 128 256 = 128 := by decide
      rw [em]
      simp only [Uint.srsh128, Uint.WF, Uint.toNat]
      refine ⟨⟨h2, h3, by norm_num, by norm_num⟩, ?_⟩
      omega
    rw [if_neg c2]
    by_cases c3 : n = 192
    · subst c3
      rw [if_pos rfl]
      obtain ⟨a0, a1, a2, a3⟩ := x
      obtain ⟨h0, h1, h2, h3⟩ := hx
      simp only at h0 h1 h2 h3
      have em : 256 - min 192 256 = 64 := by decide
      rw [em]
      simp only [Uint.srsh192, Uint.WF, Uint.toNat]
      refine ⟨⟨h3, by norm_num, by norm_num, by norm_num⟩, ?_⟩
      omega
    rw [if_neg c3, hbig (by omega)]
    exact hall
  · rw [if_neg h64]
    obtain ⟨r0, r1, r2, r3⟩ := srsh_resid x hx (n % 64) (by omega)
    have hQ : 2 ^ (64 - n % 64) ≤ 2 ^ 64 := Nat.pow_le_pow_right (by norm_num) (by omega)
    by_cases c3 : n > 192
    · rw [if_pos c3]
      by_cases c4 : n > 256
      · rw [if_pos c4, hbig (by omega)]
        exact hall
      · rw [if_neg c4]
        have e : n - 192 = n % 64 := by omega
        have e2 : 2 ^ n = 2 ^ (n % 64) * 2 ^ 192 := pow_split_at n _ _ (by omega)
        have e3 : 256 - min n 256 = 64 - n % 64 := by omega
        rw [e, e2, e3]
        refine ⟨r3.1, ?_⟩
        rw [r3.2]
        generalize x.toNat / (2 ^ (n % 64) * 2 ^ 192) = D
        generalize 2 ^ (64 - n % 64) = Q at hQ ⊢
        omega
    rw [if_neg c3]
    by_cases c2 : n > 128
    · rw [if_pos c2]
      have e : n - 128 = n % 64 := by omega
      have e2 : 2 ^ n = 2 ^ (n % 64) * 2 ^ 128 := pow_split_at n _ _ (by omega)
      have e3 : 2 ^ (256 - min n 256) = 2 ^ (64 - n % 64) * 2 ^ 64 :=
        pow_split_at _ _ _ (by omega)
      rw [e, e2, e3]
      refine ⟨r2.1, ?_⟩
      rw [r2.2]
      generalize x.toNat / (2 ^ (n % 64) * 2 ^ 128) = D
      generalize 2 ^ (64 - n % 64) = Q at hQ ⊢
      omega
    rw [if_neg c2]
    by_cases c1 : n > 64
    · rw [if_pos c1]
      have e : n - 64 = n % 64 := by omega
      have e2 : 2 ^ n = 2 ^ (n % 64) * 2 ^ 64 := pow_split_at n _ _ (by omega)
      have e3 : 2 ^ (256 - min n 256) = 2 ^ (64 - n % 64) * 2 ^ 128 :=
        pow_split_at _ _ _ (by omega)
      rw [e, e2, e3]
      refine ⟨r1.1, ?_⟩
      rw [r1.2]
      generalize x.toNat / (2 ^ (n % 64) * 2 ^ 64) = D
      generalize 2 ^ (64 - n % 64) = Q at hQ ⊢
      omega
    rw [if_neg c1]
    have e : n % 64 = n := by omega
    have e3 : 2 ^ (256 - min n 256) = 2 ^ (64 - n) * 2 ^ 192 :=
      pow_split_at _ _ _ (by omega)
    rw [e] at r0 hQ
    rw [e, e3]
    refine ⟨r0.1, ?_⟩
    rw [r0.2]
    generalize x.toNat / 2 ^ n = D
    generalize 2 ^ (64 - n) = Q at hQ ⊢
    omega

/-- The top-filled quotient is the two's-complement pattern of the floor of the signed value
divided by `2^n`. -/
theorem srsh_signed (X n : Nat) (hX : X < 2 ^ 256) :
    ((X / 2 ^ n + (2 ^ 256 - 2 ^ (256 - min n 256)) : Nat) : Int)
      = (((X : Int) - 2 ^ 256) / 2 ^ n) % 2 ^ 256 := by
  have hd := Nat.div_add_mod X (2 ^ n)
  have hr : X % 2 ^ n < 2 ^ n := Nat.mod_lt _ (by positivity)
  have hPn : (0 : Int) < 2 ^ n := by positivity
  by_cases hn : n ≤ 256
  · have e1 : min n 256 = n := Nat.min_eq_left hn
    have hsplit : (2 : Nat) ^ 256 = 2 ^ (256 - n) * 2 ^ n := by
      rw [← pow_add]
      congr 1
      omega
    have hq : ((X : Int) - 2 ^ 256) / 2 ^ n = (X / 2 ^ n : Nat) - (2 ^ (256 - n) : Nat) := by
      have hcast : ((X : Int) - 2 ^ 256)
          = ((X / 2 ^ n : Nat) - (2 ^ (256 - n) : Nat)) * 2 ^ n + (X % 2 ^ n : Nat) := by
        have h1 : (X : Int) = (2 ^ n : Nat) * (X / 2 ^ n : Nat) + (X % 2 ^ n : Nat) := by
          exact_mod_cast hd.symm
        have h2 : ((2 : Int) ^ 256) = (2 ^ (256 - n) : Nat) * (2 ^ n : Nat) := by
          exact_mod_cast hsplit
        rw [h2]
        conv_lhs => rw [h1]
        push_cast
        ring
      rw [hcast, Int.add_comm, Int.add_mul_ediv_right _ _ (ne_of_gt hPn),
        Int.ediv_eq_zero_of_lt (by exact_mod_cast Nat.zero_le _) (by exact_mod_cast hr)]
      ring
    rw [hq, e1]
    have hle : 2 ^ (256 - n) ≤ 2 ^ 256 := Nat.pow_le_pow_right (by norm_num) (by omega)
    have hDlt : X / 2 ^ n < 2 ^ (256 - n) := by
      rw [Nat.div_lt_iff_lt_mul (by positivity), ← hsplit]
      exact hX
    have hv : ((X / 2 ^ n : Nat) : Int) - (2 ^ (256 - n) : Nat)
        = ((X / 2 ^ n + (2 ^ 256 - 2 ^ (256 - n)) : Nat) : Int) + (-1) * 2 ^ 256 := by
      rw [Nat.cast_add, Nat.cast_sub hle]
      push_cast
      ring
    rw [hv, Int.add_mul_emod_self]
    symm
    apply Int.emod_eq_of_lt
    · exact_mod_cast Nat.zero_le _
    · have : X / 2 ^ n + (2 ^ 256 - 2 ^ (256 - n)) < 2 ^ 256 := by
        have hpos : 0 < 2 ^ (256 - n) := by positivity
        omega
      exact_mod_cast this
  · have hn2 : 256 ≤ n := by omega
    have e1 : min n 256 = 256 := Nat.min_eq_right hn2
    have hlt : X < 2 ^ n := lt_of_lt_of_le hX (Nat.pow_le_pow_right (by norm_num) hn2)
    have h256 : (2 : Nat) ^ 256 ≤ 2 ^ n := Nat.pow_le_pow_right (by norm_num) hn2
    rw [e1, Nat.div_eq_of_lt hlt, Nat.sub_self, pow_zero, Nat.zero_add]
    have hq : ((X : Int) - 2 ^ 256) / 2 ^ n = -1 := by
      have hcast : ((X : Int) - 2 ^ 256)
          = (-1) * 2 ^ n + ((X + (2 ^ n - 2 ^ 256) : Nat) : Int) := by
        rw [Nat.cast_add, Nat.cast_sub h256]
        push_cast
        ring
      rw [hcast, Int.add_comm, Int.add_mul_ediv_right _ _ (ne_of_gt hPn),
        Int.ediv_eq_zero_of_lt (by exact_mod_cast Nat.zero_le _)
          (by
            have : X + (2 ^ n - 2 ^ 256) < 2 ^ n := by omega
            exact_mod_cast this)]
      ring
    rw [hq]
    norm_num

/-! ## Negation and the signed operations: proofs -/

theorem Not_val (x : Uint) (hx : x.WF) :
    x.Not.WF ∧ x.Not.toNat = 2 ^ 256 - 1 - x.toNat := by
  obtain ⟨x0, x1, x2, x3⟩ := x
  obtain ⟨h0, h1, h2, h3⟩ := hx
  simp only at h0 h1 h2 h3
  simp only [Uint.Not, not64, Uint.WF, Uint.toNat]
  refine ⟨⟨by omega, by omega, by omega, by omega⟩, ?_⟩
  omega

/-- The wrapped difference `0 - x`. -/
theorem UnsafeSub_zero_val (x : Uint) (hx : x.WF) :
    (Uint.UnsafeSub ⟨0, 0, 0, 0⟩ x).WF ∧
    (Uint.UnsafeSub ⟨0, 0, 0, 0⟩ x).toNat = (2 ^ 256 - x.toNat) % 2 ^ 256 := by
  have hz : Uint.WF ⟨0, 0, 0, 0⟩ := by decide
  obtain ⟨h1, h2, -⟩ := SubOverflow_val ⟨0, 0, 0, 0⟩ x hz hx
  rw [UnsafeSub_eq]
  refine ⟨h1, ?_⟩
  rw [h2]
  have : Uint.toNat ⟨0, 0, 0, 0⟩ = 0 := rfl
  rw [this, Nat.zero_add]

/-! ## Comparisons, narrowing conversions and aliased receivers: proofs -/

/-- `Uint64` is the value modulo `2^64`. -/
theorem Uint64_mod (z : Uint) (hz : z.WF) : z.Uint64 = z.toNat % 2 ^ 64 := by
  obtain ⟨h0, -, -, -⟩ := hz
  simp only [Uint.Uint64, Uint.toNat]
  omega

/-- `Int32` looks at the lowest limb only. -/
theorem Int32_spec (z : Uint) (hz : z.WF) :
    (z.Int32 = none ↔ 2 ^ 31 ≤ z.toNat % 2 ^ 64) ∧
    ∀ v, z.Int32 = some v → v = z.toNat % 2 ^ 64 := by
  have e : z.arr0 = z.toNat % 2 ^ 64 := Uint64_mod z hz
  simp only [Uint.Int32]
  rw [← e]
  by_cases h : z.arr0 > 0x7fffffff
  · rw [if_pos h]
    refine ⟨?_, fun v hv => by cases hv⟩
    constructor
    · intro _; omega
    · intro _; rfl
  · rw [if_neg h]
    refine ⟨?_, fun v hv => (Option.some.inj hv).symm⟩
    constructor
    · intro hv; cases hv
    · intro h2; omega

/-- `Gte` is the order `z ≥ x`. -/
theorem Gte_iff (z x : Uint) (hz : z.WF) (hx : x.WF) :
    z.Gte x = true ↔ x.toNat ≤ z.toNat := by
  have h := Lt_iff z x hz hx
  simp only [Uint.Gte, Bool.not_eq_true', ← Bool.not_eq_true, h]
  omega

/-- `Lte` is `!x.Gt(z)`, and `x.Gt(z)` is `z.Lt(x)`: it is the order `z ≥ x` as well. -/
theorem Lte_iff (z x : Uint) (hz : z.WF) (hx : x.WF) :
    z.Lte x = true ↔ x.toNat ≤ z.toNat := by
  have h := Gt_iff x z hx hz
  simp only [Uint.Lte, Bool.not_eq_true', ← Bool.not_eq_true, h]
  omega

/-- `Lte` and `Gte` are the same function. -/
theorem Lte_eq_Gte (z x : Uint) : z.Lte x = z.Gte x := rfl

theorem write_same (m : Mem) (a : Nat) (v : Int256) : (m.write a v) a = v := by
  simp [Mem.write]

theorem write_other (m : Mem) (a b : Nat) (v : Int256) (h : b ≠ a) : (m.write a v) b = m b := by
  simp [Mem.write, h]

theorem receiver_commit (m : Mem) (z : Nat) (o : Outcome Int256 Int256) :
    Mem.receiver (m.commit z o) z = o := by
  cases o <;> simp [Mem.commit, Mem.receiver, write_same]

/-- The sign of a signed value, by its bit pattern. -/
theorem Sign_spec (z : Int256) (hz : z.value.WF) :
    (z.Sign = 0 ↔ z.value.toNat = 0) ∧
    (z.Sign = 1 ↔ 0 < z.value.toNat ∧ z.value.toNat < 2 ^ 255) ∧
    (z.Sign = -1 ↔ 2 ^ 255 ≤ z.value.toNat) ∧
    (z.Sign = 0 ∨ z.Sign = 1 ∨ z.Sign = -1) := by
  have h0 := IsZero_iff_toNat z.value
  have hb := isBitSet_255 z.value hz
  unfold Int256.Sign
  by_cases hz0 : z.value.IsZero = true
  · have e := h0.1 hz0
    rw [if_pos hz0, e]
    refine ⟨by simp, ?_, ?_, Or.inl rfl⟩
    · constructor
      · intro h; cases h
      · intro h; omega
    · constructor
      · intro h; cases h
      · intro h; omega
  · have e : z.value.toNat ≠ 0 := fun h => hz0 (h0.2 h)
    rw [if_neg hz0]
    by_cases hs : z.value.isBitSet 255 = true
    · have e2 := hb.1 hs
      rw [if_pos hs]
      refine ⟨?_, ?_, ?_, Or.inr (Or.inr rfl)⟩
      · constructor
        · intro h; cases h
        · intro h; omega
      · constructor
        · intro h; cases h
        · intro h; omega
      · exact ⟨fun _ => e2, fun _ => rfl⟩
    · have e2 : z.value.toNat < 2 ^ 255 := by
        by_contra hc
        exact hs (hb.2 (by omega))
      rw [if_neg hs]
      refine ⟨?_, ?_, ?_, Or.inr (Or.inl rfl)⟩
      · constructor
        · intro h; cases h
        · intro h; omega
      · exact ⟨fun _ => ⟨by omega, e2⟩, fun _ => rfl⟩
      · constructor
        · intro h; cases h
        · intro h; omega

/-! ## The signed operations: proofs -/

/-- The wrapping sum of `uint256`. -/
theorem uint256_Add_val (x y : Uint) (hx : x.WF) (hy : y.WF) :
    (uint256.Add x y).WF ∧ (uint256.Add x y).toNat = (x.toNat + y.toNat) % 2 ^ 256 :=
  ⟨(AddOverflow_val x y hx hy).1, (AddOverflow_val x y hx hy).2.1⟩

/-- The wrapping difference of `uint256`. -/
theorem uint256_Sub_val (x y : Uint) (hx : x.WF) (hy : y.WF) :
    (uint256.Sub x y).WF ∧
    (uint256.Sub x y).toNat = (x.toNat + 2 ^ 256 - y.toNat) % 2 ^ 256 :=
  ⟨(SubOverflow_val x y hx hy).1, (SubOverflow_val x y hx hy).2.1⟩

/-- The negation of `uint256`. -/
theorem Neg_val (x : Uint) (hx : x.WF) :
    (Uint.Neg x).WF ∧ (Uint.Neg x).toNat = (2 ^ 256 - x.toNat) % 2 ^ 256 :=
  UnsafeSub_zero_val x hx

set_option maxRecDepth 4000 in
/-- The signed value lies in the signed range and is the bit pattern modulo `2^256`. -/
theorem toInt_spec (z : Int256) (hz : z.value.WF) :
    -2 ^ 255 ≤ z.toInt ∧ z.toInt < 2 ^ 255 ∧
    (z.value.toNat < 2 ^ 255 → z.toInt = z.value.toNat) ∧
    (2 ^ 255 ≤ z.value.toNat → z.toInt = (z.value.toNat : Int) - 2 ^ 256) ∧
    (z.value.toNat : Int) = z.toInt % 2 ^ 256 := by
  have hlt := toNat_lt z.value hz
  unfold Int256.toInt
  by_cases h : z.value.toNat < 2 ^ 255
  · rw [if_pos h]
    exact ⟨by omega, by omega, fun _ => rfl, fun h' => by omega, by omega⟩
  · rw [if_neg h]
    exact ⟨by omega, by omega, fun h' => absurd h' h, fun _ => rfl, by omega⟩

set_option maxRecDepth 4000 in
/-- A signed value in range is determined by its bit pattern modulo `2^256`. -/
theorem toInt_unique (z : Int256) (hz : z.value.WF) (t : Int) (h1 : -2 ^ 255 ≤ t)
    (h2 : t < 2 ^ 255) (h : (z.value.toNat : Int) = t % 2 ^ 256) : z.toInt = t := by
  obtain ⟨a1, a2, -, -, a5⟩ := toInt_spec z hz
  omega

/-- `Sign` is the sign of the signed value. -/
theorem Sign_toInt (z : Int256) (hz : z.value.WF) :
    (z.Sign = 0 ↔ z.toInt = 0) ∧ (z.Sign = 1 ↔ 0 < z.toInt) ∧ (z.Sign = -1 ↔ z.toInt < 0) ∧
    (z.Sign = 0 ∨ z.Sign = 1 ∨ z.Sign = -1) := by
  obtain ⟨s0, s1, s2, s3⟩ := Sign_spec z hz
  obtain ⟨-, -, t1, t2, -⟩ := toInt_spec z hz
  have hlt := toNat_lt z.value hz
  refine ⟨?_, ?_, ?_, s3⟩
  · rw [s0]
    by_cases h : z.value.toNat < 2 ^ 255
    · rw [t1 h]; omega
    · rw [t2 (by omega)]; omega
  · rw [s1]
    by_cases h : z.value.toNat < 2 ^ 255
    · rw [t1 h]; omega
    · rw [t2 (by omega)]; omega
  · rw [s2]
    by_cases h : z.value.toNat < 2 ^ 255
    · rw [t1 h]; omega
    · rw [t2 (by omega)]; omega

/-- `Abs` returns the magnitude of the signed value; it is at most `2^255`. -/
theorem Abs_val (z : Int256) (hz : z.value.WF) :
    z.Abs.WF ∧ (0 ≤ z.toInt → z.Abs = z.value) ∧
    (z.toInt < 0 → z.Abs.toNat = (2 ^ 256 - z.value.toNat) % 2 ^ 256) ∧
    z.Abs.toNat = z.toInt.natAbs ∧ z.Abs.toNat ≤ 2 ^ 255 := by
  obtain ⟨s0, s1, s2, s3⟩ := Sign_toInt z hz
  obtain ⟨t1, t2, t3, t4, -⟩ := toInt_spec z hz
  obtain ⟨n1, n2⟩ := Neg_val z.value hz
  have hlt := toNat_lt z.value hz
  unfold Int256.Abs
  by_cases hs : z.Sign ≥ 0
  · have h0 : 0 ≤ z.toInt := by
      rcases s3 with h | h | h
      · rw [s0.1 h]
      · exact le_of_lt (s1.1 h)
      · rw [h] at hs; exact absurd hs (by decide)
    have hv : z.value.toNat < 2 ^ 255 := by
      by_contra hc
      rw [t4 (by omega)] at h0
      omega
    rw [if_pos hs]
    refine ⟨hz, fun _ => rfl, fun h => by omega, ?_, by omega⟩
    rw [t3 hv]
    omega
  · have h0 : z.toInt < 0 := by
      rcases s3 with h | h | h
      · rw [h] at hs; exact absurd (le_refl _) hs
      · rw [h] at hs; exact absurd (by decide) hs
      · exact s2.1 h
    have hv : 2 ^ 255 ≤ z.value.toNat := by
      by_contra hc
      rw [t3 (by omega)] at h0
      omega
    rw [if_neg hs]
    refine ⟨n1, fun h => by omega, fun _ => n2, ?_, ?_⟩
    · show (Uint.Neg z.value).toNat = _
      rw [n2, t4 hv]
      omega
    · show (Uint.Neg z.value).toNat ≤ _
      rw [n2]
      omega

/-- The signed value of a small bit pattern. -/
theorem toInt_small (u : Uint) (h : u.toNat < 2 ^ 255) : Int256.toInt ⟨u⟩ = u.toNat := by
  unfold Int256.toInt
  rw [if_pos h]

set_option maxRecDepth 4000 in
/-- The bit pattern of a negated magnitude, modulo `2^256`. -/
theorem Neg_cast (u : Uint) (hu : u.WF) :
    ((Uint.Neg u).toNat : Int) = (-(u.toNat : Int)) % 2 ^ 256 := by
  obtain ⟨-, n2⟩ := Neg_val u hu
  have hlt := toNat_lt u hu
  rw [n2]
  omega

/-- Truncated division of integers by the magnitudes and the signs. -/
theorem tdiv_cases (X Y : Int) :
    (0 ≤ X → 0 ≤ Y → X.tdiv Y = ((X.natAbs / Y.natAbs : Nat) : Int)) ∧
    (0 ≤ X → Y ≤ 0 → X.tdiv Y = -((X.natAbs / Y.natAbs : Nat) : Int)) ∧
    (X ≤ 0 → 0 ≤ Y → X.tdiv Y = -((X.natAbs / Y.natAbs : Nat) : Int)) ∧
    (X ≤ 0 → Y ≤ 0 → X.tdiv Y = ((X.natAbs / Y.natAbs : Nat) : Int)) := by
  refine ⟨fun hX hY => ?_, fun hX hY => ?_, fun hX hY => ?_, fun hX hY => ?_⟩
  · obtain ⟨a, rfl⟩ := Int.eq_ofNat_of_zero_le hX
    obtain ⟨b, rfl⟩ := Int.eq_ofNat_of_zero_le hY
    simp only [Int.natAbs_ofNat]
    exact (Int.ofNat_tdiv a b).symm
  · obtain ⟨a, rfl⟩ := Int.eq_ofNat_of_zero_le hX
    obtain ⟨b, rfl⟩ : ∃ b : Nat, Y = -(b : Int) := ⟨Y.natAbs, by omega⟩
    simp only [Int.natAbs_ofNat, Int.natAbs_neg, Int.tdiv_neg]
    rw [Int.ofNat_tdiv]
  · obtain ⟨a, rfl⟩ : ∃ a : Nat, X = -(a : Int) := ⟨X.natAbs, by omega⟩
    obtain ⟨b, rfl⟩ := Int.eq_ofNat_of_zero_le hY
    simp only [Int.natAbs_ofNat, Int.natAbs_neg, Int.neg_tdiv]
    rw [Int.ofNat_tdiv]
  · obtain ⟨a, rfl⟩ : ∃ a : Nat, X = -(a : Int) := ⟨X.natAbs, by omega⟩
    obtain ⟨b, rfl⟩ : ∃ b : Nat, Y = -(b : Int) := ⟨Y.natAbs, by omega⟩
    simp only [Int.natAbs_ofNat, Int.natAbs_neg, Int.neg_tdiv_neg]
    exact (Int.ofNat_tdiv a b).symm

/-- The truncated remainder of integers by the magnitudes and the sign of the dividend. -/
theorem tmod_cases (X Y : Int) :
    (0 ≤ X → X.tmod Y = ((X.natAbs % Y.natAbs : Nat) : Int)) ∧
    (X ≤ 0 → X.tmod Y = -((X.natAbs % Y.natAbs : Nat) : Int)) := by
  have key : ∀ a : Nat, ∀ Y : Int, (a : Int).tmod Y = ((a % Y.natAbs : Nat) : Int) := by
    intro a Y
    by_cases hY : 0 ≤ Y
    · obtain ⟨b, rfl⟩ := Int.eq_ofNat_of_zero_le hY
      simp only [Int.natAbs_ofNat]
      exact (Int.ofNat_tmod a b).symm
    · obtain ⟨b, rfl⟩ : ∃ b : Nat, Y = -(b : Int) := ⟨Y.natAbs, by omega⟩
      simp only [Int.natAbs_ofNat, Int.natAbs_neg, Int.tmod_neg]
      exact (Int.ofNat_tmod a b).symm
  refine ⟨fun hX => ?_, fun hX => ?_⟩
  · obtain ⟨a, rfl⟩ := Int.eq_ofNat_of_zero_le hX
    simp only [Int.natAbs_ofNat]
    exact key a Y
  · obtain ⟨a, rfl⟩ : ∃ a : Nat, X = -(a : Int) := ⟨X.natAbs, by omega⟩
    simp only [Int.natAbs_ofNat, Int.natAbs_neg]
    rw [← key a Y, Int.tmod_def, Int.neg_tdiv, Int.tmod_def]
    ring

/-- A signed value is zero exactly when `IsZero` holds. -/
theorem IsZero_toInt (z : Int256) (hz : z.value.WF) : z.IsZero = false ↔ z.toInt ≠ 0 := by
  obtain ⟨s0, -, -, -⟩ := Sign_spec z hz
  obtain ⟨t0, -, -, -⟩ := Sign_toInt z hz
  have h := IsZero_iff_toNat z.value
  unfold Int256.IsZero
  have e : z.toInt = 0 ↔ z.value.IsZero = true := by rw [← t0, s0, ← h]
  rw [Ne, e]
  cases z.value.IsZero <;> simp

/-- The result of `Div` as a bit pattern: the quotient of the magnitudes, negated when the
signs differ. -/
theorem Div_pattern (z x y : Int256) (hx : x.value.WF) (hy : y.value.WF)
    (hy0 : y.IsZero = false) :
    ∃ q : Uint, q.WF ∧ q.toNat = x.toInt.natAbs / y.toInt.natAbs ∧
      Int256.Div z x y = .ok (if x.Sign ≠ y.Sign then ⟨Uint.Neg q⟩ else ⟨q⟩) := by
  obtain ⟨wx, -, -, ax, -⟩ := Abs_val x hx
  obtain ⟨wy, -, -, ay, -⟩ := Abs_val y hy
  have hY := (IsZero_toInt y hy).1 hy0
  obtain ⟨q, hq, hqw, hqv⟩ := Div_val x.Abs y.Abs wx wy (by omega)
  refine ⟨q, hqw, by rw [hqv, ax, ay], ?_⟩
  unfold Int256.Div
  rw [hy0]
  simp only [hq, Bool.false_eq_true, if_false]
  split_ifs <;> rfl

/-- The result of `Rem` as a bit pattern: the remainder of the magnitudes, negated for a
negative dividend. -/
theorem Rem_pattern (z x y : Int256) (hx : x.value.WF) (hy : y.value.WF)
    (hy0 : y.IsZero = false) :
    ∃ r : Uint, r.WF ∧ r.toNat = x.toInt.natAbs % y.toInt.natAbs ∧
      Int256.Rem z x y = .ok (if x.Sign < 0 then ⟨Uint.Neg r⟩ else ⟨r⟩) := by
  obtain ⟨wx, -, -, ax, -⟩ := Abs_val x hx
  obtain ⟨wy, -, -, ay, -⟩ := Abs_val y hy
  have hY := (IsZero_toInt y hy).1 hy0
  obtain ⟨q, hq, -, -⟩ := Div_val x.Abs y.Abs wx wy (by omega)
  obtain ⟨r, hr, hrw, hrv⟩ := Mod_val x.Abs y.Abs wx wy (by omega)
  refine ⟨r, hrw, by rw [hrv, ax, ay], ?_⟩
  unfold Int256.Rem
  rw [hy0]
  simp only [Uint.DivMod, hq, hr, Bool.false_eq_true, if_false]
  split_ifs <;> rfl

/-- The result of `Quo` as a bit pattern: the quotient of the magnitudes, incremented when
exactly one operand is negative and the remainder is not zero, and negated when the signs
differ. -/
theorem Quo_pattern (z x y : Int256) (hx : x.value.WF) (hy : y.value.WF)
    (hy0 : y.IsZero = false) :
    ∃ q : Uint, q.WF ∧
      q.toNat = (if (¬ (x.toInt < 0 ↔ y.toInt < 0)) ∧ x.toInt.natAbs % y.toInt.natAbs ≠ 0
        then x.toInt.natAbs / y.toInt.natAbs + 1 else x.toInt.natAbs / y.toInt.natAbs) ∧
      Int256.Quo z x y = .ok (if x.Sign ≠ y.Sign then ⟨Uint.Neg q⟩ else ⟨q⟩) := by
  obtain ⟨wx, -, -, ax, lx⟩ := Abs_val x hx
  obtain ⟨wy, -, -, ay, -⟩ := Abs_val y hy
  obtain ⟨-, -, sx, -⟩ := Sign_toInt x hx
  obtain ⟨-, -, sy, -⟩ := Sign_toInt y hy
  obtain ⟨-, -, -, x3⟩ := Sign_toInt x hx
  obtain ⟨-, -, -, y3⟩ := Sign_toInt y hy
  have hY := (IsZero_toInt y hy).1 hy0
  obtain ⟨q, hq, hqw, hqv⟩ := Div_val x.Abs y.Abs wx wy (by omega)
  obtain ⟨r, hr, hrw, hrv⟩ := Mod_val x.Abs y.Abs wx wy (by omega)
  have hxs : x.Sign < 0 ↔ x.toInt < 0 := by
    rw [← sx]
    rcases x3 with h | h | h <;> rw [h] <;> decide
  have hys : y.Sign < 0 ↔ y.toInt < 0 := by
    rw [← sy]
    rcases y3 with h | h | h <;> rw [h] <;> decide
  have hrz : r.IsZero = true ↔ x.toInt.natAbs % y.toInt.natAbs = 0 := by
    rw [IsZero_iff_toNat, hrv, ax, ay]
  rw [ax, ay] at hqv
  have hqle : q.toNat ≤ 2 ^ 255 := by
    rw [hqv]
    exact le_trans (Nat.div_le_self _ _) (by omega)
  unfold Int256.Quo
  rw [hy0]
  simp only [Uint.DivMod, hq, hr, Bool.false_eq_true, if_false]
  by_cases hc : (¬ (x.toInt < 0 ↔ y.toInt < 0)) ∧ x.toInt.natAbs % y.toInt.natAbs ≠ 0
  · have hb : ((decide (x.Sign < 0) != decide (y.Sign < 0)) && !r.IsZero) = true := by
      have hr0 : r.IsZero = false := by
        cases hh : r.IsZero
        · rfl
        · exact absurd (hrz.1 hh) hc.2
      rw [hr0]
      by_cases a : x.Sign < 0 <;> by_cases b : y.Sign < 0
      · exact absurd (by rw [← hxs, ← hys]; exact ⟨fun _ => b, fun _ => a⟩) hc.1
      · simp [a, b]
      · simp [a, b]
      · exact absurd (by rw [← hxs, ← hys]; exact ⟨fun h => absurd h a, fun h => absurd h b⟩)
          hc.1
    obtain ⟨aw, av⟩ := uint256_Add_val q uint1 hqw (by decide)
    have e1 : uint1.toNat = 1 := rfl
    rw [e1, Nat.mod_eq_of_lt (by omega)] at av
    refine ⟨uint256.Add q uint1, aw, ?_, ?_⟩
    · rw [if_pos hc, av, hqv]
    · rw [if_pos hb]
      split_ifs <;> rfl
  · have hb : ((decide (x.Sign < 0) != decide (y.Sign < 0)) && !r.IsZero) = false := by
      by_cases hr0 : r.IsZero = true
      · rw [hr0]; simp
      · have hrem : x.toInt.natAbs % y.toInt.natAbs ≠ 0 := fun e => hr0 (hrz.2 e)
        have hiff : x.toInt < 0 ↔ y.toInt < 0 := by
          by_contra hn
          exact hc ⟨hn, hrem⟩
        rw [← hxs, ← hys] at hiff
        by_cases a : x.Sign < 0
        · simp [a, hiff.1 a]
        · have b : ¬ y.Sign < 0 := fun h => a (hiff.2 h)
          simp [a, b]
    refine ⟨q, hqw, ?_, ?_⟩
    · rw [if_neg hc, hqv]
    · rw [hb]
      simp only [Bool.false_eq_true, if_false]
      split_ifs <;> rfl

/-- The test `xSign != ySign` of `Div` and `Quo`, for a divisor that is not zero. -/
theorem Sign_ne_iff (x y : Int256) (hx : x.value.WF) (hy : y.value.WF) (hY : y.toInt ≠ 0) :
    x.Sign ≠ y.Sign ↔ (x.toInt = 0 ∨ ¬ (x.toInt < 0 ↔ y.toInt < 0)) := by
  obtain ⟨a0, a1, a2, a3⟩ := Sign_toInt x hx
  obtain ⟨b0, b1, b2, b3⟩ := Sign_toInt y hy
  rcases a3 with h | h | h <;> rcases b3 with k | k | k <;>
    rw [h] at a0 a1 a2 <;> rw [k] at b0 b1 b2 <;> rw [h, k] <;> omega

/-- The test `xSign < 0` of `Rem`. -/
theorem Sign_neg_iff (x : Int256) (hx : x.value.WF) : x.Sign < 0 ↔ x.toInt < 0 := by
  obtain ⟨a0, a1, a2, a3⟩ := Sign_toInt x hx
  rcases a3 with h | h | h <;> rw [h] at a0 a1 a2 <;> rw [h] <;> omega

/-- The tests `Sign() >= 0` and `Sign() > 0` of `ModE` and `DivE`. -/
theorem Sign_pos_iff (x : Int256) (hx : x.value.WF) :
    (x.Sign ≥ 0 ↔ 0 ≤ x.toInt) ∧ (x.Sign > 0 ↔ 0 < x.toInt) := by
  obtain ⟨a0, a1, a2, a3⟩ := Sign_toInt x hx
  rcases a3 with h | h | h <;> rw [h] at a0 a1 a2 <;> rw [h] <;> omega

/-- The truncated quotient by the test of `Div`: negated magnitudes when the dividend is zero
or exactly one operand is negative. -/
theorem tdiv_by_sign (X Y : Int) :
    ((X = 0 ∨ ¬ (X < 0 ↔ Y < 0)) → X.tdiv Y = -((X.natAbs / Y.natAbs : Nat) : Int)) ∧
    (¬ (X = 0 ∨ ¬ (X < 0 ↔ Y < 0)) → X.tdiv Y = ((X.natAbs / Y.natAbs : Nat) : Int)) := by
  obtain ⟨c1, c2, c3, c4⟩ := tdiv_cases X Y
  by_cases hX : X < 0 <;> by_cases hY : Y < 0
  · refine ⟨fun h => ?_, fun _ => c4 (le_of_lt hX) (le_of_lt hY)⟩
    rcases h with h | h
    · omega
    · exact absurd ⟨fun _ => hY, fun _ => hX⟩ h
  · refine ⟨fun _ => c3 (le_of_lt hX) (not_lt.1 hY), fun h => ?_⟩
    exact absurd (Or.inr (fun hh => hY (hh.1 hX))) h
  · refine ⟨fun _ => c2 (not_lt.1 hX) (le_of_lt hY), fun h => ?_⟩
    exact absurd (Or.inr (fun hh => hX (hh.2 hY))) h
  · refine ⟨fun h => ?_, fun _ => c1 (not_lt.1 hX) (not_lt.1 hY)⟩
    rcases h with h | h
    · rw [h]; simp
    · exact absurd ⟨fun hh => absurd hh hX, fun hh => absurd hh hY⟩ h

/-- The truncated quotient of two signed values is a signed value, except `-2^255 / -1`. -/
theorem tdiv_range (X Y : Int) (h1 : -2 ^ 255 ≤ X) (h2 : X < 2 ^ 255)
    (hp : ¬ (X = -2 ^ 255 ∧ Y = -1)) :
    -2 ^ 255 ≤ X.tdiv Y ∧ X.tdiv Y < 2 ^ 255 := by
  have hn : (X.tdiv Y).natAbs = X.natAbs / Y.natAbs := Int.natAbs_tdiv X Y
  have hle : X.natAbs / Y.natAbs ≤ X.natAbs := Nat.div_le_self _ _
  obtain ⟨a, b⟩ := tdiv_by_sign X Y
  by_cases hc : X = 0 ∨ ¬ (X < 0 ↔ Y < 0)
  · have e := a hc
    generalize X.natAbs / Y.natAbs = q0 at *
    generalize X.tdiv Y = T at *
    clear a b hn hc hp
    omega
  · have e := b hc
    have h255 : X.natAbs / Y.natAbs ≠ 2 ^ 255 := by
      intro h
      have hb : Y.natAbs = 1 := by
        by_contra hb
        by_cases hy0 : Y.natAbs = 0
        · rw [hy0, Nat.div_zero] at h
          exact absurd h (by decide)
        · have h3 : X.natAbs / Y.natAbs < X.natAbs := Nat.div_lt_self (by omega) (by omega)
          omega
      have hX : X = -2 ^ 255 := by omega
      have hY : Y = -1 := by
        have : ¬ (X < 0 ↔ Y < 0) → False := fun hh => hc (Or.inr hh)
        omega
      exact hp ⟨hX, hY⟩
    generalize X.natAbs / Y.natAbs = q0 at *
    generalize X.tdiv Y = T at *
    clear a b hn hc hp
    omega

set_option maxRecDepth 4000 in
/-- `Div` returns the truncated quotient of the signed values, modulo `2^256`; the quotient
itself unless it is `2^255`, which only `-2^255 / -1` gives. -/
theorem Div_signed (z x y : Int256) (hx : x.value.WF) (hy : y.value.WF)
    (hy0 : y.IsZero = false) :
    ∃ d, Int256.Div z x y = .ok d ∧ d.value.WF ∧
      (d.value.toNat : Int) = (x.toInt.tdiv y.toInt) % 2 ^ 256 ∧
      (¬ (x.toInt = -2 ^ 255 ∧ y.toInt = -1) → d.toInt = x.toInt.tdiv y.toInt) := by
  obtain ⟨q, hqw, hqv, hd⟩ := Div_pattern z x y hx hy hy0
  have hY := (IsZero_toInt y hy).1 hy0
  have hne := Sign_ne_iff x y hx hy hY
  obtain ⟨x1, x2, -⟩ := toInt_spec x hx
  obtain ⟨ta, tb⟩ := tdiv_by_sign x.toInt y.toInt
  obtain ⟨nw, -⟩ := Neg_val q hqw
  have hnc := Neg_cast q hqw
  have hqlt := toNat_lt q hqw
  by_cases hs : x.Sign ≠ y.Sign
  · rw [if_pos hs] at hd
    have hT := ta (hne.1 hs)
    have hcast : ((Uint.Neg q).toNat : Int) = (x.toInt.tdiv y.toInt) % 2 ^ 256 := by
      rw [hnc, hqv, hT]
    refine ⟨_, hd, nw, hcast, fun hp => ?_⟩
    obtain ⟨r1, r2⟩ := tdiv_range x.toInt y.toInt x1 x2 hp
    exact toInt_unique _ nw _ r1 r2 hcast
  · rw [if_neg hs] at hd
    have hT := tb (fun h => hs (hne.2 h))
    have hcast : (q.toNat : Int) = (x.toInt.tdiv y.toInt) % 2 ^ 256 := by
      rw [hT, ← hqv]
      exact (Int.emod_eq_of_lt (by omega) (by omega)).symm
    refine ⟨_, hd, hqw, hcast, fun hp => ?_⟩
    obtain ⟨r1, r2⟩ := tdiv_range x.toInt y.toInt x1 x2 hp
    exact toInt_unique _ hqw _ r1 r2 hcast

/-- The truncated remainder of two signed values is smaller in magnitude than the divisor. -/
theorem tmod_bound (X Y : Int) (hY : Y ≠ 0) :
    (X.tmod Y).natAbs < Y.natAbs ∧ (0 ≤ X → 0 ≤ X.tmod Y) ∧ (X ≤ 0 → X.tmod Y ≤ 0) := by
  obtain ⟨c1, c2⟩ := tmod_cases X Y
  have hb : X.natAbs % Y.natAbs < Y.natAbs := Nat.mod_lt _ (by omega)
  have hp0 : X = 0 → X.natAbs % Y.natAbs = 0 := by
    intro h; rw [h]; simp
  by_cases hX : 0 ≤ X
  · have e := c1 hX
    generalize X.natAbs % Y.natAbs = p at *
    generalize X.tmod Y = R at *
    clear c1 c2
    omega
  · have e := c2 (by omega)
    generalize X.natAbs % Y.natAbs = p at *
    generalize X.tmod Y = R at *
    clear c1 c2
    omega

set_option maxRecDepth 4000 in
/-- `Rem` returns the truncated remainder of the signed values. -/
theorem Rem_signed (z x y : Int256) (hx : x.value.WF) (hy : y.value.WF)
    (hy0 : y.IsZero = false) :
    ∃ r, Int256.Rem z x y = .ok r ∧ r.value.WF ∧ r.toInt = x.toInt.tmod y.toInt := by
  obtain ⟨r0, hrw, hrv, hd⟩ := Rem_pattern z x y hx hy hy0
  have hY := (IsZero_toInt y hy).1 hy0
  have hsx := Sign_neg_iff x hx
  obtain ⟨y1, y2, -⟩ := toInt_spec y hy
  obtain ⟨b1, -, -⟩ := tmod_bound x.toInt y.toInt hY
  obtain ⟨c1, c2⟩ := tmod_cases x.toInt y.toInt
  obtain ⟨nw, -⟩ := Neg_val r0 hrw
  have hnc := Neg_cast r0 hrw
  have r1 : -2 ^ 255 ≤ x.toInt.tmod y.toInt := by
    clear c1 c2 hnc hd
    omega
  have r2 : x.toInt.tmod y.toInt < 2 ^ 255 := by
    clear c1 c2 hnc hd
    omega
  by_cases hs : x.Sign < 0
  · rw [if_pos hs] at hd
    have hT := c2 (le_of_lt (hsx.1 hs))
    refine ⟨_, hd, nw, ?_⟩
    apply toInt_unique _ nw _ r1 r2
    show ((Uint.Neg r0).toNat : Int) = _
    rw [hnc, hrv, hT]
  · rw [if_neg hs] at hd
    have hT := c1 (not_lt.1 (fun h => hs (hsx.2 h)))
    refine ⟨_, hd, hrw, ?_⟩
    apply toInt_unique _ hrw _ r1 r2
    show (r0.toNat : Int) = _
    rw [hT, ← hrv]
    exact (Int.emod_eq_of_lt (by omega) (by omega)).symm

/-- A quotient `Q` with a remainder of the sign of the divisor and of smaller magnitude is the
floor of the rational quotient. -/
theorem floor_of_decomp (X Y Q m : Int) (h : X = Q * Y + m)
    (hp : 0 < Y → 0 ≤ m ∧ m < Y) (hn : Y < 0 → Y < m ∧ m ≤ 0) (hY : Y ≠ 0) :
    ⌊(X : ℚ) / (Y : ℚ)⌋ = Q := by
  have hX : (X : ℚ) = Q * Y + m := by exact_mod_cast h
  rw [Int.floor_eq_iff]
  rcases lt_or_gt_of_ne hY with hlt | hgt
  · obtain ⟨h1, h2⟩ := hn hlt
    have hYq : (Y : ℚ) < 0 := by exact_mod_cast hlt
    have h1q : (Y : ℚ) < m := by exact_mod_cast h1
    have h2q : (m : ℚ) ≤ 0 := by exact_mod_cast h2
    constructor
    · rw [le_div_iff_of_neg hYq]; linarith
    · rw [div_lt_iff_of_neg hYq]; linarith
  · obtain ⟨h1, h2⟩ := hp hgt
    have hYq : (0 : ℚ) < Y := by exact_mod_cast hgt
    have h1q : (0 : ℚ) ≤ m := by exact_mod_cast h1
    have h2q : (m : ℚ) < Y := by exact_mod_cast h2
    constructor
    · rw [le_div_iff₀ hYq]; linarith
    · rw [div_lt_iff₀ hYq]; linarith

/-- A quotient `Q` with a remainder that is not negative and is below the magnitude of the
divisor is the Euclidean quotient, and the remainder the Euclidean remainder. -/
theorem ediv_emod_of_decomp (X Y Q m : Int) (h : X = Q * Y + m) (h0 : 0 ≤ m)
    (h1 : m < Y.natAbs) : X % Y = m ∧ X / Y = Q := by
  have hY : Y ≠ 0 := by omega
  have hm : m % Y = m := by
    by_cases hp : 0 < Y
    · exact Int.emod_eq_of_lt h0 (by omega)
    · rw [← Int.emod_neg]
      exact Int.emod_eq_of_lt h0 (by omega)
  have e : X % Y = m := by
    rw [h, Int.add_comm, Int.add_mul_emod_self, hm]
  refine ⟨e, ?_⟩
  have h2 := Int.ediv_add_emod X Y
  rw [e] at h2
  have h3 : Y * (X / Y) = Y * Q := by
    rw [Int.mul_comm Y Q]
    omega
  exact mul_left_cancel₀ hY h3

/-- The floor of the rational quotient when exactly one operand is negative and the
magnitudes do not divide evenly: one more than the quotient of the magnitudes, negated. -/
theorem floor_uneven (X Y : Int) (hY : Y ≠ 0) (hs : ¬ (X < 0 ↔ Y < 0))
    (hr : X.natAbs % Y.natAbs ≠ 0) :
    ⌊(X : ℚ) / (Y : ℚ)⌋ = -((X.natAbs / Y.natAbs + 1 : Nat) : Int) := by
  have hab : (Y.natAbs : Int) * ((X.natAbs / Y.natAbs : Nat) : Int)
      + ((X.natAbs % Y.natAbs : Nat) : Int) = (X.natAbs : Int) := by
    exact_mod_cast Nat.div_add_mod X.natAbs Y.natAbs
  have hb : X.natAbs % Y.natAbs < Y.natAbs := Nat.mod_lt _ (by omega)
  generalize X.natAbs / Y.natAbs = q0 at *
  generalize X.natAbs % Y.natAbs = p at *
  by_cases hX : X < 0
  · have eX : (X.natAbs : Int) = -X := by omega
    have eY : (Y.natAbs : Int) = Y := by omega
    rw [eX, eY] at hab
    refine floor_of_decomp X Y _ (Y - p) ?_ (fun _ => by omega) (fun h => by omega) hY
    push_cast
    linear_combination hab
  · have eX : (X.natAbs : Int) = X := by omega
    have eY : (Y.natAbs : Int) = -Y := by omega
    rw [eX, eY] at hab
    refine floor_of_decomp X Y _ (p - (-Y)) ?_ (fun h => by omega) (fun _ => by omega) hY
    push_cast
    linear_combination (-1 : Int) * hab

/-- The floor of the rational quotient is the truncated quotient when the operands have one
sign or the magnitudes divide evenly. -/
theorem floor_even (X Y : Int) (hY : Y ≠ 0)
    (hc : ¬ ((¬ (X < 0 ↔ Y < 0)) ∧ X.natAbs % Y.natAbs ≠ 0)) :
    ⌊(X : ℚ) / (Y : ℚ)⌋ = X.tdiv Y := by
  obtain ⟨b1, b2, b3⟩ := tmod_bound X Y hY
  obtain ⟨c1, c2⟩ := tmod_cases X Y
  have hz : X.natAbs % Y.natAbs = 0 → X.tmod Y = 0 := by
    intro h
    by_cases hX : 0 ≤ X
    · rw [c1 hX, h]; rfl
    · rw [c2 (by omega), h]; rfl
  have hd := (Int.tdiv_add_tmod' X Y).symm
  generalize X.natAbs % Y.natAbs = p at *
  generalize X.tmod Y = R at *
  clear c1 c2
  refine floor_of_decomp X Y _ R hd (fun h => ?_) (fun h => ?_) hY
  · by_cases hp : p = 0
    · have := hz hp
      omega
    · omega
  · by_cases hp : p = 0
    · have := hz hp
      omega
    · omega

/-- The floor of the rational quotient of two signed values is a signed value, except for
`-2^255 / -1`. -/
theorem floor_range (X Y : Int) (h1 : -2 ^ 255 ≤ X) (h2 : X < 2 ^ 255) (hY : Y ≠ 0)
    (hp : ¬ (X = -2 ^ 255 ∧ Y = -1)) :
    -2 ^ 255 ≤ ⌊(X : ℚ) / (Y : ℚ)⌋ ∧ ⌊(X : ℚ) / (Y : ℚ)⌋ < 2 ^ 255 := by
  by_cases hc : (¬ (X < 0 ↔ Y < 0)) ∧ X.natAbs % Y.natAbs ≠ 0
  · rw [floor_uneven X Y hY hc.1 hc.2]
    have hab := Nat.div_add_mod X.natAbs Y.natAbs
    have hq : X.natAbs / Y.natAbs ≤ Y.natAbs * (X.natAbs / Y.natAbs) :=
      Nat.le_mul_of_pos_left _ (by omega)
    have hr := hc.2
    generalize X.natAbs / Y.natAbs = q0 at *
    generalize X.natAbs % Y.natAbs = p at *
    generalize Y.natAbs * q0 = t at *
    clear hc
    omega
  · rw [floor_even X Y hY hc]
    exact tdiv_range X Y h1 h2 hp

set_option maxRecDepth 4000 in
/-- `Quo` returns the floor of the rational quotient of the signed values, modulo `2^256`;
the floor itself unless it is `2^255`, which only `-2^255 / -1` gives. -/
theorem Quo_signed (z x y : Int256) (hx : x.value.WF) (hy : y.value.WF)
    (hy0 : y.IsZero = false) :
    ∃ q, Int256.Quo z x y = .ok q ∧ q.value.WF ∧
      (q.value.toNat : Int) = ⌊(x.toInt : ℚ) / (y.toInt : ℚ)⌋ % 2 ^ 256 ∧
      (¬ (x.toInt = -2 ^ 255 ∧ y.toInt = -1) →
        q.toInt = ⌊(x.toInt : ℚ) / (y.toInt : ℚ)⌋) := by
  obtain ⟨q, hqw, hqv, hd⟩ := Quo_pattern z x y hx hy hy0
  have hY := (IsZero_toInt y hy).1 hy0
  have hne := Sign_ne_iff x y hx hy hY
  obtain ⟨x1, x2, -⟩ := toInt_spec x hx
  obtain ⟨ta, tb⟩ := tdiv_by_sign x.toInt y.toInt
  obtain ⟨nw, -⟩ := Neg_val q hqw
  have hnc := Neg_cast q hqw
  have hqlt := toNat_lt q hqw
  have hcast : ∃ d : Int256, Int256.Quo z x y = .ok d ∧ d.value.WF ∧
      (d.value.toNat : Int) = ⌊(x.toInt : ℚ) / (y.toInt : ℚ)⌋ % 2 ^ 256 := by
    by_cases hc : (¬ (x.toInt < 0 ↔ y.toInt < 0)) ∧ x.toInt.natAbs % y.toInt.natAbs ≠ 0
    · rw [if_pos hc] at hqv
      have hs : x.Sign ≠ y.Sign := hne.2 (Or.inr hc.1)
      rw [if_pos hs] at hd
      refine ⟨_, hd, nw, ?_⟩
      show ((Uint.Neg q).toNat : Int) = _
      rw [hnc, hqv, floor_uneven _ _ hY hc.1 hc.2]
    · rw [if_neg hc] at hqv
      rw [floor_even _ _ hY hc]
      by_cases hs : x.Sign ≠ y.Sign
      · rw [if_pos hs] at hd
        refine ⟨_, hd, nw, ?_⟩
        show ((Uint.Neg q).toNat : Int) = _
        rw [hnc, hqv, ta (hne.1 hs)]
      · rw [if_neg hs] at hd
        refine ⟨_, hd, hqw, ?_⟩
        show (q.toNat : Int) = _
        rw [tb (fun h => hs (hne.2 h)), ← hqv]
        exact (Int.emod_eq_of_lt (by omega) (by omega)).symm
  obtain ⟨d, h1, h2, h3⟩ := hcast
  refine ⟨d, h1, h2, h3, fun hp => ?_⟩
  obtain ⟨r1, r2⟩ := floor_range x.toInt y.toInt x1 x2 hY hp
  exact toInt_unique _ h2 _ r1 r2 h3

set_option maxRecDepth 4000 in
/-- The bit pattern of the signed `Add`, modulo `2^256`. -/
theorem Add_cast (a b : Int256) (ha : a.value.WF) (hb : b.value.WF) :
    (Int256.Add a b).value.WF ∧
    ((Int256.Add a b).value.toNat : Int) = (a.toInt + b.toInt) % 2 ^ 256 := by
  obtain ⟨w, v⟩ := uint256_Add_val a.value b.value ha hb
  obtain ⟨-, -, -, -, ea⟩ := toInt_spec a ha
  obtain ⟨-, -, -, -, eb⟩ := toInt_spec b hb
  refine ⟨w, ?_⟩
  show ((uint256.Add a.value b.value).toNat : Int) = _
  rw [v, Int.add_emod, ← ea, ← eb]
  push_cast
  rfl

set_option maxRecDepth 4000 in
/-- The bit pattern of the signed `Sub`, modulo `2^256`. -/
theorem Sub_cast (a b : Int256) (ha : a.value.WF) (hb : b.value.WF) :
    (Int256.Sub a b).value.WF ∧
    ((Int256.Sub a b).value.toNat : Int) = (a.toInt - b.toInt) % 2 ^ 256 := by
  obtain ⟨w, v⟩ := uint256_Sub_val a.value b.value ha hb
  obtain ⟨-, -, -, -, ea⟩ := toInt_spec a ha
  obtain ⟨-, -, -, -, eb⟩ := toInt_spec b hb
  have h1 := toNat_lt a.value ha
  have h2 := toNat_lt b.value hb
  refine ⟨w, ?_⟩
  show ((uint256.Sub a.value b.value).toNat : Int) = _
  rw [v, Int.sub_emod, ← ea, ← eb]
  generalize a.value.toNat = m at *
  generalize b.value.toNat = n at *
  clear ea eb v w
  omega

set_option maxRecDepth 4000 in
/-- `ModE` returns the Euclidean remainder of the signed values. -/
theorem ModE_signed (z x y : Int256) (hx : x.value.WF) (hy : y.value.WF)
    (hy0 : y.IsZero = false) :
    ∃ m, Int256.ModE z x y = .ok m ∧ m.value.WF ∧ m.toInt = x.toInt % y.toInt := by
  obtain ⟨r, hr, hrw, hrv⟩ := Rem_signed z x y hx hy hy0
  have hY := (IsZero_toInt y hy).1 hy0
  obtain ⟨y1, y2, -⟩ := toInt_spec y hy
  obtain ⟨b1, b2, b3⟩ := tmod_bound x.toInt y.toInt hY
  obtain ⟨sr, -⟩ := Sign_pos_iff r hrw
  obtain ⟨-, sy⟩ := Sign_pos_iff y hy
  have hd := (Int.tdiv_add_tmod' x.toInt y.toInt).symm
  rw [← hrv] at b1 hd
  unfold Int256.ModE
  rw [hy0, hr]
  simp only [Bool.false_eq_true, if_false]
  by_cases h0 : r.Sign ≥ 0
  · rw [if_pos h0]
    refine ⟨r, rfl, hrw, ?_⟩
    exact ((ediv_emod_of_decomp _ _ _ _ hd (sr.1 h0) (by omega)).1).symm
  · rw [if_neg h0]
    have hneg : r.toInt < 0 := by
      by_contra hc
      exact h0 (sr.2 (by omega))
    by_cases hp : y.Sign > 0
    · rw [if_pos hp]
      obtain ⟨w, v⟩ := Add_cast r y hrw hy
      have hpos := sy.1 hp
      refine ⟨_, rfl, w, ?_⟩
      have e : (Int256.Add r y).toInt = r.toInt + y.toInt :=
        toInt_unique _ w _ (by omega) (by omega) v
      rw [e]
      have hd2 : x.toInt = (x.toInt.tdiv y.toInt - 1) * y.toInt + (r.toInt + y.toInt) := by
        linear_combination hd
      exact ((ediv_emod_of_decomp _ _ _ _ hd2 (by omega) (by omega)).1).symm
    · rw [if_neg hp]
      obtain ⟨w, v⟩ := Sub_cast r y hrw hy
      have hpos : y.toInt < 0 := by
        by_contra hc
        exact hp (sy.2 (by omega))
      refine ⟨_, rfl, w, ?_⟩
      have e : (Int256.Sub r y).toInt = r.toInt - y.toInt :=
        toInt_unique _ w _ (by omega) (by omega) v
      rw [e]
      have hd2 : x.toInt = (x.toInt.tdiv y.toInt + 1) * y.toInt + (r.toInt - y.toInt) := by
        linear_combination hd
      exact ((ediv_emod_of_decomp _ _ _ _ hd2 (by omega) (by omega)).1).symm

/-- The Euclidean quotient of two signed values is a signed value, except `-2^255 / -1`. -/
theorem ediv_range (X Y : Int) (h1 : -2 ^ 255 ≤ X) (h2 : X < 2 ^ 255) (hY : Y ≠ 0)
    (hp : ¬ (X = -2 ^ 255 ∧ Y = -1)) : -2 ^ 255 ≤ X / Y ∧ X / Y < 2 ^ 255 := by
  have hn := Int.natAbs_div_le_natAbs X Y
  have hd := Int.ediv_add_emod X Y
  have e0 := Int.emod_nonneg X hY
  have e1 : X % Y < (Y.natAbs : Int) := by
    rw [Int.natCast_natAbs]
    exact Int.emod_lt X hY
  have h255 : X / Y ≠ 2 ^ 255 := by
    intro h
    rw [h] at hd
    generalize X % Y = e at *
    clear hn h
    have hX : X = -2 ^ 255 ∧ Y = -1 := by
      constructor <;> omega
    exact hp hX
  generalize X / Y = Q at *
  clear hd e0 e1 hp
  omega

set_option maxRecDepth 4000 in
/-- `DivE` returns the Euclidean quotient of the signed values, modulo `2^256`; the quotient
itself unless it is `2^255`, which only `-2^255 / -1` gives. -/
theorem DivE_signed (z x y : Int256) (hx : x.value.WF) (hy : y.value.WF)
    (hy0 : y.IsZero = false) :
    ∃ q, Int256.DivE z x y = .ok q ∧ q.value.WF ∧
      (q.value.toNat : Int) = (x.toInt / y.toInt) % 2 ^ 256 ∧
      (¬ (x.toInt = -2 ^ 255 ∧ y.toInt = -1) → q.toInt = x.toInt / y.toInt) := by
  obtain ⟨d, hd, hdw, hdv, -⟩ := Div_signed z x y hx hy hy0
  obtain ⟨r, hr, hrw, hrv⟩ := Rem_signed ⟨⟨0, 0, 0, 0⟩⟩ x y hx hy hy0
  have hY := (IsZero_toInt y hy).1 hy0
  obtain ⟨x1, x2, -⟩ := toInt_spec x hx
  obtain ⟨y1, y2, -⟩ := toInt_spec y hy
  obtain ⟨-, -, -, -, dc⟩ := toInt_spec d hdw
  obtain ⟨b1, b2, b3⟩ := tmod_bound x.toInt y.toInt hY
  obtain ⟨sr, -⟩ := Sign_pos_iff r hrw
  obtain ⟨-, sy⟩ := Sign_pos_iff y hy
  have hdec := (Int.tdiv_add_tmod' x.toInt y.toInt).symm
  have h1 : Int256.toInt int1 = 1 := by decide
  have w1 : int1.value.WF := by decide
  rw [← hrv] at b1 hdec
  rw [dc] at hdv
  have hcast : ∃ q : Int256, Int256.DivE z x y = .ok q ∧ q.value.WF ∧
      (q.value.toNat : Int) = (x.toInt / y.toInt) % 2 ^ 256 := by
    unfold Int256.DivE
    rw [hy0, hd, hr]
    simp only [Bool.false_eq_true, if_false]
    by_cases h0 : r.Sign ≥ 0
    · rw [if_pos h0]
      refine ⟨d, rfl, hdw, ?_⟩
      rw [(ediv_emod_of_decomp _ _ _ _ hdec (sr.1 h0) (by omega)).2, dc, hdv]
    · rw [if_neg h0]
      have hneg : r.toInt < 0 := by
        by_contra hc
        exact h0 (sr.2 (by omega))
      by_cases hp : y.Sign > 0
      · rw [if_pos hp]
        obtain ⟨w, v⟩ := Sub_cast d int1 hdw w1
        have hpos := sy.1 hp
        have hd2 : x.toInt = (x.toInt.tdiv y.toInt - 1) * y.toInt + (r.toInt + y.toInt) := by
          linear_combination hdec
        refine ⟨_, rfl, w, ?_⟩
        rw [(ediv_emod_of_decomp _ _ _ _ hd2 (by omega) (by omega)).2, v, h1]
        generalize x.toInt.tdiv y.toInt = T at *
        generalize d.toInt = D at *
        clear hdec hd2 dc
        omega
      · rw [if_neg hp]
        obtain ⟨w, v⟩ := Add_cast d int1 hdw w1
        have hpos : y.toInt < 0 := by
          by_contra hc
          exact hp (sy.2 (by omega))
        have hd2 : x.toInt = (x.toInt.tdiv y.toInt + 1) * y.toInt + (r.toInt - y.toInt) := by
          linear_combination hdec
        refine ⟨_, rfl, w, ?_⟩
        rw [(ediv_emod_of_decomp _ _ _ _ hd2 (by omega) (by omega)).2, v, h1]
        generalize x.toInt.tdiv y.toInt = T at *
        generalize d.toInt = D at *
        clear hdec hd2 dc
        omega
  obtain ⟨q, e1, e2, e3⟩ := hcast
  refine ⟨q, e1, e2, e3, fun hp => ?_⟩
  obtain ⟨r1, r2⟩ := ediv_range x.toInt y.toInt x1 x2 hY hp
  exact toInt_unique _ e2 _ r1 r2 e3

set_option maxRecDepth 4000 in
/-- An identity `T * Y + R = X` of integers holds of bit patterns modulo `2^256`. -/
theorem pattern_identity (dv yv rv xv : Nat) (T Y R X : Int) (hxlt : xv < 2 ^ 256)
    (hd : (dv : Int) = T % 2 ^ 256) (hy : (yv : Int) = Y % 2 ^ 256)
    (hr : (rv : Int) = R % 2 ^ 256) (hx : (xv : Int) = X % 2 ^ 256) (h : T * Y + R = X) :
    (dv * yv + rv) % 2 ^ 256 = xv := by
  have e1 : (dv : Int) ≡ T [ZMOD 2 ^ 256] := by rw [hd]; exact Int.mod_modEq T _
  have e2 : (yv : Int) ≡ Y [ZMOD 2 ^ 256] := by rw [hy]; exact Int.mod_modEq Y _
  have e3 : (rv : Int) ≡ R [ZMOD 2 ^ 256] := by rw [hr]; exact Int.mod_modEq R _
  have e4 : (xv : Int) ≡ X [ZMOD 2 ^ 256] := by rw [hx]; exact Int.mod_modEq X _
  have e5 : (dv : Int) * yv + rv ≡ xv [ZMOD 2 ^ 256] := by
    have := (e1.mul e2).add e3
    rw [h] at this
    exact this.trans e4.symm
  have e6 : ((dv * yv + rv : Nat) : Int) ≡ ((xv : Nat) : Int) [ZMOD ((2 ^ 256 : Nat) : Int)] := by
    push_cast
    exact e5
  have e7 := (Int.natCast_modEq_iff).1 e6
  unfold Nat.ModEq at e7
  rw [e7]
  exact Nat.mod_eq_of_lt hxlt

set_option maxRecDepth 4000 in
/-- `AddDelta` leaves the sum of the base and the signed delta modulo `2^256`. -/
theorem AddDelta_val (x : Uint) (y : Int256) (hx : x.WF) (hy : y.value.WF) :
    (AddDelta x y).WF ∧
    ((AddDelta x y).toNat : Int) = ((x.toNat : Int) + y.toInt) % 2 ^ 256 := by
  obtain ⟨sy, -⟩ := Sign_pos_iff y hy
  obtain ⟨y1, y2, y3, y4, -⟩ := toInt_spec y hy
  obtain ⟨wa, a1, a2, -, -⟩ := Abs_val y hy
  have hxl := toNat_lt x hx
  have hyl := toNat_lt y.value hy
  unfold AddDelta
  by_cases h : y.Sign ≥ 0
  · rw [if_pos h]
    obtain ⟨w, v⟩ := uint256_Add_val x y.value hx hy
    refine ⟨w, ?_⟩
    have h0 := sy.1 h
    have hv : y.value.toNat < 2 ^ 255 := by
      by_contra hc
      have := y4 (by omega)
      omega
    rw [v, y3 hv]
    push_cast
    rfl
  · rw [if_neg h]
    obtain ⟨w, v⟩ := uint256_Sub_val x y.Abs hx wa
    refine ⟨w, ?_⟩
    have h0 : y.toInt < 0 := by
      by_contra hc
      exact h (sy.2 (by omega))
    have hv : 2 ^ 255 ≤ y.value.toNat := by
      by_contra hc
      have := y3 (by omega)
      omega
    rw [v, a2 h0, y4 hv]
    generalize x.toNat = m at *
    generalize y.value.toNat = n at *
    clear v w a1 a2 y3 y4 sy
    omega

set_option maxRecDepth 4000 in
/-- `AddDeltaOverflow` leaves what `AddDelta` leaves, and its flag tells whether the sum of
the base and the signed delta is outside `0 .. 2^256 - 1`. -/
theorem AddDeltaOverflow_val (x : Uint) (y : Int256) (hx : x.WF) (hy : y.value.WF) :
    (AddDeltaOverflow x y).1 = AddDelta x y ∧
    ((AddDeltaOverflow x y).2 = true ↔
      ((x.toNat : Int) + y.toInt < 0 ∨ (x.toNat : Int) + y.toInt > 2 ^ 256 - 1)) := by
  obtain ⟨sy, -⟩ := Sign_pos_iff y hy
  obtain ⟨y1, y2, y3, y4, -⟩ := toInt_spec y hy
  obtain ⟨wa, a1, a2, -, -⟩ := Abs_val y hy
  have hxl := toNat_lt x hx
  have hyl := toNat_lt y.value hy
  unfold AddDeltaOverflow AddDelta
  by_cases h : y.Sign ≥ 0
  · rw [if_pos h, if_pos h]
    obtain ⟨-, -, f⟩ := AddOverflow_val x y.value hx hy
    refine ⟨rfl, ?_⟩
    have h0 := sy.1 h
    have hv : y.value.toNat < 2 ^ 255 := by
      by_contra hc
      have := y4 (by omega)
      omega
    rw [f, y3 hv]
    omega
  · rw [if_neg h, if_neg h]
    have h0 : y.toInt < 0 := by
      by_contra hc
      exact h (sy.2 (by omega))
    have hv : 2 ^ 255 ≤ y.value.toNat := by
      by_contra hc
      have := y3 (by omega)
      omega
    have eabs : uint256.Sub uint0 y.value = y.Abs := by
      unfold Int256.Abs
      rw [if_neg h]
      rfl
    simp only [eabs]
    obtain ⟨-, -, f⟩ := SubOverflow_val x y.Abs hx wa
    refine ⟨rfl, ?_⟩
    rw [f, a2 h0, y4 hv]
    generalize x.toNat = m at *
    generalize y.value.toNat = n at *
    clear a1 a2 y3 y4 sy f
    omega

/-- With a receiver that is neither operand, `DivE` on the memory is `DivE` on the values. -/
theorem DivEAt_distinct (m : Mem) (z x y : Nat) (hx : x ≠ z) (hy : y ≠ z) :
    Mem.receiver (DivEAt m z x y) z = Int256.DivE (m z) (m x) (m y) := by
  unfold DivEAt Int256.DivE
  by_cases h0 : (m y).IsZero = true
  · rw [if_pos h0, if_pos h0]; rfl
  · rw [if_neg h0, if_neg h0]
    cases hd : Int256.Div (m z) (m x) (m y) with
    | panic f r => simp [Mem.commit, Mem.receiver, write_same]
    | ok q =>
      simp only [Mem.commit, write_same, write_other _ _ _ _ hx, write_other _ _ _ _ hy]
      cases hr : Int256.Rem ⟨⟨0, 0, 0, 0⟩⟩ (m x) (m y) with
      | panic f r => simp [Mem.receiver, write_same]
      | ok r =>
        simp only []
        split_ifs <;> simp [Mem.receiver, write_same]

/-- With a receiver that is not the divisor, `ModE` on the memory is `ModE` on the values: the
receiver may be the dividend. -/
theorem ModEAt_not_divisor (m : Mem) (z x y : Nat) (hy : y ≠ z) :
    Mem.receiver (ModEAt m z x y) z = Int256.ModE (m z) (m x) (m y) := by
  unfold ModEAt Int256.ModE
  by_cases h0 : (m y).IsZero = true
  · rw [if_pos h0, if_pos h0]; rfl
  · rw [if_neg h0, if_neg h0]
    cases hd : Int256.Rem (m z) (m x) (m y) with
    | panic f r => simp [Mem.commit, Mem.receiver, write_same]
    | ok q =>
      simp only [Mem.commit, write_same, write_other _ _ _ _ hy]
      split_ifs <;> simp [Mem.receiver, write_same]

/-! ## Main results -/

/-- Claim C1: for every pair of well-formed 256-bit values `x` and `y` with `y ≠ 0`, `Div x y`
returns (no panic) a well-formed value equal to `floor(x / y)`; the statement covers every path
of `Div` (`y > x`, `x == y`, the single-limb fast path, `udivremBy1` and `udivremKnuth`). -/
theorem Div_floor (x y : Uint) (hx : x.WF) (hy : y.WF) (hy0 : y.toNat ≠ 0) :
    ∃ z, x.Div y = some z ∧ z.WF ∧ z.toNat = x.toNat / y.toNat :=
  Div_val x y hx hy hy0

/-- Witness for C1 on the Knuth path (a three-limb divisor). -/
theorem Div_floor_witness :
    Uint.WF ⟨7, 0, 5, 9223372036854775808⟩ ∧ Uint.WF ⟨3, 1, 9223372036854775807, 0⟩ ∧
    Uint.toNat ⟨3, 1, 9223372036854775807, 0⟩ ≠ 0 ∧
    Uint.Div ⟨7, 0, 5, 9223372036854775808⟩ ⟨3, 1, 9223372036854775807, 0⟩
      = some ⟨2, 1, 0, 0⟩ ∧
    ∃ z, Uint.Div ⟨7, 0, 5, 9223372036854775808⟩ ⟨3, 1, 9223372036854775807, 0⟩ = some z ∧
      z.WF ∧ z.toNat = Uint.toNat ⟨7, 0, 5, 9223372036854775808⟩
        / Uint.toNat ⟨3, 1, 9223372036854775807, 0⟩ :=
  ⟨by decide, by decide, by decide, by decide,
    Div_floor ⟨7, 0, 5, 9223372036854775808⟩ ⟨3, 1, 9223372036854775807, 0⟩
      (by decide) (by decide) (by decide)⟩

/-- Claim C2: for every pair of well-formed values `x` and `y` with `y ≠ 0`, `Mod x y` returns
`x mod y`: the result `r` satisfies `r < y` and `x = Div(x, y) * y + r`; in particular `r = x`
when `y > x` and `r = 0` when `y = x`. -/
theorem Mod_correct (x y : Uint) (hx : x.WF) (hy : y.WF) (hy0 : y.toNat ≠ 0) :
    ∃ r q, x.Mod y = some r ∧ x.Div y = some q ∧ r.WF ∧ r.toNat = x.toNat % y.toNat ∧
      r.toNat < y.toNat ∧ x.toNat = q.toNat * y.toNat + r.toNat ∧
      (x.toNat < y.toNat → r = x) ∧ (x = y → r.toNat = 0) := by
  obtain ⟨r, hr, r1, r2⟩ := Mod_val x y hx hy hy0
  obtain ⟨q, hq, -, q2⟩ := Div_val x y hx hy hy0
  have hpos : 0 < y.toNat := Nat.pos_of_ne_zero hy0
  refine ⟨r, q, hr, hq, r1, r2, ?_, ?_, ?_, ?_⟩
  · rw [r2]
    exact Nat.mod_lt _ hpos
  · rw [r2, q2, Nat.mul_comm]
    exact (Nat.div_add_mod _ _).symm
  · intro hlt
    apply toNat_inj r x r1 hx
    rw [r2, Nat.mod_eq_of_lt hlt]
  · intro he
    rw [r2, he, Nat.mod_self]

/-- Witness for C2 on the Knuth path. -/
theorem Mod_correct_witness :
    Uint.WF ⟨7, 0, 5, 9223372036854775808⟩ ∧ Uint.WF ⟨3, 1, 9223372036854775807, 0⟩ ∧
    Uint.toNat ⟨3, 1, 9223372036854775807, 0⟩ ≠ 0 ∧
    Uint.Mod ⟨7, 0, 5, 9223372036854775808⟩ ⟨3, 1, 9223372036854775807, 0⟩
      = some ⟨1, 18446744073709551611, 5, 0⟩ ∧
    ∃ r q, Uint.Mod ⟨7, 0, 5, 9223372036854775808⟩ ⟨3, 1, 9223372036854775807, 0⟩ = some r ∧
      Uint.Div ⟨7, 0, 5, 9223372036854775808⟩ ⟨3, 1, 9223372036854775807, 0⟩ = some q ∧
      r.WF ∧
      r.toNat = Uint.toNat ⟨7, 0, 5, 9223372036854775808⟩
        % Uint.toNat ⟨3, 1, 9223372036854775807, 0⟩ ∧
      r.toNat < Uint.toNat ⟨3, 1, 9223372036854775807, 0⟩ ∧
      Uint.toNat ⟨7, 0, 5, 9223372036854775808⟩
        = q.toNat * Uint.toNat ⟨3, 1, 9223372036854775807, 0⟩ + r.toNat ∧
      (Uint.toNat ⟨7, 0, 5, 9223372036854775808⟩ < Uint.toNat ⟨3, 1, 9223372036854775807, 0⟩ →
        r = ⟨7, 0, 5, 9223372036854775808⟩) ∧
      ((⟨7, 0, 5, 9223372036854775808⟩ : Uint) = ⟨3, 1, 9223372036854775807, 0⟩ →
        r.toNat = 0) :=
  ⟨by decide, by decide, by decide, by decide,
    Mod_correct ⟨7, 0, 5, 9223372036854775808⟩ ⟨3, 1, 9223372036854775807, 0⟩
      (by decide) (by decide) (by decide)⟩

/-- Claim C3, at its failing inputs: `Add(2^192 - 1, 1)` panics although the sum `2^192` fits
in 256 bits, and `Add(2^255, 2^255)` returns 0 without a panic although the sum is `2^256`:
the panic tests the carry out of limb 2, the carry out of limb 3 being discarded. -/
theorem Add_tests_wrong_carry :
    Uint.Add ⟨18446744073709551615, 18446744073709551615, 18446744073709551615, 0⟩
      ⟨1, 0, 0, 0⟩ = none ∧
    Uint.toNat ⟨18446744073709551615, 18446744073709551615, 18446744073709551615, 0⟩
      + Uint.toNat ⟨1, 0, 0, 0⟩ ≤ 2 ^ 256 - 1 ∧
    Uint.Add ⟨0, 0, 0, 9223372036854775808⟩ ⟨0, 0, 0, 9223372036854775808⟩
      = some ⟨0, 0, 0, 0⟩ ∧
    Uint.toNat ⟨0, 0, 0, 9223372036854775808⟩ + Uint.toNat ⟨0, 0, 0, 9223372036854775808⟩
      > 2 ^ 256 - 1 :=
  ⟨by decide, by decide, by decide, by decide⟩

/-- Claim C4, at its failing inputs: `Sub(2^192, 1)` panics although `2^192 ≥ 1`, and
`Sub(0, 2^192)` returns `2^256 - 2^192` without a panic although `0 < 2^192`: the panic tests
the borrow out of limb 2, the borrow out of limb 3 being discarded. -/
theorem Sub_tests_wrong_borrow :
    Uint.Sub ⟨0, 0, 0, 1⟩ ⟨1, 0, 0, 0⟩ = none ∧
    Uint.toNat ⟨1, 0, 0, 0⟩ ≤ Uint.toNat ⟨0, 0, 0, 1⟩ ∧
    Uint.Sub ⟨0, 0, 0, 0⟩ ⟨0, 0, 0, 1⟩ = some ⟨0, 0, 0, 18446744073709551615⟩ ∧
    Uint.toNat ⟨0, 0, 0, 0⟩ < Uint.toNat ⟨0, 0, 0, 1⟩ :=
  ⟨by decide, by decide, by decide, by decide⟩

/-- Claim C5: for every well-formed `x` and `y`, `Mul x y` returns a well-formed value equal to
`(x * y) mod 2^256`, the low 256 bits of the exact product. -/
theorem Mul_low256 (x y : Uint) (hx : x.WF) (hy : y.WF) :
    ∃ z, x.Mul y = some z ∧ z.WF ∧ z.toNat = (x.toNat * y.toNat) % 2 ^ 256 :=
  Mul_val x y hx hy

/-- Witness for C5, on a product that wraps. -/
theorem Mul_low256_witness :
    Uint.WF ⟨5, 0, 7, 9223372036854775808⟩ ∧ Uint.WF ⟨3, 18446744073709551615, 0, 1⟩ ∧
    ∃ z, Uint.Mul ⟨5, 0, 7, 9223372036854775808⟩ ⟨3, 18446744073709551615, 0, 1⟩ = some z ∧
      z.WF ∧ z.toNat = (Uint.toNat ⟨5, 0, 7, 9223372036854775808⟩
        * Uint.toNat ⟨3, 18446744073709551615, 0, 1⟩) % 2 ^ 256 :=
  ⟨by decide, by decide,
    Mul_low256 ⟨5, 0, 7, 9223372036854775808⟩ ⟨3, 18446744073709551615, 0, 1⟩
      (by decide) (by decide)⟩

/-- Claim C6: for every well-formed `x` and `y`, `AddOverflow x y` (a total function: it has no
panic) returns the well-formed value `(x + y) mod 2^256` and the flag `true` exactly when
`x + y ≥ 2^256`. -/
theorem AddOverflow_correct (x y : Uint) (hx : x.WF) (hy : y.WF) :
    (x.AddOverflow y).1.WF ∧ (x.AddOverflow y).1.toNat = (x.toNat + y.toNat) % 2 ^ 256 ∧
    ((x.AddOverflow y).2 = true ↔ 2 ^ 256 ≤ x.toNat + y.toNat) :=
  AddOverflow_val x y hx hy

/-- Witness for C6: `AddOverflow(2^256 - 1, 1)` yields the value 0 with overflow = true. -/
theorem AddOverflow_correct_witness :
    Uint.WF ⟨18446744073709551615, 18446744073709551615, 18446744073709551615,
      18446744073709551615⟩ ∧ Uint.WF ⟨1, 0, 0, 0⟩ ∧
    Uint.AddOverflow ⟨18446744073709551615, 18446744073709551615, 18446744073709551615,
      18446744073709551615⟩ ⟨1, 0, 0, 0⟩ = (⟨0, 0, 0, 0⟩, true) ∧
    ((Uint.AddOverflow ⟨18446744073709551615, 18446744073709551615, 18446744073709551615,
      18446744073709551615⟩ ⟨1, 0, 0, 0⟩).1.WF ∧
     (Uint.AddOverflow ⟨18446744073709551615, 18446744073709551615, 18446744073709551615,
      18446744073709551615⟩ ⟨1, 0, 0, 0⟩).1.toNat
      = (Uint.toNat ⟨18446744073709551615, 18446744073709551615, 18446744073709551615,
          18446744073709551615⟩ + Uint.toNat ⟨1, 0, 0, 0⟩) % 2 ^ 256 ∧
     ((Uint.AddOverflow ⟨18446744073709551615, 18446744073709551615, 18446744073709551615,
      18446744073709551615⟩ ⟨1, 0, 0, 0⟩).2 = true ↔
      2 ^ 256 ≤ Uint.toNat ⟨18446744073709551615, 18446744073709551615,
          18446744073709551615, 18446744073709551615⟩ + Uint.toNat ⟨1, 0, 0, 0⟩)) :=
  ⟨by decide, by decide, by decide,
    AddOverflow_correct ⟨18446744073709551615, 18446744073709551615, 18446744073709551615,
      18446744073709551615⟩ ⟨1, 0, 0, 0⟩ (by decide) (by decide)⟩

/-- Claim C7: for every well-formed `x` and `y`, `umul x y` returns eight well-formed limbs
whose value is the exact 512-bit product `x * y`, and `MulOverflow x y` returns the well-formed
value `(x * y) mod 2^256` and the flag `true` exactly when `x * y ≥ 2^256`. -/
theorem umul_MulOverflow_correct (x y : Uint) (hx : x.WF) (hy : y.WF) :
    (umul x y).length = 8 ∧ limbsOK (umul x y) ∧ limbsVal (umul x y) = x.toNat * y.toNat ∧
    (x.MulOverflow y).1.WF ∧ (x.MulOverflow y).1.toNat = (x.toNat * y.toNat) % 2 ^ 256 ∧
    ((x.MulOverflow y).2 = true ↔ 2 ^ 256 ≤ x.toNat * y.toNat) := by
  obtain ⟨h1, h2⟩ := umul_val x y hx hy
  obtain ⟨h3, h4, h5⟩ := MulOverflow_val x y hx hy
  exact ⟨rfl, h2, h1, h3, h4, h5⟩

/-- Witness for C7, on a product that needs more than 256 bits. -/
theorem umul_MulOverflow_correct_witness :
    Uint.WF ⟨5, 0, 7, 9223372036854775808⟩ ∧ Uint.WF ⟨3, 18446744073709551615, 0, 1⟩ ∧
    (Uint.MulOverflow ⟨5, 0, 7, 9223372036854775808⟩ ⟨3, 18446744073709551615, 0, 1⟩).2
      = true ∧
    ((umul ⟨5, 0, 7, 9223372036854775808⟩ ⟨3, 18446744073709551615, 0, 1⟩).length = 8 ∧
     limbsOK (umul ⟨5, 0, 7, 9223372036854775808⟩ ⟨3, 18446744073709551615, 0, 1⟩) ∧
     limbsVal (umul ⟨5, 0, 7, 9223372036854775808⟩ ⟨3, 18446744073709551615, 0, 1⟩)
      = Uint.toNat ⟨5, 0, 7, 9223372036854775808⟩
        * Uint.toNat ⟨3, 18446744073709551615, 0, 1⟩ ∧
     (Uint.MulOverflow ⟨5, 0, 7, 9223372036854775808⟩ ⟨3, 18446744073709551615, 0, 1⟩).1.WF ∧
     (Uint.MulOverflow ⟨5, 0, 7, 9223372036854775808⟩
        ⟨3, 18446744073709551615, 0, 1⟩).1.toNat
      = (Uint.toNat ⟨5, 0, 7, 9223372036854775808⟩
        * Uint.toNat ⟨3, 18446744073709551615, 0, 1⟩) % 2 ^ 256 ∧
     ((Uint.MulOverflow ⟨5, 0, 7, 9223372036854775808⟩
        ⟨3, 18446744073709551615, 0, 1⟩).2 = true ↔
      2 ^ 256 ≤ Uint.toNat ⟨5, 0, 7, 9223372036854775808⟩
        * Uint.toNat ⟨3, 18446744073709551615, 0, 1⟩)) :=
  ⟨by decide, by decide, by decide,
    umul_MulOverflow_correct ⟨5, 0, 7, 9223372036854775808⟩ ⟨3, 18446744073709551615, 0, 1⟩
      (by decide) (by decide)⟩

/-- Claim C8: for every well-formed `x` and `y`, `UnsafeSub x y` (a total function: it has no
panic) returns the well-formed value `(x - y) mod 2^256`; `SubOverflow x y` produces the same
value and returns `true` exactly when `x < y`. -/
theorem UnsafeSub_SubOverflow_correct (x y : Uint) (hx : x.WF) (hy : y.WF) :
    (x.UnsafeSub y).WF ∧ (x.UnsafeSub y).toNat = (x.toNat + 2 ^ 256 - y.toNat) % 2 ^ 256 ∧
    (x.SubOverflow y).1 = x.UnsafeSub y ∧
    ((x.SubOverflow y).2 = true ↔ x.toNat < y.toNat) := by
  obtain ⟨h1, h2, h3⟩ := SubOverflow_val x y hx hy
  rw [UnsafeSub_eq]
  exact ⟨h1, h2, rfl, h3⟩

/-- Witness for C8: `0 - 1` wraps to `2^256 - 1` and `SubOverflow` reports the underflow. -/
theorem UnsafeSub_SubOverflow_correct_witness :
    Uint.WF ⟨0, 0, 0, 0⟩ ∧ Uint.WF ⟨1, 0, 0, 0⟩ ∧
    Uint.UnsafeSub ⟨0, 0, 0, 0⟩ ⟨1, 0, 0, 0⟩ = ⟨18446744073709551615, 18446744073709551615,
      18446744073709551615, 18446744073709551615⟩ ∧
    ((Uint.UnsafeSub ⟨0, 0, 0, 0⟩ ⟨1, 0, 0, 0⟩).WF ∧
     (Uint.UnsafeSub ⟨0, 0, 0, 0⟩ ⟨1, 0, 0, 0⟩).toNat
      = (Uint.toNat ⟨0, 0, 0, 0⟩ + 2 ^ 256 - Uint.toNat ⟨1, 0, 0, 0⟩) % 2 ^ 256 ∧
     (Uint.SubOverflow ⟨0, 0, 0, 0⟩ ⟨1, 0, 0, 0⟩).1 = Uint.UnsafeSub ⟨0, 0, 0, 0⟩ ⟨1, 0, 0, 0⟩ ∧
     ((Uint.SubOverflow ⟨0, 0, 0, 0⟩ ⟨1, 0, 0, 0⟩).2 = true ↔
      Uint.toNat ⟨0, 0, 0, 0⟩ < Uint.toNat ⟨1, 0, 0, 0⟩)) :=
  ⟨by decide, by decide, by decide,
    UnsafeSub_SubOverflow_correct ⟨0, 0, 0, 0⟩ ⟨1, 0, 0, 0⟩ (by decide) (by decide)⟩

/-- Counterexample to C9 as stated: `Mul(2^255, 2)` has the product `2^256 > 2^256 - 1`, and
yet it does not fail: it returns the truncated product 0. -/
theorem Mul_overflow_returns :
    Uint.WF ⟨0, 0, 0, 9223372036854775808⟩ ∧ Uint.WF ⟨2, 0, 0, 0⟩ ∧
    Uint.toNat ⟨0, 0, 0, 9223372036854775808⟩ * Uint.toNat ⟨2, 0, 0, 0⟩ > 2 ^ 256 - 1 ∧
    Uint.Mul ⟨0, 0, 0, 9223372036854775808⟩ ⟨2, 0, 0, 0⟩ = some ⟨0, 0, 0, 0⟩ ∧
    Uint.Mul ⟨0, 0, 0, 9223372036854775808⟩ ⟨2, 0, 0, 0⟩ ≠ none :=
  ⟨by decide, by decide, by decide, by decide, by decide⟩

/-- Claim C9 as amended: `Mul` is not a fatal-on-overflow form; for every well-formed `x` and
`y` with `x * y > 2^256 - 1` it does not fail and returns the truncated product
`(x * y) mod 2^256`, which then differs from `x * y`. -/
theorem Mul_never_fails (x y : Uint) (hx : x.WF) (hy : y.WF)
    (hov : x.toNat * y.toNat > 2 ^ 256 - 1) :
    ∃ z, x.Mul y = some z ∧ z.toNat = (x.toNat * y.toNat) % 2 ^ 256 ∧
      z.toNat ≠ x.toNat * y.toNat := by
  obtain ⟨z, hz, hwf, hv⟩ := Mul_val x y hx hy
  refine ⟨z, hz, hv, ?_⟩
  have := toNat_lt z hwf
  omega

/-- Witness for the amended C9. -/
theorem Mul_never_fails_witness :
    Uint.WF ⟨0, 0, 0, 9223372036854775808⟩ ∧ Uint.WF ⟨2, 0, 0, 0⟩ ∧
    Uint.toNat ⟨0, 0, 0, 9223372036854775808⟩ * Uint.toNat ⟨2, 0, 0, 0⟩ > 2 ^ 256 - 1 ∧
    ∃ z, Uint.Mul ⟨0, 0, 0, 9223372036854775808⟩ ⟨2, 0, 0, 0⟩ = some z ∧
      z.toNat = (Uint.toNat ⟨0, 0, 0, 9223372036854775808⟩ * Uint.toNat ⟨2, 0, 0, 0⟩)
        % 2 ^ 256 ∧
      z.toNat ≠ Uint.toNat ⟨0, 0, 0, 9223372036854775808⟩ * Uint.toNat ⟨2, 0, 0, 0⟩ :=
  ⟨by decide, by decide, by decide,
    Mul_never_fails ⟨0, 0, 0, 9223372036854775808⟩ ⟨2, 0, 0, 0⟩
      (by decide) (by decide) (by decide)⟩

/-- Claim C10: for every `x`, `Div x 0` and `Mod x 0` both return 0 and do not fail. -/
theorem Div_Mod_by_zero (x : Uint) :
    x.Div ⟨0, 0, 0, 0⟩ = some ⟨0, 0, 0, 0⟩ ∧ x.Mod ⟨0, 0, 0, 0⟩ = some ⟨0, 0, 0, 0⟩ ∧
    Uint.toNat ⟨0, 0, 0, 0⟩ = 0 := by
  refine ⟨?_, ?_, rfl⟩
  · unfold Uint.Div
    rw [if_pos (by simp [Uint.IsZero])]
    rfl
  · unfold Uint.Mod
    rw [if_pos (by simp [Uint.IsZero])]
    rfl

set_option maxRecDepth 100000 in
/-- Claim C11, at its failing input: for `x = 2^192`, `Dec` returns the numeral
`6277101735386680763835789423207666416102355444464034512896`, and `SetFromDecimal` on that
numeral panics (the `Add` of `fromDecimal` panics on the carry out of limb 2), so the round trip
does not come back with `x`. -/
theorem Dec_SetFromDecimal_panics :
    Uint.WF ⟨0, 0, 0, 1⟩ ∧ Uint.toNat ⟨0, 0, 0, 1⟩ = 2 ^ 192 ∧
    Uint.Dec 5 ⟨0, 0, 0, 1⟩
      = some (ascii "6277101735386680763835789423207666416102355444464034512896") ∧
    Uint.SetFromDecimal ⟨0, 0, 0, 0⟩
      (ascii "6277101735386680763835789423207666416102355444464034512896") = none := by
  decide

set_option maxRecDepth 100000 in
/-- Claim C12, at its failing input: the string `+00` followed by the 58 digits of `2^192` has
the form of the claim and a value below `2^256`, and `SetFromDecimal` panics on it, with or
without the `+00` (the `Add` of `fromDecimal` panics on the carry out of limb 2). -/
theorem SetFromDecimal_panics_in_range :
    isDigits (ascii "6277101735386680763835789423207666416102355444464034512896") ∧
    decVal (ascii "6277101735386680763835789423207666416102355444464034512896") = 2 ^ 192 ∧
    2 ^ 192 ≤ 2 ^ 256 - 1 ∧
    Uint.SetFromDecimal ⟨0, 0, 0, 0⟩
      (ascii "+006277101735386680763835789423207666416102355444464034512896") = none ∧
    Uint.SetFromDecimal ⟨0, 0, 0, 0⟩
      (ascii "6277101735386680763835789423207666416102355444464034512896") = none := by
  decide

/-- Claim C13: for every well-formed 256-bit value `x`, `Dec` returns (with five rounds of its
loop or more, and without a panic) the canonical decimal numeral of `x`: only the characters
`0`..`9`, exactly `0` when `x = 0` and no leading zero otherwise, at most 78 characters, and
the numeric value `x`. -/
theorem Dec_canonical (fuel : Nat) (x : Uint) (hx : x.WF) (hf : 5 ≤ fuel) :
    ∃ s, x.Dec fuel = some s ∧ isDigits s ∧ s ≠ [] ∧ (x.toNat = 0 → s = ascii "0") ∧
      (x.toNat ≠ 0 → s.head? ≠ some 48) ∧ s.length ≤ 78 ∧ decVal s = x.toNat :=
  Dec_spec fuel x hx hf

set_option maxRecDepth 100000 in
/-- Witness for C13: `2^256 - 1`, whose numeral has 78 digits and takes all five rounds. -/
theorem Dec_canonical_witness :
    Uint.WF ⟨18446744073709551615, 18446744073709551615, 18446744073709551615,
      18446744073709551615⟩ ∧ 5 ≤ 5 ∧
    Uint.Dec 5 ⟨18446744073709551615, 18446744073709551615, 18446744073709551615,
      18446744073709551615⟩ = some (ascii
        "115792089237316195423570985008687907853269984665640564039457584007913129639935") ∧
    ∃ s, Uint.Dec 5 ⟨18446744073709551615, 18446744073709551615, 18446744073709551615,
        18446744073709551615⟩ = some s ∧ isDigits s ∧ s ≠ [] ∧
      (Uint.toNat ⟨18446744073709551615, 18446744073709551615, 18446744073709551615,
        18446744073709551615⟩ = 0 → s = ascii "0") ∧
      (Uint.toNat ⟨18446744073709551615, 18446744073709551615, 18446744073709551615,
        18446744073709551615⟩ ≠ 0 → s.head? ≠ some 48) ∧ s.length ≤ 78 ∧
      decVal s = Uint.toNat ⟨18446744073709551615, 18446744073709551615,
        18446744073709551615, 18446744073709551615⟩ :=
  ⟨by decide, by decide, by decide,
    Dec_canonical 5 ⟨18446744073709551615, 18446744073709551615, 18446744073709551615,
      18446744073709551615⟩ (by decide) (by decide)⟩

/-- Claim C14: on an input made of an optional `+`, any number `k` of zeros and then a string
`d` of decimal digits without a leading zero, `SetFromDecimal` returns `ErrBig256Range` (and
leaves the receiver `z` as it is) whenever the value of `d` exceeds `2^256 - 1`; it does so
for every `d` longer than 78 digits, and for a `d` of 78 digits it does so exactly when `d` is
greater than the decimal string of `2^256 - 1` in the order of strings, which is exactly when
its value exceeds `2^256 - 1`. -/
theorem SetFromDecimal_rejects_large (z : Uint) (plus d : List Nat) (k : Nat)
    (hp : plus = [] ∨ plus = [43]) (hd : isDigits d) (hne : d ≠ [])
    (hz : d.head? ≠ some 48) :
    (2 ^ 256 - 1 < decVal d →
      z.SetFromDecimal (plus ++ List.replicate k 48 ++ d) = some (z, some Err.ErrBig256Range)) ∧
    (78 < d.length →
      z.SetFromDecimal (plus ++ List.replicate k 48 ++ d) = some (z, some Err.ErrBig256Range)) ∧
    (d.length = 78 →
      ((∃ z1, z.SetFromDecimal (plus ++ List.replicate k 48 ++ d)
          = some (z1, some Err.ErrBig256Range)) ↔ strLess twoPow256Sub1 d = true) ∧
      (strLess twoPow256Sub1 d = true ↔ 2 ^ 256 - 1 < decVal d)) :=
  SetFromDecimal_range z plus d k hp hd hne hz

set_option maxRecDepth 100000 in
/-- Witness for C14: `+00` followed by the 78 digits of `2^256`. -/
theorem SetFromDecimal_rejects_large_witness :
    isDigits (ascii
      "115792089237316195423570985008687907853269984665640564039457584007913129639936") ∧
    2 ^ 256 - 1 < decVal (ascii
      "115792089237316195423570985008687907853269984665640564039457584007913129639936") ∧
    Uint.SetFromDecimal ⟨7, 7, 7, 7⟩ ([43] ++ List.replicate 2 48 ++ ascii
      "115792089237316195423570985008687907853269984665640564039457584007913129639936")
      = some (⟨7, 7, 7, 7⟩, some Err.ErrBig256Range) :=
  ⟨by decide, by decide,
    (SetFromDecimal_rejects_large ⟨7, 7, 7, 7⟩ [43] (ascii
      "115792089237316195423570985008687907853269984665640564039457584007913129639936") 2
      (Or.inr rfl) (by decide) (by decide) (by decide)).1 (by decide)⟩

/-- Claim C15: on `0x` or `0X` followed by between 1 and 64 hex digits `d` (upper or lower
case) without a redundant leading zero, `fromHex` returns no error and sets the receiver to the
value of the digits: limb `i` is the value of the group of 16 digits number `i` from the
right. -/
theorem fromHex_value (z : Uint) (x : Nat) (d : List Nat) (hx : x = 120 ∨ x = 88)
    (hd : 1 ≤ d.length) (hn : d.length ≤ 64) (hz : d.length = 1 ∨ d.head? ≠ some 48)
    (hh : isHexDigits d) :
    z.fromHex (48 :: x :: d)
      = (⟨hexVal (hexWindow d 0), hexVal (hexWindow d 1), hexVal (hexWindow d 2),
          hexVal (hexWindow d 3)⟩, none) ∧
    ∃ v, z.fromHex (48 :: x :: d) = (v, none) ∧ v.WF ∧ v.toNat = hexVal d :=
  fromHex_val z x d hx (by intro e; rw [e] at hd; simp at hd) hz hn hh

set_option maxRecDepth 100000 in
/-- Witness for C15: `fromHex("0x10")` gives a value whose `Uint64()` is 16. -/
theorem fromHex_value_witness :
    (Uint.fromHex ⟨7, 7, 7, 7⟩ (ascii "0x10")).1.Uint64 = 16 ∧
    (Uint.fromHex ⟨7, 7, 7, 7⟩ (ascii "0x10")).2 = none ∧
    (Uint.fromHex ⟨7, 7, 7, 7⟩ (48 :: 120 :: ascii "10")
      = (⟨hexVal (hexWindow (ascii "10") 0), hexVal (hexWindow (ascii "10") 1),
          hexVal (hexWindow (ascii "10") 2), hexVal (hexWindow (ascii "10") 3)⟩, none) ∧
     ∃ v, Uint.fromHex ⟨7, 7, 7, 7⟩ (48 :: 120 :: ascii "10") = (v, none) ∧ v.WF ∧
       v.toNat = hexVal (ascii "10")) :=
  ⟨by decide, by decide,
    fromHex_value ⟨7, 7, 7, 7⟩ 120 (ascii "10") (Or.inl rfl) (by decide) (by decide)
      (by decide) (by decide)⟩

set_option maxRecDepth 100000 in
/-- Counterexample to C16 as stated: an input with a byte that is no hex digit in its digit
section is not always rejected with `ErrSyntax`.  `0x0g` is rejected with `ErrLeadingZero`, and
`0x` followed by 65 times `g` is rejected with `ErrBig256Range`. -/
theorem fromHex_bad_digit_other_error :
    ¬ isHexDigits (ascii "0g") ∧
    Uint.fromHex ⟨7, 7, 7, 7⟩ (ascii "0x0g") = (⟨7, 7, 7, 7⟩, some Err.ErrLeadingZero) ∧
    ¬ isHexDigits (List.replicate 65 103) ∧
    Uint.fromHex ⟨7, 7, 7, 7⟩ (ascii "0x" ++ List.replicate 65 103)
      = (⟨7, 7, 7, 7⟩, some Err.ErrBig256Range) := by
  decide

/-- Claim C16 as amended: `fromHex` returns `ErrEmptyString` for the empty string,
`ErrMissingPrefix` for every non-empty input that does not start with `0x` or `0X`,
`ErrEmptyNumber` for the bare `0x` or `0X`, `ErrLeadingZero` for every input with two or more
bytes after the marker of which the first is `0`; and an input that passes these checks, has at
most 64 bytes after the marker and has a byte among them that is no hex digit is rejected with
`ErrSyntax`.  The first four leave the receiver as it is. -/
theorem fromHex_strict_form (z : Uint) (x : Nat) (hx : x = 120 ∨ x = 88) :
    z.fromHex [] = (z, some Err.ErrEmptyString) ∧
    (∀ hex : List Nat, hex ≠ [] → (¬ ∃ y d, (y = 120 ∨ y = 88) ∧ hex = 48 :: y :: d) →
      z.fromHex hex = (z, some Err.ErrMissingPrefix)) ∧
    z.fromHex [48, x] = (z, some Err.ErrEmptyNumber) ∧
    (∀ (c : Nat) (cs : List Nat),
      z.fromHex (48 :: x :: 48 :: c :: cs) = (z, some Err.ErrLeadingZero)) ∧
    (∀ d : List Nat, d ≠ [] → (d.length = 1 ∨ d.head? ≠ some 48) → d.length ≤ 64 →
      ¬ isHexDigits d → (z.fromHex (48 :: x :: d)).2 = some Err.ErrSyntax) :=
  ⟨fromHex_empty z, fun hex h0 h => fromHex_missing z hex h0 h, fromHex_bare z x hx,
    fun c cs => fromHex_leading_zero z x hx c cs,
    fun d hd hz hn hh => fromHex_bad_digit z x d hx hd hz hn hh⟩

set_option maxRecDepth 100000 in
/-- Witness for the amended C16: the empty string, `10` (no marker), `0x`, `0x00` and `0x1g`. -/
theorem fromHex_strict_form_witness :
    Uint.fromHex ⟨7, 7, 7, 7⟩ [] = (⟨7, 7, 7, 7⟩, some Err.ErrEmptyString) ∧
    Uint.fromHex ⟨7, 7, 7, 7⟩ (ascii "10") = (⟨7, 7, 7, 7⟩, some Err.ErrMissingPrefix) ∧
    Uint.fromHex ⟨7, 7, 7, 7⟩ [48, 120] = (⟨7, 7, 7, 7⟩, some Err.ErrEmptyNumber) ∧
    Uint.fromHex ⟨7, 7, 7, 7⟩ (48 :: 120 :: 48 :: 48 :: [])
      = (⟨7, 7, 7, 7⟩, some Err.ErrLeadingZero) ∧
    (Uint.fromHex ⟨7, 7, 7, 7⟩ (48 :: 120 :: ascii "1g")).2 = some Err.ErrSyntax :=
  ⟨(fromHex_strict_form ⟨7, 7, 7, 7⟩ 120 (Or.inl rfl)).1,
    (fromHex_strict_form ⟨7, 7, 7, 7⟩ 120 (Or.inl rfl)).2.1 (ascii "10") (by decide)
      (by
        rintro ⟨y, d, -, h⟩
        have h1 : (ascii "10").head? = some 48 := by rw [h]; rfl
        exact absurd h1 (by decide)),
    (fromHex_strict_form ⟨7, 7, 7, 7⟩ 120 (Or.inl rfl)).2.2.1,
    (fromHex_strict_form ⟨7, 7, 7, 7⟩ 120 (Or.inl rfl)).2.2.2.1 48 [],
    (fromHex_strict_form ⟨7, 7, 7, 7⟩ 120 (Or.inl rfl)).2.2.2.2 (ascii "1g") (by decide)
      (by decide) (by decide) (by decide)⟩

set_option maxRecDepth 100000 in
/-- Counterexample to C17 as stated: `0x` followed by 65 times the hex digit `0` is rejected
with `ErrLeadingZero`, not with `ErrBig256Range`: the form check runs before the length
test. -/
theorem fromHex_long_leading_zero :
    isHexDigits (List.replicate 65 48) ∧ 64 < (List.replicate 65 48).length ∧
    Uint.fromHex ⟨7, 7, 7, 7⟩ (ascii "0x" ++ List.replicate 65 48)
      = (⟨7, 7, 7, 7⟩, some Err.ErrLeadingZero) := by
  decide

/-- Claim C17 as amended: on `0x` or `0X` followed by more than 64 bytes `d` (hex digits or
not), `fromHex` fails with `ErrBig256Range` when `d` does not start with `0`, and with
`ErrLeadingZero` when it does; the receiver stays as it is. -/
theorem fromHex_over_64_digits (z : Uint) (x : Nat) (d : List Nat) (hx : x = 120 ∨ x = 88)
    (hn : 64 < d.length) :
    (d.head? ≠ some 48 → z.fromHex (48 :: x :: d) = (z, some Err.ErrBig256Range)) ∧
    (d.head? = some 48 → z.fromHex (48 :: x :: d) = (z, some Err.ErrLeadingZero)) := by
  refine ⟨fun hz => fromHex_too_long z x d hx hz hn, fun hz => ?_⟩
  match d, hz with
  | c :: [], _ => simp at hn
  | c :: c2 :: cs, hz =>
    simp only [List.head?_cons, Option.some.injEq] at hz
    rw [hz]
    exact fromHex_leading_zero z x hx c2 cs

set_option maxRecDepth 100000 in
/-- Witness for the amended C17: `0X` followed by 65 times `f`. -/
theorem fromHex_over_64_digits_witness :
    64 < (List.replicate 65 102).length ∧
    Uint.fromHex ⟨7, 7, 7, 7⟩ (48 :: 88 :: List.replicate 65 102)
      = (⟨7, 7, 7, 7⟩, some Err.ErrBig256Range) :=
  ⟨by decide, (fromHex_over_64_digits ⟨7, 7, 7, 7⟩ 88 (List.replicate 65 102) (Or.inr rfl)
    (by decide)).1 (by decide)⟩

set_option maxRecDepth 100000 in
/-- Counterexample to C18 as stated: `fromHex("0x1g")` returns `ErrSyntax` and leaves the
receiver 1, `SetFromDecimal("12a")` and `SetFromDecimal("")` return an error and leave the
receiver 0, and `SetFromDecimal` on `a` followed by nineteen times `1` returns an error and
leaves the receiver `1111111111111111111`, whatever the receiver held before. -/
theorem parse_error_changes_receiver :
    Uint.fromHex ⟨7, 7, 7, 7⟩ (ascii "0x1g") = (⟨1, 0, 0, 0⟩, some Err.ErrSyntax) ∧
    Uint.SetFromDecimal ⟨7, 7, 7, 7⟩ (ascii "12a")
      = some (⟨0, 0, 0, 0⟩, some Err.parseUintSyntaxError) ∧
    Uint.SetFromDecimal ⟨7, 7, 7, 7⟩ [] = some (⟨0, 0, 0, 0⟩, some Err.EOF) ∧
    Uint.SetFromDecimal ⟨7, 7, 7, 7⟩ (ascii "a1111111111111111111")
      = some (⟨1111111111111111111, 0, 0, 0⟩, some Err.parseUintSyntaxError) := by
  decide

/-- Claim C18 as amended: the receiver `z0` is left as it is by the errors found before
decoding starts, that is when `fromHex` returns an error other than `ErrSyntax` and when
`SetFromDecimal` returns `ErrBig256Range`.  In every other case (an error found while decoding,
or success) the receiver is cleared first and then written, so what it holds after the call
does not depend on `z0`. -/
theorem parse_error_receiver (z0 : Uint) (s : List Nat) :
    (∀ e, (z0.fromHex s).2 = some e → e ≠ Err.ErrSyntax → (z0.fromHex s).1 = z0) ∧
    (∀ z1 : Uint, ((z0.fromHex s).2 = none ∨ (z0.fromHex s).2 = some Err.ErrSyntax) →
      z1.fromHex s = z0.fromHex s) ∧
    (∀ z1, z0.SetFromDecimal s = some (z1, some Err.ErrBig256Range) → z1 = z0) ∧
    ((∀ z1, z0.SetFromDecimal s ≠ some (z1, some Err.ErrBig256Range)) →
      ∀ z2 : Uint, z2.SetFromDecimal s = z0.SetFromDecimal s) :=
  ⟨(fromHex_receiver z0 s).1, (fromHex_receiver z0 s).2, (SetFromDecimal_receiver z0 s).1,
    (SetFromDecimal_receiver z0 s).2⟩

set_option maxRecDepth 100000 in
/-- Witness for the amended C18: `0x00` (an error before decoding) and `0x1g` (an error while
decoding) for `fromHex`. -/
theorem parse_error_receiver_witness :
    (Uint.fromHex ⟨7, 7, 7, 7⟩ (ascii "0x00")).2 = some Err.ErrLeadingZero ∧
    (Uint.fromHex ⟨7, 7, 7, 7⟩ (ascii "0x00")).1 = ⟨7, 7, 7, 7⟩ ∧
    (Uint.fromHex ⟨7, 7, 7, 7⟩ (ascii "0x1g")).2 = some Err.ErrSyntax ∧
    Uint.fromHex ⟨9, 9, 9, 9⟩ (ascii "0x1g") = Uint.fromHex ⟨7, 7, 7, 7⟩ (ascii "0x1g") :=
  ⟨by decide,
    (parse_error_receiver ⟨7, 7, 7, 7⟩ (ascii "0x00")).1 Err.ErrLeadingZero (by decide)
      (by decide),
    by decide,
    (parse_error_receiver ⟨7, 7, 7, 7⟩ (ascii "0x1g")).2.1 ⟨9, 9, 9, 9⟩
      (Or.inr (by decide))⟩

/-- Claim C19: for every well-formed 256-bit `x` and every shift amount `n`, `Lsh x n` is the
well-formed value `(x * 2^n) mod 2^256`, which is 0 for every `n ≥ 256`. -/
theorem Lsh_correct (x : Uint) (hx : x.WF) (n : Nat) :
    (x.Lsh n).WF ∧ (x.Lsh n).toNat = (x.toNat * 2 ^ n) % 2 ^ 256 ∧
    (256 ≤ n → (x.Lsh n).toNat = 0) := by
  obtain ⟨h1, h2⟩ := Lsh_spec x hx n
  refine ⟨h1, h2, fun h => ?_⟩
  rw [h2]
  exact pow_mul_mod_256 _ n h

/-- Witness for C19: `Lsh(5, 2) = 20` and `Lsh(42, 5) = 1344`. -/
theorem Lsh_correct_witness :
    Uint.WF ⟨5, 0, 0, 0⟩ ∧ Uint.Lsh ⟨5, 0, 0, 0⟩ 2 = ⟨20, 0, 0, 0⟩ ∧
    Uint.Lsh ⟨42, 0, 0, 0⟩ 5 = ⟨1344, 0, 0, 0⟩ ∧
    ((Uint.Lsh ⟨5, 0, 0, 0⟩ 2).WF ∧
     (Uint.Lsh ⟨5, 0, 0, 0⟩ 2).toNat = (Uint.toNat ⟨5, 0, 0, 0⟩ * 2 ^ 2) % 2 ^ 256 ∧
     (256 ≤ 2 → (Uint.Lsh ⟨5, 0, 0, 0⟩ 2).toNat = 0)) :=
  ⟨by decide, by decide, by decide, Lsh_correct ⟨5, 0, 0, 0⟩ (by decide) 2⟩

/-- Claim C20: for every well-formed 256-bit `x` and every shift amount `n`, `Rsh x n` is the
well-formed value `floor(x / 2^n)`, which is 0 for every `n ≥ 256`. -/
theorem Rsh_correct (x : Uint) (hx : x.WF) (n : Nat) :
    (x.Rsh n).WF ∧ (x.Rsh n).toNat = x.toNat / 2 ^ n ∧ (256 ≤ n → (x.Rsh n).toNat = 0) := by
  obtain ⟨h1, h2⟩ := Rsh_spec x hx n
  refine ⟨h1, h2, fun h => ?_⟩
  rw [h2]
  exact Nat.div_eq_of_lt
    (lt_of_lt_of_le (toNat_lt x hx) (Nat.pow_le_pow_right (by norm_num) h))

/-- Witness for C20: `Rsh(5, 1) = 2` and `Rsh(42, 3) = 5`. -/
theorem Rsh_correct_witness :
    Uint.WF ⟨42, 0, 0, 0⟩ ∧ Uint.Rsh ⟨5, 0, 0, 0⟩ 1 = ⟨2, 0, 0, 0⟩ ∧
    Uint.Rsh ⟨42, 0, 0, 0⟩ 3 = ⟨5, 0, 0, 0⟩ ∧
    ((Uint.Rsh ⟨42, 0, 0, 0⟩ 3).WF ∧
     (Uint.Rsh ⟨42, 0, 0, 0⟩ 3).toNat = Uint.toNat ⟨42, 0, 0, 0⟩ / 2 ^ 3 ∧
     (256 ≤ 3 → (Uint.Rsh ⟨42, 0, 0, 0⟩ 3).toNat = 0)) :=
  ⟨by decide, by decide, by decide, Rsh_correct ⟨42, 0, 0, 0⟩ (by decide) 3⟩

/-- Claim C21: for every well-formed 256-bit `x` and every `n`: bit 255 of `x` is set exactly
when `x ≥ 2^255`; if it is clear then `SRsh x n = Rsh x n`; if it is set then `SRsh x n` is the
well-formed value `floor(x / 2^n)` (the value of `Rsh x n`) with its top `min n 256` bits set to
1, which is the two's-complement pattern of `floor(s / 2^n)` for the signed value
`s = x - 2^256`, and is all ones for every `n ≥ 256`. -/
theorem SRsh_correct (x : Uint) (hx : x.WF) (n : Nat) :
    (x.isBitSet 255 = true ↔ 2 ^ 255 ≤ x.toNat) ∧
    (x.isBitSet 255 = false → x.SRsh n = x.Rsh n) ∧
    (x.isBitSet 255 = true →
      (x.SRsh n).WF ∧
      (x.SRsh n).toNat = (x.Rsh n).toNat + (2 ^ 256 - 2 ^ (256 - min n 256)) ∧
      (x.SRsh n).toNat = x.toNat / 2 ^ n + (2 ^ 256 - 2 ^ (256 - min n 256)) ∧
      ((x.SRsh n).toNat : Int) = (((x.toNat : Int) - 2 ^ 256) / 2 ^ n) % 2 ^ 256 ∧
      (256 ≤ n → x.SRsh n = Uint.SetAllOne)) := by
  obtain ⟨h1, h2⟩ := SRsh_spec x hx n
  refine ⟨isBitSet_255 x hx, h1, fun hb => ?_⟩
  obtain ⟨w, v⟩ := h2 hb
  refine ⟨w, ?_, v, ?_, fun hn => ?_⟩
  · rw [v, (Rsh_spec x hx n).2]
  · rw [v]
    exact srsh_signed x.toNat n (toNat_lt x hx)
  · apply toNat_inj _ _ w (by decide)
    rw [v, Nat.div_eq_of_lt
      (lt_of_lt_of_le (toNat_lt x hx) (Nat.pow_le_pow_right (by norm_num) hn)),
      Nat.min_eq_right hn]
    rfl

/-- Witness for C21: `-7 >> 1 = -4` and `-7 >> 300 = -1`, and `5 >> 1 = 2`. -/
theorem SRsh_correct_witness :
    Uint.WF ⟨18446744073709551609, 18446744073709551615, 18446744073709551615,
      18446744073709551615⟩ ∧
    Uint.SRsh ⟨18446744073709551609, 18446744073709551615, 18446744073709551615,
      18446744073709551615⟩ 1 = ⟨18446744073709551612, 18446744073709551615,
      18446744073709551615, 18446744073709551615⟩ ∧
    Uint.SRsh ⟨18446744073709551609, 18446744073709551615, 18446744073709551615,
      18446744073709551615⟩ 300 = Uint.SetAllOne ∧
    Uint.SRsh ⟨5, 0, 0, 0⟩ 1 = ⟨2, 0, 0, 0⟩ ∧
    (Uint.SRsh ⟨18446744073709551609, 18446744073709551615, 18446744073709551615,
      18446744073709551615⟩ 1).WF :=
  ⟨by decide, by decide, by decide, by decide,
    ((SRsh_correct ⟨18446744073709551609, 18446744073709551615, 18446744073709551615,
      18446744073709551615⟩ (by decide) 1).2.2 (by decide)).1⟩

/-- Claim C22: for every signed `x` and every signed `y` other than 0, the most-negative value
`-2^255` included, and whatever the receiver holds, `DivE(x, y)` and `ModE(x, y)` return
values `q` and `m` such that `0 ≤ m < |y|`, `m` is the Euclidean remainder of `x` by `y`, `q`
is the Euclidean quotient modulo `2^256`, and `q * y + m = x` on the bit patterns modulo
`2^256`. -/
theorem DivE_ModE_euclidean (z x y : Int256) (hx : x.value.WF) (hy : y.value.WF)
    (hy0 : y.toInt ≠ 0) :
    ∃ q m, Int256.DivE z x y = .ok q ∧ Int256.ModE z x y = .ok m ∧
      0 ≤ m.toInt ∧ m.toInt < |y.toInt| ∧ m.toInt = x.toInt % y.toInt ∧
      (q.value.toNat : Int) = (x.toInt / y.toInt) % 2 ^ 256 ∧
      (q.value.toNat * y.value.toNat + m.value.toNat) % 2 ^ 256 = x.value.toNat := by
  have hz := (IsZero_toInt y hy).2 hy0
  obtain ⟨q, hq, hqw, hqv, -⟩ := DivE_signed z x y hx hy hz
  obtain ⟨m, hm, hmw, hmv⟩ := ModE_signed z x y hx hy hz
  obtain ⟨-, -, -, -, ym⟩ := toInt_spec y hy
  obtain ⟨-, -, -, -, xm⟩ := toInt_spec x hx
  obtain ⟨-, -, -, -, mm⟩ := toInt_spec m hmw
  refine ⟨q, m, hq, hm, ?_, ?_, hmv, hqv, ?_⟩
  · rw [hmv]; exact Int.emod_nonneg _ hy0
  · rw [hmv]; exact Int.emod_lt _ hy0
  · refine pattern_identity _ _ _ _ _ _ _ _ (toNat_lt x.value hx) hqv ym mm xm ?_
    rw [hmv, Int.mul_comm]
    exact Int.ediv_add_emod _ _

set_option maxRecDepth 100000 in
/-- Witness for C22: `DivE(-7, 3) = -3` and `ModE(-7, 3) = 2`; and for the most-negative
dividend, `DivE(-2^255, 3)` and `ModE(-2^255, 3) = 1`. -/
theorem DivE_ModE_euclidean_witness :
    Int256.toInt ⟨⟨18446744073709551609, 18446744073709551615, 18446744073709551615,
      18446744073709551615⟩⟩ = -7 ∧
    Int256.toInt ⟨⟨18446744073709551613, 18446744073709551615, 18446744073709551615,
      18446744073709551615⟩⟩ = -3 ∧
    Int256.DivE ⟨⟨9, 9, 9, 9⟩⟩ ⟨⟨18446744073709551609, 18446744073709551615,
      18446744073709551615, 18446744073709551615⟩⟩ ⟨⟨3, 0, 0, 0⟩⟩
      = .ok ⟨⟨18446744073709551613, 18446744073709551615, 18446744073709551615,
          18446744073709551615⟩⟩ ∧
    Int256.ModE ⟨⟨9, 9, 9, 9⟩⟩ ⟨⟨18446744073709551609, 18446744073709551615,
      18446744073709551615, 18446744073709551615⟩⟩ ⟨⟨3, 0, 0, 0⟩⟩ = .ok ⟨⟨2, 0, 0, 0⟩⟩ ∧
    Int256.toInt ⟨⟨0, 0, 0, 9223372036854775808⟩⟩ = -2 ^ 255 ∧
    Int256.ModE ⟨⟨9, 9, 9, 9⟩⟩ ⟨⟨0, 0, 0, 9223372036854775808⟩⟩ ⟨⟨3, 0, 0, 0⟩⟩
      = .ok ⟨⟨1, 0, 0, 0⟩⟩ ∧
    ∃ q m, Int256.DivE ⟨⟨9, 9, 9, 9⟩⟩ ⟨⟨0, 0, 0, 9223372036854775808⟩⟩ ⟨⟨3, 0, 0, 0⟩⟩ = .ok q ∧
      Int256.ModE ⟨⟨9, 9, 9, 9⟩⟩ ⟨⟨0, 0, 0, 9223372036854775808⟩⟩ ⟨⟨3, 0, 0, 0⟩⟩ = .ok m ∧
      0 ≤ m.toInt ∧ m.toInt < |Int256.toInt ⟨⟨3, 0, 0, 0⟩⟩| ∧
      m.toInt = Int256.toInt ⟨⟨0, 0, 0, 9223372036854775808⟩⟩ % Int256.toInt ⟨⟨3, 0, 0, 0⟩⟩ ∧
      (q.value.toNat : Int) = (Int256.toInt ⟨⟨0, 0, 0, 9223372036854775808⟩⟩
        / Int256.toInt ⟨⟨3, 0, 0, 0⟩⟩) % 2 ^ 256 ∧
      (q.value.toNat * Uint.toNat ⟨3, 0, 0, 0⟩ + m.value.toNat) % 2 ^ 256
        = Uint.toNat ⟨0, 0, 0, 9223372036854775808⟩ :=
  ⟨by decide, by decide, by decide, by decide, by decide, by decide,
    DivE_ModE_euclidean ⟨⟨9, 9, 9, 9⟩⟩ ⟨⟨0, 0, 0, 9223372036854775808⟩⟩ ⟨⟨3, 0, 0, 0⟩⟩
      (by decide) (by decide) (by decide)⟩

/-- Claim C23: for every signed `x` and every signed `y` other than 0, `x = -2^255` included,
`Div(x, y)` and `Rem(x, y)` return values `d` and `r` with `d * y + r = x`, the product and
the sum taken on the bit patterns modulo `2^256`. -/
theorem Div_Rem_identity (z x y : Int256) (hx : x.value.WF) (hy : y.value.WF)
    (hy0 : y.toInt ≠ 0) :
    ∃ d r, Int256.Div z x y = .ok d ∧ Int256.Rem z x y = .ok r ∧
      (d.value.toNat * y.value.toNat + r.value.toNat) % 2 ^ 256 = x.value.toNat := by
  have hz := (IsZero_toInt y hy).2 hy0
  obtain ⟨d, hd, hdw, hdv, -⟩ := Div_signed z x y hx hy hz
  obtain ⟨r, hr, hrw, hrv⟩ := Rem_signed z x y hx hy hz
  obtain ⟨-, -, -, -, ym⟩ := toInt_spec y hy
  obtain ⟨-, -, -, -, xm⟩ := toInt_spec x hx
  obtain ⟨-, -, -, -, rm⟩ := toInt_spec r hrw
  refine ⟨d, r, hd, hr, ?_⟩
  refine pattern_identity _ _ _ _ _ _ _ _ (toNat_lt x.value hx) hdv ym rm xm ?_
  rw [hrv]
  exact Int.tdiv_add_tmod' _ _

set_option maxRecDepth 100000 in
/-- Witness for C23: `x = -2^255`, `y = -1`, where `Div` returns the pattern `2^255` and `Rem`
returns 0; and `Div(-7, 3) = -2`, `Rem(-7, 3) = -1`. -/
theorem Div_Rem_identity_witness :
    Int256.toInt ⟨⟨0, 0, 0, 9223372036854775808⟩⟩ = -2 ^ 255 ∧
    Int256.toInt ⟨⟨18446744073709551615, 18446744073709551615, 18446744073709551615,
      18446744073709551615⟩⟩ = -1 ∧
    Int256.Div ⟨⟨9, 9, 9, 9⟩⟩ ⟨⟨0, 0, 0, 9223372036854775808⟩⟩ ⟨⟨18446744073709551615,
      18446744073709551615, 18446744073709551615, 18446744073709551615⟩⟩
      = .ok ⟨⟨0, 0, 0, 9223372036854775808⟩⟩ ∧
    Int256.Rem ⟨⟨9, 9, 9, 9⟩⟩ ⟨⟨0, 0, 0, 9223372036854775808⟩⟩ ⟨⟨18446744073709551615,
      18446744073709551615, 18446744073709551615, 18446744073709551615⟩⟩
      = .ok ⟨⟨0, 0, 0, 0⟩⟩ ∧
    Int256.Div ⟨⟨9, 9, 9, 9⟩⟩ ⟨⟨18446744073709551609, 18446744073709551615,
      18446744073709551615, 18446744073709551615⟩⟩ ⟨⟨3, 0, 0, 0⟩⟩
      = .ok ⟨⟨18446744073709551614, 18446744073709551615, 18446744073709551615,
          18446744073709551615⟩⟩ ∧
    Int256.Rem ⟨⟨9, 9, 9, 9⟩⟩ ⟨⟨18446744073709551609, 18446744073709551615,
      18446744073709551615, 18446744073709551615⟩⟩ ⟨⟨3, 0, 0, 0⟩⟩
      = .ok ⟨⟨18446744073709551615, 18446744073709551615, 18446744073709551615,
          18446744073709551615⟩⟩ ∧
    ∃ d r, Int256.Div ⟨⟨9, 9, 9, 9⟩⟩ ⟨⟨0, 0, 0, 9223372036854775808⟩⟩
        ⟨⟨18446744073709551615, 18446744073709551615, 18446744073709551615,
          18446744073709551615⟩⟩ = .ok d ∧
      Int256.Rem ⟨⟨9, 9, 9, 9⟩⟩ ⟨⟨0, 0, 0, 9223372036854775808⟩⟩
        ⟨⟨18446744073709551615, 18446744073709551615, 18446744073709551615,
          18446744073709551615⟩⟩ = .ok r ∧
      (d.value.toNat * Uint.toNat ⟨18446744073709551615, 18446744073709551615,
        18446744073709551615, 18446744073709551615⟩ + r.value.toNat) % 2 ^ 256
        = Uint.toNat ⟨0, 0, 0, 9223372036854775808⟩ :=
  ⟨by decide, by decide, by decide, by decide, by decide, by decide,
    Div_Rem_identity ⟨⟨9, 9, 9, 9⟩⟩ ⟨⟨0, 0, 0, 9223372036854775808⟩⟩
      ⟨⟨18446744073709551615, 18446744073709551615, 18446744073709551615,
        18446744073709551615⟩⟩ (by decide) (by decide) (by decide)⟩

/-- Claim C24: for every signed `x` and every signed `y` other than 0, except the pair
`x = -2^255`, `y = -1`, `Div(x, y)` returns the integer quotient rounded toward zero: its
magnitude is `floor(|x| / |y|)`, and it is negative exactly when one operand is negative, the
other is not, and that magnitude is not zero. -/
theorem Div_truncated (z x y : Int256) (hx : x.value.WF) (hy : y.value.WF)
    (hy0 : y.toInt ≠ 0) (hp : ¬ (x.toInt = -2 ^ 255 ∧ y.toInt = -1)) :
    ∃ d, Int256.Div z x y = .ok d ∧ d.toInt = x.toInt.tdiv y.toInt ∧
      d.toInt.natAbs = x.toInt.natAbs / y.toInt.natAbs ∧
      (d.toInt < 0 ↔
        (¬ (x.toInt < 0 ↔ y.toInt < 0)) ∧ x.toInt.natAbs / y.toInt.natAbs ≠ 0) := by
  have hz := (IsZero_toInt y hy).2 hy0
  obtain ⟨d, hd, -, -, hdv⟩ := Div_signed z x y hx hy hz
  have e := hdv hp
  obtain ⟨ta, tb⟩ := tdiv_by_sign x.toInt y.toInt
  have h0 : x.toInt = 0 → x.toInt.natAbs / y.toInt.natAbs = 0 := by
    intro h; rw [h]; simp
  refine ⟨d, hd, e, ?_, ?_⟩
  · rw [e]; exact Int.natAbs_tdiv _ _
  · rw [e]
    by_cases hc : x.toInt = 0 ∨ ¬ (x.toInt < 0 ↔ y.toInt < 0)
    · rw [ta hc]
      generalize x.toInt.natAbs / y.toInt.natAbs = q0 at *
      clear ta tb hdv e hp
      omega
    · rw [tb hc]
      generalize x.toInt.natAbs / y.toInt.natAbs = q0 at *
      clear ta tb hdv e hp
      omega

set_option maxRecDepth 100000 in
/-- Witness for C24: `Div(-7, 3) = -2`. -/
theorem Div_truncated_witness :
    Int256.toInt ⟨⟨18446744073709551609, 18446744073709551615, 18446744073709551615,
      18446744073709551615⟩⟩ = -7 ∧
    Int256.toInt ⟨⟨18446744073709551614, 18446744073709551615, 18446744073709551615,
      18446744073709551615⟩⟩ = -2 ∧
    Int256.Div ⟨⟨9, 9, 9, 9⟩⟩ ⟨⟨18446744073709551609, 18446744073709551615,
      18446744073709551615, 18446744073709551615⟩⟩ ⟨⟨3, 0, 0, 0⟩⟩
      = .ok ⟨⟨18446744073709551614, 18446744073709551615, 18446744073709551615,
          18446744073709551615⟩⟩ ∧
    ∃ d, Int256.Div ⟨⟨9, 9, 9, 9⟩⟩ ⟨⟨18446744073709551609, 18446744073709551615,
        18446744073709551615, 18446744073709551615⟩⟩ ⟨⟨3, 0, 0, 0⟩⟩ = .ok d ∧
      d.toInt = (Int256.toInt ⟨⟨18446744073709551609, 18446744073709551615,
        18446744073709551615, 18446744073709551615⟩⟩).tdiv (Int256.toInt ⟨⟨3, 0, 0, 0⟩⟩) ∧
      d.toInt.natAbs = (Int256.toInt ⟨⟨18446744073709551609, 18446744073709551615,
        18446744073709551615, 18446744073709551615⟩⟩).natAbs
          / (Int256.toInt ⟨⟨3, 0, 0, 0⟩⟩).natAbs ∧
      (d.toInt < 0 ↔
        (¬ (Int256.toInt ⟨⟨18446744073709551609, 18446744073709551615, 18446744073709551615,
          18446744073709551615⟩⟩ < 0 ↔ Int256.toInt ⟨⟨3, 0, 0, 0⟩⟩ < 0)) ∧
        (Int256.toInt ⟨⟨18446744073709551609, 18446744073709551615, 18446744073709551615,
          18446744073709551615⟩⟩).natAbs / (Int256.toInt ⟨⟨3, 0, 0, 0⟩⟩).natAbs ≠ 0) :=
  ⟨by decide, by decide, by decide,
    Div_truncated ⟨⟨9, 9, 9, 9⟩⟩ ⟨⟨18446744073709551609, 18446744073709551615,
      18446744073709551615, 18446744073709551615⟩⟩ ⟨⟨3, 0, 0, 0⟩⟩
      (by decide) (by decide) (by decide) (by decide)⟩

/-- Claim C25: for every signed `x` and every signed `y` other than 0, `Rem(x, y)` returns a
value of magnitude `|x| mod |y|`, below `|y|`, that is zero or has the sign of the dividend
`x`: the truncated remainder. -/
theorem Rem_truncated (z x y : Int256) (hx : x.value.WF) (hy : y.value.WF)
    (hy0 : y.toInt ≠ 0) :
    ∃ r, Int256.Rem z x y = .ok r ∧ r.toInt = x.toInt.tmod y.toInt ∧
      r.toInt.natAbs = x.toInt.natAbs % y.toInt.natAbs ∧
      r.toInt.natAbs < y.toInt.natAbs ∧
      (r.toInt = 0 ∨ (0 < r.toInt ∧ 0 < x.toInt) ∨ (r.toInt < 0 ∧ x.toInt < 0)) := by
  have hz := (IsZero_toInt y hy).2 hy0
  obtain ⟨r, hr, -, hrv⟩ := Rem_signed z x y hx hy hz
  obtain ⟨b1, b2, b3⟩ := tmod_bound x.toInt y.toInt hy0
  obtain ⟨c1, c2⟩ := tmod_cases x.toInt y.toInt
  refine ⟨r, hr, hrv, ?_, ?_, ?_⟩
  · rw [hrv]
    by_cases h : 0 ≤ x.toInt
    · rw [c1 h]; rfl
    · rw [c2 (by omega)]
      generalize x.toInt.natAbs % y.toInt.natAbs = p
      omega
  · rw [hrv]; exact b1
  · rw [hrv]
    generalize x.toInt.tmod y.toInt = R at *
    clear c1 c2 hrv
    omega

set_option maxRecDepth 100000 in
/-- Witness for C25: `Rem(-7, 3) = -1`. -/
theorem Rem_truncated_witness :
    Int256.toInt ⟨⟨18446744073709551609, 18446744073709551615, 18446744073709551615,
      18446744073709551615⟩⟩ = -7 ∧
    Int256.toInt ⟨⟨18446744073709551615, 18446744073709551615, 18446744073709551615,
      18446744073709551615⟩⟩ = -1 ∧
    Int256.Rem ⟨⟨9, 9, 9, 9⟩⟩ ⟨⟨18446744073709551609, 18446744073709551615,
      18446744073709551615, 18446744073709551615⟩⟩ ⟨⟨3, 0, 0, 0⟩⟩
      = .ok ⟨⟨18446744073709551615, 18446744073709551615, 18446744073709551615,
          18446744073709551615⟩⟩ ∧
    ∃ r, Int256.Rem ⟨⟨9, 9, 9, 9⟩⟩ ⟨⟨18446744073709551609, 18446744073709551615,
        18446744073709551615, 18446744073709551615⟩⟩ ⟨⟨3, 0, 0, 0⟩⟩ = .ok r ∧
      r.toInt = (Int256.toInt ⟨⟨18446744073709551609, 18446744073709551615,
        18446744073709551615, 18446744073709551615⟩⟩).tmod (Int256.toInt ⟨⟨3, 0, 0, 0⟩⟩) ∧
      r.toInt.natAbs = (Int256.toInt ⟨⟨18446744073709551609, 18446744073709551615,
        18446744073709551615, 18446744073709551615⟩⟩).natAbs
          % (Int256.toInt ⟨⟨3, 0, 0, 0⟩⟩).natAbs ∧
      r.toInt.natAbs < (Int256.toInt ⟨⟨3, 0, 0, 0⟩⟩).natAbs ∧
      (r.toInt = 0 ∨
        (0 < r.toInt ∧ 0 < Int256.toInt ⟨⟨18446744073709551609, 18446744073709551615,
          18446744073709551615, 18446744073709551615⟩⟩) ∨
        (r.toInt < 0 ∧ Int256.toInt ⟨⟨18446744073709551609, 18446744073709551615,
          18446744073709551615, 18446744073709551615⟩⟩ < 0)) :=
  ⟨by decide, by decide, by decide,
    Rem_truncated ⟨⟨9, 9, 9, 9⟩⟩ ⟨⟨18446744073709551609, 18446744073709551615,
      18446744073709551615, 18446744073709551615⟩⟩ ⟨⟨3, 0, 0, 0⟩⟩
      (by decide) (by decide) (by decide)⟩

/-- Claim C26: for every signed `x` and every signed `y` other than 0, except the pair
`x = -2^255`, `y = -1`, `Quo(x, y)` returns `floor(x / y)`, the rational quotient rounded
toward negative infinity; when exactly one operand is negative and `|x| mod |y|` is not zero,
its magnitude is `floor(|x| / |y|) + 1` and it is negative. -/
theorem Quo_floored (z x y : Int256) (hx : x.value.WF) (hy : y.value.WF)
    (hy0 : y.toInt ≠ 0) (hp : ¬ (x.toInt = -2 ^ 255 ∧ y.toInt = -1)) :
    ∃ q, Int256.Quo z x y = .ok q ∧ q.toInt = ⌊(x.toInt : ℚ) / (y.toInt : ℚ)⌋ ∧
      ((¬ (x.toInt < 0 ↔ y.toInt < 0)) ∧ x.toInt.natAbs % y.toInt.natAbs ≠ 0 →
        q.toInt.natAbs = x.toInt.natAbs / y.toInt.natAbs + 1 ∧ q.toInt < 0) := by
  have hz := (IsZero_toInt y hy).2 hy0
  obtain ⟨q, hq, -, -, hqv⟩ := Quo_signed z x y hx hy hz
  have e := hqv hp
  refine ⟨q, hq, e, fun hc => ?_⟩
  rw [e, floor_uneven _ _ hy0 hc.1 hc.2]
  generalize x.toInt.natAbs / y.toInt.natAbs = q0
  omega

set_option maxRecDepth 100000 in
/-- Witness for C26: `Quo(-7, 3) = -3`. -/
theorem Quo_floored_witness :
    Int256.toInt ⟨⟨18446744073709551609, 18446744073709551615, 18446744073709551615,
      18446744073709551615⟩⟩ = -7 ∧
    Int256.toInt ⟨⟨18446744073709551613, 18446744073709551615, 18446744073709551615,
      18446744073709551615⟩⟩ = -3 ∧
    Int256.Quo ⟨⟨9, 9, 9, 9⟩⟩ ⟨⟨18446744073709551609, 18446744073709551615,
      18446744073709551615, 18446744073709551615⟩⟩ ⟨⟨3, 0, 0, 0⟩⟩
      = .ok ⟨⟨18446744073709551613, 18446744073709551615, 18446744073709551615,
          18446744073709551615⟩⟩ ∧
    ∃ q, Int256.Quo ⟨⟨9, 9, 9, 9⟩⟩ ⟨⟨18446744073709551609, 18446744073709551615,
        18446744073709551615, 18446744073709551615⟩⟩ ⟨⟨3, 0, 0, 0⟩⟩ = .ok q ∧
      q.toInt = ⌊((Int256.toInt ⟨⟨18446744073709551609, 18446744073709551615,
        18446744073709551615, 18446744073709551615⟩⟩ : Int) : ℚ)
          / ((Int256.toInt ⟨⟨3, 0, 0, 0⟩⟩ : Int) : ℚ)⌋ ∧
      ((¬ (Int256.toInt ⟨⟨18446744073709551609, 18446744073709551615, 18446744073709551615,
          18446744073709551615⟩⟩ < 0 ↔ Int256.toInt ⟨⟨3, 0, 0, 0⟩⟩ < 0)) ∧
        (Int256.toInt ⟨⟨18446744073709551609, 18446744073709551615, 18446744073709551615,
          18446744073709551615⟩⟩).natAbs % (Int256.toInt ⟨⟨3, 0, 0, 0⟩⟩).natAbs ≠ 0 →
        q.toInt.natAbs = (Int256.toInt ⟨⟨18446744073709551609, 18446744073709551615,
          18446744073709551615, 18446744073709551615⟩⟩).natAbs
            / (Int256.toInt ⟨⟨3, 0, 0, 0⟩⟩).natAbs + 1 ∧ q.toInt < 0) :=
  ⟨by decide, by decide, by decide,
    Quo_floored ⟨⟨9, 9, 9, 9⟩⟩ ⟨⟨18446744073709551609, 18446744073709551615,
      18446744073709551615, 18446744073709551615⟩⟩ ⟨⟨3, 0, 0, 0⟩⟩
      (by decide) (by decide) (by decide) (by decide)⟩

/-- Claim C27: for every signed `x` and every receiver `z`, each of `Div`, `Quo`, `Rem`, `Mod`,
`DivE` and `ModE` called with the divisor 0 panics with "division by zero", and the receiver
holds at the panic what it held before the call. -/
theorem division_by_zero_panics (z x : Int256) :
    Int256.Div z x ⟨⟨0, 0, 0, 0⟩⟩ = .panic Failure.divisionByZero z ∧
    Int256.Quo z x ⟨⟨0, 0, 0, 0⟩⟩ = .panic Failure.divisionByZero z ∧
    Int256.Rem z x ⟨⟨0, 0, 0, 0⟩⟩ = .panic Failure.divisionByZero z ∧
    Int256.Mod z x ⟨⟨0, 0, 0, 0⟩⟩ = .panic Failure.divisionByZero z ∧
    Int256.DivE z x ⟨⟨0, 0, 0, 0⟩⟩ = .panic Failure.divisionByZero z ∧
    Int256.ModE z x ⟨⟨0, 0, 0, 0⟩⟩ = .panic Failure.divisionByZero z :=
  ⟨rfl, rfl, rfl, rfl, rfl, rfl⟩

set_option maxRecDepth 100000 in
/-- Claim C28: for every signed `z`, `Abs(z)` returns the bit pattern of `z` unchanged when
`z ≥ 0` and the magnitude `(0 - bits(z)) mod 2^256 = |z|` when `z < 0`; for the most-negative
value `-2^255` it returns `2^255`, which read as a signed value is `-2^255` again. -/
theorem Abs_magnitude (z : Int256) (hz : z.value.WF) :
    z.Abs.WF ∧ (0 ≤ z.toInt → z.Abs = z.value) ∧
    (z.toInt < 0 → z.Abs.toNat = (2 ^ 256 - z.value.toNat) % 2 ^ 256) ∧
    (z.Abs.toNat : Int) = |z.toInt| ∧
    Int256.Abs ⟨⟨0, 0, 0, 9223372036854775808⟩⟩ = ⟨0, 0, 0, 9223372036854775808⟩ ∧
    Uint.toNat ⟨0, 0, 0, 9223372036854775808⟩ = 2 ^ 255 ∧
    Int256.toInt ⟨Int256.Abs ⟨⟨0, 0, 0, 9223372036854775808⟩⟩⟩ = -2 ^ 255 := by
  obtain ⟨w, a1, a2, a3, -⟩ := Abs_val z hz
  refine ⟨w, a1, a2, ?_, by decide, by decide, by decide⟩
  rw [a3]
  exact Int.natCast_natAbs _

set_option maxRecDepth 100000 in
/-- Witness for C28: `Abs(-1) = 1`, `Abs(-7) = 7` and `Abs(7) = 7`. -/
theorem Abs_magnitude_witness :
    Int256.toInt ⟨⟨18446744073709551615, 18446744073709551615, 18446744073709551615,
      18446744073709551615⟩⟩ = -1 ∧
    Int256.Abs ⟨⟨18446744073709551615, 18446744073709551615, 18446744073709551615,
      18446744073709551615⟩⟩ = ⟨1, 0, 0, 0⟩ ∧
    Int256.Abs ⟨⟨18446744073709551609, 18446744073709551615, 18446744073709551615,
      18446744073709551615⟩⟩ = ⟨7, 0, 0, 0⟩ ∧
    Int256.Abs ⟨⟨7, 0, 0, 0⟩⟩ = ⟨7, 0, 0, 0⟩ ∧
    ((Int256.Abs ⟨⟨18446744073709551615, 18446744073709551615, 18446744073709551615,
      18446744073709551615⟩⟩).toNat : Int)
      = |Int256.toInt ⟨⟨18446744073709551615, 18446744073709551615, 18446744073709551615,
          18446744073709551615⟩⟩| :=
  ⟨by decide, by decide, by decide, by decide,
    (Abs_magnitude ⟨⟨18446744073709551615, 18446744073709551615, 18446744073709551615,
      18446744073709551615⟩⟩ (by decide)).2.2.2.1⟩

/-- Claim C29: for every well-formed 256-bit `x`, `UnsafeSub(0, x)` is the well-formed value
`(Not(x) + 1) mod 2^256`, which is `(2^256 - x) mod 2^256`; negating twice returns `x`; and
the bit pattern `2^255` of the most-negative value negates to itself. -/
theorem UnsafeSub_zero_is_not_plus_one (x : Uint) (hx : x.WF) :
    (Uint.UnsafeSub ⟨0, 0, 0, 0⟩ x).WF ∧
    (Uint.UnsafeSub ⟨0, 0, 0, 0⟩ x).toNat = (x.Not.toNat + 1) % 2 ^ 256 ∧
    (Uint.UnsafeSub ⟨0, 0, 0, 0⟩ x).toNat = (2 ^ 256 - x.toNat) % 2 ^ 256 ∧
    Uint.UnsafeSub ⟨0, 0, 0, 0⟩ (Uint.UnsafeSub ⟨0, 0, 0, 0⟩ x) = x ∧
    Uint.UnsafeSub ⟨0, 0, 0, 0⟩ ⟨0, 0, 0, 9223372036854775808⟩
      = ⟨0, 0, 0, 9223372036854775808⟩ := by
  obtain ⟨w, v⟩ := UnsafeSub_zero_val x hx
  obtain ⟨w2, v2⟩ := UnsafeSub_zero_val _ w
  obtain ⟨-, nv⟩ := Not_val x hx
  have hxl := toNat_lt x hx
  refine ⟨w, ?_, v, ?_, by decide⟩
  · rw [v, nv]
    congr 1
    omega
  · apply toNat_inj _ _ w2 hx
    rw [v2, v]
    by_cases h0 : x.toNat = 0
    · rw [h0]
      rfl
    · have e1 : (2 ^ 256 - x.toNat) % 2 ^ 256 = 2 ^ 256 - x.toNat :=
        Nat.mod_eq_of_lt (by omega)
      have e2 : 2 ^ 256 - (2 ^ 256 - x.toNat) = x.toNat := by omega
      rw [e1, e2, Nat.mod_eq_of_lt hxl]

/-- Witness for C29: `Neg(1) = -1`, `Neg(-1) = 1` and `Neg(0) = 0`. -/
theorem UnsafeSub_zero_is_not_plus_one_witness :
    Uint.WF ⟨1, 0, 0, 0⟩ ∧
    Uint.UnsafeSub ⟨0, 0, 0, 0⟩ ⟨1, 0, 0, 0⟩ = ⟨18446744073709551615, 18446744073709551615,
      18446744073709551615, 18446744073709551615⟩ ∧
    Uint.UnsafeSub ⟨0, 0, 0, 0⟩ ⟨18446744073709551615, 18446744073709551615,
      18446744073709551615, 18446744073709551615⟩ = ⟨1, 0, 0, 0⟩ ∧
    Uint.UnsafeSub ⟨0, 0, 0, 0⟩ ⟨0, 0, 0, 0⟩ = ⟨0, 0, 0, 0⟩ ∧
    Uint.UnsafeSub ⟨0, 0, 0, 0⟩ (Uint.UnsafeSub ⟨0, 0, 0, 0⟩ ⟨1, 0, 0, 0⟩) = ⟨1, 0, 0, 0⟩ :=
  ⟨by decide, by decide, by decide, by decide,
    (UnsafeSub_zero_is_not_plus_one ⟨1, 0, 0, 0⟩ (by decide)).2.2.2.1⟩

/-- Claim C30, amended: for every unsigned base `x` and signed delta `y`, with `t = x + y`
over the integers, `AddDelta` has no failure: it leaves `t mod 2^256`, which is `t` when
`0 ≤ t ≤ 2^256 - 1`; `AddDeltaOverflow` leaves the same value and returns true exactly when
`t < 0` or `t > 2^256 - 1`. -/
theorem AddDelta_wraps (x : Uint) (y : Int256) (hx : x.WF) (hy : y.value.WF) :
    (AddDelta x y).WF ∧
    ((AddDelta x y).toNat : Int) = ((x.toNat : Int) + y.toInt) % 2 ^ 256 ∧
    (0 ≤ (x.toNat : Int) + y.toInt → (x.toNat : Int) + y.toInt ≤ 2 ^ 256 - 1 →
      ((AddDelta x y).toNat : Int) = (x.toNat : Int) + y.toInt) ∧
    (AddDeltaOverflow x y).1 = AddDelta x y ∧
    ((AddDeltaOverflow x y).2 = true ↔
      ((x.toNat : Int) + y.toInt < 0 ∨ (x.toNat : Int) + y.toInt > 2 ^ 256 - 1)) := by
  obtain ⟨w, v⟩ := AddDelta_val x y hx hy
  obtain ⟨o1, o2⟩ := AddDeltaOverflow_val x y hx hy
  refine ⟨w, v, fun h1 h2 => ?_, o1, o2⟩
  rw [v]
  exact Int.emod_eq_of_lt h1 (by omega)

set_option maxRecDepth 100000 in
/-- Witness for the amended C30: `AddDelta(10, -1) = 9` and `AddDelta(10, 3) = 13`, without
overflow. -/
theorem AddDelta_wraps_witness :
    Int256.toInt ⟨⟨18446744073709551615, 18446744073709551615, 18446744073709551615,
      18446744073709551615⟩⟩ = -1 ∧
    AddDelta ⟨10, 0, 0, 0⟩ ⟨⟨18446744073709551615, 18446744073709551615,
      18446744073709551615, 18446744073709551615⟩⟩ = ⟨9, 0, 0, 0⟩ ∧
    AddDeltaOverflow ⟨10, 0, 0, 0⟩ ⟨⟨18446744073709551615, 18446744073709551615,
      18446744073709551615, 18446744073709551615⟩⟩ = (⟨9, 0, 0, 0⟩, false) ∧
    AddDelta ⟨10, 0, 0, 0⟩ ⟨⟨3, 0, 0, 0⟩⟩ = ⟨13, 0, 0, 0⟩ ∧
    ((AddDelta ⟨10, 0, 0, 0⟩ ⟨⟨18446744073709551615, 18446744073709551615,
      18446744073709551615, 18446744073709551615⟩⟩).toNat : Int)
      = ((Uint.toNat ⟨10, 0, 0, 0⟩ : Int) + Int256.toInt ⟨⟨18446744073709551615,
          18446744073709551615, 18446744073709551615, 18446744073709551615⟩⟩) % 2 ^ 256 :=
  ⟨by decide, by decide, by decide, by decide,
    (AddDelta_wraps ⟨10, 0, 0, 0⟩ ⟨⟨18446744073709551615, 18446744073709551615,
      18446744073709551615, 18446744073709551615⟩⟩ (by decide) (by decide)).2.1⟩

set_option maxRecDepth 100000 in
/-- Counterexample to C30 as stated: for `x = 2^256 - 1`, `y = 1`, where `t = 2^256`, and
for `x = 0`, `y = -1`, where `t = -1`, `AddDelta` does not fail: it leaves `0` and
`2^256 - 1`.  `AddDeltaOverflow` returns true for both. -/
theorem AddDelta_out_of_range_returns :
    Uint.toNat ⟨18446744073709551615, 18446744073709551615, 18446744073709551615,
      18446744073709551615⟩ = 2 ^ 256 - 1 ∧
    AddDelta ⟨18446744073709551615, 18446744073709551615, 18446744073709551615,
      18446744073709551615⟩ ⟨⟨1, 0, 0, 0⟩⟩ = ⟨0, 0, 0, 0⟩ ∧
    AddDeltaOverflow ⟨18446744073709551615, 18446744073709551615, 18446744073709551615,
      18446744073709551615⟩ ⟨⟨1, 0, 0, 0⟩⟩ = (⟨0, 0, 0, 0⟩, true) ∧
    Int256.toInt ⟨⟨18446744073709551615, 18446744073709551615, 18446744073709551615,
      18446744073709551615⟩⟩ = -1 ∧
    AddDelta ⟨0, 0, 0, 0⟩ ⟨⟨18446744073709551615, 18446744073709551615,
      18446744073709551615, 18446744073709551615⟩⟩
      = ⟨18446744073709551615, 18446744073709551615, 18446744073709551615,
          18446744073709551615⟩ ∧
    AddDeltaOverflow ⟨0, 0, 0, 0⟩ ⟨⟨18446744073709551615, 18446744073709551615,
      18446744073709551615, 18446744073709551615⟩⟩
      = (⟨18446744073709551615, 18446744073709551615, 18446744073709551615,
          18446744073709551615⟩, true) := by
  decide

/-- Claim C31, amended: for every well-formed `z`, `Uint64` has no failure and returns the low
64 bits `z mod 2^64`, which are `z` itself when `z < 2^64`; `Int32` returns `z` when
`z ≤ 2^31 - 1` and panics when `2^31 ≤ z < 2^64`. -/
theorem Uint64_Int32_narrowing (z : Uint) (hz : z.WF) :
    z.Uint64 = z.toNat % 2 ^ 64 ∧
    (z.toNat < 2 ^ 64 → z.Uint64 = z.toNat) ∧
    (z.toNat ≤ 2 ^ 31 - 1 → z.Int32 = some z.toNat) ∧
    (2 ^ 31 ≤ z.toNat → z.toNat < 2 ^ 64 → z.Int32 = none) := by
  have e := Uint64_mod z hz
  obtain ⟨h1, h2⟩ := Int32_spec z hz
  refine ⟨e, fun h => ?_, fun h => ?_, fun h h' => ?_⟩
  · rw [e, Nat.mod_eq_of_lt h]
  · have hm : z.toNat % 2 ^ 64 = z.toNat := Nat.mod_eq_of_lt (by omega)
    cases hv : z.Int32 with
    | none => rw [h1, hm] at hv; omega
    | some v => rw [h2 v hv, hm]
  · have hm : z.toNat % 2 ^ 64 = z.toNat := Nat.mod_eq_of_lt h'
    rw [h1, hm]; exact h

/-- Witness for the amended C31: `z = 2^31 - 1` is returned by both conversions. -/
theorem Uint64_Int32_narrowing_witness :
    Uint.WF ⟨2147483647, 0, 0, 0⟩ ∧ Uint.toNat ⟨2147483647, 0, 0, 0⟩ < 2 ^ 64 ∧
    Uint.toNat ⟨2147483647, 0, 0, 0⟩ ≤ 2 ^ 31 - 1 ∧
    Uint.Uint64 ⟨2147483647, 0, 0, 0⟩ = Uint.toNat ⟨2147483647, 0, 0, 0⟩ ∧
    Uint.Int32 ⟨2147483647, 0, 0, 0⟩ = some (Uint.toNat ⟨2147483647, 0, 0, 0⟩) :=
  ⟨by decide, by decide, by decide,
    (Uint64_Int32_narrowing ⟨2147483647, 0, 0, 0⟩ (by decide)).2.1 (by decide),
    (Uint64_Int32_narrowing ⟨2147483647, 0, 0, 0⟩ (by decide)).2.2.1 (by decide)⟩

/-- Counterexample to C31 as stated: for `z = 2^64 = 18446744073709551616` the call `Uint64`
does not fail, it returns 0; `Int32` returns 0 as well. -/
theorem Uint64_returns_low_limb :
    Uint.WF ⟨0, 1, 0, 0⟩ ∧ Uint.toNat ⟨0, 1, 0, 0⟩ = 18446744073709551616 ∧
    Uint.Uint64 ⟨0, 1, 0, 0⟩ = 0 ∧ Uint.Int32 ⟨0, 1, 0, 0⟩ = some 0 :=
  ⟨by decide, by decide, by decide, by decide⟩

/-- Claim C32, at its failing inputs: `Lte(1, 2)` is false although `1 ≤ 2`, and `Lte(2, 1)` is
true although `2 > 1`: `Lte` returns `!x.Gt(z)`, which is `z ≥ x`, the result of `Gte`.  The
other comparisons give the order at these inputs. -/
theorem Lte_is_reversed :
    Uint.toNat ⟨1, 0, 0, 0⟩ = 1 ∧ Uint.toNat ⟨2, 0, 0, 0⟩ = 2 ∧
    Uint.Lte ⟨1, 0, 0, 0⟩ ⟨2, 0, 0, 0⟩ = false ∧
    Uint.Lte ⟨2, 0, 0, 0⟩ ⟨1, 0, 0, 0⟩ = true ∧
    Uint.Gte ⟨1, 0, 0, 0⟩ ⟨2, 0, 0, 0⟩ = false ∧
    Uint.Gte ⟨2, 0, 0, 0⟩ ⟨1, 0, 0, 0⟩ = true ∧
    Uint.Lt ⟨1, 0, 0, 0⟩ ⟨2, 0, 0, 0⟩ = true ∧
    Uint.Gt ⟨2, 0, 0, 0⟩ ⟨1, 0, 0, 0⟩ = true ∧
    Uint.Cmp ⟨1, 0, 0, 0⟩ ⟨2, 0, 0, 0⟩ = -1 ∧
    Uint.Cmp ⟨2, 0, 0, 0⟩ ⟨1, 0, 0, 0⟩ = 1 :=
  ⟨by decide, by decide, by decide, by decide, by decide, by decide, by decide, by decide,
    by decide, by decide⟩

set_option maxRecDepth 100000 in
/-- Claim C33, at its failing inputs, with a new receiver at address 0, `x` at address 1 and
`y` at address 2.  For `x = 1`, `y = 3`: `DivE` with the new receiver gives 0, and
`y.DivE(x, y)` panics with "division by zero", the quotient 0 being written to `y` before
`Rem(x, y)` reads it.  For `x = -6`, `y = 3`: `DivE` with the new receiver gives `-2`, and
`x.DivE(x, y)` leaves `-3`, `Rem(x, y)` reading the quotient `-2` from `x`.  For `x = -7`,
`y = 3`: `ModE` with the new receiver gives 2, and `y.ModE(x, y)` leaves 0; for
`x = -3 * 2^192`, `y = 2^193`: `ModE` with the new receiver gives `2^192`, and `y.ModE(x, y)`
leaves 0, the remainder being in `y` when `y.Sign()` and `z.Sub(z, y)` read it. -/
theorem DivE_ModE_receiver_is_operand :
    Mem.receiver (DivEAt (mem3 ⟨⟨9, 9, 9, 9⟩⟩ ⟨⟨1, 0, 0, 0⟩⟩ ⟨⟨3, 0, 0, 0⟩⟩) 0 1 2) 0
      = .ok ⟨⟨0, 0, 0, 0⟩⟩ ∧
    Mem.receiver (DivEAt (mem3 ⟨⟨9, 9, 9, 9⟩⟩ ⟨⟨1, 0, 0, 0⟩⟩ ⟨⟨3, 0, 0, 0⟩⟩) 2 1 2) 2
      = .panic Failure.divisionByZero ⟨⟨0, 0, 0, 0⟩⟩ ∧
    Int256.toInt ⟨⟨18446744073709551610, 18446744073709551615, 18446744073709551615,
      18446744073709551615⟩⟩ = -6 ∧
    Int256.toInt ⟨⟨18446744073709551614, 18446744073709551615, 18446744073709551615,
      18446744073709551615⟩⟩ = -2 ∧
    Int256.toInt ⟨⟨18446744073709551613, 18446744073709551615, 18446744073709551615,
      18446744073709551615⟩⟩ = -3 ∧
    Mem.receiver (DivEAt (mem3 ⟨⟨9, 9, 9, 9⟩⟩ ⟨⟨18446744073709551610, 18446744073709551615,
      18446744073709551615, 18446744073709551615⟩⟩ ⟨⟨3, 0, 0, 0⟩⟩) 0 1 2) 0
      = .ok ⟨⟨18446744073709551614, 18446744073709551615, 18446744073709551615,
          18446744073709551615⟩⟩ ∧
    Mem.receiver (DivEAt (mem3 ⟨⟨9, 9, 9, 9⟩⟩ ⟨⟨18446744073709551610, 18446744073709551615,
      18446744073709551615, 18446744073709551615⟩⟩ ⟨⟨3, 0, 0, 0⟩⟩) 1 1 2) 1
      = .ok ⟨⟨18446744073709551613, 18446744073709551615, 18446744073709551615,
          18446744073709551615⟩⟩ ∧
    Int256.toInt ⟨⟨18446744073709551609, 18446744073709551615, 18446744073709551615,
      18446744073709551615⟩⟩ = -7 ∧
    Mem.receiver (ModEAt (mem3 ⟨⟨9, 9, 9, 9⟩⟩ ⟨⟨18446744073709551609, 18446744073709551615,
      18446744073709551615, 18446744073709551615⟩⟩ ⟨⟨3, 0, 0, 0⟩⟩) 0 1 2) 0
      = .ok ⟨⟨2, 0, 0, 0⟩⟩ ∧
    Mem.receiver (ModEAt (mem3 ⟨⟨9, 9, 9, 9⟩⟩ ⟨⟨18446744073709551609, 18446744073709551615,
      18446744073709551615, 18446744073709551615⟩⟩ ⟨⟨3, 0, 0, 0⟩⟩) 2 1 2) 2
      = .ok ⟨⟨0, 0, 0, 0⟩⟩ ∧
    Int256.toInt ⟨⟨0, 0, 0, 18446744073709551613⟩⟩ = -3 * 2 ^ 192 ∧
    Int256.toInt ⟨⟨0, 0, 0, 2⟩⟩ = 2 ^ 193 ∧
    Mem.receiver (ModEAt (mem3 ⟨⟨9, 9, 9, 9⟩⟩ ⟨⟨0, 0, 0, 18446744073709551613⟩⟩
      ⟨⟨0, 0, 0, 2⟩⟩) 0 1 2) 0 = .ok ⟨⟨0, 0, 0, 1⟩⟩ ∧
    Mem.receiver (ModEAt (mem3 ⟨⟨9, 9, 9, 9⟩⟩ ⟨⟨0, 0, 0, 18446744073709551613⟩⟩
      ⟨⟨0, 0, 0, 2⟩⟩) 2 1 2) 2 = .ok ⟨⟨0, 0, 0, 0⟩⟩ := by
  decide

set_option maxRecDepth 4000 in
/-- Claim C34, amended: `Quo` implements floored division, not truncated division.  For every
signed `x` and every signed `y` other than 0, `Quo(x, y)` and `Div(x, y)` return values `q`
and `d`; when exactly one operand is negative and `|x| mod |y|` is not zero, `q` is the floor
of the rational quotient, `d` is the quotient rounded toward zero, and `q = d - 1`; in every
other case `q = d`.  Except for `-2^255 / -1`, `q` is the floor of the rational quotient. -/
theorem Quo_against_Div (z x y : Int256) (hx : x.value.WF) (hy : y.value.WF)
    (hy0 : y.toInt ≠ 0) :
    ∃ q d, Int256.Quo z x y = .ok q ∧ Int256.Div z x y = .ok d ∧
      ((¬ (x.toInt < 0 ↔ y.toInt < 0)) ∧ x.toInt.natAbs % y.toInt.natAbs ≠ 0 →
        q.toInt = ⌊(x.toInt : ℚ) / (y.toInt : ℚ)⌋ ∧ d.toInt = x.toInt.tdiv y.toInt ∧
        q.toInt = d.toInt - 1 ∧ q ≠ d) ∧
      (¬ ((¬ (x.toInt < 0 ↔ y.toInt < 0)) ∧ x.toInt.natAbs % y.toInt.natAbs ≠ 0) → q = d) ∧
      (¬ (x.toInt = -2 ^ 255 ∧ y.toInt = -1) →
        q.toInt = ⌊(x.toInt : ℚ) / (y.toInt : ℚ)⌋) := by
  have hz := (IsZero_toInt y hy).2 hy0
  obtain ⟨q, hq, hqw, hqc, hqv⟩ := Quo_signed z x y hx hy hz
  obtain ⟨d, hd, hdw, hdc, hdv⟩ := Div_signed z x y hx hy hz
  refine ⟨q, d, hq, hd, fun hc => ?_, fun hc => ?_, hqv⟩
  · have hp : ¬ (x.toInt = -2 ^ 255 ∧ y.toInt = -1) := by
      intro h
      apply hc.1
      rw [h.1, h.2]
      decide
    have e1 := hqv hp
    have e2 := hdv hp
    have f := floor_uneven _ _ hy0 hc.1 hc.2
    have t := (tdiv_by_sign x.toInt y.toInt).1 (Or.inr hc.1)
    have e3 : q.toInt = d.toInt - 1 := by
      rw [e1, e2, f, t]
      push_cast
      ring
    refine ⟨e1, e2, e3, fun h => ?_⟩
    rw [h] at e3
    omega
  · have f := floor_even _ _ hy0 hc
    rw [f, ← hdc] at hqc
    have e : q.value = d.value :=
      toNat_inj _ _ hqw hdw (by exact_mod_cast hqc)
    cases q
    cases d
    simp only at e
    rw [e]

set_option maxRecDepth 100000 in
/-- Witness for the amended C34: `Quo(-7, 3) = Div(-7, 3) - 1`, and `Quo(-6, 3) = Div(-6, 3)`,
which is `-2`. -/
theorem Quo_against_Div_witness :
    Int256.Quo ⟨⟨9, 9, 9, 9⟩⟩ ⟨⟨18446744073709551610, 18446744073709551615,
      18446744073709551615, 18446744073709551615⟩⟩ ⟨⟨3, 0, 0, 0⟩⟩
      = .ok ⟨⟨18446744073709551614, 18446744073709551615, 18446744073709551615,
          18446744073709551615⟩⟩ ∧
    Int256.Div ⟨⟨9, 9, 9, 9⟩⟩ ⟨⟨18446744073709551610, 18446744073709551615,
      18446744073709551615, 18446744073709551615⟩⟩ ⟨⟨3, 0, 0, 0⟩⟩
      = .ok ⟨⟨18446744073709551614, 18446744073709551615, 18446744073709551615,
          18446744073709551615⟩⟩ ∧
    ∃ q d, Int256.Quo ⟨⟨9, 9, 9, 9⟩⟩ ⟨⟨18446744073709551609, 18446744073709551615,
        18446744073709551615, 18446744073709551615⟩⟩ ⟨⟨3, 0, 0, 0⟩⟩ = .ok q ∧
      Int256.Div ⟨⟨9, 9, 9, 9⟩⟩ ⟨⟨18446744073709551609, 18446744073709551615,
        18446744073709551615, 18446744073709551615⟩⟩ ⟨⟨3, 0, 0, 0⟩⟩ = .ok d ∧
      q.toInt = d.toInt - 1 ∧ q ≠ d :=
  ⟨by decide, by decide,
    (Quo_against_Div ⟨⟨9, 9, 9, 9⟩⟩ ⟨⟨18446744073709551609, 18446744073709551615,
      18446744073709551615, 18446744073709551615⟩⟩ ⟨⟨3, 0, 0, 0⟩⟩
      (by decide) (by decide) (by decide)).elim
      (fun q h => h.elim (fun d h2 =>
        ⟨q, d, h2.1, h2.2.1, (h2.2.2.1 (by decide)).2.2.1, (h2.2.2.1 (by decide)).2.2.2⟩))⟩

set_option maxRecDepth 100000 in
/-- Counterexample to C34 as stated: `Quo(-7, 3) = -3`, while `Div(-7, 3) = -2`, the quotient
`-7 / 3` rounded toward zero. -/
theorem Quo_differs_from_Div :
    Int256.toInt ⟨⟨18446744073709551609, 18446744073709551615, 18446744073709551615,
      18446744073709551615⟩⟩ = -7 ∧
    Int256.toInt ⟨⟨18446744073709551613, 18446744073709551615, 18446744073709551615,
      18446744073709551615⟩⟩ = -3 ∧
    Int256.toInt ⟨⟨18446744073709551614, 18446744073709551615, 18446744073709551615,
      18446744073709551615⟩⟩ = -2 ∧
    Int.tdiv (-7) 3 = -2 ∧
    Int256.Quo ⟨⟨9, 9, 9, 9⟩⟩ ⟨⟨18446744073709551609, 18446744073709551615,
      18446744073709551615, 18446744073709551615⟩⟩ ⟨⟨3, 0, 0, 0⟩⟩
      = .ok ⟨⟨18446744073709551613, 18446744073709551615, 18446744073709551615,
          18446744073709551615⟩⟩ ∧
    Int256.Div ⟨⟨9, 9, 9, 9⟩⟩ ⟨⟨18446744073709551609, 18446744073709551615,
      18446744073709551615, 18446744073709551615⟩⟩ ⟨⟨3, 0, 0, 0⟩⟩
      = .ok ⟨⟨18446744073709551614, 18446744073709551615, 18446744073709551615,
          18446744073709551615⟩⟩ ∧
    Int256.Quo ⟨⟨9, 9, 9, 9⟩⟩ ⟨⟨18446744073709551609, 18446744073709551615,
      18446744073709551615, 18446744073709551615⟩⟩ ⟨⟨3, 0, 0, 0⟩⟩
      ≠ Int256.Div ⟨⟨9, 9, 9, 9⟩⟩ ⟨⟨18446744073709551609, 18446744073709551615,
      18446744073709551615, 18446744073709551615⟩⟩ ⟨⟨3, 0, 0, 0⟩⟩ := by
  decide

set_option maxRecDepth 100000 in
/-- Claim C35, at its failing inputs: for `x = 7` and the negative divisors `y = -3` and
`y = -2^255`, `Mod(x, y)` and `ModE(x, y)` return 1 and 7, nonzero results of the sign
opposite to the divisor's; and for the documented example `x = -7`, `y = -3` the call
`ModE(x, y)` returns 2, not -1. -/
theorem Mod_sign_is_not_of_divisor :
    Int256.toInt ⟨⟨18446744073709551613, 18446744073709551615, 18446744073709551615,
      18446744073709551615⟩⟩ = -3 ∧
    Int256.Sign ⟨⟨18446744073709551613, 18446744073709551615, 18446744073709551615,
      18446744073709551615⟩⟩ = -1 ∧
    Int256.Mod ⟨⟨9, 9, 9, 9⟩⟩ ⟨⟨7, 0, 0, 0⟩⟩ ⟨⟨18446744073709551613, 18446744073709551615,
      18446744073709551615, 18446744073709551615⟩⟩ = .ok ⟨⟨1, 0, 0, 0⟩⟩ ∧
    Int256.ModE ⟨⟨9, 9, 9, 9⟩⟩ ⟨⟨7, 0, 0, 0⟩⟩ ⟨⟨18446744073709551613, 18446744073709551615,
      18446744073709551615, 18446744073709551615⟩⟩ = .ok ⟨⟨1, 0, 0, 0⟩⟩ ∧
    Int256.Sign ⟨⟨1, 0, 0, 0⟩⟩ = 1 ∧
    Int256.toInt ⟨⟨0, 0, 0, 9223372036854775808⟩⟩ = -2 ^ 255 ∧
    Int256.Sign ⟨⟨0, 0, 0, 9223372036854775808⟩⟩ = -1 ∧
    Int256.Mod ⟨⟨9, 9, 9, 9⟩⟩ ⟨⟨7, 0, 0, 0⟩⟩ ⟨⟨0, 0, 0, 9223372036854775808⟩⟩
      = .ok ⟨⟨7, 0, 0, 0⟩⟩ ∧
    Int256.ModE ⟨⟨9, 9, 9, 9⟩⟩ ⟨⟨7, 0, 0, 0⟩⟩ ⟨⟨0, 0, 0, 9223372036854775808⟩⟩
      = .ok ⟨⟨7, 0, 0, 0⟩⟩ ∧
    Int256.Sign ⟨⟨7, 0, 0, 0⟩⟩ = 1 ∧
    Int256.toInt ⟨⟨18446744073709551609, 18446744073709551615, 18446744073709551615,
      18446744073709551615⟩⟩ = -7 ∧
    Int256.ModE ⟨⟨9, 9, 9, 9⟩⟩ ⟨⟨18446744073709551609, 18446744073709551615,
      18446744073709551615, 18446744073709551615⟩⟩ ⟨⟨18446744073709551613,
      18446744073709551615, 18446744073709551615, 18446744073709551615⟩⟩
      = .ok ⟨⟨2, 0, 0, 0⟩⟩ ∧
    Int256.Sign ⟨⟨2, 0, 0, 0⟩⟩ = 1 := by
  decide

/-- Claim C36: for every normalized 64-bit `d` (`2^63 ≤ d < 2^64`), every `uh < d` and every
64-bit `ul`, `reciprocal2by1 d` returns a reciprocal `v`, and `udivrem2by1 uh ul d v` returns
`(q, r)` with `uh * 2^64 + ul = q * d + r`, `r < d` and `q < 2^64`: the quotient and the
remainder of the schoolbook division. -/
theorem udivrem2by1_schoolbook (uh ul d : Nat) (hd1 : 2 ^ 63 ≤ d) (hd2 : d < 2 ^ 64)
    (huh : uh < d) (hul : ul < 2 ^ 64) :
    ∃ v q r, reciprocal2by1 d = some v ∧ udivrem2by1 uh ul d v = (q, r) ∧
      uh * 2 ^ 64 + ul = q * d + r ∧ r < d ∧ q < 2 ^ 64 ∧
      q = (uh * 2 ^ 64 + ul) / d ∧ r = (uh * 2 ^ 64 + ul) % d := by
  obtain ⟨v, hv, -, -, -, -⟩ := reciprocal2by1_spec d hd1 hd2
  have hd0 : 0 < d := by omega
  refine ⟨v, (uh * 2 ^ 64 + ul) / d, (uh * 2 ^ 64 + ul) % d, hv,
    udivrem2by1_spec uh ul d v hd1 hd2 hv huh hul, ?_, Nat.mod_lt _ hd0, ?_, rfl, rfl⟩
  · exact (Nat.div_add_mod' _ _).symm
  · rw [Nat.div_lt_iff_lt_mul hd0]
    calc uh * 2 ^ 64 + ul < uh * 2 ^ 64 + 2 ^ 64 := by omega
      _ = (uh + 1) * 2 ^ 64 := by ring
      _ ≤ d * 2 ^ 64 := Nat.mul_le_mul_right _ huh
      _ = 2 ^ 64 * d := Nat.mul_comm _ _

/-- Witness for C36: `<5, 7> / 2^63` is 10 with remainder 7. -/
theorem udivrem2by1_schoolbook_witness :
    2 ^ 63 ≤ 9223372036854775808 ∧ 9223372036854775808 < 2 ^ 64 ∧
    5 < 9223372036854775808 ∧ 7 < 2 ^ 64 ∧
    udivrem2by1 5 7 9223372036854775808 18446744073709551615 = (10, 7) ∧
    ∃ v q r, reciprocal2by1 9223372036854775808 = some v ∧
      udivrem2by1 5 7 9223372036854775808 v = (q, r) ∧
      5 * 2 ^ 64 + 7 = q * 9223372036854775808 + r ∧ r < 9223372036854775808 ∧
      q < 2 ^ 64 ∧ q = (5 * 2 ^ 64 + 7) / 9223372036854775808 ∧
      r = (5 * 2 ^ 64 + 7) % 9223372036854775808 :=
  ⟨by decide, by decide, by decide, by decide, by decide,
    udivrem2by1_schoolbook 5 7 9223372036854775808 (by decide) (by decide) (by decide)
      (by decide)⟩

/-- Claim C37, amended: for every normalized 64-bit `d` (`2^63 ≤ d < 2^64`),
`reciprocal2by1 d` returns `floor((2^128 - 1) / d) - 2^64`, the quotient of `<^d, ^0>` by
`d`; it is below `2^64`, while `floor((2^128 - 1) / d)` is not. -/
theorem reciprocal2by1_value (d : Nat) (hd1 : 2 ^ 63 ≤ d) (hd2 : d < 2 ^ 64) :
    ∃ v, reciprocal2by1 d = some v ∧ v < 2 ^ 64 ∧ v = (2 ^ 128 - 1) / d - 2 ^ 64 ∧
      v = ((2 ^ 64 - 1 - d) * 2 ^ 64 + (2 ^ 64 - 1)) / d ∧ 2 ^ 64 ≤ (2 ^ 128 - 1) / d := by
  obtain ⟨v, hv, hlt, he, -, -⟩ := reciprocal2by1_spec d hd1 hd2
  refine ⟨v, hv, hlt, by omega, ?_, by omega⟩
  have hn : not64 d = 2 ^ 64 - 1 - d := by
    simp only [not64]
  have hr : reciprocal2by1 d = some (((2 ^ 64 - 1 - d) * 2 ^ 64 + (2 ^ 64 - 1)) / d) := by
    have h0 : not64 0 = 2 ^ 64 - 1 := by decide
    simp only [reciprocal2by1, Div64, hn, h0]
    rw [if_neg (by omega), if_neg (by omega)]
  rw [hr] at hv
  exact (Option.some.inj hv).symm

/-- Witness for the amended C37: at `d = 2^63` the reciprocal is `2^64 - 1`. -/
theorem reciprocal2by1_value_witness :
    2 ^ 63 ≤ 9223372036854775808 ∧ 9223372036854775808 < 2 ^ 64 ∧
    ∃ v, reciprocal2by1 9223372036854775808 = some v ∧ v < 2 ^ 64 ∧
      v = (2 ^ 128 - 1) / 9223372036854775808 - 2 ^ 64 ∧
      v = ((2 ^ 64 - 1 - 9223372036854775808) * 2 ^ 64 + (2 ^ 64 - 1)) / 9223372036854775808 ∧
      2 ^ 64 ≤ (2 ^ 128 - 1) / 9223372036854775808 :=
  ⟨by decide, by decide,
    reciprocal2by1_value 9223372036854775808 (by decide) (by decide)⟩

/-- Counterexample to C37 as stated: at `d = 2^63` the reciprocal is `2^64 - 1`, and
`floor((2^128 - 1) / d)` is `2^65 - 1`. -/
theorem reciprocal2by1_is_not_the_quotient :
    (2 : Nat) ^ 63 ≤ 9223372036854775808 ∧
    reciprocal2by1 9223372036854775808 = some 18446744073709551615 ∧
    (2 ^ 128 - 1) / 9223372036854775808 = 36893488147419103231 ∧
    reciprocal2by1 9223372036854775808 ≠ some ((2 ^ 128 - 1) / 9223372036854775808) :=
  ⟨by decide, by decide, by decide, by decide⟩

end U256
